import Mathlib

/-!
# Local triangulations of a point cloud (MRMesh/MRLocalTriangulations.cpp)

A shallow embedding of `uniteLocalTriangulations`, `orientLocalTriangulations`,
`makeTriangleHashMap`, `computeTrianglesRepetitions`, `findRepeatedTriangles` and
`autoOrientLocalTriangulations`, followed by theorems about them.

Conventions of the embedding
* a vertex id `VertId` is the C++ `Id<VertTag>` (an `int`, `-1` when default constructed, valid iff `>= 0`),
  here an unbounded `Int`.
* `FanRecord.firstNei` and the running sum `numNei` are `std::uint32_t`: every arithmetic
  operation on them is taken modulo `2^32`.
* The two counters of `Repetitions` are 4-bit bit-fields: `++` is taken modulo `16`.
* Vectors (`std::vector`, `Vector`, `Buffer`) are lists. A read outside the vector yields a
  default value and a write outside the vector is dropped (both are undefined in C++).
* Coordinates and weights live in an ordered field (exact arithmetic). Where the rounding or the
  overflow of the type `float` decides a property, the functions are taken at the type `F32` of
  the binary32 values, with `InvalidWeight = -FLT_MAX` a value of that type.
* `ParallelFor` bodies are executed for `0, 1, 2, ...` in this order.
-/

namespace MR

/-! ## Data model -/

/-! A vertex id (`VertId`) is an `Int`: `-1` is the default constructed (invalid) id and an id
is valid iff it is `>= 0`. -/

/-- Number of values of `std::uint32_t`. -/
def u32Size : Nat := 4294967296

/-- Subtraction of two `std::uint32_t` values. -/
def sub32 (a b : Nat) : Nat := (a % u32Size + (u32Size - b % u32Size)) % u32Size

/-- Addition of two `std::uint32_t` values. -/
def add32 (a b : Nat) : Nat := (a + b) % u32Size

/-- Struct `FanRecord`: the border neighbour (invalid for a closed fan) and the position of the
first neighbour in the neighbour array. Default constructed: invalid border, position 0. -/
structure FanRecord where
  border : Int
  firstNei : Nat
deriving DecidableEq, Repr

instance : Inhabited FanRecord := ⟨⟨-1, 0⟩⟩

/-- Struct `FanRecordWithCenter`: a fan record together with the centre vertex of the fan. -/
structure FanRecordWithCenter where
  border : Int
  firstNei : Nat
  center : Int
deriving DecidableEq, Repr

instance : Inhabited FanRecordWithCenter := ⟨⟨-1, 0, -1⟩⟩

/-- Struct `SomeLocalTriangulations`: fans of some vertices; the last record is a sentinel that
only carries the end offset of the last fan. -/
structure SomeLocalTriangulations where
  neighbors : List Int
  fanRecords : List FanRecordWithCenter
  maxCenterId : Int
deriving DecidableEq, Repr

/-- Struct `AllLocalTriangulations`: record `v` describes the fan of vertex `v`, the last record
is the sentinel. -/
structure AllLocalTriangulations where
  neighbors : List Int
  fanRecords : List FanRecord
deriving DecidableEq, Repr

/-- Read `xs[v]` for a vertex id `v`. -/
def getAt {β : Type} (xs : List β) (v : Int) (d : β) : β :=
  if 0 ≤ v then xs.getD v.toNat d else d

/-- Write `xs[v] = x` for a vertex id `v`. -/
def setAt {β : Type} (xs : List β) (v : Int) (x : β) : List β :=
  if 0 ≤ v then xs.set v.toNat x else xs

/-! ## Progress reporting -/

/-- Modelled from the spec: `ProgressCallback` (MRProgressCallback.h is not part of the sources) is
"a callable invoked with a fraction in [0,1], returning whether to continue"; `none` is the empty
`std::function`. The callable may have state: its answer is a function of the number of earlier
invocations and of the reported fraction. -/
abbrev ProgressCallback := Option (Nat → ℚ → Bool)

/-- The answers the callback has given so far, oldest first. -/
abbrev ProgressLog := List Bool

/-- Modelled from the spec: `reportProgress( cb, v )` invokes the callback if there is one and
returns its answer; without a callback it returns true. -/
def reportProgress (cb : ProgressCallback) (log : ProgressLog) (v : ℚ) : Bool × ProgressLog :=
  match cb with
  | none => (true, log)
  | some f => (f log.length v, log ++ [f log.length v])

/-- Modelled from the spec: `reportProgress( cb, f, counter, divider )` invokes the callback only
when `counter` is a multiple of `divider`. -/
def reportProgressEvery (cb : ProgressCallback) (log : ProgressLog) (v : ℚ) (counter divider : Nat) :
    Bool × ProgressLog :=
  if counter % divider = 0 then reportProgress cb log v else (true, log)

/-- Modelled from the spec: `subprogress( cb, from, to )` maps the fraction `v` of a pass to
`(1 - v) * from + v * to` of the whole; an empty callback stays empty. -/
def subprogress (cb : ProgressCallback) (from_ to_ : ℚ) : ProgressCallback :=
  cb.map (fun f k v => f k ((1 - v) * from_ + v * to_))

/-- Modelled from the spec: the progress side of `ParallelFor( begin, end, body, cb )`. While the
bodies run, the calling thread reports the fractions of `sched` (which fractions, and how many,
depends on the scheduling of the threads); the pass answers false as soon as the callback does,
and true without a callback. -/
def parallelForProgress (cb : ProgressCallback) : List ℚ → ProgressLog → Bool × ProgressLog
  | [], log => (true, log)
  | v :: sched, log =>
      match cb with
      | none => (true, log)
      | some _ =>
          if (reportProgress cb log v).1 then parallelForProgress cb sched (reportProgress cb log v).2
          else (false, (reportProgress cb log v).2)

/-! ## uniteLocalTriangulations -/

/-- A `const VertId *`: an array and a position in it. -/
structure SrcPtr where
  arr : List Int
  pos : Nat
deriving DecidableEq, Repr

instance : Inhabited SrcPtr := ⟨⟨[], 0⟩⟩

/-- The value of `std::max_element( in.begin(), in.end(), less-by-maxCenterId )->maxCenterId`,
where `a` is the largest element so far. -/
def maxElementCenterId : SomeLocalTriangulations → List SomeLocalTriangulations → Int
  | a, [] => a.maxCenterId
  | a, b :: rest =>
      if a.maxCenterId < b.maxCenterId then maxElementCenterId b rest else maxElementCenterId a rest

/-- The arrays `res.fanRecords` and `firstNeiSrc` during the first pass. -/
structure FillState where
  fanRecords : List FanRecord
  firstNeiSrc : List SrcPtr
deriving DecidableEq, Repr

/-- The inner loop of the first pass, `for ( int i = 0; i + 1 < lt.fanRecords.size(); ++i )`:
every record but the last writes border, number of neighbours and source position of its centre. -/
def fillRecords (nbrs : List Int) : List FanRecordWithCenter → FillState → FillState
  | r :: r1 :: rest, st =>
      fillRecords nbrs (r1 :: rest)
        { fanRecords := setAt st.fanRecords r.center ⟨r.border, sub32 r1.firstNei r.firstNei⟩
          firstNeiSrc := setAt st.firstNeiSrc r.center ⟨nbrs, r.firstNei⟩ }
  | _, st => st

/-- The first pass, `for ( const auto& lt : in )`. -/
def fillAll : List SomeLocalTriangulations → FillState → FillState
  | [], st => st
  | lt :: rest, st => fillAll rest (fillRecords lt.neighbors lt.fanRecords st)

/-- The second pass: every `firstNei` (holding a number of neighbours) is replaced by the running
sum `numNei` of the numbers before it; returns the records and the final `numNei`. -/
def rewriteFirstNei : List FanRecord → Nat → List FanRecord × Nat
  | [], numNei => ([], numNei)
  | fan :: rest, numNei =>
      (⟨fan.border, numNei⟩ :: (rewriteFirstNei rest (add32 numNei fan.firstNei)).1,
        (rewriteFirstNei rest (add32 numNei fan.firstNei)).2)

/-- The loop `for ( ; i < iEnd; ++i ) res.neighbors[i] = *src++;` with `n = iEnd - i` iterations
left. -/
def copyFan : Nat → Nat → SrcPtr → List Int → List Int
  | 0, _, _, dst => dst
  | n + 1, i, src, dst =>
      copyFan n (i + 1) ⟨src.arr, src.pos + 1⟩ (dst.set i (src.arr.getD src.pos (-1)))

/-- The body of the third pass for vertex `v`. -/
def copyVertex (recs : List FanRecord) (srcs : List SrcPtr) (dst : List Int) (v : Nat) :
    List Int :=
  copyFan ((recs.getD (v + 1) default).firstNei - (recs.getD v default).firstNei)
    (recs.getD v default).firstNei (srcs.getD v default) dst

/-- The third pass, `ParallelFor( 0_v, res.fanRecords.backId(), ... )`: the neighbours of every
vertex but the sentinel are copied. -/
def copyNeighbors (recs : List FanRecord) (srcs : List SrcPtr) (dst : List Int) : List Int :=
  (List.range (recs.length - 1)).foldl (copyVertex recs srcs) dst

/-- The store that `uniteLocalTriangulations` builds for a non-empty input when it is not
cancelled; `a` is the first collection. -/
def uniteResult (a : SomeLocalTriangulations) (rest : List SomeLocalTriangulations) :
    AllLocalTriangulations :=
  let maxVertId := maxElementCenterId a rest
  let st0 : FillState :=
    { fanRecords := List.replicate (maxVertId + 2).toNat default
      firstNeiSrc := List.replicate (maxVertId + 2).toNat default }
  let st := fillAll (a :: rest) st0
  let rw := rewriteFirstNei st.fanRecords 0
  { neighbors := copyNeighbors rw.1 st.firstNeiSrc (List.replicate rw.2 (-1))
    fanRecords := rw.1 }

/-- The function `uniteLocalTriangulations( in, progress )`, together with the answers the
progress callback gave during the call. `sched` stands for the fractions reported by the
`ParallelFor` of the third pass. -/
def uniteLocalTriangulations (inp : List SomeLocalTriangulations) (progress : ProgressCallback)
    (sched : List ℚ) : Option AllLocalTriangulations × ProgressLog :=
  match inp with
  | [] => (none, [])
  | a :: rest =>
      let p0 := reportProgress progress [] 0
      if !p0.1 then (none, p0.2) else
      let p1 := reportProgress progress p0.2 (1 / 4)
      if !p1.1 then (none, p1.2) else
      let p2 := reportProgress progress p1.2 (1 / 2)
      if !p2.1 then (none, p2.2) else
      let p3 := parallelForProgress (subprogress progress (1 / 2) 1) sched p2.2
      if !p3.1 then (none, p3.2) else
      (some (uniteResult a rest), p3.2)

/-- One step of the first pass: what a non-sentinel record writes for its centre. -/
structure FanEntry where
  center : Int
  fan : FanRecord
  src : SrcPtr
deriving DecidableEq, Repr

/-- The writes of the inner loop of the first pass for one collection. -/
def fanEntries (nbrs : List Int) : List FanRecordWithCenter → List FanEntry
  | r :: r1 :: rest =>
      ⟨r.center, ⟨r.border, sub32 r1.firstNei r.firstNei⟩, ⟨nbrs, r.firstNei⟩⟩ ::
        fanEntries nbrs (r1 :: rest)
  | _ => []

/-- The writes of the whole first pass, in the order of execution. -/
def allEntries (inp : List SomeLocalTriangulations) : List FanEntry :=
  inp.flatMap (fun lt => fanEntries lt.neighbors lt.fanRecords)

/-- Performing one write of the first pass. -/
def applyEntry (st : FillState) (e : FanEntry) : FillState :=
  { fanRecords := setAt st.fanRecords e.center e.fan
    firstNeiSrc := setAt st.firstNeiSrc e.center e.src }

/-- A sequence of array writes `arr[k] = x`. -/
def applyWrites {β : Type} (arr : List β) (ws : List (Nat × β)) : List β :=
  ws.foldl (fun a w => a.set w.1 w.2) arr

/-- The values that `n` reads `*src++` yield. -/
def readSlice (src : SrcPtr) (n : Nat) : List Int :=
  (List.range n).map (fun j => src.arr.getD (src.pos + j) (-1))

/-- The neighbours of vertex `v` in a store: the positions `[firstNei(v), firstNei(v+1))`. -/
def AllLocalTriangulations.fan (t : AllLocalTriangulations) (v : Nat) : List Int :=
  (t.neighbors.drop (t.fanRecords.getD v default).firstNei).take
    ((t.fanRecords.getD (v + 1) default).firstNei - (t.fanRecords.getD v default).firstNei)

/-- Centres of the fans of a collection: the centres of all records but the last (sentinel). -/
def SomeLocalTriangulations.centers (lt : SomeLocalTriangulations) : List Int :=
  lt.fanRecords.dropLast.map (·.center)

/-- Centres of all fans of all collections. -/
def allCenters (inp : List SomeLocalTriangulations) : List Int :=
  inp.flatMap (·.centers)

/-- Numbers of neighbours of the fans of a collection: end offset minus begin offset. -/
def fanSizes : List FanRecordWithCenter → List Nat
  | r :: r1 :: rest => (r1.firstNei - r.firstNei) :: fanSizes (r1 :: rest)
  | _ => []

/-- The sum of all source fan sizes. -/
def totalFanSize (inp : List SomeLocalTriangulations) : Nat :=
  (inp.map (fun lt => (fanSizes lt.fanRecords).sum)).sum

/-- The values of the collection fit their C++ types: every offset is a `std::uint32_t`, and
`maxCenterId` is a valid id or the invalid id `-1`. -/
def SomeLocalTriangulations.WellTyped (lt : SomeLocalTriangulations) : Prop :=
  (∀ r ∈ lt.fanRecords, r.firstNei < u32Size) ∧ -1 ≤ lt.maxCenterId

instance (lt : SomeLocalTriangulations) : Decidable lt.WellTyped :=
  inferInstanceAs (Decidable ((∀ r ∈ lt.fanRecords, r.firstNei < u32Size) ∧ -1 ≤ lt.maxCenterId))

/-- The offsets of the collection are non-decreasing. -/
def SomeLocalTriangulations.OffsetsMonotone (lt : SomeLocalTriangulations) : Prop :=
  ∀ i < lt.fanRecords.length - 1,
    (lt.fanRecords.getD i default).firstNei ≤ (lt.fanRecords.getD (i + 1) default).firstNei

instance (lt : SomeLocalTriangulations) : Decidable lt.OffsetsMonotone :=
  inferInstanceAs (Decidable (∀ i < lt.fanRecords.length - 1,
    (lt.fanRecords.getD i default).firstNei ≤ (lt.fanRecords.getD (i + 1) default).firstNei))

/-- Every centre of the collection is a valid id and at most `maxCenterId`. -/
def SomeLocalTriangulations.CentersBounded (lt : SomeLocalTriangulations) : Prop :=
  ∀ c ∈ lt.centers, 0 ≤ c ∧ c ≤ lt.maxCenterId

instance (lt : SomeLocalTriangulations) : Decidable lt.CentersBounded :=
  inferInstanceAs (Decidable (∀ c ∈ lt.centers, 0 ≤ c ∧ c ≤ lt.maxCenterId))

/-- The store built from the writes `es` of the first pass in arrays of `n` records. -/
def buildStore (es : List FanEntry) (n : Nat) : AllLocalTriangulations :=
  let st := es.foldl applyEntry
    { fanRecords := List.replicate n default, firstNeiSrc := List.replicate n default }
  let rw := rewriteFirstNei st.fanRecords 0
  { neighbors := copyNeighbors rw.1 st.firstNeiSrc (List.replicate rw.2 (-1))
    fanRecords := rw.1 }

/-- Every logged answer is an answer of the callable `f` at that invocation. -/
def LogOf (f : Nat → ℚ → Bool) (log : ProgressLog) : Prop :=
  ∀ k, k < log.length → ∃ v, log.getD k true = f k v

/-- Two collections with the fans of the vertices 0, 2 and of the vertex 1. -/
def exampleCollections : List SomeLocalTriangulations :=
  [ { neighbors := [1, 2, 3, 0, 1]
      fanRecords := [⟨-1, 0, 0⟩, ⟨0, 3, 2⟩, ⟨-1, 5, -1⟩]
      maxCenterId := 2 },
    { neighbors := [0, 2]
      fanRecords := [⟨-1, 0, 1⟩, ⟨-1, 2, -1⟩]
      maxCenterId := 1 } ]

/-- Two collections with `2^32 + 1` neighbours in all: the vertices 0 and 2 have one neighbour
each, the vertex 1 has `2^32 - 1` neighbours. -/
def overflowCollections : List SomeLocalTriangulations :=
  [ { neighbors := [7, 8]
      fanRecords := [⟨-1, 0, 0⟩, ⟨-1, 1, 2⟩, ⟨-1, 2, -1⟩]
      maxCenterId := 2 },
    { neighbors := List.replicate 4294967295 9
      fanRecords := [⟨-1, 0, 1⟩, ⟨-1, 4294967295, -1⟩]
      maxCenterId := 1 } ]

/-- One collection with the fans of the vertices 0, 1, 2 whose offsets decrease from 5 to 3. -/
def decreasingCollection : List SomeLocalTriangulations :=
  [ { neighbors := [10, 11, 12, 13, 14, 15, 16]
      fanRecords := [⟨-1, 0, 0⟩, ⟨-1, 5, 1⟩, ⟨-1, 3, 2⟩, ⟨-1, 7, -1⟩]
      maxCenterId := 2 } ]

/-- One collection with the fans of the vertices 0, 1, 2, in this order. -/
def roundTripCollection : SomeLocalTriangulations :=
  { neighbors := [1, 2, 0, 2, 0, 1]
    fanRecords := [⟨-1, 0, 0⟩, ⟨-1, 2, 1⟩, ⟨0, 4, 2⟩, ⟨-1, 6, -1⟩]
    maxCenterId := 2 }

/-- One collection with the fan of the vertex 0 only, whose `maxCenterId` is 1. -/
def slackCollection : SomeLocalTriangulations :=
  { neighbors := [1, 2]
    fanRecords := [⟨-1, 0, 0⟩, ⟨-1, 2, -1⟩]
    maxCenterId := 1 }

/-! ## Geometry -/

/-- A point or vector with three coordinates (`Vector3f`), over the scalar type `α`. -/
structure Vector3 (α : Type) where
  x : α
  y : α
  z : α
deriving DecidableEq, Repr

instance {α : Type} [Zero α] : Inhabited (Vector3 α) := ⟨⟨0, 0, 0⟩⟩

/-- The difference `a - b` of two vectors. -/
def Vector3.sub {α : Type} [Sub α] (a b : Vector3 α) : Vector3 α :=
  ⟨a.x - b.x, a.y - b.y, a.z - b.z⟩

/-- The dot product. -/
def dot {α : Type} [Add α] [Mul α] (a b : Vector3 α) : α :=
  a.x * b.x + a.y * b.y + a.z * b.z

/-- The cross product. -/
def cross {α : Type} [Sub α] [Mul α] (a b : Vector3 α) : Vector3 α :=
  ⟨a.y * b.z - a.z * b.y, a.z * b.x - a.x * b.z, a.x * b.y - a.y * b.x⟩

/-! ## Fans -/

/-- The pairs `(curr, next)` that the loop
`for ( auto n = nbeg; n < nend; ++n )` with `curr = neighbors[n]` and
`next = neighbors[n + 1 < nend ? n + 1 : nbeg]` visits, in the order of the loop. -/
def fanPairsAt (nbrs : List Int) (nbeg nend : Nat) : List (Int × Int) :=
  (List.range' nbeg (nend - nbeg)).map
    (fun n => (nbrs.getD n (-1), nbrs.getD (if n + 1 < nend then n + 1 else nbeg) (-1)))

/-- The pairs of a neighbour and its cyclic successor in a fan. -/
def cyclicPairs (fan : List Int) : List (Int × Int) :=
  fan.zip (fan.rotate 1)

/-- The effect of `std::reverse( neighbors.data() + nbeg, neighbors.data() + nend )`. -/
def reverseRange (nbrs : List Int) (nbeg nend : Nat) : List Int :=
  nbrs.take nbeg ++ ((nbrs.drop nbeg).take (nend - nbeg)).reverse ++ nbrs.drop nend

/-- The data model of a store: there is a sentinel record, the offsets are non-decreasing and the
last offset is at most the length of the neighbour array. -/
def AllLocalTriangulations.ValidCSR (t : AllLocalTriangulations) : Prop :=
  0 < t.fanRecords.length ∧
  (∀ i < t.fanRecords.length - 1,
    (t.fanRecords.getD i default).firstNei ≤ (t.fanRecords.getD (i + 1) default).firstNei) ∧
  (t.fanRecords.getD (t.fanRecords.length - 1) default).firstNei ≤ t.neighbors.length

instance (t : AllLocalTriangulations) : Decidable t.ValidCSR :=
  inferInstanceAs (Decidable (0 < t.fanRecords.length ∧
    (∀ i < t.fanRecords.length - 1,
      (t.fanRecords.getD i default).firstNei ≤ (t.fanRecords.getD (i + 1) default).firstNei) ∧
    (t.fanRecords.getD (t.fanRecords.length - 1) default).firstNei ≤ t.neighbors.length))

/-- The border of the fan of vertex `v`. -/
def AllLocalTriangulations.border (t : AllLocalTriangulations) (v : Nat) : Int :=
  (t.fanRecords.getD v default).border

/-- Every fan of the store lists pairwise distinct neighbours. -/
def AllLocalTriangulations.FansNodup (t : AllLocalTriangulations) : Prop :=
  ∀ v < t.fanRecords.length - 1, (t.fan v).Nodup

instance (t : AllLocalTriangulations) : Decidable t.FansNodup :=
  inferInstanceAs (Decidable (∀ v < t.fanRecords.length - 1, (t.fan v).Nodup))

/-- Every valid border occurs exactly once in its own fan. -/
def AllLocalTriangulations.BordersOnce (t : AllLocalTriangulations) : Prop :=
  ∀ v < t.fanRecords.length - 1, 0 ≤ t.border v → (t.fan v).count (t.border v) = 1

instance (t : AllLocalTriangulations) : Decidable t.BordersOnce :=
  inferInstanceAs (Decidable
    (∀ v < t.fanRecords.length - 1, 0 ≤ t.border v → (t.fan v).count (t.border v) = 1))

/-! ## orientLocalTriangulations -/

/-- The variables `sum` and `otherBd` of the loop of `orientLocalTriangulations`. The tally is
an `int` in C++ and an unbounded integer here (its magnitude is at most the size of the fan). -/
structure OrientAcc where
  sum : Int
  otherBd : Int
deriving DecidableEq, Repr

/-- One iteration of the loop over the fan of `c` in `orientLocalTriangulations`; `p` is the
pair `(curr, next)`, `dirC` is `targetDir( c )` and `cp` is `coords[c]`. -/
def orientStep {α : Type} [Zero α] [Add α] [Sub α] [Mul α] [LT α]
    [DecidableRel (fun a b : α => a < b)] (dirC cp : Vector3 α)
    (coords : List (Vector3 α)) (bd : Int) (acc : OrientAcc) (p : Int × Int) : OrientAcc :=
  if p.1 = bd then { acc with otherBd := p.2 }
  else if 0 < dot dirC (cross ((getAt coords p.2 default).sub cp) ((getAt coords p.1 default).sub cp))
    then { acc with sum := acc.sum + 1 }
  else if dot dirC (cross ((getAt coords p.2 default).sub cp) ((getAt coords p.1 default).sub cp)) < 0
    then { acc with sum := acc.sum - 1 }
  else acc

/-- The body of the `ParallelFor` of `orientLocalTriangulations` for the vertex `c`. -/
def orientVertex {α : Type} [Zero α] [Add α] [Sub α] [Mul α] [LT α]
    [DecidableRel (fun a b : α => a < b)] (coords : List (Vector3 α))
    (targetDir : Int → Vector3 α) (t : AllLocalTriangulations) (c : Nat) :
    AllLocalTriangulations :=
  if (t.fanRecords.getD (c + 1) default).firstNei ≤ (t.fanRecords.getD c default).firstNei then t
  else if 0 ≤ ((fanPairsAt t.neighbors (t.fanRecords.getD c default).firstNei
      (t.fanRecords.getD (c + 1) default).firstNei).foldl
      (orientStep (targetDir c) (getAt coords c default) coords (t.fanRecords.getD c default).border)
      ⟨0, -1⟩).sum then t
  else
    { neighbors := reverseRange t.neighbors (t.fanRecords.getD c default).firstNei
        (t.fanRecords.getD (c + 1) default).firstNei
      fanRecords := t.fanRecords.set c
        ⟨((fanPairsAt t.neighbors (t.fanRecords.getD c default).firstNei
            (t.fanRecords.getD (c + 1) default).firstNei).foldl
            (orientStep (targetDir c) (getAt coords c default) coords
              (t.fanRecords.getD c default).border) ⟨0, -1⟩).otherBd,
          (t.fanRecords.getD c default).firstNei⟩ }

/-- The function `orientLocalTriangulations( triangs, coords, targetDir )`. -/
def orientLocalTriangulations {α : Type} [Zero α] [Add α] [Sub α] [Mul α] [LT α]
    [DecidableRel (fun a b : α => a < b)] (t : AllLocalTriangulations)
    (coords : List (Vector3 α)) (targetDir : Int → Vector3 α) : AllLocalTriangulations :=
  if t.fanRecords.length ≤ 1 then t
  else (List.range (t.fanRecords.length - 1)).foldl (orientVertex coords targetDir) t

/-- The sign of a number as a vote: `+1`, `-1` or `0`. -/
def signVote {α : Type} [Zero α] [LT α] [DecidableRel (fun a b : α => a < b)] (d : α) : Int :=
  if 0 < d then 1 else if d < 0 then -1 else 0

/-- The vote of the fan triangle with neighbour `curr` and successor `next`: the sign of
`dot( dir, cross( coords[next] - cp, coords[curr] - cp ) )`. -/
def triangleVote {α : Type} [Zero α] [Add α] [Sub α] [Mul α] [LT α]
    [DecidableRel (fun a b : α => a < b)] (dirC cp : Vector3 α)
    (coords : List (Vector3 α)) (curr next : Int) : Int :=
  signVote (dot dirC (cross ((getAt coords next default).sub cp) ((getAt coords curr default).sub cp)))

/-- The net tally of a fan, in the words of the specification: the sum, over every fan position
whose neighbour is not the border, of the vote of the triangle formed with the cyclic successor. -/
def fanTally {α : Type} [Zero α] [Add α] [Sub α] [Mul α] [LT α]
    [DecidableRel (fun a b : α => a < b)] (dirC cp : Vector3 α)
    (coords : List (Vector3 α)) (bd : Int) (fan : List Int) : Int :=
  ((List.range fan.length).map (fun j =>
    if fan.getD j (-1) = bd then 0
    else triangleVote dirC cp coords (fan.getD j (-1)) (fan.getD ((j + 1) % fan.length) (-1)))).sum

/-- The neighbour that follows the border in the fan (the last such, `-1` if there is none):
the value of `otherBd` after the loop. -/
def nextAfterBorder (bd : Int) (fan : List Int) : Int :=
  (cyclicPairs fan).foldl (fun o p => if p.1 = bd then p.2 else o) (-1)

/-- The flip of a fan: the reversed slice and, as new border, the neighbour that followed the
border. -/
def flipFan (fan : List Int) (bd : Int) : List Int × Int :=
  (fan.reverse, nextAfterBorder bd fan)

/-- The flip rule of `orientLocalTriangulations` for one fan: the fan is flipped when its net
tally is negative and left as it is otherwise. -/
def orientFan {α : Type} [Zero α] [Add α] [Sub α] [Mul α] [LT α]
    [DecidableRel (fun a b : α => a < b)] (dirC cp : Vector3 α)
    (coords : List (Vector3 α)) (fan : List Int) (bd : Int) : List Int × Int :=
  if fanTally dirC cp coords bd fan < 0 then flipFan fan bd else (fan, bd)

/-- Two stores with the same offsets and the same number of neighbours. -/
def AllLocalTriangulations.SameShape (t t1 : AllLocalTriangulations) : Prop :=
  t1.fanRecords.map (·.firstNei) = t.fanRecords.map (·.firstNei) ∧
  t1.neighbors.length = t.neighbors.length

/-- A store with one closed fan: vertex 0 with the neighbours 1, 2, 3; the fans of the vertices
1, 2, 3 are empty. -/
def triangleFanStore : AllLocalTriangulations :=
  { neighbors := [1, 2, 3]
    fanRecords := [⟨-1, 0⟩, ⟨-1, 3⟩, ⟨-1, 3⟩, ⟨-1, 3⟩, ⟨-1, 3⟩] }

/-- Coordinates for `triangleFanStore`: vertex 0 in the origin, the others around it in the
plane `z = 0`. -/
def triangleFanCoords : List (Vector3 Int) :=
  [⟨0, 0, 0⟩, ⟨1, 0, 0⟩, ⟨0, 1, 0⟩, ⟨-1, -1, 0⟩]

/-- The direction `(0, 0, 1)` for every vertex. -/
def upDir : Int → Vector3 Int := fun _ => ⟨0, 0, 1⟩

/-- A store with one open fan in which a neighbour is listed three times: vertex 0 with the
neighbours 1, 2, 3, 2, 4, 2 and the border 1 (which occurs exactly once). -/
def repeatedNeighborStore : AllLocalTriangulations :=
  { neighbors := [1, 2, 3, 2, 4, 2]
    fanRecords := [⟨1, 0⟩, ⟨-1, 6⟩, ⟨-1, 6⟩, ⟨-1, 6⟩, ⟨-1, 6⟩, ⟨-1, 6⟩] }

/-- Coordinates for `repeatedNeighborStore`, in the plane `z = 0`. -/
def repeatedNeighborCoords : List (Vector3 Int) :=
  [⟨0, 0, 0⟩, ⟨0, 1, 0⟩, ⟨1, 0, 0⟩, ⟨0, -1, 0⟩, ⟨1, -1, 0⟩]

/-! ## Triangle consensus: makeTriangleHashMap, computeTrianglesRepetitions, findRepeatedTriangles -/

/-- Modelled from the spec: `UnorientedTriangle` (MRUnorientedTriangle.h is not part of the
sources) is the "canonical form of an ordered triple": its three vertex ids in ascending order. -/
structure UnorientedTriangle where
  a : Int
  b : Int
  c : Int
deriving DecidableEq, Repr

/-- Modelled from the spec: the constructor `UnorientedTriangle( { v0, v1, v2 }, &flipped )`
(MRUnorientedTriangle.h is not part of the sources) sorts the three ids by three compare-and-swap
steps on the positions (0,1), (0,2), (1,2); `flipped` records "whether the supplied ordering was
an even or odd permutation" of the ascending one: it is toggled by every swap. -/
def unorientedTriangle (v0 v1 v2 : Int) : UnorientedTriangle × Bool :=
  let s1 : (Int × Int × Int) × Bool :=
    if v1 < v0 then ((v1, v0, v2), true) else ((v0, v1, v2), false)
  let s2 : (Int × Int × Int) × Bool :=
    if s1.1.2.2 < s1.1.1 then ((s1.1.2.2, s1.1.2.1, s1.1.1), !s1.2) else s1
  let s3 : (Int × Int × Int) × Bool :=
    if s2.1.2.2 < s2.1.2.1 then ((s2.1.1, s2.1.2.2, s2.1.2.1), !s2.2) else s2
  (⟨s3.1.1, s3.1.2.1, s3.1.2.2⟩, s3.2)

/-- Struct `Repetitions`: two 4-bit counters. -/
structure Repetitions where
  sameOriented : Nat
  oppositeOriented : Nat
deriving DecidableEq, Repr

instance : Inhabited Repetitions := ⟨⟨0, 0⟩⟩

/-- The statement `if ( flipped ) ++r.oppositeOriented; else ++r.sameOriented;` on 4-bit
bit-fields. -/
def Repetitions.vote (r : Repetitions) (flipped : Bool) : Repetitions :=
  if flipped then { r with oppositeOriented := (r.oppositeOriented + 1) % 16 }
  else { r with sameOriented := (r.sameOriented + 1) % 16 }

/-- A hash map from triangles to vote tallies, as the list of its entries: the keys are
pairwise distinct, a new key is appended. A loop over the map visits the entries in the order of
the list (the order of a loop over a hash map is not specified). -/
abbrev TriangleMap := List (UnorientedTriangle × Repetitions)

/-- The statements `Repetitions & r = map[triplet]; if ( flipped ) ++r.oppositeOriented; else
++r.sameOriented;`: the entry is created with zero counters when the key is new. -/
def mapVote : TriangleMap → UnorientedTriangle → Bool → TriangleMap
  | [], key, flipped => [(key, (default : Repetitions).vote flipped)]
  | (k, r) :: rest, key, flipped =>
      if k = key then (k, r.vote flipped) :: rest else (k, r) :: mapVote rest key flipped

/-- The call `map.find( triplet )`. -/
def mapFind : TriangleMap → UnorientedTriangle → Option Repetitions
  | [], _ => none
  | (k, r) :: rest, key => if k = key then some r else mapFind rest key

/-- The call `map.erase( triplet )`. -/
def mapErase : TriangleMap → UnorientedTriangle → TriangleMap
  | [], _ => []
  | (k, r) :: rest, key => if k = key then rest else (k, r) :: mapErase rest key

/-- The triangles that the loop over the fan of the vertex `v` constructs, with their `flipped`
flags: one triangle `{ v, next, curr }` for every position whose neighbour `curr` is not the
border of the fan. -/
def fanTriplets (t : AllLocalTriangulations) (v : Nat) : List (UnorientedTriangle × Bool) :=
  (fanPairsAt t.neighbors (t.fanRecords.getD v default).firstNei
      (t.fanRecords.getD (v + 1) default).firstNei).filterMap
    (fun p => if p.1 = (t.fanRecords.getD v default).border then none
      else some (unorientedTriangle v p.2 p.1))

/-- The triangles of all fans, in the order of the loops
`for ( VertId v = 0_v; v + 1 < triangs.fanRecords.size(); ++v )` and
`for ( auto n = nbeg; n < nend; ++n )`. -/
def allTriplets (t : AllLocalTriangulations) : List (UnorientedTriangle × Bool) :=
  (List.range (t.fanRecords.length - 1)).flatMap (fanTriplets t)

/-- The parts of a `ParallelHashMap`: their number `map.subcnt()` and the hash of a key; the part
of a key is `map.subidx( map.hash( key ) )`, a number below `subcnt`. -/
structure Sharding where
  subcnt : Nat
  subcnt_pos : 0 < subcnt
  hash : UnorientedTriangle → Nat

/-- The part `map.subidx( map.hash( key ) )` of a key. -/
def Sharding.subidx (sh : Sharding) (key : UnorientedTriangle) : Nat :=
  sh.hash key % sh.subcnt

/-- The body of the `ParallelFor` of `makeTriangleHashMap` for the part `myPartId`: all fans are
scanned and the triangles of the part are voted for. -/
def scanPart (sh : Sharding) (t : AllLocalTriangulations) (map : TriangleMap) (myPartId : Nat) :
    TriangleMap :=
  (allTriplets t).foldl
    (fun m tr => if sh.subidx tr.1 ≠ myPartId then m else mapVote m tr.1 tr.2) map

/-- The function `makeTriangleHashMap( triangs )`; the parts are filled one after the other. -/
def makeTriangleHashMap (sh : Sharding) (t : AllLocalTriangulations) : TriangleMap :=
  (List.range sh.subcnt).foldl (scanPart sh t) []

/-- The statement `++res[i]` on a `std::array<int, 4>`. -/
def bump (res : List Nat) (i : Nat) : List Nat :=
  res.set i (res.getD i 0 + 1)

/-- One iteration of the loop of `computeTrianglesRepetitions`: `++res[c]` for
`c = sameOriented + oppositeOriented`, and `++res[0]` when both counters are at least 1. -/
def repetitionsStep (res : List Nat) (e : UnorientedTriangle × Repetitions) : List Nat :=
  if 1 ≤ e.2.sameOriented ∧ 1 ≤ e.2.oppositeOriented then
    bump (bump res (e.2.sameOriented + e.2.oppositeOriented)) 0
  else bump res (e.2.sameOriented + e.2.oppositeOriented)

/-- The function `computeTrianglesRepetitions( triangs )`: a histogram with four entries. -/
def computeTrianglesRepetitions (sh : Sharding) (t : AllLocalTriangulations) : List Nat :=
  (makeTriangleHashMap sh t).foldl repetitionsStep [0, 0, 0, 0]

/-- The function `findRepeatedTriangles( triangs, repetitions )`. -/
def findRepeatedTriangles (sh : Sharding) (t : AllLocalTriangulations) (repetitions : Nat) :
    List UnorientedTriangle :=
  ((makeTriangleHashMap sh t).filter
    (fun e => e.2.sameOriented + e.2.oppositeOriented = repetitions)).map Prod.fst

/-- The number of same-oriented votes (not flipped) for a triangle over all fans. -/
def sameVotes (t : AllLocalTriangulations) (key : UnorientedTriangle) : Nat :=
  (allTriplets t).count (key, false)

/-- The number of opposite-oriented votes (flipped) for a triangle over all fans. -/
def oppositeVotes (t : AllLocalTriangulations) (key : UnorientedTriangle) : Nat :=
  (allTriplets t).count (key, true)

/-- The total number of votes for a triangle over all fans. -/
def totalVotes (t : AllLocalTriangulations) (key : UnorientedTriangle) : Nat :=
  sameVotes t key + oppositeVotes t key

/-- The distinct unoriented triangles of all fans. -/
def distinctTriangles (t : AllLocalTriangulations) : List UnorientedTriangle :=
  ((allTriplets t).map Prod.fst).dedup

/-- The tallies stay within 1..3: no triangle receives more than three votes. -/
def AllLocalTriangulations.TalliesWithin3 (t : AllLocalTriangulations) : Prop :=
  ∀ key ∈ distinctTriangles t, totalVotes t key ≤ 3

instance (t : AllLocalTriangulations) : Decidable t.TalliesWithin3 :=
  inferInstanceAs (Decidable (∀ key ∈ distinctTriangles t, totalVotes t key ≤ 3))

/-- A `ParallelHashMap` with a single part. -/
def oneShard : Sharding := ⟨1, Nat.one_pos, fun _ => 0⟩

/-- A `ParallelHashMap` with four parts, hashed by the sum of the ids. -/
def fourShards : Sharding := ⟨4, by decide, fun k => (k.a + k.b + k.c).toNat⟩

/-- The tally of a key in the map, zero counters when the key is absent. -/
def tallyOf (m : TriangleMap) (key : UnorientedTriangle) : Repetitions :=
  (mapFind m key).getD default

/-- A sequence of votes, one after the other. -/
def foldVotes (m : TriangleMap) (vs : List (UnorientedTriangle × Bool)) : TriangleMap :=
  vs.foldl (fun m tr => mapVote m tr.1 tr.2) m

/-- The counters of every entry are 4-bit values. -/
def Counters4 (m : TriangleMap) : Prop :=
  ∀ e ∈ m, e.2.sameOriented < 16 ∧ e.2.oppositeOriented < 16

/-- A store in which the triangle 0, 1, 2 receives 33 votes: the fan of the vertex 0 lists the
neighbours 1, 2 sixteen times over, the fan of the vertex 1 is 2, 0 with the border 0. -/
def wrapStore : AllLocalTriangulations :=
  { neighbors := [1, 2, 1, 2, 1, 2, 1, 2, 1, 2, 1, 2, 1, 2, 1, 2, 1, 2, 1, 2, 1, 2, 1, 2,
      1, 2, 1, 2, 1, 2, 1, 2, 2, 0]
    fanRecords := [⟨-1, 0⟩, ⟨0, 32⟩, ⟨-1, 34⟩, ⟨-1, 34⟩] }

/-- A store with the closed fans 1, 2 of the vertex 0 and 2, 0 of the vertex 1. -/
def twoFanStore : AllLocalTriangulations :=
  { neighbors := [1, 2, 2, 0]
    fanRecords := [⟨-1, 0⟩, ⟨-1, 2⟩, ⟨-1, 4⟩, ⟨-1, 4⟩] }

/-- No fan lists its own centre. -/
def AllLocalTriangulations.NoCenterInFan (t : AllLocalTriangulations) : Prop :=
  ∀ v < t.fanRecords.length - 1, (v : Int) ∉ t.fan v

instance (t : AllLocalTriangulations) : Decidable t.NoCenterInFan :=
  inferInstanceAs (Decidable (∀ v < t.fanRecords.length - 1, (v : Int) ∉ t.fan v))

/-- Every fan of exactly two neighbours is open: its border is one of the two. -/
def AllLocalTriangulations.TwoFansOpen (t : AllLocalTriangulations) : Prop :=
  ∀ v < t.fanRecords.length - 1, (t.fan v).length = 2 → t.border v ∈ t.fan v

instance (t : AllLocalTriangulations) : Decidable t.TwoFansOpen :=
  inferInstanceAs (Decidable
    (∀ v < t.fanRecords.length - 1, (t.fan v).length = 2 → t.border v ∈ t.fan v))

/-! ## autoOrientLocalTriangulations -/

/-- Struct `PointCloud`, as far as the function reads it: the coordinates of the points and the
bit set of the valid points. -/
structure PointCloud (α : Type) where
  points : List (Vector3 α)
  validPoints : List Bool

/-- The call `bitSet.test( v )`: false outside of the bit set. -/
def testBit (bs : List Bool) (v : Int) : Bool :=
  decide (0 ≤ v) && bs.getD v.toNat false

/-- The number of set bits, `bitSet.count()`. -/
def countBits (bs : List Bool) : Nat :=
  bs.count true

/-- A bounding box `Box3f`: its corners `min` and `max`. -/
structure Box3 (α : Type) where
  min : Vector3 α
  max : Vector3 α

/-- The call `box.include( p )` on a box that may still be empty (`none`). -/
def Box3.includePoint {α : Type} [Min α] [Max α] (b : Option (Box3 α)) (p : Vector3 α) :
    Option (Box3 α) :=
  match b with
  | none => some ⟨p, p⟩
  | some b =>
      some ⟨⟨Min.min b.min.x p.x, Min.min b.min.y p.y, Min.min b.min.z p.z⟩,
        ⟨Max.max b.max.x p.x, Max.max b.max.y p.y, Max.max b.max.z p.z⟩⟩

/-- Modelled from the spec: `pointCloud.computeBoundingBox()` (MRPointCloud.h is not part of the
sources), the "bounding-box query" of the point cloud: the box of the valid points, `none` when
there is no valid point. -/
def PointCloud.computeBoundingBox {α : Type} [Zero α] [Min α] [Max α] (pc : PointCloud α) :
    Option (Box3 α) :=
  ((List.range pc.validPoints.length).filter (fun v => pc.validPoints.getD v false)).foldl
    (fun b v => Box3.includePoint b (pc.points.getD v default)) none

/-- The value of `bbox.center()`; the box without points has `min = FLT_MAX` and
`max = -FLT_MAX`, whose centre is the origin. -/
def boxCenter {α : Type} [Zero α] [Add α] [Div α] [OfNat α 2] (b : Option (Box3 α)) : Vector3 α :=
  match b with
  | none => ⟨0, 0, 0⟩
  | some b => ⟨(b.min.x + b.max.x) / 2, (b.min.y + b.max.y) / 2, (b.min.z + b.max.z) / 2⟩

/-- The value of `bbox.size().lengthSq() / 4` (for the box without points the value is not
used and set to 0 here). -/
def boxMaxDistSq {α : Type} [Zero α] [Add α] [Sub α] [Mul α] [Div α] [OfNat α 4] (b : Option (Box3 α)) : α :=
  match b with
  | none => 0
  | some b => dot (b.max.sub b.min) (b.max.sub b.min) / 4

/-- Modelled from the spec: `Heap<float, VertId>` (MRHeap.h is not part of the sources), "a
max-priority structure supporting key decrease/increase". The heap is the list of the values of
its elements, indexed by the id of the element; the value `InvalidWeight = -FLT_MAX`, which is
below every weight that the function computes, is `none`. -/
abbrev Heap (α : Type) := List (Option α)

/-- The order of the heap values: `InvalidWeight` is below every other value. -/
def heapLess {α : Type} [LinearOrder α] (a b : Option α) : Bool :=
  match a, b with
  | none, none => false
  | none, some _ => true
  | some _, none => false
  | some x, some y => decide (x < y)

/-- The search for the largest value from the element `i` on, where `best` is the largest element
so far; an element replaces `best` only if its value is larger. -/
def heapTopFrom {α : Type} [LinearOrder α] : List (Option α) → Nat → Nat × Option α →
    Nat × Option α
  | [], _, best => best
  | x :: xs, i, best => heapTopFrom xs (i + 1) (if heapLess best.2 x then (i, x) else best)

/-- Modelled from the spec: `heap.top()` (MRHeap.h is not part of the sources), "the vertex with
the current maximum priority value" together with its value; among the elements with the largest
value the one with the smallest id is taken. The heap is not empty. -/
def heapTop {α : Type} [LinearOrder α] (h : Heap α) : Nat × Option α :=
  heapTopFrom h.tail 1 (0, h.headD none)

/-- The counters `sameOriented`, `oppositeOriented` and the variable `otherBd` of
`computeVertWeight`. -/
structure WeightAcc where
  sameOriented : Nat
  oppositeOriented : Nat
  otherBd : Int
deriving DecidableEq, Repr

/-- One iteration of the loop of the lambda `computeVertWeight`; `p` is the pair
`(curr, next)`. -/
def weightStep (map : TriangleMap) (v : Int) (border : Int) (acc : WeightAcc) (p : Int × Int) :
    WeightAcc :=
  if p.1 = border then { acc with otherBd := p.2 }
  else
    match mapFind map (unorientedTriangle v p.2 p.1).1 with
    | none => acc
    | some r =>
        let acc1 : WeightAcc :=
          if r.sameOriented = 0 ∧ 0 < r.oppositeOriented then
            (if (unorientedTriangle v p.2 p.1).2
              then { acc with sameOriented := acc.sameOriented + 1 }
              else { acc with oppositeOriented := acc.oppositeOriented + 1 })
          else acc
        if 0 < r.sameOriented ∧ r.oppositeOriented = 0 then
          (if (unorientedTriangle v p.2 p.1).2
            then { acc1 with oppositeOriented := acc1.oppositeOriented + 1 }
            else { acc1 with sameOriented := acc1.sameOriented + 1 })
        else acc1

/-- The counters of `computeVertWeight( v )` after its loop. -/
def weightAcc (t : AllLocalTriangulations) (map : TriangleMap) (v : Int) : WeightAcc :=
  (fanPairsAt t.neighbors (t.fanRecords.getD v.toNat default).firstNei
      (t.fanRecords.getD (v.toNat + 1) default).firstNei).foldl
    (weightStep map v (t.fanRecords.getD v.toNat default).border) ⟨0, 0, -1⟩

/-- The lambda `computeVertWeight( v )`: the store after the call (the fan of `v` is reversed
when the opposite votes prevail) and the returned weight `abs( sameOriented - oppositeOriented )`. -/
def computeVertWeight (t : AllLocalTriangulations) (map : TriangleMap) (v : Int) :
    AllLocalTriangulations × Nat :=
  (if (weightAcc t map v).sameOriented < (weightAcc t map v).oppositeOriented then
      { neighbors := reverseRange t.neighbors (t.fanRecords.getD v.toNat default).firstNei
          (t.fanRecords.getD (v.toNat + 1) default).firstNei
        fanRecords := t.fanRecords.set v.toNat
          ⟨(weightAcc t map v).otherBd, (t.fanRecords.getD v.toNat default).firstNei⟩ }
    else t,
    ((weightAcc t map v).sameOriented - (weightAcc t map v).oppositeOriented)
      + ((weightAcc t map v).oppositeOriented - (weightAcc t map v).sameOriented))

/-- The variables of the expansion loop; `visitOrder` lists the vertices passed to
`enqueueNeighbors` so far, oldest first (it is not a variable of the C++ code). -/
structure OrientState (α : Type) where
  triangs : AllLocalTriangulations
  heap : Heap α
  map : TriangleMap
  notVisited : List Bool
  visitedCount : Nat
  visitOrder : List Nat

/-- One iteration of the first loop of the lambda `enqueueNeighbors( base )`: the triangle is
erased from the map when its three vertices have been visited, and voted for otherwise. -/
def registerStep (notVisited : List Bool) (base : Int) (border : Int) (m : TriangleMap)
    (p : Int × Int) : TriangleMap :=
  if p.1 = border then m
  else if !testBit notVisited p.1 && !testBit notVisited p.2 then
    mapErase m (unorientedTriangle base p.2 p.1).1
  else mapVote m (unorientedTriangle base p.2 p.1).1 (unorientedTriangle base p.2 p.1).2

/-- One iteration of the second loop of the lambda `enqueueNeighbors( base )` at the position
`n`: the weight of a neighbour that is not visited yet is computed and set in the heap. -/
def reweighStep {α : Type} [LinearOrderedField α] (notVisited : List Bool) (map : TriangleMap)
    (s : AllLocalTriangulations × Heap α) (n : Nat) : AllLocalTriangulations × Heap α :=
  if testBit notVisited (s.1.neighbors.getD n (-1)) then
    ((computeVertWeight s.1 map (s.1.neighbors.getD n (-1))).1,
      s.2.set (s.1.neighbors.getD n (-1)).toNat
        (some (((computeVertWeight s.1 map (s.1.neighbors.getD n (-1))).2 : Nat) : α)))
  else s

/-- The lambda `enqueueNeighbors( base )`. -/
def enqueueNeighbors {α : Type} [LinearOrderedField α] (s : OrientState α) (base : Nat) :
    OrientState α :=
  let notVisited := s.notVisited.set base false
  let nbeg := (s.triangs.fanRecords.getD base default).firstNei
  let nend := (s.triangs.fanRecords.getD (base + 1) default).firstNei
  let map := (fanPairsAt s.triangs.neighbors nbeg nend).foldl
    (registerStep notVisited base (s.triangs.fanRecords.getD base default).border) s.map
  let th := (List.range' nbeg (nend - nbeg)).foldl (reweighStep notVisited map)
    (s.triangs, s.heap)
  { triangs := th.1
    heap := th.2
    map := map
    notVisited := notVisited
    visitedCount := s.visitedCount + 1
    visitOrder := s.visitOrder ++ [base] }

/-- The outcome of `autoOrientLocalTriangulations`: the returned value, the store and the
variables of the expansion loop when the function returns, and the answers of the progress
callback. -/
structure AutoOrientResult (α : Type) where
  ok : Bool
  state : OrientState α
  log : ProgressLog

/-- The loop `for (;;)` of `autoOrientLocalTriangulations`, for at most `fuel` evaluations of
its first statement; `none` when they do not suffice. -/
def expansionLoop {α : Type} [LinearOrderedField α] (progress : ProgressCallback)
    (totalCount : Nat) : Nat → OrientState α → ProgressLog → Option (AutoOrientResult α)
  | 0, _, _ => none
  | fuel + 1, s, log =>
      if (heapTop s.heap).2 = none then some ⟨true, s, log⟩
      else
        let s1 := enqueueNeighbors { s with heap := s.heap.set (heapTop s.heap).1 none }
          (heapTop s.heap).1
        let p := reportProgressEvery progress log
          ((s1.visitedCount : ℚ) / (totalCount : ℚ)) s1.visitedCount 65536
        if !p.1 then some ⟨false, s1, p.2⟩
        else expansionLoop progress totalCount fuel s1 p.2

/-- The initial value of the heap: `InvalidWeight` for every point, replaced for the valid
points by `dcenter.lengthSq() - maxDistSqToCenter`. -/
def initialHeap {α : Type} [LinearOrderedField α] (pc : PointCloud α) : Heap α :=
  (List.range pc.points.length).map (fun v =>
    if pc.validPoints.getD v false then
      some (dot ((pc.points.getD v default).sub (boxCenter pc.computeBoundingBox))
          ((pc.points.getD v default).sub (boxCenter pc.computeBoundingBox))
        - boxMaxDistSq pc.computeBoundingBox)
    else none)

/-- The function `autoOrientLocalTriangulations( pointCloud, triangs, progress )` with at most
`fuel` iterations of its expansion loop. `sched` stands for the fractions reported by the
`BitSetParallelFor` that fills the weights. -/
def autoOrientLocalTriangulations {α : Type} [LinearOrderedField α] (fuel : Nat)
    (pc : PointCloud α) (triangs : AllLocalTriangulations) (progress : ProgressCallback)
    (sched : List ℚ) : Option (AutoOrientResult α) :=
  let s0 : OrientState α := ⟨triangs, [], [], pc.validPoints, 0, []⟩
  let p0 := reportProgress progress [] (1 / 40)
  if !p0.1 then some ⟨false, s0, p0.2⟩ else
  let p1 := reportProgress progress p0.2 (1 / 40)
  if !p1.1 then some ⟨false, s0, p1.2⟩ else
  let t1 := orientLocalTriangulations triangs pc.points
    (fun v => (getAt pc.points v default).sub (boxCenter pc.computeBoundingBox))
  let s1 : OrientState α := ⟨t1, [], [], pc.validPoints, 0, []⟩
  let p2 := reportProgress progress p1.2 (1 / 20)
  if !p2.1 then some ⟨false, s1, p2.2⟩ else
  let p3 := parallelForProgress (subprogress progress (1 / 20) (3 / 40)) sched p2.2
  if !p3.1 then some ⟨false, s1, p3.2⟩ else
  let p4 := reportProgress progress p3.2 (1 / 10)
  if !p4.1 then some ⟨false, s1, p4.2⟩ else
  expansionLoop (subprogress progress (1 / 10) 1) (countBits pc.validPoints) fuel
    ⟨t1, initialHeap pc, [], pc.validPoints, 0, []⟩ p4.2

/-- The invariant of the expansion loop, for the bit set `valid` of the valid points of a cloud
with `n` points: the heap has `n` values; the value of a vertex differs from `InvalidWeight`
exactly when the vertex is not visited yet; the vertices visited so far are pairwise distinct and
are the valid vertices whose bit in `notVisited` is cleared. -/
structure LoopInv {α : Type} (valid : List Bool) (n : Nat) (s : OrientState α) : Prop where
  heap_length : s.heap.length = n
  heap_iff : ∀ v, s.heap.getD v none ≠ none ↔ s.notVisited.getD v false = true
  order_nodup : s.visitOrder.Nodup
  order_visited : ∀ v ∈ s.visitOrder, s.notVisited.getD v false = false
  valid_iff : ∀ v, valid.getD v false = true ↔
    (v ∈ s.visitOrder ∨ s.notVisited.getD v false = true)
  count_eq : s.visitOrder.length + countBits s.notVisited = countBits valid
  visitedCount_eq : s.visitedCount = s.visitOrder.length

/-- A store for five vertices: the closed fan 1, 2, 3 of the vertex 0, and empty fans for the
vertices 1, 2, 3 and 4; no fan mentions the vertex 4. -/
def islandStore : AllLocalTriangulations :=
  { neighbors := [1, 2, 3]
    fanRecords := [⟨-1, 0⟩, ⟨-1, 3⟩, ⟨-1, 3⟩, ⟨-1, 3⟩, ⟨-1, 3⟩, ⟨-1, 3⟩] }

/-- A cloud of five valid points for `islandStore`. -/
def islandCloud : PointCloud ℚ :=
  { points := [⟨0, 0, 0⟩, ⟨1, 0, 0⟩, ⟨0, 1, 0⟩, ⟨-1, -1, 0⟩, ⟨5, 5, 5⟩]
    validPoints := [true, true, true, true, true] }

/-- The state after one iteration of the expansion loop that starts in the state `s` with a top
weight different from `InvalidWeight`: the statements `heap.setSmallerValue( v, InvalidWeight )`
and `enqueueNeighbors( v )` for the top vertex `v`. -/
def loopStep {α : Type} [LinearOrderedField α] (s : OrientState α) : OrientState α :=
  enqueueNeighbors { s with heap := s.heap.set (heapTop s.heap).1 none } (heapTop s.heap).1

/-- Only vertices that are not visited yet have a weight different from `InvalidWeight`. -/
def HeapTracksUnvisited {α : Type} (s : OrientState α) : Prop :=
  ∀ v, s.heap.getD v none ≠ none → s.notVisited.getD v false = true

/-! ## Fan flips -/

/-- The flip of the fan of the vertex `v`: the statements
`std::reverse( triangs.neighbors.data() + nbeg, triangs.neighbors.data() + nend );` and
`triangs.fanRecords[v].border = otherBd;` that `orientLocalTriangulations` and
`computeVertWeight` execute when they reverse the orientation of a fan. `otherBd` is the
neighbour that the loop over the fan met after the border, and an invalid id if it met no
border. -/
def flipVertex (t : AllLocalTriangulations) (v : Nat) : AllLocalTriangulations :=
  { neighbors := reverseRange t.neighbors (t.fanRecords.getD v default).firstNei
      (t.fanRecords.getD (v + 1) default).firstNei
    fanRecords := t.fanRecords.set v
      ⟨(fanPairsAt t.neighbors (t.fanRecords.getD v default).firstNei
          (t.fanRecords.getD (v + 1) default).firstNei).foldl
          (fun o p => if p.1 = (t.fanRecords.getD v default).border then p.2 else o) (-1),
        (t.fanRecords.getD v default).firstNei⟩ }

/-- Every neighbour of every fan is a valid vertex id. -/
def AllLocalTriangulations.NeighborsValid (t : AllLocalTriangulations) : Prop :=
  ∀ v < t.fanRecords.length - 1, ∀ x ∈ t.fan v, 0 ≤ x

instance (t : AllLocalTriangulations) : Decidable t.NeighborsValid :=
  inferInstanceAs (Decidable (∀ v < t.fanRecords.length - 1, ∀ x ∈ t.fan v, 0 ≤ x))

/-- The frame of the orientation components: the store `t1` has as many fan records as `t`, the
same offsets and as many neighbours, and each of its fans is the fan of `t` or its exact
reverse. -/
def AllLocalTriangulations.SameFansUpToReversal (t t1 : AllLocalTriangulations) : Prop :=
  t1.fanRecords.length = t.fanRecords.length ∧
  (∀ i, (t1.fanRecords.getD i default).firstNei = (t.fanRecords.getD i default).firstNei) ∧
  t1.neighbors.length = t.neighbors.length ∧
  ∀ v, v + 1 < t.fanRecords.length → t1.fan v = t.fan v ∨ t1.fan v = (t.fan v).reverse

/-- A store with malformed offsets 0, 3, 1, 3, 3: the slice of the vertex 2 lies inside the slice
of the vertex 0. -/
def overlappingStore : AllLocalTriangulations :=
  { neighbors := [1, 2, 3]
    fanRecords := [⟨-1, 0⟩, ⟨-1, 3⟩, ⟨-1, 1⟩, ⟨-1, 3⟩, ⟨-1, 3⟩] }

/-- A store with one open fan whose border occurs exactly once and in which the neighbour after
the border is listed a second time: vertex 0 with the neighbours 1, 2, 3, 4, 2 and the
border 1. -/
def returningStore : AllLocalTriangulations :=
  { neighbors := [1, 2, 3, 4, 2]
    fanRecords := [⟨1, 0⟩, ⟨-1, 5⟩, ⟨-1, 5⟩, ⟨-1, 5⟩, ⟨-1, 5⟩, ⟨-1, 5⟩] }

/-- Coordinates for `returningStore`: vertex 0 in the origin, the vertices 1, 2, 3, 4 at
`(1, 0, 0)`, `(0, 1, 0)`, `(-1, 0, 0)` and `(0, -1, 0)`. -/
def returningCoords : List (Vector3 Int) :=
  [⟨0, 0, 0⟩, ⟨1, 0, 0⟩, ⟨0, 1, 0⟩, ⟨-1, 0, 0⟩, ⟨0, -1, 0⟩]

/-- The multiplicity diagnostics of the store `t1` are those of the store `t`: for every `k` in
1..3, `findRepeatedTriangles( k )` returns the same set of triangles on both stores, and entry
`k` of `computeTrianglesRepetitions` is the same. -/
def SameMultiplicities (sh : Sharding) (t t1 : AllLocalTriangulations) : Prop :=
  ∀ k, 1 ≤ k → k ≤ 3 →
    (∀ tri, tri ∈ findRepeatedTriangles sh t1 k ↔ tri ∈ findRepeatedTriangles sh t k) ∧
    (computeTrianglesRepetitions sh t1).getD k 0 = (computeTrianglesRepetitions sh t).getD k 0

/-! ## computeNormal -/

/-- The sum `a + b` of two vectors. -/
def Vector3.add {α : Type} [Add α] (a b : Vector3 α) : Vector3 α :=
  ⟨a.x + b.x, a.y + b.y, a.z + b.z⟩

/-- The product `s * a` of a number and a vector. -/
def Vector3.scale {α : Type} [Mul α] (s : α) (a : Vector3 α) : Vector3 α :=
  ⟨s * a.x, s * a.y, s * a.z⟩

/-- The vector `-a`. -/
def Vector3.neg {α : Type} [Neg α] (a : Vector3 α) : Vector3 α :=
  ⟨-a.x, -a.y, -a.z⟩

/-- The two operations of MRVector3.h (which is not part of the sources) that `computeNormal`
calls and that are not arithmetic of a field: `angle( a, b )`, the angle between two vectors, and
`v.normalized()`, the vector scaled to unit length. They are parameters of `computeNormal`. -/
structure VectorOps (α : Type) where
  angle : Vector3 α → Vector3 α → α
  normalized : Vector3 α → Vector3 α

/-- The term `angle( d0, d1 ) * cross( d0, d1 ).normalized()` of the pair `p = (curr, next)`,
with `d0 = points[next] - pv` and `d1 = points[curr] - pv`. -/
def normalTerm {α : Type} [CommRing α] (ops : VectorOps α) (points : List (Vector3 α))
    (pv : Vector3 α) (p : Int × Int) : Vector3 α :=
  Vector3.scale
    (ops.angle ((getAt points p.2 default).sub pv) ((getAt points p.1 default).sub pv))
    (ops.normalized (cross ((getAt points p.2 default).sub pv)
      ((getAt points p.1 default).sub pv)))

/-- One iteration of the loop of `computeNormal`; `p` is the pair `(curr, next)` and `pv` is
`points[v]`. -/
def normalStep {α : Type} [CommRing α] (ops : VectorOps α) (points : List (Vector3 α))
    (pv : Vector3 α) (border : Int) (sum : Vector3 α) (p : Int × Int) : Vector3 α :=
  if p.1 = border then sum else sum.add (normalTerm ops points pv p)

/-- The function `computeNormal( triangs, points, v )` for a valid vertex id `v`. -/
def computeNormal {α : Type} [CommRing α] (ops : VectorOps α) (t : AllLocalTriangulations)
    (points : List (Vector3 α)) (v : Nat) : Vector3 α :=
  ops.normalized ((fanPairsAt t.neighbors (t.fanRecords.getD v default).firstNei
      (t.fanRecords.getD (v + 1) default).firstNei).foldl
    (normalStep ops points (points.getD v default) (t.fanRecords.getD v default).border)
    ⟨0, 0, 0⟩)

/-- Operations for the examples, which use perpendicular vectors of length 1 only: the angle
between two such vectors is one quarter turn, the unit in which `quarterTurnOps` measures it, and
a vector of length 1 or 0 is its own normalisation. -/
def quarterTurnOps : VectorOps Int :=
  ⟨fun _ _ => 1, fun u => u⟩

/-- The direction `(0, 0, -1)` for every vertex. -/
def downDir : Int → Vector3 Int := fun _ => ⟨0, 0, -1⟩

/-- A store with one open fan in which a neighbour is listed twice: vertex 0 with the neighbours
1, 2, 3, 2 and the border 1 (which occurs exactly once). -/
def twiceNeighborStore : AllLocalTriangulations :=
  { neighbors := [1, 2, 3, 2]
    fanRecords := [⟨1, 0⟩, ⟨-1, 4⟩, ⟨-1, 4⟩, ⟨-1, 4⟩, ⟨-1, 4⟩] }

/-- Coordinates for `twiceNeighborStore`: vertex 0 in the origin, the vertices 1, 2, 3 at
`(1, 0, 0)`, `(0, 1, 0)` and `(-1, 0, 0)`. -/
def twiceNeighborCoords : List (Vector3 Int) :=
  [⟨0, 0, 0⟩, ⟨1, 0, 0⟩, ⟨0, 1, 0⟩, ⟨-1, 0, 0⟩]

/-! ## The flat 3 x 3 grid -/

/-- The flat 3 x 3 grid: the point `3 * j + i` is `(i, j, 0)`; all nine points are valid. -/
def gridCloud : PointCloud ℚ :=
  { points := [⟨0, 0, 0⟩, ⟨1, 0, 0⟩, ⟨2, 0, 0⟩, ⟨0, 1, 0⟩, ⟨1, 1, 0⟩, ⟨2, 1, 0⟩,
      ⟨0, 2, 0⟩, ⟨1, 2, 0⟩, ⟨2, 2, 0⟩]
    validPoints := [true, true, true, true, true, true, true, true, true] }

/-- The fans of the grid whose four squares are split by the diagonal from `(i, j)` to
`(i + 1, j + 1)`. Every fan lists its neighbours clockwise (seen from `+z`), except the closed
fan 5, 8, 7, 3, 0, 1 of the centre vertex 4, which lists them counter-clockwise. The border of an
open fan is its last neighbour. -/
def gridStore : AllLocalTriangulations :=
  { neighbors := [3, 4, 1, 0, 4, 5, 2, 1, 5, 6, 7, 4, 0, 5, 8, 7, 3, 0, 1, 2, 1, 4, 8, 7, 3,
      8, 4, 3, 6, 5, 4, 7]
    fanRecords := [⟨1, 0⟩, ⟨2, 3⟩, ⟨5, 7⟩, ⟨0, 9⟩, ⟨-1, 13⟩, ⟨8, 19⟩, ⟨3, 23⟩, ⟨6, 25⟩,
      ⟨7, 29⟩, ⟨-1, 32⟩] }

/-- The store `gridStore` with the fan of the centre vertex 4 reversed to 1, 0, 3, 7, 8, 5: all
fans are clockwise. -/
def gridStoreOriented : AllLocalTriangulations :=
  { neighbors := [3, 4, 1, 0, 4, 5, 2, 1, 5, 6, 7, 4, 0, 1, 0, 3, 7, 8, 5, 2, 1, 4, 8, 7, 3,
      8, 4, 3, 6, 5, 4, 7]
    fanRecords := [⟨1, 0⟩, ⟨2, 3⟩, ⟨5, 7⟩, ⟨0, 9⟩, ⟨-1, 13⟩, ⟨8, 19⟩, ⟨3, 23⟩, ⟨6, 25⟩,
      ⟨7, 29⟩, ⟨-1, 32⟩] }

/-- The direction `(0, 0, 1)` for every vertex, over the rational numbers. -/
def upDirQ : Int → Vector3 ℚ := fun _ => ⟨0, 0, 1⟩

/-! ## Closed, well-formed, orientable fan collections -/

/-- The pair `(c, x)` is a pair of a neighbour and its cyclic successor in the fan of `v` when
the fan is read in the stored order (`σ v` is false) or against it (`σ v` is true: the fan
counts as flipped). -/
def AllLocalTriangulations.OrientedPair (t : AllLocalTriangulations) (σ : Nat → Bool) (v : Nat)
    (c x : Int) : Prop :=
  (if σ v then (x, c) else (c, x)) ∈ cyclicPairs (t.fan v)

instance (t : AllLocalTriangulations) (σ : Nat → Bool) (v : Nat) (c x : Int) :
    Decidable (t.OrientedPair σ v c x) :=
  inferInstanceAs (Decidable ((if σ v then (x, c) else (c, x)) ∈ cyclicPairs (t.fan v)))

/-- A closed, topologically well-formed, orientable fan collection for the vertices `0 .. n-1`
with arbitrary windings: the store is valid and has a record for every vertex plus the sentinel;
every fan is closed and lists at least three pairwise distinct neighbours, which are vertices
other than its centre; and the windings are consistent once the fans marked by `σ` are flipped:
if the fan of `v`, read in its consistent direction, lists `x` after `c`, then the fan of `c`,
read in its consistent direction, lists `v` after `x` (so the fans of `c` and, by the same rule,
of `x` list the triangle `v`, `x`, `c` with the same orientation). -/
def AllLocalTriangulations.Coherent (t : AllLocalTriangulations) (n : Nat) (σ : Nat → Bool) :
    Prop :=
  t.ValidCSR ∧ t.fanRecords.length = n + 1 ∧
  (∀ v < n, t.border v < 0) ∧
  (∀ v < n, (t.fan v).Nodup ∧ 3 ≤ (t.fan v).length) ∧
  (∀ v < n, ∀ x ∈ t.fan v, 0 ≤ x ∧ x.toNat < n ∧ x ≠ (v : Int)) ∧
  (∀ v < n, ∀ p ∈ cyclicPairs (t.fan v),
    t.OrientedPair σ (if σ v then p.2 else p.1).toNat (if σ v then p.1 else p.2) v)

instance (t : AllLocalTriangulations) (n : Nat) (σ : Nat → Bool) : Decidable (t.Coherent n σ) :=
  inferInstanceAs (Decidable (t.ValidCSR ∧ t.fanRecords.length = n + 1 ∧
    (∀ v < n, t.border v < 0) ∧
    (∀ v < n, (t.fan v).Nodup ∧ 3 ≤ (t.fan v).length) ∧
    (∀ v < n, ∀ x ∈ t.fan v, 0 ≤ x ∧ x.toNat < n ∧ x ≠ (v : Int)) ∧
    (∀ v < n, ∀ p ∈ cyclicPairs (t.fan v),
      t.OrientedPair σ (if σ v then p.2 else p.1).toNat (if σ v then p.1 else p.2) v)))

/-- The fan collection is connected: every vertex below `n` is reached from the vertex 0 by
steps from a vertex to a neighbour of its fan. -/
def AllLocalTriangulations.Connected (t : AllLocalTriangulations) (n : Nat) : Prop :=
  ∀ v < n, Relation.ReflTransGen (fun a b : Nat => (b : Int) ∈ t.fan a) 0 v

/-- The fans of a tetrahedron with the vertices 0, 1, 2, 3, consistently wound. -/
def tetraStore : AllLocalTriangulations :=
  { neighbors := [1, 2, 3, 2, 0, 3, 3, 0, 1, 1, 0, 2]
    fanRecords := [⟨-1, 0⟩, ⟨-1, 3⟩, ⟨-1, 6⟩, ⟨-1, 9⟩, ⟨-1, 12⟩] }

/-- The fans of the tetrahedron with the fans of the vertices 1 and 3 reversed. -/
def tetraStoreMixed : AllLocalTriangulations :=
  { neighbors := [1, 2, 3, 3, 0, 2, 3, 0, 1, 2, 0, 1]
    fanRecords := [⟨-1, 0⟩, ⟨-1, 3⟩, ⟨-1, 6⟩, ⟨-1, 9⟩, ⟨-1, 12⟩] }

/-- A cloud of four valid points, all of them in the origin: the seed pass flips no fan. -/
def tetraCloud : PointCloud ℚ :=
  { points := [⟨0, 0, 0⟩, ⟨0, 0, 0⟩, ⟨0, 0, 0⟩, ⟨0, 0, 0⟩]
    validPoints := [true, true, true, true] }

/-- The flips that make `tetraStoreMixed` consistent: the fans of the vertices 1 and 3. -/
def tetraFlips : Nat → Bool := fun v => decide (v = 1 ∨ v = 3)

/-- The counters of an entry hold votes of one kind only, the kind of the flag `fl`. -/
def Repetitions.PureFor (r : Repetitions) (fl : Bool) : Prop :=
  if fl then r.sameOriented = 0 ∧ 0 < r.oppositeOriented
  else 0 < r.sameOriented ∧ r.oppositeOriented = 0

/-- The number of corners of a triangle that are in the list `V`. -/
def visitedCorners (V : List Nat) (K : UnorientedTriangle) : Nat :=
  (if K.a.toNat ∈ V then 1 else 0) + (if K.b.toNat ∈ V then 1 else 0)
    + (if K.c.toNat ∈ V then 1 else 0)

/-- The invariant of the map of the expansion loop, for the store `t` and the visited vertices
`V`: the keys are pairwise distinct; every entry belongs to a triangle of the fan of a visited
vertex, holds votes of the kind of that fan only, and at most one vote for every visited corner
of the triangle; and every triangle of the fan of a visited vertex with a corner that is not
visited has an entry. -/
structure MapInv (t : AllLocalTriangulations) (V : List Nat) (m : TriangleMap) : Prop where
  keys_nodup : (m.map Prod.fst).Nodup
  sound : ∀ K r, mapFind m K = some r → ∃ v ∈ V, ∃ p ∈ cyclicPairs (t.fan v),
    (unorientedTriangle v p.2 p.1).1 = K ∧ r.PureFor (unorientedTriangle v p.2 p.1).2 ∧
    r.sameOriented + r.oppositeOriented ≤ visitedCorners V K
  complete : ∀ v ∈ V, ∀ p ∈ cyclicPairs (t.fan v), (p.1.toNat ∉ V ∨ p.2.toNat ∉ V) →
    mapFind m (unorientedTriangle v p.2 p.1).1 ≠ none

/-- The invariant of the second loop of `enqueueNeighbors( base )`, which starts with the store
`t0` and the heap `h0`; `V` lists the visited vertices, `base` included, `ρ` is the kind of their
fans, `σ0` and `σ` mark the flipped fans at the start of the loop and now, and `done` lists the
positions that the loop has passed. The store is consistent once the fans marked by `σ` are
flipped; it has the offsets of `t0`, its fans of the visited vertices and the members of all its
fans; a vertex that is not visited has its initial weight and mark, or is a neighbour of `base`
with a fan of the kind `ρ` and a weight of at least 1, which is the case for the neighbours at
the positions passed. -/
structure ReweighInv {α : Type} [LinearOrderedField α] (n : Nat) (t0 : AllLocalTriangulations)
    (σ0 : Nat → Bool) (h0 : Heap α) (V : List Nat) (base : Nat) (ρ : Bool) (done : List Nat)
    (s : AllLocalTriangulations × Heap α) (σ : Nat → Bool) : Prop where
  coherent : s.1.Coherent n σ
  shape : t0.SameShape s.1
  fans_visited : ∀ v ∈ V, s.1.fan v = t0.fan v
  kind_visited : ∀ v ∈ V, σ v = ρ
  mem_iff : ∀ v < n, ∀ x, x ∈ s.1.fan v ↔ x ∈ t0.fan v
  heap_length : s.2.length = h0.length
  other : ∀ u < n, u ∉ V → (s.2.getD u none = h0.getD u none ∧ σ u = σ0 u) ∨
    ((u : Int) ∈ t0.fan base ∧ σ u = ρ ∧ ∃ w : Nat, 1 ≤ w ∧ s.2.getD u none = some (w : α))
  passed : ∀ j ∈ done, ∀ u < n, u ∉ V → (u : Int) = t0.neighbors.getD j (-1) →
    σ u = ρ ∧ ∃ w : Nat, 1 ≤ w ∧ s.2.getD u none = some (w : α)

/-- The invariant of the expansion loop for a closed, connected, orientable surface with `n`
vertices: the store is consistent once the fans marked by `σ` are flipped, and connected; the
map fits the visited vertices; the fans of the visited vertices are of one kind; a vertex that
is not visited and has a visited neighbour has a fan of that kind and a weight of at least 1;
and a vertex that is not visited and has no visited neighbour has a weight of at most 0. -/
structure OrientInv {α : Type} [LinearOrderedField α] (n : Nat) (s : OrientState α)
    (σ : Nat → Bool) : Prop where
  coherent : s.triangs.Coherent n σ
  connected : s.triangs.Connected n
  map_inv : MapInv s.triangs s.visitOrder s.map
  kind_visited : ∀ u ∈ s.visitOrder, ∀ v ∈ s.visitOrder, σ u = σ v
  frontier : ∀ u < n, u ∉ s.visitOrder → (∃ x ∈ s.visitOrder, (u : Int) ∈ s.triangs.fan x) →
    (∀ v ∈ s.visitOrder, σ u = σ v) ∧ ∃ w : Nat, 1 ≤ w ∧ s.heap.getD u none = some (w : α)
  interior : ∀ u < n, u ∉ s.visitOrder →
    (¬ ∃ x ∈ s.visitOrder, (u : Int) ∈ s.triangs.fan x) →
    ∃ x : α, x ≤ 0 ∧ s.heap.getD u none = some x


/-! ## Further notions: vote conservation, sharding, priorities, pruning, safety -/

/-- The total number of fan triangles of the store: the number of neighbour positions, over all
vertices, whose neighbour is not the border of its fan. -/
def fanTriangleCount (t : AllLocalTriangulations) : Nat :=
  ((List.range (t.fanRecords.length - 1)).map (fun v =>
    (List.range' (t.fanRecords.getD v default).firstNei
      ((t.fanRecords.getD (v + 1) default).firstNei
        - (t.fanRecords.getD v default).firstNei)).countP
      (fun n => decide (t.neighbors.getD n (-1) ≠ (t.fanRecords.getD v default).border)))).sum

/-- The map of the part `p` of the `ParallelHashMap` of `makeTriangleHashMap`: what the body of
its `ParallelFor` builds for `myPartId = p`, starting from the empty part. -/
def shardMap (sh : Sharding) (t : AllLocalTriangulations) (p : Nat) : TriangleMap :=
  scanPart sh t [] p

/-- The reference of the sharded build, in the words of the spec: the tally map built by one
sequential scan that registers every fan triangle. -/
def sequentialTally (t : AllLocalTriangulations) : TriangleMap :=
  (allTriplets t).foldl (fun m tr => mapVote m tr.1 tr.2) []

/-- The value `w = dcenter.lengthSq() - maxDistSqToCenter` that the `BitSetParallelFor` of
`autoOrientLocalTriangulations` computes for the point `v`: the squared distance of the point to
the centre of the bounding box minus a quarter of the squared diagonal of the box. -/
def initialWeight {α : Type} [LinearOrderedField α] (pc : PointCloud α) (v : Nat) : α :=
  dot ((pc.points.getD v default).sub (boxCenter pc.computeBoundingBox))
      ((pc.points.getD v default).sub (boxCenter pc.computeBoundingBox))
    - boxMaxDistSq pc.computeBoundingBox

/-- A store with one open fan whose border occurs exactly once and in which the neighbour after
the border is listed twice, the second time at the start of the fan: vertex 0 with the
neighbours 2, 3, 1, 2 and the border 1. -/
def wrapBorderStore : AllLocalTriangulations :=
  { neighbors := [2, 3, 1, 2]
    fanRecords := [⟨1, 0⟩, ⟨-1, 4⟩, ⟨-1, 4⟩, ⟨-1, 4⟩, ⟨-1, 4⟩] }

/-- The entry holds votes, and all of them are of the kind of the flag `fl`: opposite-oriented
votes when `fl` is true, same-oriented votes when it is false. -/
def Repetitions.onlyVotes (r : Repetitions) (fl : Bool) : Bool :=
  if fl then decide (r.sameOriented = 0 ∧ 0 < r.oppositeOriented)
  else decide (0 < r.sameOriented ∧ r.oppositeOriented = 0)

/-- The triangle of the pair `p = (curr, next)` of the fan of `u` is a fan triangle (`curr` is
not the border) that is present in the map with votes that are all of the kind `fl`. -/
def votedOnly (map : TriangleMap) (u : Int) (border : Int) (fl : Bool) (p : Int × Int) : Bool :=
  decide (p.1 ≠ border) &&
    match mapFind map (unorientedTriangle u p.2 p.1).1 with
    | none => false
    | some r => r.onlyVotes fl

/-- The number `S` of the spec for the vertex `u`: the fan triangles of `u` present in the map
whose only votes agree with the winding that the fan of `u` now gives the triangle. -/
def agreeingTriangles (t : AllLocalTriangulations) (map : TriangleMap) (u : Nat) : Nat :=
  (fanPairsAt t.neighbors (t.fanRecords.getD u default).firstNei
      (t.fanRecords.getD (u + 1) default).firstNei).countP
    (fun p => votedOnly map u (t.fanRecords.getD u default).border
      (unorientedTriangle u p.2 p.1).2 p)

/-- The number `O` of the spec for the vertex `u`: the fan triangles of `u` present in the map
whose only votes disagree with the winding that the fan of `u` now gives the triangle. -/
def disagreeingTriangles (t : AllLocalTriangulations) (map : TriangleMap) (u : Nat) : Nat :=
  (fanPairsAt t.neighbors (t.fanRecords.getD u default).firstNei
      (t.fanRecords.getD (u + 1) default).firstNei).countP
    (fun p => votedOnly map u (t.fanRecords.getD u default).border
      (!(unorientedTriangle u p.2 p.1).2) p)

/-- The state in which `autoOrientLocalTriangulations` enters its expansion loop: the store after
the seed pass, the heap of the initial priorities, the empty map, and no vertex visited. -/
def loopEntryState {α : Type} [LinearOrderedField α] (pc : PointCloud α)
    (triangs : AllLocalTriangulations) : OrientState α :=
  ⟨orientLocalTriangulations triangs pc.points
      (fun v => (getAt pc.points v default).sub (boxCenter pc.computeBoundingBox)),
    initialHeap pc, [], pc.validPoints, 0, []⟩

/-- The state at the start of the iteration `k` (counted from 0) of the expansion loop that
starts in the state `s`, which is also the state after `k` expansion steps; `none` when the loop
has ended before, by a top weight equal to `InvalidWeight`. A cancellation by the progress
callback ends the loop after one of these steps. -/
def iterationState {α : Type} [LinearOrderedField α] : Nat → OrientState α →
    Option (OrientState α)
  | 0, s => some s
  | k + 1, s => if (heapTop s.heap).2 = none then none else iterationState k (loopStep s)

/-- The arrays `res.fanRecords` and `firstNeiSrc` of `uniteLocalTriangulations` after its first
pass over the non-empty input `a :: rest`. -/
def uniteFill (a : SomeLocalTriangulations) (rest : List SomeLocalTriangulations) : FillState :=
  fillAll (a :: rest)
    { fanRecords := List.replicate (maxElementCenterId a rest + 2).toNat default
      firstNeiSrc := List.replicate (maxElementCenterId a rest + 2).toNat default }

/-- The records `res.fanRecords` and the value of `numNei` after the second pass of
`uniteLocalTriangulations` over the non-empty input `a :: rest`. -/
def uniteOffsets (a : SomeLocalTriangulations) (rest : List SomeLocalTriangulations) :
    List FanRecord × Nat :=
  rewriteFirstNei (uniteFill a rest).fanRecords 0

/-- The condition of `assert( res.fanRecords.back().firstNei == numNei )`. -/
def uniteAssertion (a : SomeLocalTriangulations) (rest : List SomeLocalTriangulations) : Prop :=
  ((uniteOffsets a rest).1.getD ((uniteOffsets a rest).1.length - 1) default).firstNei
    = (uniteOffsets a rest).2

instance (a : SomeLocalTriangulations) (rest : List SomeLocalTriangulations) :
    Decidable (uniteAssertion a rest) :=
  inferInstanceAs (Decidable
    (((uniteOffsets a rest).1.getD ((uniteOffsets a rest).1.length - 1) default).firstNei
      = (uniteOffsets a rest).2))

/-- Every array access of `uniteLocalTriangulations` on the non-empty input `a :: rest` is in
bounds: the arrays `res.fanRecords` and `firstNeiSrc` are not empty (`back()`), every centre `v`
of the first pass is an index of them, and in the third pass every write `res.neighbors[i]`
lies in the merged neighbour array of `numNei` elements and every read `*src++` lies in the
source array. -/
def UniteInBounds (a : SomeLocalTriangulations) (rest : List SomeLocalTriangulations) : Prop :=
  0 < (maxElementCenterId a rest + 2).toNat ∧
  (∀ e ∈ allEntries (a :: rest),
    0 ≤ e.center ∧ e.center.toNat < (maxElementCenterId a rest + 2).toNat) ∧
  (∀ v, v + 1 < (uniteOffsets a rest).1.length →
    ∀ j, j < ((uniteOffsets a rest).1.getD (v + 1) default).firstNei
        - ((uniteOffsets a rest).1.getD v default).firstNei →
      ((uniteOffsets a rest).1.getD v default).firstNei + j < (uniteOffsets a rest).2 ∧
      ((uniteFill a rest).firstNeiSrc.getD v default).pos + j
        < ((uniteFill a rest).firstNeiSrc.getD v default).arr.length)

/-- Every source offset of the collection lies within its neighbour array. -/
def SomeLocalTriangulations.OffsetsInside (lt : SomeLocalTriangulations) : Prop :=
  ∀ r ∈ lt.fanRecords, r.firstNei ≤ lt.neighbors.length

instance (lt : SomeLocalTriangulations) : Decidable lt.OffsetsInside :=
  inferInstanceAs (Decidable (∀ r ∈ lt.fanRecords, r.firstNei ≤ lt.neighbors.length))

/-- A collection with the fan 1, 2 of the vertex 0. -/
def duplicateFirst : SomeLocalTriangulations :=
  { neighbors := [1, 2]
    fanRecords := [⟨-1, 0, 0⟩, ⟨-1, 2, -1⟩]
    maxCenterId := 0 }

/-- A collection with the fan 3, 4, 5 of the vertex 0. -/
def duplicateSecond : SomeLocalTriangulations :=
  { neighbors := [3, 4, 5]
    fanRecords := [⟨-1, 0, 0⟩, ⟨-1, 3, -1⟩]
    maxCenterId := 0 }

/-- A collection in which the vertex 0 has `2^32 - 1` neighbours. -/
def overrunFirst : SomeLocalTriangulations :=
  { neighbors := List.replicate 4294967295 9
    fanRecords := [⟨-1, 0, 0⟩, ⟨-1, 4294967295, -1⟩]
    maxCenterId := 0 }

/-- A collection in which the vertex 1 has two neighbours. -/
def overrunSecond : SomeLocalTriangulations :=
  { neighbors := [7, 8]
    fanRecords := [⟨-1, 0, 1⟩, ⟨-1, 2, -1⟩]
    maxCenterId := 1 }


/-! ## Binary32 arithmetic -/

/-- A value of the type `float` (IEEE 754 binary32): a finite value, given by the rational
number it stands for, an infinity, or a NaN. The sign of a zero is not kept (no operation of the
functions below tells the two zeros apart). -/
inductive F32 where
  | finite (q : ℚ)
  | posInf
  | negInf
  | nan
deriving DecidableEq

/-- The power `2^k` for an integer exponent. -/
def pow2 (k : Int) : ℚ :=
  if 0 ≤ k then ((2 ^ k.toNat : Nat) : ℚ) else 1 / ((2 ^ (-k).toNat : Nat) : ℚ)

/-- The number of halvings that take `n` below 2, in at most `fuel` steps: the largest `k` with
`2^k <= n` when `fuel` is at least `n` and `n` is not 0. -/
def log2Fuel : Nat → Nat → Nat
  | 0, _ => 0
  | fuel + 1, n => if n < 2 then 0 else log2Fuel fuel (n / 2) + 1

/-- The largest integer `k` with `2^k <= |q|`, for `q` different from 0. -/
def floorLog2 (q : ℚ) : Int :=
  if pow2 ((log2Fuel q.num.natAbs q.num.natAbs : Int) - (log2Fuel q.den q.den : Int)) ≤ |q|
  then (log2Fuel q.num.natAbs q.num.natAbs : Int) - (log2Fuel q.den q.den : Int)
  else (log2Fuel q.num.natAbs q.num.natAbs : Int) - (log2Fuel q.den q.den : Int) - 1

/-- The integer nearest to `q`, the even one of the two when `q` lies half-way. -/
def roundHalfEven (q : ℚ) : Int :=
  if q - (⌊q⌋ : ℚ) < 1 / 2 then ⌊q⌋
  else if 1 / 2 < q - (⌊q⌋ : ℚ) then ⌊q⌋ + 1
  else if ⌊q⌋ % 2 = 0 then ⌊q⌋ else ⌊q⌋ + 1

/-- The constant `FLT_MAX`, `(2 - 2^-23) * 2^127`. -/
def fltMax : ℚ := 340282346638528859811704183484516925440

/-- The binary32 value of a real result `q`, rounded to the nearest value with a 24-bit
significand and an exponent of at least `-126` (ties to even); a result that rounds beyond
`FLT_MAX` becomes an infinity. -/
def F32.round (q : ℚ) : F32 :=
  if q = 0 then F32.finite 0
  else if fltMax < |(roundHalfEven (q / pow2 (max (floorLog2 q) (-126) - 23)) : ℚ)
      * pow2 (max (floorLog2 q) (-126) - 23)| then
    (if 0 < q then F32.posInf else F32.negInf)
  else F32.finite ((roundHalfEven (q / pow2 (max (floorLog2 q) (-126) - 23)) : ℚ)
      * pow2 (max (floorLog2 q) (-126) - 23))

/-- The negation of a `float`. -/
def F32.neg : F32 → F32
  | F32.finite a => F32.finite (-a)
  | F32.posInf => F32.negInf
  | F32.negInf => F32.posInf
  | F32.nan => F32.nan

/-- The sum of two `float` values. -/
def F32.add : F32 → F32 → F32
  | F32.finite a, F32.finite b => F32.round (a + b)
  | F32.nan, _ => F32.nan
  | _, F32.nan => F32.nan
  | F32.posInf, F32.negInf => F32.nan
  | F32.negInf, F32.posInf => F32.nan
  | F32.posInf, _ => F32.posInf
  | _, F32.posInf => F32.posInf
  | F32.negInf, _ => F32.negInf
  | _, F32.negInf => F32.negInf

/-- The product of an infinity with the sign `neg` and a finite value `a`. -/
def F32.infTimes (neg : Bool) (a : ℚ) : F32 :=
  if a = 0 then F32.nan
  else if (decide (a < 0)) = neg then F32.posInf else F32.negInf

/-- The product of two `float` values. -/
def F32.mul : F32 → F32 → F32
  | F32.finite a, F32.finite b => F32.round (a * b)
  | F32.nan, _ => F32.nan
  | _, F32.nan => F32.nan
  | F32.posInf, F32.finite a => F32.infTimes false a
  | F32.negInf, F32.finite a => F32.infTimes true a
  | F32.finite a, F32.posInf => F32.infTimes false a
  | F32.finite a, F32.negInf => F32.infTimes true a
  | F32.posInf, F32.posInf => F32.posInf
  | F32.negInf, F32.negInf => F32.posInf
  | F32.posInf, F32.negInf => F32.negInf
  | F32.negInf, F32.posInf => F32.negInf

/-- The quotient of two `float` values. -/
def F32.div : F32 → F32 → F32
  | F32.finite a, F32.finite b =>
      if b = 0 then (if a = 0 then F32.nan else if 0 < a then F32.posInf else F32.negInf)
      else F32.round (a / b)
  | F32.nan, _ => F32.nan
  | _, F32.nan => F32.nan
  | F32.finite _, _ => F32.finite 0
  | F32.posInf, F32.finite b => if b < 0 then F32.negInf else F32.posInf
  | F32.negInf, F32.finite b => if b < 0 then F32.posInf else F32.negInf
  | _, _ => F32.nan

/-- The comparison `a < b` of two `float` values; false when one of them is a NaN. -/
def F32.blt : F32 → F32 → Bool
  | F32.finite a, F32.finite b => decide (a < b)
  | F32.nan, _ => false
  | _, F32.nan => false
  | F32.negInf, F32.negInf => false
  | F32.negInf, _ => true
  | _, F32.negInf => false
  | F32.posInf, _ => false
  | _, F32.posInf => true

instance : Zero F32 := ⟨F32.finite 0⟩
instance : Add F32 := ⟨F32.add⟩
instance : Sub F32 := ⟨fun a b => F32.add a (F32.neg b)⟩
instance : Mul F32 := ⟨F32.mul⟩
instance : Div F32 := ⟨F32.div⟩
instance : LT F32 := ⟨fun a b => F32.blt a b = true⟩
instance : DecidableRel (fun a b : F32 => a < b) := fun a b =>
  inferInstanceAs (Decidable (F32.blt a b = true))

/-- The `float` value of an integer literal, such as `T(2)`. -/
instance (n : Nat) : OfNat F32 n := ⟨F32.round (n : ℚ)⟩

/-- The update `if ( pt < min ) min = pt;` of `Box::include`. -/
instance : Min F32 := ⟨fun b p => if p < b then p else b⟩

/-- The update `if ( pt > max ) max = pt;` of `Box::include`. -/
instance : Max F32 := ⟨fun b p => if b < p then p else b⟩


/-! ## autoOrientLocalTriangulations in binary32

The functions of this section repeat `initialHeap`, `reweighStep`, `enqueueNeighbors`,
`expansionLoop` and `autoOrientLocalTriangulations` with the arithmetic of the type `float`: the
coordinates, the bounding box and the weights are binary32 values, and `InvalidWeight` is the
value `-FLT_MAX` of the same type instead of a separate value below all weights. The seed pass
is `orientLocalTriangulations` itself, taken at the type `F32`. -/

/-- The constant `InvalidWeight = -FLT_MAX`. -/
def invalidWeight : F32 := F32.finite (-fltMax)

/-- The search for the largest value from the element `i` on, where `best` is the largest element
so far; an element replaces `best` only if its value is larger. -/
def heapTopFromF32 : List F32 → Nat → Nat × F32 → Nat × F32
  | [], _, best => best
  | x :: xs, i, best => heapTopFromF32 xs (i + 1) (if best.2 < x then (i, x) else best)

/-- Modelled from the spec: `heap.top()` on a `Heap<float, VertId>` (MRHeap.h is not part of the
sources), "the vertex with the current maximum priority value" together with its value; among the
elements with the largest value the one with the smallest id is taken. -/
def heapTopF32 (h : List F32) : Nat × F32 :=
  heapTopFromF32 h.tail 1 (0, h.headD invalidWeight)

/-- The variables of the expansion loop, with a heap of `float` values. -/
structure OrientStateF32 where
  triangs : AllLocalTriangulations
  heap : List F32
  map : TriangleMap
  notVisited : List Bool
  visitedCount : Nat
  visitOrder : List Nat

/-- One iteration of the second loop of the lambda `enqueueNeighbors( base )`:
`heap.setValue( v, float( computeVertWeight( v ) ) )` for a neighbour that is not visited yet. -/
def reweighStepF32 (notVisited : List Bool) (map : TriangleMap)
    (s : AllLocalTriangulations × List F32) (n : Nat) : AllLocalTriangulations × List F32 :=
  if testBit notVisited (s.1.neighbors.getD n (-1)) then
    ((computeVertWeight s.1 map (s.1.neighbors.getD n (-1))).1,
      s.2.set (s.1.neighbors.getD n (-1)).toNat
        (F32.round (((computeVertWeight s.1 map (s.1.neighbors.getD n (-1))).2 : Nat) : ℚ)))
  else s

/-- The lambda `enqueueNeighbors( base )`. -/
def enqueueNeighborsF32 (s : OrientStateF32) (base : Nat) : OrientStateF32 :=
  let notVisited := s.notVisited.set base false
  let nbeg := (s.triangs.fanRecords.getD base default).firstNei
  let nend := (s.triangs.fanRecords.getD (base + 1) default).firstNei
  let map := (fanPairsAt s.triangs.neighbors nbeg nend).foldl
    (registerStep notVisited base (s.triangs.fanRecords.getD base default).border) s.map
  let th := (List.range' nbeg (nend - nbeg)).foldl (reweighStepF32 notVisited map)
    (s.triangs, s.heap)
  { triangs := th.1
    heap := th.2
    map := map
    notVisited := notVisited
    visitedCount := s.visitedCount + 1
    visitOrder := s.visitOrder ++ [base] }

/-- The outcome of `autoOrientLocalTriangulations` in binary32. -/
structure AutoOrientResultF32 where
  ok : Bool
  state : OrientStateF32
  log : ProgressLog

/-- The loop `for (;;)` of `autoOrientLocalTriangulations`, for at most `fuel` evaluations of
its first statement; it ends when the top weight equals `InvalidWeight`. -/
def expansionLoopF32 (progress : ProgressCallback) (totalCount : Nat) :
    Nat → OrientStateF32 → ProgressLog → Option AutoOrientResultF32
  | 0, _, _ => none
  | fuel + 1, s, log =>
      if (heapTopF32 s.heap).2 = invalidWeight then some ⟨true, s, log⟩
      else
        let s1 := enqueueNeighborsF32
          { s with heap := s.heap.set (heapTopF32 s.heap).1 invalidWeight } (heapTopF32 s.heap).1
        let p := reportProgressEvery progress log
          ((s1.visitedCount : ℚ) / (totalCount : ℚ)) s1.visitedCount 65536
        if !p.1 then some ⟨false, s1, p.2⟩
        else expansionLoopF32 progress totalCount fuel s1 p.2

/-- The weight `dcenter.lengthSq() - maxDistSqToCenter` of the point `v`. -/
def initialWeightF32 (pc : PointCloud F32) (v : Nat) : F32 :=
  dot ((pc.points.getD v default).sub (boxCenter pc.computeBoundingBox))
      ((pc.points.getD v default).sub (boxCenter pc.computeBoundingBox))
    - boxMaxDistSq pc.computeBoundingBox

/-- The initial value of the heap: `InvalidWeight` for every point, replaced for the valid
points by their weight. -/
def initialHeapF32 (pc : PointCloud F32) : List F32 :=
  (List.range pc.points.length).map (fun v =>
    if pc.validPoints.getD v false then initialWeightF32 pc v else invalidWeight)

/-- The state in which `autoOrientLocalTriangulations` enters its expansion loop in binary32. -/
def loopEntryStateF32 (pc : PointCloud F32) (triangs : AllLocalTriangulations) : OrientStateF32 :=
  ⟨orientLocalTriangulations triangs pc.points
      (fun v => (getAt pc.points v default).sub (boxCenter pc.computeBoundingBox)),
    initialHeapF32 pc, [], pc.validPoints, 0, []⟩

/-- The state after one iteration of the expansion loop in binary32 that starts in the state `s`
with a top weight different from `InvalidWeight`. -/
def loopStepF32 (s : OrientStateF32) : OrientStateF32 :=
  enqueueNeighborsF32 { s with heap := s.heap.set (heapTopF32 s.heap).1 invalidWeight }
    (heapTopF32 s.heap).1

/-- The function `autoOrientLocalTriangulations( pointCloud, triangs, progress )` in binary32,
with at most `fuel` iterations of its expansion loop. -/
def autoOrientLocalTriangulationsF32 (fuel : Nat) (pc : PointCloud F32)
    (triangs : AllLocalTriangulations) (progress : ProgressCallback) (sched : List ℚ) :
    Option AutoOrientResultF32 :=
  let s0 : OrientStateF32 := ⟨triangs, [], [], pc.validPoints, 0, []⟩
  let p0 := reportProgress progress [] (1 / 40)
  if !p0.1 then some ⟨false, s0, p0.2⟩ else
  let p1 := reportProgress progress p0.2 (1 / 40)
  if !p1.1 then some ⟨false, s0, p1.2⟩ else
  let t1 := orientLocalTriangulations triangs pc.points
    (fun v => (getAt pc.points v default).sub (boxCenter pc.computeBoundingBox))
  let s1 : OrientStateF32 := ⟨t1, [], [], pc.validPoints, 0, []⟩
  let p2 := reportProgress progress p1.2 (1 / 20)
  if !p2.1 then some ⟨false, s1, p2.2⟩ else
  let p3 := parallelForProgress (subprogress progress (1 / 20) (3 / 40)) sched p2.2
  if !p3.1 then some ⟨false, s1, p3.2⟩ else
  let p4 := reportProgress progress p3.2 (1 / 10)
  if !p4.1 then some ⟨false, s1, p4.2⟩ else
  expansionLoopF32 (subprogress progress (1 / 10) 1) (countBits pc.validPoints) fuel
    ⟨t1, initialHeapF32 pc, [], pc.validPoints, 0, []⟩ p4.2

/-- The `float` vector with the integer coordinates `x`, `y`, `z`. -/
def vecF32 (x y z : Int) : Vector3 F32 :=
  ⟨F32.round (x : ℚ), F32.round (y : ℚ), F32.round (z : ℚ)⟩

/-- The store of an octahedron with consistently wound closed fans: the vertices 0 and 5, 1 and 3,
2 and 4 are opposite to each other. -/
def octaStore : AllLocalTriangulations :=
  { neighbors := [1, 2, 3, 4,  0, 4, 5, 2,  0, 1, 5, 3,  0, 2, 5, 4,  0, 3, 5, 1,  4, 3, 2, 1]
    fanRecords := [⟨-1, 0⟩, ⟨-1, 4⟩, ⟨-1, 8⟩, ⟨-1, 12⟩, ⟨-1, 16⟩, ⟨-1, 20⟩, ⟨-1, 24⟩] }

/-- The integer coordinates of six points, all of them `float` values: the points 2 and 4 have
`x = 2^24`, the others `x = 1`. -/
def octaCoords : List (Int × Int × Int) :=
  [(1, 0, 0), (1, 0, 1), (16777216, 0, 0), (1, 1, 0), (16777216, 0, 1), (1, 1, 1)]

/-- The points with the integer coordinates `cs` in binary32. -/
def coordsF32 (cs : List (Int × Int × Int)) : List (Vector3 F32) :=
  cs.map (fun p => vecF32 p.1 p.2.1 p.2.2)

/-- The points with the integer coordinates `cs` in exact arithmetic. -/
def coordsExact (cs : List (Int × Int × Int)) : List (Vector3 ℚ) :=
  cs.map (fun p => ⟨(p.1 : ℚ), (p.2.1 : ℚ), (p.2.2 : ℚ)⟩)

/-- The cloud of the six valid points `octaCoords` in binary32. -/
def octaCloudF32 : PointCloud F32 :=
  { points := coordsF32 octaCoords
    validPoints := [true, true, true, true, true, true] }

/-- The cloud of the six valid points `octaCoords` in exact arithmetic. -/
def octaCloud : PointCloud ℚ :=
  { points := coordsExact octaCoords
    validPoints := [true, true, true, true, true, true] }

/-- A cloud of three points in binary32: two valid points at `x = 2^63` and `x = -2^63`, and a
point that is not valid. -/
def overflowCloud : PointCloud F32 :=
  { points := [vecF32 9223372036854775808 0 0, vecF32 (-9223372036854775808) 0 0, vecF32 0 0 0]
    validPoints := [true, true, false] }

/-- A store with empty fans for three vertices. -/
def emptyStore3 : AllLocalTriangulations :=
  { neighbors := []
    fanRecords := [⟨-1, 0⟩, ⟨-1, 0⟩, ⟨-1, 0⟩, ⟨-1, 0⟩] }

/-- A store with the open fan 1, 2 of the vertex 0, whose border is the neighbour 2: the fan has
the single triangle 0, 2, 1. -/
def roundingStore : AllLocalTriangulations :=
  { neighbors := [1, 2]
    fanRecords := [⟨2, 0⟩, ⟨-1, 2⟩, ⟨-1, 2⟩, ⟨-1, 2⟩] }

/-- Integer coordinates for `roundingStore`, all of them `float` values: the cross product of
`coords[2] - coords[0]` and `coords[1] - coords[0]` has the third coordinate
`8192 * 8192 - 8065 * 8321 = 2^26 - (2^26 + 1) = -1`. -/
def roundingCoords : List (Int × Int × Int) :=
  [(0, 0, 0), (8321, 8192, 0), (8192, 8065, 0)]

/-- One collection with the fans of the vertices 0 and 1 whose offsets 0, 5, 3 decrease; the
neighbour array has three elements, as many as the offset of the sentinel says. -/
def badOffsets : SomeLocalTriangulations :=
  { neighbors := [7, 8, 9]
    fanRecords := [⟨-1, 0, 0⟩, ⟨-1, 5, 1⟩, ⟨-1, 3, -1⟩]
    maxCenterId := 1 }

/-! ## Pruning of the incremental map -/

/-- Every fan triangle is listed by the fans of all three of its vertices: an unoriented
triangle of the fan of a vertex is also an unoriented triangle of the fans of its three
corners. -/
def AllLocalTriangulations.TrianglesShared (t : AllLocalTriangulations) : Prop :=
  ∀ v < t.fanRecords.length - 1, ∀ K ∈ (fanTriplets t v).map Prod.fst,
    K ∈ (fanTriplets t K.a.toNat).map Prod.fst ∧
    K ∈ (fanTriplets t K.b.toNat).map Prod.fst ∧
    K ∈ (fanTriplets t K.c.toNat).map Prod.fst

instance (t : AllLocalTriangulations) : Decidable t.TrianglesShared :=
  inferInstanceAs (Decidable (∀ v < t.fanRecords.length - 1,
    ∀ K ∈ (fanTriplets t v).map Prod.fst,
      K ∈ (fanTriplets t K.a.toNat).map Prod.fst ∧
      K ∈ (fanTriplets t K.b.toNat).map Prod.fst ∧
      K ∈ (fanTriplets t K.c.toNat).map Prod.fst))

/-- The pruning invariant of the incremental map for the store `t0` that the function was
called with, the visited vertices `V` and the bit set `nv` of the vertices not visited yet: the
keys are pairwise distinct, every entry belongs to a triangle of the fan of a visited vertex, and
every entry has a corner whose bit in `nv` is set. -/
structure MapPruned (t0 : AllLocalTriangulations) (V : List Nat) (nv : List Bool)
    (m : TriangleMap) : Prop where
  keys_nodup : (m.map Prod.fst).Nodup
  listed : ∀ K r, mapFind m K = some r → ∃ v ∈ V, K ∈ (fanTriplets t0 v).map Prod.fst
  pending : ∀ K r, mapFind m K = some r →
    testBit nv K.a = true ∨ testBit nv K.b = true ∨ testBit nv K.c = true

/-- The stores that the function reaches from the store `t0` by flips of fans: the offsets are
those of `t0`, and every fan has the unoriented triangles of the fan of `t0`. -/
def KeysKept (t0 t1 : AllLocalTriangulations) : Prop :=
  t0.SameShape t1 ∧ ∀ v, v + 1 < t0.fanRecords.length →
    (t1.fan v = t0.fan v ∨ t1.fan v = (t0.fan v).reverse) ∧
    ((fanTriplets t1 v).map Prod.fst).Perm ((fanTriplets t0 v).map Prod.fst)

/-- A store for three vertices in which the vertex 0 lists the neighbour 2 twice: the open fan
2, 2, 1 of the vertex 0 with the border 2, the open fan 2, 0, 2 of the vertex 1 with the border 2,
and the open fan 1, 0 of the vertex 2 with the border 0. Every fan triangle is the triangle
0, 1, 2, which the three fans list. -/
def repeatStore : AllLocalTriangulations :=
  { neighbors := [2, 2, 1, 2, 0, 2, 1, 0]
    fanRecords := [⟨2, 0⟩, ⟨2, 3⟩, ⟨0, 6⟩, ⟨-1, 8⟩] }

/-- A cloud of three valid points for `repeatStore`. -/
def repeatCloud : PointCloud ℚ :=
  { points := [⟨0, 0, 1⟩, ⟨1, 2, 1⟩, ⟨0, 1, 0⟩]
    validPoints := [true, true, true] }

/-- The invariant of the expansion loop in binary32, for the bit set `valid` of the valid points
of a cloud with `n` points: the heap has `n` values; the value of a vertex differs from
`InvalidWeight` exactly when the vertex is not visited yet, and is then above `InvalidWeight`;
the vertices visited so far are pairwise distinct and are the valid vertices whose bit in
`notVisited` is cleared. -/
structure LoopInvF32 (valid : List Bool) (n : Nat) (s : OrientStateF32) : Prop where
  heap_length : s.heap.length = n
  heap_iff : ∀ v, s.heap.getD v invalidWeight ≠ invalidWeight ↔ s.notVisited.getD v false = true
  heap_above : ∀ v, s.notVisited.getD v false = true →
    invalidWeight < s.heap.getD v invalidWeight
  order_nodup : s.visitOrder.Nodup
  order_visited : ∀ v ∈ s.visitOrder, s.notVisited.getD v false = false
  valid_iff : ∀ v, valid.getD v false = true ↔
    (v ∈ s.visitOrder ∨ s.notVisited.getD v false = true)
  count_eq : s.visitOrder.length + countBits s.notVisited = countBits valid
  visitedCount_eq : s.visitedCount = s.visitOrder.length

/-- The value of the heap over exact numbers that stands for a `float` heap value: `none` for
`InvalidWeight`, the number itself for another finite value. -/
def heapValue : F32 → Option ℚ
  | F32.finite q => if q = -fltMax then none else some q
  | _ => none

/-- The state of the expansion loop over exact numbers that stands for a state in binary32. -/
def OrientStateF32.toExact (s : OrientStateF32) : OrientState ℚ :=
  ⟨s.triangs, s.heap.map heapValue, s.map, s.notVisited, s.visitedCount, s.visitOrder⟩

/-- A `float` that is `InvalidWeight` or a finite value above it. -/
def F32.IsWeight (v : F32) : Prop :=
  v = invalidWeight ∨ ∃ q, v = F32.finite q ∧ -fltMax < q

/-- Every fan of the store has fewer than `b` neighbours. -/
def AllLocalTriangulations.FansBelow (t : AllLocalTriangulations) (b : Nat) : Prop :=
  ∀ v, (t.fanRecords.getD (v + 1) default).firstNei - (t.fanRecords.getD v default).firstNei < b

/-- The integer coordinates of the six corners of a regular octahedron, in the order of the
vertices of `octaStore`. -/
def octaUnitCoords : List (Int × Int × Int) :=
  [(0, 0, 1), (1, 0, 0), (0, 1, 0), (-1, 0, 0), (0, -1, 0), (0, 0, -1)]

/-- The cloud of the six valid points `octaUnitCoords` in binary32. -/
def octaUnitCloudF32 : PointCloud F32 :=
  { points := coordsF32 octaUnitCoords
    validPoints := [true, true, true, true, true, true] }

/-- The cloud `tetraCloud` in binary32: four valid points, all of them in the origin. -/
def tetraCloudF32 : PointCloud F32 :=
  { points := [vecF32 0 0 0, vecF32 0 0 0, vecF32 0 0 0, vecF32 0 0 0]
    validPoints := [true, true, true, true] }

/-! ## Progress reporting: lemmas -/

theorem reportProgress_ok (cb : ProgressCallback) (log : ProgressLog) (v : ℚ)
    (h : false ∉ log) :
    ((reportProgress cb log v).1 = true ↔ false ∉ (reportProgress cb log v).2) := by
  cases cb with
  | none => simp [reportProgress, h]
  | some f =>
    simp only [reportProgress, List.mem_append, List.mem_singleton, not_or]
    constructor
    · intro hf; exact ⟨h, by simp [hf]⟩
    · intro hf; cases hfv : f log.length v
      · exact absurd hfv.symm hf.2
      · rfl

theorem parallelForProgress_ok (cb : ProgressCallback) (sched : List ℚ) :
    ∀ log : ProgressLog, false ∉ log →
    ((parallelForProgress cb sched log).1 = true ↔ false ∉ (parallelForProgress cb sched log).2) := by
  induction sched with
  | nil => intro log h; simp [parallelForProgress, h]
  | cons v sched ih =>
    intro log h
    cases cb with
    | none => simp [parallelForProgress, h]
    | some f =>
      have hr := reportProgress_ok (some f) log v h
      simp only [parallelForProgress]
      by_cases h1 : (reportProgress (some f) log v).1 = true
      · rw [if_pos h1]
        exact ih _ (hr.1 h1)
      · rw [if_neg h1]
        constructor
        · intro hc; exact absurd hc (by simp)
        · intro hc; exact absurd (hr.2 hc) h1

theorem reportProgress_true (cb : ProgressCallback) (log : ProgressLog) (v : ℚ)
    (h : ∀ f, cb = some f → ∀ k v, f k v = true) : (reportProgress cb log v).1 = true := by
  cases cb with
  | none => rfl
  | some f => exact h f rfl _ _

theorem parallelForProgress_true (cb : ProgressCallback) (sched : List ℚ)
    (h : ∀ f, cb = some f → ∀ k v, f k v = true) :
    ∀ log, (parallelForProgress cb sched log).1 = true := by
  induction sched with
  | nil => intro log; rfl
  | cons v sched ih =>
    intro log
    cases cb with
    | none => rfl
    | some f =>
      simp only [parallelForProgress]
      rw [if_pos (reportProgress_true _ _ _ h)]
      exact ih _

theorem subprogress_true (cb : ProgressCallback) (a b : ℚ)
    (h : ∀ f, cb = some f → ∀ k v, f k v = true) :
    ∀ g, subprogress cb a b = some g → ∀ k v, g k v = true := by
  intro g hg k v
  cases cb with
  | none => simp [subprogress] at hg
  | some f =>
    simp only [subprogress, Option.map_some', Option.some.injEq] at hg
    subst hg
    exact h f rfl _ _

theorem reportProgress_logOf (f g : Nat → ℚ → Bool) (hg : ∀ k v, ∃ w, g k v = f k w)
    (log : ProgressLog) (v : ℚ) (h : LogOf f log) : LogOf f (reportProgress (some g) log v).2 := by
  intro k hk
  simp only [reportProgress, List.length_append, List.length_singleton] at hk ⊢
  by_cases hlt : k < log.length
  · obtain ⟨w, hw⟩ := h k hlt
    refine ⟨w, ?_⟩
    rw [← hw]
    simp [List.getD_eq_getElem?_getD, List.getElem?_append_left hlt]
  · have hkeq : k = log.length := by omega
    subst hkeq
    obtain ⟨w, hw⟩ := hg log.length v
    refine ⟨w, ?_⟩
    rw [← hw]
    simp [List.getD_eq_getElem?_getD]

theorem parallelForProgress_logOf (f g : Nat → ℚ → Bool) (hg : ∀ k v, ∃ w, g k v = f k w)
    (sched : List ℚ) : ∀ log, LogOf f log → LogOf f (parallelForProgress (some g) sched log).2 := by
  induction sched with
  | nil => intro log h; exact h
  | cons v sched ih =>
    intro log h
    simp only [parallelForProgress]
    split
    · exact ih _ (reportProgress_logOf f g hg log v h)
    · exact reportProgress_logOf f g hg log v h

theorem uniteLocalTriangulations_log (inp : List SomeLocalTriangulations)
    (progress : ProgressCallback) (sched : List ℚ) :
    (progress = none → (uniteLocalTriangulations inp progress sched).2 = []) ∧
    (∀ f, progress = some f → LogOf f (uniteLocalTriangulations inp progress sched).2) := by
  have hnil : ∀ f, LogOf f [] := fun f k hk => absurd hk (by simp)
  have hid : ∀ f : Nat → ℚ → Bool, ∀ k v, ∃ w, f k v = f k w := fun f k v => ⟨v, rfl⟩
  cases inp with
  | nil => exact ⟨fun _ => rfl, fun f _ => hnil f⟩
  | cons a rest =>
    refine ⟨?_, ?_⟩
    · intro h; subst h
      cases sched <;> simp [uniteLocalTriangulations, reportProgress, parallelForProgress, subprogress]
    · intro f h; subst h
      have l0 := reportProgress_logOf f f (hid f) [] 0 (hnil f)
      have l1 := reportProgress_logOf f f (hid f) _ (1/4) l0
      have l2 := reportProgress_logOf f f (hid f) _ (1/2) l1
      have l3 := parallelForProgress_logOf f (fun k v => f k ((1 - v) * (1/2) + v * 1))
        (fun k v => ⟨_, rfl⟩) sched _ l2
      simp only [uniteLocalTriangulations]
      split
      · exact l0
      · split
        · exact l1
        · split
          · exact l2
          · split
            · exact l3
            · exact l3

/-! ## uniteLocalTriangulations: lemmas -/

theorem getD_set_ne {β : Type} (arr : List β) (k j : Nat) (x d : β) (h : k ≠ j) :
    (arr.set k x).getD j d = arr.getD j d := by
  simp [List.getD_eq_getElem?_getD, List.getElem?_set, h]

theorem getD_set_eq {β : Type} (arr : List β) (k : Nat) (x d : β) (h : k < arr.length) :
    (arr.set k x).getD k d = x := by
  simp [List.getD_eq_getElem?_getD, List.getElem?_set, h]
theorem copyFan_length : ∀ (n i : Nat) (src : SrcPtr) (dst : List Int),
    (copyFan n i src dst).length = dst.length := by
  intro n
  induction n with
  | zero => intro i src dst; rfl
  | succ n ih => intro i src dst; simp [copyFan, ih]

theorem copyFan_getD_outside : ∀ (n i : Nat) (src : SrcPtr) (dst : List Int) (p : Nat) (d : Int),
    (p < i ∨ i + n ≤ p) → (copyFan n i src dst).getD p d = dst.getD p d := by
  intro n
  induction n with
  | zero => intro i src dst p d _; rfl
  | succ n ih =>
    intro i src dst p d hp
    simp only [copyFan]
    rw [ih _ _ _ p d (by omega)]
    exact getD_set_ne _ _ _ _ _ (by omega)

theorem copyFan_getD_inside : ∀ (n i : Nat) (src : SrcPtr) (dst : List Int) (j : Nat) (d : Int),
    j < n → i + j < dst.length →
    (copyFan n i src dst).getD (i + j) d = src.arr.getD (src.pos + j) (-1) := by
  intro n
  induction n with
  | zero => intro i src dst j d h; omega
  | succ n ih =>
    intro i src dst j d hj hlen
    simp only [copyFan]
    cases j with
    | zero =>
      rw [copyFan_getD_outside _ _ _ _ _ _ (by omega)]
      simpa using getD_set_eq dst i _ d (by omega)
    | succ j =>
      have := ih (i + 1) ⟨src.arr, src.pos + 1⟩ (dst.set i (src.arr.getD src.pos (-1))) j d
        (by omega) (by simp; omega)
      have e1 : i + (j + 1) = i + 1 + j := by omega
      have e2 : src.pos + (j + 1) = src.pos + 1 + j := by omega
      rw [e1, e2]
      exact this

theorem firstNei_mono_le (recs : List FanRecord)
    (hmono : ∀ i, i + 1 < recs.length →
      (recs.getD i default).firstNei ≤ (recs.getD (i + 1) default).firstNei) :
    ∀ b a, a ≤ b → b < recs.length →
      (recs.getD a default).firstNei ≤ (recs.getD b default).firstNei := by
  intro b
  induction b with
  | zero => intro a ha _; have : a = 0 := by omega
            subst this; exact le_refl _
  | succ b ih =>
    intro a ha hb
    rcases Nat.eq_or_lt_of_le ha with h | h
    · subst h; exact le_refl _
    · exact le_trans (ih a (by omega) (by omega)) (hmono b hb)

theorem copyPrefix_spec (recs : List FanRecord) (srcs : List SrcPtr) (dst : List Int)
    (d : Int)
    (hmono : ∀ i, i + 1 < recs.length →
      (recs.getD i default).firstNei ≤ (recs.getD (i + 1) default).firstNei)
    (hlen : ∀ i, i < recs.length → (recs.getD i default).firstNei ≤ dst.length) :
    ∀ k, k + 1 ≤ recs.length →
      ((List.range k).foldl (copyVertex recs srcs) dst).length = dst.length ∧
      ∀ v, v < k → ∀ j,
        j < (recs.getD (v + 1) default).firstNei - (recs.getD v default).firstNei →
        ((List.range k).foldl (copyVertex recs srcs) dst).getD ((recs.getD v default).firstNei + j) d
          = (srcs.getD v default).arr.getD ((srcs.getD v default).pos + j) (-1) := by
  intro k
  induction k with
  | zero => intro _; exact ⟨rfl, fun v hv => absurd hv (by omega)⟩
  | succ k ih =>
    intro hk
    obtain ⟨hl, hv⟩ := ih (by omega)
    rw [List.range_succ, List.foldl_append]
    simp only [List.foldl_cons, List.foldl_nil]
    refine ⟨?_, ?_⟩
    · simp only [copyVertex]; rw [copyFan_length, hl]
    · intro v hvk j hj
      rcases Nat.eq_or_lt_of_le (Nat.le_of_lt_succ hvk) with h | h
      · subst h
        simp only [copyVertex]
        apply copyFan_getD_inside _ _ _ _ _ _ hj
        rw [hl]
        have := hlen (v + 1) (by omega)
        omega
      · have h1 := firstNei_mono_le recs hmono k (v + 1) (by omega) (by omega)
        simp only [copyVertex]
        rw [copyFan_getD_outside _ _ _ _ _ _ (by omega)]
        exact hv v h j hj

theorem copyNeighbors_spec (recs : List FanRecord) (srcs : List SrcPtr) (dst : List Int)
    (d : Int)
    (hmono : ∀ i, i + 1 < recs.length →
      (recs.getD i default).firstNei ≤ (recs.getD (i + 1) default).firstNei)
    (hlen : ∀ i, i < recs.length → (recs.getD i default).firstNei ≤ dst.length) :
    (copyNeighbors recs srcs dst).length = dst.length ∧
    ∀ v, v + 1 < recs.length → ∀ j,
      j < (recs.getD (v + 1) default).firstNei - (recs.getD v default).firstNei →
      (copyNeighbors recs srcs dst).getD ((recs.getD v default).firstNei + j) d
        = (srcs.getD v default).arr.getD ((srcs.getD v default).pos + j) (-1) := by
  cases hr : recs.length with
  | zero =>
    simp only [copyNeighbors, hr]
    exact ⟨rfl, fun v hv => absurd hv (by omega)⟩
  | succ n =>
    have := copyPrefix_spec recs srcs dst d hmono hlen n (by omega)
    simp only [copyNeighbors, hr, Nat.add_sub_cancel]
    exact ⟨this.1, fun v hv => this.2 v (by omega)⟩

theorem slice_eq_readSlice (l : List Int) (a n : Nat) (src : SrcPtr)
    (hlen : a + n ≤ l.length)
    (h : ∀ j, j < n → l.getD (a + j) (-1) = src.arr.getD (src.pos + j) (-1)) :
    (l.drop a).take n = readSlice src n := by
  apply List.ext_getElem
  · simp [readSlice]; omega
  · intro j h1 h2
    have hj : j < n := by simp at h1; omega
    have := h j hj
    rw [List.getD_eq_getElem _ _ (by omega)] at this
    simp [readSlice, this]


theorem applyWrites_length {β : Type} (ws : List (Nat × β)) :
    ∀ arr : List β, (applyWrites arr ws).length = arr.length := by
  induction ws with
  | nil => intro arr; rfl
  | cons w ws ih => intro arr; simp only [applyWrites, List.foldl_cons] at ih ⊢; rw [ih]; simp

theorem applyWrites_getD_of_not_mem {β : Type} (d : β) (ws : List (Nat × β)) :
    ∀ (arr : List β) (k : Nat), k ∉ ws.map Prod.fst →
      (applyWrites arr ws).getD k d = arr.getD k d := by
  induction ws with
  | nil => intro arr k _; rfl
  | cons w ws ih =>
    intro arr k hk
    simp only [List.map_cons, List.mem_cons, not_or] at hk
    simp only [applyWrites, List.foldl_cons] at ih ⊢
    rw [ih _ k hk.2]
    exact getD_set_ne arr w.1 k w.2 d (fun h => hk.1 h.symm)

theorem applyWrites_getD_of_mem {β : Type} (d : β) (ws : List (Nat × β)) :
    ∀ (arr : List β) (k : Nat) (x : β), (ws.map Prod.fst).Nodup → (k, x) ∈ ws → k < arr.length →
      (applyWrites arr ws).getD k d = x := by
  induction ws with
  | nil => intro arr k x _ h; simp at h
  | cons w ws ih =>
    intro arr k x hnd hmem hk
    simp only [List.map_cons, List.nodup_cons] at hnd
    simp only [applyWrites, List.foldl_cons] at ih ⊢
    rcases List.mem_cons.1 hmem with h | h
    · subst h
      have := applyWrites_getD_of_not_mem d ws (arr.set k x) k hnd.1
      simp only [applyWrites] at this
      rw [this]
      exact getD_set_eq arr k x d hk
    · exact ih _ k x hnd.2 h (by simpa using hk)

theorem applyWrites_map {β γ : Type} (f : β → γ) (ws : List (Nat × β)) :
    ∀ arr : List β, (applyWrites arr ws).map f
      = applyWrites (arr.map f) (ws.map (fun w => (w.1, f w.2))) := by
  induction ws with
  | nil => intro arr; rfl
  | cons w ws ih =>
    intro arr
    simp only [applyWrites, List.foldl_cons, List.map_cons] at ih ⊢
    rw [ih, List.map_set]

theorem sum_set_add (l : List Nat) (k x : Nat) (h : k < l.length) :
    (l.set k x).sum + l.getD k 0 = l.sum + x := by
  induction l generalizing k with
  | nil => simp at h
  | cons a l ih =>
    cases k with
    | zero => simp; omega
    | succ k =>
      simp only [List.set_cons_succ, List.sum_cons, List.getD_cons_succ]
      have := ih k (by simpa using h)
      omega

theorem applyWrites_sum (ws : List (Nat × Nat)) :
    ∀ arr : List Nat, (ws.map Prod.fst).Nodup → (∀ w ∈ ws, w.1 < arr.length) →
      (∀ w ∈ ws, arr.getD w.1 0 = 0) →
      (applyWrites arr ws).sum = arr.sum + (ws.map Prod.snd).sum := by
  induction ws with
  | nil => intro arr _ _ _; simp [applyWrites]
  | cons w ws ih =>
    intro arr hnd hlt hz
    simp only [List.map_cons, List.nodup_cons] at hnd
    simp only [applyWrites, List.foldl_cons] at ih ⊢
    rw [ih (arr.set w.1 w.2) hnd.2]
    · have h1 := sum_set_add arr w.1 w.2 (hlt w (List.mem_cons_self _ _))
      rw [hz w (List.mem_cons_self _ _)] at h1
      simp only [List.map_cons, List.sum_cons]
      omega
    · intro w1 hw1
      simpa using hlt w1 (List.mem_cons_of_mem _ hw1)
    · intro w1 hw1
      have hne : w.1 ≠ w1.1 := by
        intro h; apply hnd.1; rw [h]; exact List.mem_map_of_mem _ hw1
      rw [getD_set_ne _ _ _ _ _ hne]
      exact hz w1 (List.mem_cons_of_mem _ hw1)


theorem fillRecords_eq (nbrs : List Int) :
    ∀ (rs : List FanRecordWithCenter) (st : FillState),
      fillRecords nbrs rs st = (fanEntries nbrs rs).foldl applyEntry st := by
  intro rs
  induction rs with
  | nil => intro st; rfl
  | cons r rs ih =>
    intro st
    cases rs with
    | nil => rfl
    | cons r1 rest =>
      simp only [fillRecords, fanEntries, List.foldl_cons]
      rw [ih]
      rfl

theorem fillAll_eq : ∀ (inp : List SomeLocalTriangulations) (st : FillState),
    fillAll inp st = (allEntries inp).foldl applyEntry st := by
  intro inp
  induction inp with
  | nil => intro st; rfl
  | cons lt rest ih =>
    intro st
    simp only [fillAll, allEntries, List.flatMap_cons, List.foldl_append]
    rw [ih, fillRecords_eq]
    rfl

theorem foldl_applyEntry_fanRecords (es : List FanEntry) (hpos : ∀ e ∈ es, 0 ≤ e.center) :
    ∀ st : FillState, (es.foldl applyEntry st).fanRecords
      = applyWrites st.fanRecords (es.map (fun e => (e.center.toNat, e.fan))) := by
  induction es with
  | nil => intro st; rfl
  | cons e es ih =>
    intro st
    simp only [List.foldl_cons, List.map_cons, applyWrites]
    rw [ih (fun e1 h => hpos e1 (List.mem_cons_of_mem _ h))]
    simp [applyEntry, setAt, hpos e (List.mem_cons_self _ _), applyWrites]

theorem foldl_applyEntry_firstNeiSrc (es : List FanEntry) (hpos : ∀ e ∈ es, 0 ≤ e.center) :
    ∀ st : FillState, (es.foldl applyEntry st).firstNeiSrc
      = applyWrites st.firstNeiSrc (es.map (fun e => (e.center.toNat, e.src))) := by
  induction es with
  | nil => intro st; rfl
  | cons e es ih =>
    intro st
    simp only [List.foldl_cons, List.map_cons, applyWrites]
    rw [ih (fun e1 h => hpos e1 (List.mem_cons_of_mem _ h))]
    simp [applyEntry, setAt, hpos e (List.mem_cons_self _ _), applyWrites]

/-! prefix sums -/

theorem rewriteFirstNei_length : ∀ (recs : List FanRecord) (s : Nat),
    (rewriteFirstNei recs s).1.length = recs.length := by
  intro recs
  induction recs with
  | nil => intro s; rfl
  | cons a recs ih => intro s; simp [rewriteFirstNei, ih]

theorem rewriteFirstNei_border : ∀ (recs : List FanRecord) (s : Nat),
    (rewriteFirstNei recs s).1.map (·.border) = recs.map (·.border) := by
  intro recs
  induction recs with
  | nil => intro s; rfl
  | cons a recs ih => intro s; simp [rewriteFirstNei, ih]

theorem rewriteFirstNei_total : ∀ (recs : List FanRecord) (s : Nat), s < u32Size →
    (rewriteFirstNei recs s).2 = (s + (recs.map (·.firstNei)).sum) % u32Size := by
  intro recs
  induction recs with
  | nil => intro s h; simp only [rewriteFirstNei, u32Size, List.map_nil, List.sum_nil] at h ⊢; omega
  | cons a recs ih =>
    intro s _
    simp only [rewriteFirstNei, List.map_cons, List.sum_cons]
    rw [ih _ (by simp only [add32, u32Size]; omega)]
    simp only [add32, u32Size]
    omega

theorem rewriteFirstNei_firstNei : ∀ (recs : List FanRecord) (s i : Nat), i < recs.length →
    s < u32Size →
    ((rewriteFirstNei recs s).1.getD i default).firstNei
      = (s + ((recs.map (·.firstNei)).take i).sum) % u32Size := by
  intro recs
  induction recs with
  | nil => intro s i h; simp at h
  | cons a recs ih =>
    intro s i hi hs
    cases i with
    | zero => simp only [rewriteFirstNei, List.getD_cons_zero, List.take_zero, List.sum_nil, u32Size] at hs ⊢; omega
    | succ i =>
      simp only [rewriteFirstNei, List.getD_cons_succ, List.map_cons, List.take_succ_cons, List.sum_cons]
      rw [ih _ i (by simpa using hi) (by simp only [add32, u32Size]; omega)]
      simp only [add32, u32Size]
      omega

theorem rewriteFirstNei_getD_border : ∀ (recs : List FanRecord) (s i : Nat),
    ((rewriteFirstNei recs s).1.getD i default).border = (recs.getD i default).border := by
  intro recs
  induction recs with
  | nil => intro s i; rfl
  | cons a recs ih =>
    intro s i
    cases i with
    | zero => rfl
    | succ i => simp only [rewriteFirstNei, List.getD_cons_succ]; exact ih _ i


theorem fanEntries_map_center (nbrs : List Int) : ∀ rs : List FanRecordWithCenter,
    (fanEntries nbrs rs).map (·.center) = rs.dropLast.map (·.center) := by
  intro rs
  induction rs with
  | nil => rfl
  | cons r rs ih =>
    cases rs with
    | nil => rfl
    | cons r1 rest =>
      simp only [fanEntries, List.map_cons, List.dropLast_cons₂]
      rw [ih]

theorem allEntries_map_center (inp : List SomeLocalTriangulations) :
    (allEntries inp).map (·.center) = allCenters inp := by
  induction inp with
  | nil => rfl
  | cons lt rest ih =>
    simp only [allEntries, allCenters, List.flatMap_cons, List.map_append] at ih ⊢
    rw [ih, fanEntries_map_center]
    rfl

theorem sub32_eq (a b : Nat) (hab : a ≤ b) (hb : b < u32Size) : sub32 b a = b - a := by
  simp only [sub32, u32Size] at hb ⊢
  omega

theorem fanEntries_map_size (nbrs : List Int) : ∀ rs : List FanRecordWithCenter,
    (∀ r ∈ rs, r.firstNei < u32Size) →
    List.Chain' (fun a b : FanRecordWithCenter => a.firstNei ≤ b.firstNei) rs →
    (fanEntries nbrs rs).map (·.fan.firstNei) = fanSizes rs := by
  intro rs
  induction rs with
  | nil => intro _ _; rfl
  | cons r rs ih =>
    intro h32 hch
    cases rs with
    | nil => rfl
    | cons r1 rest =>
      simp only [fanEntries, fanSizes, List.map_cons]
      rw [List.chain'_cons] at hch
      rw [ih (fun x hx => h32 x (List.mem_cons_of_mem _ hx)) hch.2,
        sub32_eq _ _ hch.1 (h32 r1 (by simp))]

theorem offsets_chain_of_index : ∀ (rs : List FanRecordWithCenter),
    (∀ i < rs.length - 1, (rs.getD i default).firstNei ≤ (rs.getD (i + 1) default).firstNei) →
    List.Chain' (fun a b : FanRecordWithCenter => a.firstNei ≤ b.firstNei) rs := by
  intro rs
  induction rs with
  | nil => intro _; exact List.chain'_nil
  | cons r rs ih =>
    intro h
    cases rs with
    | nil => exact List.chain'_singleton _
    | cons r1 rest =>
      rw [List.chain'_cons]
      refine ⟨h 0 (by simp), ih ?_⟩
      intro i hi
      exact h (i + 1) (by simp at hi ⊢; omega)

theorem allEntries_sum_size (inp : List SomeLocalTriangulations)
    (h32 : ∀ lt ∈ inp, lt.WellTyped) (hmono : ∀ lt ∈ inp, lt.OffsetsMonotone) :
    ((allEntries inp).map (·.fan.firstNei)).sum = totalFanSize inp := by
  induction inp with
  | nil => rfl
  | cons lt rest ih =>
    simp only [allEntries, totalFanSize, List.flatMap_cons, List.map_append, List.sum_append,
      List.map_cons, List.sum_cons] at ih ⊢
    rw [ih (fun x hx => h32 x (List.mem_cons_of_mem _ hx))
      (fun x hx => hmono x (List.mem_cons_of_mem _ hx)),
      fanEntries_map_size _ _ (h32 lt (List.mem_cons_self _ _)).1
        (offsets_chain_of_index _ (hmono lt (List.mem_cons_self _ _)))]

theorem mem_fanEntries (nbrs : List Int) : ∀ (rs : List FanRecordWithCenter) (i : Nat),
    i + 1 < rs.length →
    (⟨(rs.getD i default).center,
      ⟨(rs.getD i default).border, sub32 (rs.getD (i + 1) default).firstNei (rs.getD i default).firstNei⟩,
      ⟨nbrs, (rs.getD i default).firstNei⟩⟩ : FanEntry) ∈ fanEntries nbrs rs := by
  intro rs
  induction rs with
  | nil => intro i h; simp at h
  | cons r rs ih =>
    intro i hi
    cases rs with
    | nil => simp at hi
    | cons r1 rest =>
      cases i with
      | zero => simp [fanEntries]
      | succ i =>
        simp only [fanEntries, List.getD_cons_succ, List.mem_cons]
        right
        exact ih i (by simpa using hi)

theorem mem_allEntries (inp : List SomeLocalTriangulations) (lt : SomeLocalTriangulations)
    (hlt : lt ∈ inp) (i : Nat) (hi : i + 1 < lt.fanRecords.length) :
    (⟨(lt.fanRecords.getD i default).center,
      ⟨(lt.fanRecords.getD i default).border,
        sub32 (lt.fanRecords.getD (i + 1) default).firstNei (lt.fanRecords.getD i default).firstNei⟩,
      ⟨lt.neighbors, (lt.fanRecords.getD i default).firstNei⟩⟩ : FanEntry) ∈ allEntries inp := by
  simp only [allEntries, List.mem_flatMap]
  exact ⟨lt, hlt, mem_fanEntries _ _ i hi⟩

theorem maxElementCenterId_ge : ∀ (rest : List SomeLocalTriangulations) (a : SomeLocalTriangulations),
    a.maxCenterId ≤ maxElementCenterId a rest ∧
    ∀ lt ∈ rest, lt.maxCenterId ≤ maxElementCenterId a rest := by
  intro rest
  induction rest with
  | nil => intro a; simp [maxElementCenterId]
  | cons b rest ih =>
    intro a
    simp only [maxElementCenterId]
    split
    · rename_i h
      refine ⟨le_trans (le_of_lt h) (ih b).1, ?_⟩
      intro lt hlt
      rcases List.mem_cons.1 hlt with h1 | h1
      · subst h1; exact (ih lt).1
      · exact (ih b).2 lt h1
    · rename_i h
      refine ⟨(ih a).1, ?_⟩
      intro lt hlt
      rcases List.mem_cons.1 hlt with h1 | h1
      · subst h1; exact le_trans (not_lt.1 h) (ih a).1
      · exact (ih a).2 lt h1

theorem maxElementCenterId_mem : ∀ (rest : List SomeLocalTriangulations) (a : SomeLocalTriangulations),
    ∃ lt ∈ a :: rest, maxElementCenterId a rest = lt.maxCenterId := by
  intro rest
  induction rest with
  | nil => intro a; exact ⟨a, by simp, rfl⟩
  | cons b rest ih =>
    intro a
    simp only [maxElementCenterId]
    split
    · obtain ⟨lt, hlt, h⟩ := ih b
      exact ⟨lt, List.mem_cons_of_mem _ hlt, h⟩
    · obtain ⟨lt, hlt, h⟩ := ih a
      refine ⟨lt, ?_, h⟩
      rcases List.mem_cons.1 hlt with h1 | h1
      · subst h1; simp
      · simp [h1]


theorem sum_take_succ (l : List Nat) : ∀ i, i < l.length →
    (l.take (i + 1)).sum = (l.take i).sum + l.getD i 0 := by
  induction l with
  | nil => intro i h; simp at h
  | cons a l ih =>
    intro i hi
    cases i with
    | zero => simp
    | succ i =>
      simp only [List.take_succ_cons, List.sum_cons, List.getD_cons_succ]
      rw [ih i (by simpa using hi)]
      omega

theorem sum_take_le (l : List Nat) : ∀ i, (l.take i).sum ≤ l.sum := by
  induction l with
  | nil => intro i; simp
  | cons a l ih =>
    intro i
    cases i with
    | zero => simp
    | succ i => simp only [List.take_succ_cons, List.sum_cons]; have := ih i; omega

theorem sum_take_length (l : List Nat) : (l.take l.length).sum = l.sum := by
  rw [List.take_length]

/-- Facts about the store built from writes with pairwise distinct in-range centres and a total
number of neighbours that fits 32 bits. -/
theorem buildStore_spec (es : List FanEntry) (n : Nat)
    (hpos : ∀ e ∈ es, 0 ≤ e.center) (hlt : ∀ e ∈ es, e.center.toNat + 1 < n)
    (hnd : (es.map (·.center)).Nodup)
    (htot : (es.map (·.fan.firstNei)).sum < u32Size) (hn : 0 < n) :
    (buildStore es n).fanRecords.length = n ∧
    (buildStore es n).neighbors.length = (es.map (·.fan.firstNei)).sum ∧
    ((buildStore es n).fanRecords.getD 0 default).firstNei = 0 ∧
    ((buildStore es n).fanRecords.getD (n - 1) default).firstNei
      = (es.map (·.fan.firstNei)).sum ∧
    (∀ i, i + 1 < n → ((buildStore es n).fanRecords.getD i default).firstNei
      ≤ ((buildStore es n).fanRecords.getD (i + 1) default).firstNei) ∧
    (∀ e ∈ es,
      ((buildStore es n).fanRecords.getD e.center.toNat default).border = e.fan.border ∧
      ((buildStore es n).fanRecords.getD (e.center.toNat + 1) default).firstNei
        - ((buildStore es n).fanRecords.getD e.center.toNat default).firstNei = e.fan.firstNei ∧
      (buildStore es n).fan e.center.toNat = readSlice e.src e.fan.firstNei) ∧
    (∀ v, v + 1 < n → (v : Int) ∉ es.map (·.center) →
      ((buildStore es n).fanRecords.getD v default).border = -1 ∧
      ((buildStore es n).fanRecords.getD (v + 1) default).firstNei
        = ((buildStore es n).fanRecords.getD v default).firstNei) := by
  -- the arrays after the first pass
  set st := es.foldl applyEntry
    { fanRecords := List.replicate n default, firstNeiSrc := List.replicate n default } with hst
  have hrec : st.fanRecords = applyWrites (List.replicate n default)
      (es.map (fun e => (e.center.toNat, e.fan))) := foldl_applyEntry_fanRecords es hpos _
  have hsrc : st.firstNeiSrc = applyWrites (List.replicate n default)
      (es.map (fun e => (e.center.toNat, e.src))) := foldl_applyEntry_firstNeiSrc es hpos _
  have hkeys : (es.map (fun e => e.center.toNat)).Nodup := by
    have : es.map (fun e => e.center.toNat) = (es.map (·.center)).map Int.toNat := by
      simp [List.map_map]
    rw [this]
    apply List.Nodup.map_on _ hnd
    intro x hx y hy hxy
    obtain ⟨e1, he1, rfl⟩ := List.mem_map.1 hx
    obtain ⟨e2, he2, rfl⟩ := List.mem_map.1 hy
    have p1 : (0 : Int) ≤ e1.center := hpos e1 he1
    have p2 : (0 : Int) ≤ e2.center := hpos e2 he2
    have p3 : Int.toNat e1.center = Int.toNat e2.center := hxy
    omega
  have hreclen : st.fanRecords.length = n := by rw [hrec, applyWrites_length]; simp
  -- numbers of neighbours
  set cnts := st.fanRecords.map (·.firstNei) with hcnts
  have hcw : cnts = applyWrites (List.replicate n 0)
      (es.map (fun e => (e.center.toNat, e.fan.firstNei))) := by
    rw [hcnts, hrec, applyWrites_map]
    simp only [List.map_replicate, List.map_map]
    rfl
  have hclen : cnts.length = n := by rw [hcnts, List.length_map, hreclen]
  have hcsum : cnts.sum = (es.map (·.fan.firstNei)).sum := by
    rw [hcw, applyWrites_sum]
    · simp [List.map_map, Function.comp_def]
    · simpa [List.map_map, Function.comp_def] using hkeys
    · intro w hw
      obtain ⟨e, he, rfl⟩ := List.mem_map.1 hw
      simp only [List.length_replicate]
      have := hlt e he; omega
    · intro w hw
      simp [List.getD_eq_getElem?_getD, List.getElem?_replicate]
      split <;> rfl
  have hcmem : ∀ e ∈ es, cnts.getD e.center.toNat 0 = e.fan.firstNei := by
    intro e he
    rw [hcw]
    apply applyWrites_getD_of_mem
    · simpa [List.map_map, Function.comp_def] using hkeys
    · exact List.mem_map.2 ⟨e, he, rfl⟩
    · simp only [List.length_replicate]; have := hlt e he; omega
  have hcnot : ∀ v : Nat, (v : Int) ∉ es.map (·.center) → cnts.getD v 0 = 0 := by
    intro v hv
    rw [hcw, applyWrites_getD_of_not_mem]
    · simp [List.getD_eq_getElem?_getD, List.getElem?_replicate]
      split <;> rfl
    · intro hmem
      simp only [List.map_map, List.mem_map, Function.comp_apply] at hmem
      obtain ⟨e, he, hev⟩ := hmem
      apply hv
      refine List.mem_map.2 ⟨e, he, ?_⟩
      have p1 : (0 : Int) ≤ e.center := hpos e he
      have p2 : Int.toNat e.center = v := hev
      omega
  -- offsets
  have hF : ∀ i, i < n → ((rewriteFirstNei st.fanRecords 0).1.getD i default).firstNei
      = (cnts.take i).sum := by
    intro i hi
    rw [rewriteFirstNei_firstNei _ _ _ (by omega) (by simp [u32Size]), ← hcnts]
    have := sum_take_le cnts i
    rw [Nat.zero_add]
    apply Nat.mod_eq_of_lt
    omega
  have hT : (rewriteFirstNei st.fanRecords 0).2 = (es.map (·.fan.firstNei)).sum := by
    rw [rewriteFirstNei_total _ _ (by simp [u32Size]), Nat.zero_add, ← hcnts, hcsum]
    exact Nat.mod_eq_of_lt htot
  have hlast : (cnts.take (n - 1)).sum = cnts.sum := by
    have h1 := sum_take_succ cnts (n - 1) (by omega)
    have h2 : n - 1 + 1 = cnts.length := by omega
    rw [h2, sum_take_length] at h1
    have h3 : cnts.getD (n - 1) 0 = 0 := by
      apply hcnot
      intro hmem
      obtain ⟨e, he, hev⟩ := List.mem_map.1 hmem
      have p0 := hlt e he
      have p1 : (0 : Int) ≤ e.center := hpos e he
      have p2 : (e.center : Int) = ((n - 1 : Nat) : Int) := hev
      omega
    omega
  have hrwlen : (rewriteFirstNei st.fanRecords 0).1.length = n := by
    rw [rewriteFirstNei_length, hreclen]
  have hFmono : ∀ i, i + 1 < (rewriteFirstNei st.fanRecords 0).1.length →
      ((rewriteFirstNei st.fanRecords 0).1.getD i default).firstNei
        ≤ ((rewriteFirstNei st.fanRecords 0).1.getD (i + 1) default).firstNei := by
    intro i hi
    rw [hrwlen] at hi
    rw [hF i (by omega), hF (i + 1) hi, sum_take_succ cnts i (by omega)]
    omega
  have hFlen : ∀ i, i < (rewriteFirstNei st.fanRecords 0).1.length →
      ((rewriteFirstNei st.fanRecords 0).1.getD i default).firstNei
        ≤ (List.replicate (rewriteFirstNei st.fanRecords 0).2 (-1 : Int)).length := by
    intro i hi
    rw [hrwlen] at hi
    rw [hF i hi, List.length_replicate, hT, ← hcsum]
    exact sum_take_le _ _
  have hcopy := copyNeighbors_spec (rewriteFirstNei st.fanRecords 0).1 st.firstNeiSrc
    (List.replicate (rewriteFirstNei st.fanRecords 0).2 (-1)) (-1) hFmono hFlen
  have hdiff : ∀ v, v + 1 < n →
      ((rewriteFirstNei st.fanRecords 0).1.getD (v + 1) default).firstNei
        = ((rewriteFirstNei st.fanRecords 0).1.getD v default).firstNei + cnts.getD v 0 := by
    intro v hv
    rw [hF v (by omega), hF (v + 1) hv, sum_take_succ cnts v (by omega)]
  -- the result
  have hb : (buildStore es n) =
      { neighbors := copyNeighbors (rewriteFirstNei st.fanRecords 0).1 st.firstNeiSrc
          (List.replicate (rewriteFirstNei st.fanRecords 0).2 (-1))
        fanRecords := (rewriteFirstNei st.fanRecords 0).1 } := rfl
  rw [hb]
  simp only
  refine ⟨hrwlen, ?_, ?_, ?_, ?_, ?_, ?_⟩
  · rw [hcopy.1, List.length_replicate, hT]
  · rw [hF 0 hn]; simp
  · rw [hF (n - 1) (by omega), hlast, hcsum]
  · intro i hi; exact hFmono i (by rw [hrwlen]; exact hi)
  · intro e he
    have hk := hlt e he
    refine ⟨?_, ?_, ?_⟩
    · rw [rewriteFirstNei_getD_border, hrec]
      rw [applyWrites_getD_of_mem default _ _ e.center.toNat e.fan
        (by simpa [List.map_map, Function.comp_def] using hkeys)
        (List.mem_map.2 ⟨e, he, rfl⟩) (by simp only [List.length_replicate]; omega)]
    · rw [hdiff _ hk, hcmem e he]; omega
    · simp only [AllLocalTriangulations.fan]
      have hd := hdiff _ hk
      rw [hcmem e he] at hd
      have hsrce : st.firstNeiSrc.getD e.center.toNat default = e.src := by
        rw [hsrc]
        exact applyWrites_getD_of_mem default _ _ e.center.toNat e.src
          (by simpa [List.map_map, Function.comp_def] using hkeys)
          (List.mem_map.2 ⟨e, he, rfl⟩) (by simp only [List.length_replicate]; omega)
      have hsz : ((rewriteFirstNei st.fanRecords 0).1.getD (e.center.toNat + 1) default).firstNei
          - ((rewriteFirstNei st.fanRecords 0).1.getD e.center.toNat default).firstNei
          = e.fan.firstNei := by omega
      rw [hsz]
      apply slice_eq_readSlice
      · rw [hcopy.1]
        have := hFlen (e.center.toNat + 1) (by rw [hrwlen]; exact hk)
        omega
      · intro j hj
        have := hcopy.2 e.center.toNat (by rw [hrwlen]; exact hk) j (by omega)
        rw [this, hsrce]
  · intro v hv hnot
    refine ⟨?_, ?_⟩
    · rw [rewriteFirstNei_getD_border, hrec, applyWrites_getD_of_not_mem]
      · simp [List.getD_eq_getElem?_getD, List.getElem?_replicate]
        split <;> rfl
      · intro hmem
        simp only [List.map_map, List.mem_map, Function.comp_apply] at hmem
        obtain ⟨e, he, hev⟩ := hmem
        apply hnot
        refine List.mem_map.2 ⟨e, he, ?_⟩
        have p1 : (0 : Int) ≤ e.center := hpos e he
        have p2 : Int.toNat e.center = v := hev
        omega
    · rw [hdiff v hv, hcnot v hnot]; rfl

theorem uniteResult_eq_buildStore (a : SomeLocalTriangulations) (rest : List SomeLocalTriangulations) :
    uniteResult a rest
      = buildStore (allEntries (a :: rest)) (maxElementCenterId a rest + 2).toNat := by
  simp only [uniteResult, buildStore, fillAll_eq]

theorem uniteLocalTriangulations_eq_some (a : SomeLocalTriangulations)
    (rest : List SomeLocalTriangulations) (progress : ProgressCallback) (sched : List ℚ)
    (h : ∀ f, progress = some f → ∀ k v, f k v = true) :
    (uniteLocalTriangulations (a :: rest) progress sched).1 = some (uniteResult a rest) := by
  simp only [uniteLocalTriangulations]
  rw [reportProgress_true _ _ _ h, reportProgress_true _ _ _ h, reportProgress_true _ _ _ h,
    parallelForProgress_true _ _ (subprogress_true _ _ _ h)]
  simp

theorem readSlice_eq_slice (arr : List Int) (pos n : Nat) (h : pos + n ≤ arr.length) :
    readSlice ⟨arr, pos⟩ n = (arr.drop pos).take n :=
  (slice_eq_readSlice arr pos n ⟨arr, pos⟩ h (fun _ _ => rfl)).symm

/-- The hypotheses of `buildStore_spec` for the writes of a list of collections. -/
theorem allEntries_hyps (a : SomeLocalTriangulations) (rest : List SomeLocalTriangulations)
    (hcb : ∀ lt ∈ a :: rest, lt.CentersBounded) :
    (∀ e ∈ allEntries (a :: rest), 0 ≤ e.center) ∧
    (∀ e ∈ allEntries (a :: rest), e.center.toNat + 1 < (maxElementCenterId a rest + 2).toNat) := by
  have key : ∀ e ∈ allEntries (a :: rest), 0 ≤ e.center ∧ e.center ≤ maxElementCenterId a rest := by
    intro e he
    have hc : e.center ∈ allCenters (a :: rest) := by
      rw [← allEntries_map_center]; exact List.mem_map.2 ⟨e, he, rfl⟩
    simp only [allCenters, List.mem_flatMap] at hc
    obtain ⟨lt, hlt, hcl⟩ := hc
    have h1 := hcb lt hlt e.center hcl
    have h2 : lt.maxCenterId ≤ maxElementCenterId a rest := by
      rcases List.mem_cons.1 hlt with h | h
      · subst h; exact (maxElementCenterId_ge rest lt).1
      · exact (maxElementCenterId_ge rest a).2 lt h
    exact ⟨h1.1, le_trans h1.2 h2⟩
  refine ⟨fun e he => (key e he).1, ?_⟩
  intro e he
  have := key e he
  omega

theorem getD_mem {β : Type} (l : List β) (i : Nat) (d : β) (h : i < l.length) : l.getD i d ∈ l := by
  rw [List.getD_eq_getElem _ _ h]
  exact List.getElem_mem h

theorem getD_map_firstNei (recs : List FanRecord) (i : Nat) :
    (recs.map (·.firstNei)).getD i 0 = (recs.getD i default).firstNei := by
  simp only [List.getD_eq_getElem?_getD, List.getElem?_map]
  cases recs[i]? <;> rfl

/-- Telescoping of the running sum modulo `2^32`. -/
theorem rewriteFirstNei_telescope (recs : List FanRecord) (o : Nat → Nat) (n : Nat)
    (hlen : recs.length = n + 1) (ho : ∀ i ≤ n, o i < u32Size) (h0 : o 0 = 0)
    (hc : ∀ i < n, (recs.getD i default).firstNei = sub32 (o (i + 1)) (o i))
    (hlast : (recs.getD n default).firstNei = 0) :
    (∀ i ≤ n, ((rewriteFirstNei recs 0).1.getD i default).firstNei = o i) ∧
    (rewriteFirstNei recs 0).2 = o n := by
  have key : ∀ i ≤ n, ((recs.map (·.firstNei)).take i).sum % u32Size = o i := by
    intro i
    induction i with
    | zero => intro _; simp [h0]
    | succ i ih =>
      intro hi
      have h1 := ih (by omega)
      rw [sum_take_succ _ i (by simp; omega), getD_map_firstNei, hc i (by omega)]
      have h2 := ho i (by omega)
      have h3 := ho (i + 1) hi
      simp only [sub32, u32Size] at h1 h2 h3 ⊢
      omega
  refine ⟨?_, ?_⟩
  · intro i hi
    rw [rewriteFirstNei_firstNei _ _ _ (by omega) (by simp [u32Size]), Nat.zero_add]
    exact key i hi
  · rw [rewriteFirstNei_total _ _ (by simp [u32Size]), Nat.zero_add]
    have h1 := sum_take_succ (recs.map (·.firstNei)) n (by simp; omega)
    have h2 : n + 1 = (recs.map (·.firstNei)).length := by simp; omega
    rw [h2, sum_take_length, getD_map_firstNei, hlast] at h1
    rw [h1, Nat.add_zero]
    exact key n (le_refl _)

/-- A position below the last offset lies in one of the ranges `[o v, o (v+1))`. -/
theorem offsets_cover (o : Nat → Nat) (p : Nat) (h0 : o 0 ≤ p) :
    ∀ n, p < o n → ∃ v, v < n ∧ o v ≤ p ∧ p < o (v + 1) := by
  intro n
  induction n with
  | zero => intro h; omega
  | succ n ih =>
    intro h
    by_cases hn : p < o n
    · obtain ⟨v, hv, h1, h2⟩ := ih hn
      exact ⟨v, by omega, h1, h2⟩
    · exact ⟨n, by omega, by omega, h⟩

/-- Copying every fan from the position it already has in `nbrs`. -/
theorem copyPrefix_identity (nbrs : List Int) (recs : List FanRecord) (srcs : List SrcPtr)
    (dst : List Int)
    (hsrc : ∀ v, v + 1 < recs.length →
      srcs.getD v default = ⟨nbrs, (recs.getD v default).firstNei⟩) :
    ∀ k, k + 1 ≤ recs.length →
      ((List.range k).foldl (copyVertex recs srcs) dst).length = dst.length ∧
      ∀ p, p < dst.length →
        ((List.range k).foldl (copyVertex recs srcs) dst).getD p (-1) = nbrs.getD p (-1) ∨
        (((List.range k).foldl (copyVertex recs srcs) dst).getD p (-1) = dst.getD p (-1) ∧
          ∀ v, v < k → ¬ ((recs.getD v default).firstNei ≤ p ∧
            p < (recs.getD (v + 1) default).firstNei)) := by
  intro k
  induction k with
  | zero => intro _; exact ⟨rfl, fun p _ => Or.inr ⟨rfl, fun v hv => absurd hv (by omega)⟩⟩
  | succ k ih =>
    intro hk
    obtain ⟨hl, hp⟩ := ih (by omega)
    rw [List.range_succ, List.foldl_append]
    simp only [List.foldl_cons, List.foldl_nil]
    refine ⟨?_, ?_⟩
    · simp only [copyVertex]; rw [copyFan_length, hl]
    · intro p hpl
      simp only [copyVertex]
      by_cases hin : (recs.getD k default).firstNei ≤ p ∧ p < (recs.getD (k + 1) default).firstNei
      · left
        have hj : p = (recs.getD k default).firstNei + (p - (recs.getD k default).firstNei) := by
          omega
        rw [hj, copyFan_getD_inside _ _ _ _ _ _ (by omega) (by rw [hl]; omega),
          hsrc k (by omega)]
      · rw [copyFan_getD_outside _ _ _ _ _ _ (by omega)]
        rcases hp p hpl with h | h
        · exact Or.inl h
        · refine Or.inr ⟨h.1, ?_⟩
          intro v hv
          rcases Nat.eq_or_lt_of_le (Nat.le_of_lt_succ hv) with e | e
          · subst e; exact hin
          · exact h.2 v e

theorem copyNeighbors_identity (nbrs : List Int) (recs : List FanRecord) (srcs : List SrcPtr)
    (n : Nat) (hlen : recs.length = n + 1)
    (hsrc : ∀ v, v + 1 < recs.length →
      srcs.getD v default = ⟨nbrs, (recs.getD v default).firstNei⟩)
    (h0 : (recs.getD 0 default).firstNei = 0)
    (hL : (recs.getD n default).firstNei = nbrs.length) :
    copyNeighbors recs srcs (List.replicate nbrs.length (-1)) = nbrs := by
  have h := copyPrefix_identity nbrs recs srcs (List.replicate nbrs.length (-1)) hsrc n (by omega)
  simp only [copyNeighbors, hlen, Nat.add_sub_cancel]
  apply List.ext_getElem
  · rw [h.1, List.length_replicate]
  · intro p h1 h2
    have hp := h.2 p (by simpa using h2)
    rw [List.getD_eq_getElem _ _ h1, List.getD_eq_getElem _ _ h2] at hp
    rcases hp with e | e
    · exact e
    · exfalso
      obtain ⟨v, hv, hv1, hv2⟩ := offsets_cover (fun i => (recs.getD i default).firstNei) p
        (by show (recs.getD 0 default).firstNei ≤ p; omega) n
        (by show p < (recs.getD n default).firstNei; omega)
      exact e.2 v hv ⟨hv1, hv2⟩
/-- The arrays after the first pass, for writes with pairwise distinct in-range centres. -/
theorem fill_spec (es : List FanEntry) (n : Nat)
    (hpos : ∀ e ∈ es, 0 ≤ e.center) (hlt : ∀ e ∈ es, e.center.toNat + 1 < n)
    (hnd : (es.map (·.center)).Nodup) :
    (es.foldl applyEntry
      { fanRecords := List.replicate n default, firstNeiSrc := List.replicate n default }
      ).fanRecords.length = n ∧
    (∀ e ∈ es,
      (es.foldl applyEntry
        { fanRecords := List.replicate n default, firstNeiSrc := List.replicate n default }
        ).fanRecords.getD e.center.toNat default = e.fan ∧
      (es.foldl applyEntry
        { fanRecords := List.replicate n default, firstNeiSrc := List.replicate n default }
        ).firstNeiSrc.getD e.center.toNat default = e.src) ∧
    (∀ v : Nat, (v : Int) ∉ es.map (·.center) →
      (es.foldl applyEntry
        { fanRecords := List.replicate n default, firstNeiSrc := List.replicate n default }
        ).fanRecords.getD v default = default) := by
  have hkeys : (es.map (fun e => e.center.toNat)).Nodup := by
    have : es.map (fun e => e.center.toNat) = (es.map (·.center)).map Int.toNat := by
      simp [List.map_map]
    rw [this]
    apply List.Nodup.map_on _ hnd
    intro x hx y hy hxy
    obtain ⟨e1, he1, rfl⟩ := List.mem_map.1 hx
    obtain ⟨e2, he2, rfl⟩ := List.mem_map.1 hy
    have p1 : (0 : Int) ≤ e1.center := hpos e1 he1
    have p2 : (0 : Int) ≤ e2.center := hpos e2 he2
    have p3 : Int.toNat e1.center = Int.toNat e2.center := hxy
    omega
  rw [foldl_applyEntry_fanRecords es hpos, foldl_applyEntry_firstNeiSrc es hpos]
  refine ⟨by rw [applyWrites_length]; simp, ?_, ?_⟩
  · intro e he
    have hk := hlt e he
    exact ⟨applyWrites_getD_of_mem default _ _ e.center.toNat e.fan
        (by simpa [List.map_map, Function.comp_def] using hkeys)
        (List.mem_map.2 ⟨e, he, rfl⟩) (by simp only [List.length_replicate]; omega),
      applyWrites_getD_of_mem default _ _ e.center.toNat e.src
        (by simpa [List.map_map, Function.comp_def] using hkeys)
        (List.mem_map.2 ⟨e, he, rfl⟩) (by simp only [List.length_replicate]; omega)⟩
  · intro v hv
    rw [applyWrites_getD_of_not_mem]
    · simp [List.getD_eq_getElem?_getD, List.getElem?_replicate]
      split <;> rfl
    · intro hmem
      simp only [List.map_map, List.mem_map, Function.comp_apply] at hmem
      obtain ⟨e, he, hev⟩ := hmem
      apply hv
      refine List.mem_map.2 ⟨e, he, ?_⟩
      have p1 : (0 : Int) ≤ e.center := hpos e he
      have p2 : Int.toNat e.center = v := hev
      omega

theorem centers_eq_range (rs : List FanRecordWithCenter) (m : Nat) (hlen : rs.length = m + 2)
    (hc : ∀ i ≤ m, (rs.getD i default).center = (i : Int)) :
    rs.dropLast.map (·.center) = (List.range (m + 1)).map (fun i : Nat => (i : Int)) := by
  apply List.ext_getElem
  · simp [hlen]
  · intro i h1 h2
    have hi : i ≤ m := by simp at h2; omega
    have := hc i hi
    rw [List.getD_eq_getElem _ _ (by omega)] at this
    simp [this]

/-! ## Claims about uniteLocalTriangulations -/

/-- C1: `uniteLocalTriangulations` returns no result exactly when the input list is empty or
(for a non-empty list) the progress callback answered false at one of its invocations; with a
non-empty list and a callback that always answers true (or no callback) it returns a result.
The logged answers are answers of the callback, and nothing is logged without a callback. -/
theorem uniteLocalTriangulations_none_iff (inp : List SomeLocalTriangulations)
    (progress : ProgressCallback) (sched : List ℚ) :
    ((uniteLocalTriangulations inp progress sched).1 = none ↔
      (inp = [] ∨ (inp ≠ [] ∧ false ∈ (uniteLocalTriangulations inp progress sched).2))) ∧
    (inp ≠ [] → (∀ f, progress = some f → ∀ k v, f k v = true) →
      (uniteLocalTriangulations inp progress sched).1 ≠ none) ∧
    (progress = none → (uniteLocalTriangulations inp progress sched).2 = []) ∧
    (∀ f, progress = some f → LogOf f (uniteLocalTriangulations inp progress sched).2) := by
  refine ⟨?_, ?_, (uniteLocalTriangulations_log inp progress sched).1,
    (uniteLocalTriangulations_log inp progress sched).2⟩
  · cases inp with
    | nil => simp [uniteLocalTriangulations]
    | cons a rest =>
      have h0 := reportProgress_ok progress [] 0 (by simp)
      simp only [uniteLocalTriangulations, reduceCtorEq, false_or, ne_eq, not_false_eq_true, true_and]
      by_cases c0 : (reportProgress progress [] 0).1 = true
      · have h1 := reportProgress_ok progress _ (1/4) (h0.1 c0)
        by_cases c1 : (reportProgress progress (reportProgress progress [] 0).2 (1/4)).1 = true
        · have h2 := reportProgress_ok progress _ (1/2) (h1.1 c1)
          by_cases c2 : (reportProgress progress (reportProgress progress (reportProgress progress [] 0).2 (1/4)).2 (1/2)).1 = true
          · have h3 := parallelForProgress_ok (subprogress progress (1/2) 1) sched _ (h2.1 c2)
            by_cases c3 : (parallelForProgress (subprogress progress (1/2) 1) sched (reportProgress progress (reportProgress progress (reportProgress progress [] 0).2 (1/4)).2 (1/2)).2).1 = true
            · simp only [c0, c1, c2, c3, Bool.not_true, Bool.false_eq_true, if_false, reduceCtorEq, false_iff]
              exact h3.1 c3
            · have := mt h3.2 c3
              simp only [c0, c1, c2, c3, Bool.not_true, Bool.false_eq_true, if_false, Bool.not_false, if_true, true_iff]
              simpa using this
          · have := mt h2.2 c2
            simp only [c0, c1, c2, Bool.not_true, Bool.false_eq_true, if_false, Bool.not_false, if_true, true_iff]
            simpa using this
        · have := mt h1.2 c1
          simp only [c0, c1, Bool.not_true, Bool.false_eq_true, if_false, Bool.not_false, if_true, true_iff]
          simpa using this
      · have := mt h0.2 c0
        simp only [c0, Bool.not_false, if_true, true_iff]
        simpa using this
  · intro hne h
    cases inp with
    | nil => exact absurd rfl hne
    | cons a rest =>
      rw [uniteLocalTriangulations_eq_some a rest progress sched h]
      simp

/-- C1 at a concrete input: two collections and no callback give a result. -/
theorem uniteLocalTriangulations_none_iff_witness :
    (uniteLocalTriangulations exampleCollections none []).1 ≠ none :=
  (uniteLocalTriangulations_none_iff exampleCollections none []).2.1 (by decide)
    (fun f h => by cases h)

/-- C2 (amended): for every non-empty list of partial collections in which no centre occurs twice,
every centre is a valid id at most its collection's `maxCenterId`, the source offsets are
non-decreasing 32-bit values whose fan sizes sum to less than `2^32`, and with no cancellation:
for every non-sentinel record with centre `v`, the merged border of `v` equals the source border
and the merged neighbour slice `[firstNei(v), firstNei(v+1))` equals, element by element, the
values read through the source pointer (the source slice itself when it lies in the source
array). -/
theorem uniteLocalTriangulations_copies_fans (inp : List SomeLocalTriangulations)
    (progress : ProgressCallback) (sched : List ℚ)
    (hne : inp ≠ [])
    (h32 : ∀ lt ∈ inp, lt.WellTyped)
    (hcb : ∀ lt ∈ inp, lt.CentersBounded)
    (hnd : (allCenters inp).Nodup)
    (hmono : ∀ lt ∈ inp, lt.OffsetsMonotone)
    (htot : totalFanSize inp < u32Size)
    (hprog : ∀ f, progress = some f → ∀ k v, f k v = true) :
    ∃ res, (uniteLocalTriangulations inp progress sched).1 = some res ∧
      ∀ lt ∈ inp, ∀ i, i + 1 < lt.fanRecords.length →
        (res.fanRecords.getD (lt.fanRecords.getD i default).center.toNat default).border
          = (lt.fanRecords.getD i default).border ∧
        res.fan (lt.fanRecords.getD i default).center.toNat
          = readSlice ⟨lt.neighbors, (lt.fanRecords.getD i default).firstNei⟩
              ((lt.fanRecords.getD (i + 1) default).firstNei
                - (lt.fanRecords.getD i default).firstNei) ∧
        ((lt.fanRecords.getD (i + 1) default).firstNei ≤ lt.neighbors.length →
          res.fan (lt.fanRecords.getD i default).center.toNat
            = (lt.neighbors.drop (lt.fanRecords.getD i default).firstNei).take
                ((lt.fanRecords.getD (i + 1) default).firstNei
                  - (lt.fanRecords.getD i default).firstNei)) := by
  cases inp with
  | nil => exact absurd rfl hne
  | cons a rest =>
    refine ⟨uniteResult a rest, uniteLocalTriangulations_eq_some a rest progress sched hprog, ?_⟩
    obtain ⟨hpos, hlt⟩ := allEntries_hyps a rest hcb
    have hsum := allEntries_sum_size (a :: rest) h32 hmono
    have hspec := buildStore_spec (allEntries (a :: rest)) (maxElementCenterId a rest + 2).toNat
      hpos hlt (by rw [allEntries_map_center]; exact hnd) (by rw [hsum]; exact htot)
    intro lt hlt1 i hi
    rw [uniteResult_eq_buildStore]
    have hmem := mem_allEntries (a :: rest) lt hlt1 i hi
    have hn : 0 < (maxElementCenterId a rest + 2).toNat := by
      have := hlt _ hmem; omega
    obtain ⟨_, _, _, _, _, hE, _⟩ := hspec hn
    obtain ⟨hb, _, hf⟩ := hE _ hmem
    have hle : (lt.fanRecords.getD i default).firstNei
        ≤ (lt.fanRecords.getD (i + 1) default).firstNei :=
      hmono lt hlt1 i (by omega)
    have h32b : (lt.fanRecords.getD (i + 1) default).firstNei < u32Size :=
      (h32 lt hlt1).1 _ (getD_mem _ _ _ hi)
    simp only at hb hf
    rw [sub32_eq _ _ hle h32b] at hf
    refine ⟨hb, hf, ?_⟩
    intro hin
    rw [hf]
    exact readSlice_eq_slice _ _ _ (by omega)
/-- C2 (amended) at a concrete input: the fan of vertex 2 is copied from the first collection. -/
theorem uniteLocalTriangulations_copies_fans_witness :
    ∃ res, (uniteLocalTriangulations exampleCollections none []).1 = some res ∧
      (res.fanRecords.getD 2 default).border = 0 ∧ res.fan 2 = [0, 1] := by
  obtain ⟨res, h1, h2⟩ := uniteLocalTriangulations_copies_fans exampleCollections none []
    (by decide) (by decide) (by decide) (by decide) (by decide) (by decide)
    (fun f h => by cases h)
  have h3 := h2 (exampleCollections.getD 0 ⟨[], [], -1⟩) (by decide) 1 (by decide)
  exact ⟨res, h1, h3.1, h3.2.1⟩

/-- C2 fails as stated: with `2^32 + 1` neighbours in all, the hypotheses of the claim hold, the
running sum wraps around at vertex 1, and the merged slice of vertex 1 is empty although its source
slice has `2^32 - 1` neighbours. -/
theorem uniteLocalTriangulations_copies_fans_overflow :
    overflowCollections ≠ [] ∧ (allCenters overflowCollections).Nodup ∧
    (∀ lt ∈ overflowCollections, lt.WellTyped ∧ lt.CentersBounded ∧ lt.OffsetsMonotone) ∧
    ∃ res, (uniteLocalTriangulations overflowCollections none []).1 = some res ∧
      ∃ lt ∈ overflowCollections, ∃ i, i + 1 < lt.fanRecords.length ∧
        (lt.fanRecords.getD (i + 1) default).firstNei = lt.neighbors.length ∧
        res.fan (lt.fanRecords.getD i default).center.toNat
          ≠ (lt.neighbors.drop (lt.fanRecords.getD i default).firstNei).take
              ((lt.fanRecords.getD (i + 1) default).firstNei
                - (lt.fanRecords.getD i default).firstNei) := by
  refine ⟨by decide, by decide, by decide, _, uniteLocalTriangulations_eq_some _ _ none []
    (fun f h => by cases h), ⟨List.replicate 4294967295 9, [⟨-1, 0, 1⟩, ⟨-1, 4294967295, -1⟩], 1⟩,
    List.mem_cons_of_mem _ (List.mem_cons_self _ _), 0, by decide, ?_, ?_⟩
  · exact (List.length_replicate 4294967295 (9 : Int)).symm
  · have h1 : (uniteResult (overflowCollections.getD 0 ⟨[], [], -1⟩)
        (overflowCollections.drop 1)).fan 1 = [] := by decide
    intro h
    have h2 : (([] : List Int)).length
        = ((List.replicate 4294967295 (9 : Int)).drop 0 |>.take (4294967295 - 0)).length :=
      congrArg List.length (h1.symm.trans h)
    rw [List.length_take, List.length_drop, List.length_replicate] at h2
    exact absurd h2 (by decide)


/-- C3 (amended): for every non-empty list of partial collections (centres valid and at most
`maxCenterId`, no duplicate centres, non-decreasing 32-bit source offsets whose fan sizes sum to
less than `2^32`, no cancellation) the result is a valid CSR store: it has exactly `M + 2` records
where `M` is the largest `maxCenterId`; `firstNei` of record 0 is 0; `firstNei` is non-decreasing;
`firstNei(v+1) - firstNei(v)` is the source fan size of `v` (0 for a vertex in no collection); the
sentinel's `firstNei` is the length of the merged neighbour array, the sum of all source fan
sizes. -/
theorem uniteLocalTriangulations_csr (inp : List SomeLocalTriangulations)
    (progress : ProgressCallback) (sched : List ℚ)
    (hne : inp ≠ [])
    (h32 : ∀ lt ∈ inp, lt.WellTyped)
    (hcb : ∀ lt ∈ inp, lt.CentersBounded)
    (hnd : (allCenters inp).Nodup)
    (hmono : ∀ lt ∈ inp, lt.OffsetsMonotone)
    (htot : totalFanSize inp < u32Size)
    (hprog : ∀ f, progress = some f → ∀ k v, f k v = true) :
    ∃ res, (uniteLocalTriangulations inp progress sched).1 = some res ∧
      (∃ M : Int, (∀ lt ∈ inp, lt.maxCenterId ≤ M) ∧ (∃ lt ∈ inp, lt.maxCenterId = M) ∧
        (res.fanRecords.length : Int) = M + 2) ∧
      (res.fanRecords.getD 0 default).firstNei = 0 ∧
      (∀ v, v + 1 < res.fanRecords.length →
        (res.fanRecords.getD v default).firstNei ≤ (res.fanRecords.getD (v + 1) default).firstNei) ∧
      (∀ lt ∈ inp, ∀ i, i + 1 < lt.fanRecords.length →
        (res.fanRecords.getD ((lt.fanRecords.getD i default).center.toNat + 1) default).firstNei
          - (res.fanRecords.getD (lt.fanRecords.getD i default).center.toNat default).firstNei
          = (lt.fanRecords.getD (i + 1) default).firstNei
            - (lt.fanRecords.getD i default).firstNei) ∧
      (∀ v : Nat, v + 1 < res.fanRecords.length → (v : Int) ∉ allCenters inp →
        (res.fanRecords.getD (v + 1) default).firstNei
          - (res.fanRecords.getD v default).firstNei = 0) ∧
      (res.fanRecords.getD (res.fanRecords.length - 1) default).firstNei = res.neighbors.length ∧
      res.neighbors.length = totalFanSize inp := by
  cases inp with
  | nil => exact absurd rfl hne
  | cons a rest =>
    refine ⟨uniteResult a rest, uniteLocalTriangulations_eq_some a rest progress sched hprog, ?_⟩
    obtain ⟨hpos, hlt⟩ := allEntries_hyps a rest hcb
    have hsum := allEntries_sum_size (a :: rest) h32 hmono
    obtain ⟨ltM, hltM, hM⟩ := maxElementCenterId_mem rest a
    have hM1 : -1 ≤ maxElementCenterId a rest := by rw [hM]; exact (h32 ltM hltM).2
    have hn : 0 < (maxElementCenterId a rest + 2).toNat := by omega
    obtain ⟨hlen, hnl, h0, hlast, hmn, hE, hN⟩ :=
      buildStore_spec (allEntries (a :: rest)) (maxElementCenterId a rest + 2).toNat
        hpos hlt (by rw [allEntries_map_center]; exact hnd) (by rw [hsum]; exact htot) hn
    rw [uniteResult_eq_buildStore]
    refine ⟨⟨maxElementCenterId a rest, ?_, ⟨ltM, hltM, hM.symm⟩, ?_⟩, h0, ?_, ?_, ?_, ?_, ?_⟩
    · intro lt hlt1
      rcases List.mem_cons.1 hlt1 with h | h
      · subst h; exact (maxElementCenterId_ge rest lt).1
      · exact (maxElementCenterId_ge rest a).2 lt h
    · rw [hlen]; omega
    · intro v hv; exact hmn v (by rw [← hlen]; exact hv)
    · intro lt hlt1 i hi
      have hmem := mem_allEntries (a :: rest) lt hlt1 i hi
      have := (hE _ hmem).2.1
      simp only at this
      rw [this]
      exact sub32_eq _ _ (hmono lt hlt1 i (by omega))
        ((h32 lt hlt1).1 _ (getD_mem _ _ _ hi))
    · intro v hv hnot
      have := (hN v (by rw [← hlen]; exact hv) (by rw [allEntries_map_center]; exact hnot)).2
      omega
    · rw [hlen, hlast, hnl]
    · rw [hnl, hsum]

/-- C3 (amended) at a concrete input: four records and seven neighbours. -/
theorem uniteLocalTriangulations_csr_witness :
    ∃ res, (uniteLocalTriangulations exampleCollections none []).1 = some res ∧
      res.fanRecords.length = 4 ∧ res.neighbors.length = 7 := by
  obtain ⟨res, h1, ⟨M, hM1, hM2, hM3⟩, _, _, _, _, _, h2⟩ :=
    uniteLocalTriangulations_csr exampleCollections none []
      (by decide) (by decide) (by decide) (by decide) (by decide) (by decide)
      (fun f h => by cases h)
  refine ⟨res, h1, ?_, by rw [h2]; decide⟩
  have e1 := hM1 (exampleCollections.getD 0 ⟨[], [], -1⟩) (by decide)
  obtain ⟨lt, hlt, e2⟩ := hM2
  have e3 : lt.maxCenterId ≤ 2 := by
    simp only [exampleCollections, List.mem_cons, List.mem_singleton, List.not_mem_nil, or_false] at hlt
    rcases hlt with h | h <;> subst h <;> decide
  have e4 : (2 : Int) ≤ M := e1
  omega

/-- C3 fails as stated, in two ways: with source offsets 0, 5, 3, 7 the merged offsets are
0, 5, 3, 7; with `2^32 + 1` neighbours in all the merged offsets are 0, 1, 0, 1. Neither is
non-decreasing. -/
theorem uniteLocalTriangulations_csr_fails :
    (decreasingCollection ≠ [] ∧ (allCenters decreasingCollection).Nodup ∧
      (∀ lt ∈ decreasingCollection, lt.WellTyped ∧ lt.CentersBounded) ∧
      ∃ res, (uniteLocalTriangulations decreasingCollection none []).1 = some res ∧
        res.fanRecords.map (·.firstNei) = [0, 5, 3, 7] ∧
        ¬ (∀ v, v + 1 < res.fanRecords.length →
          (res.fanRecords.getD v default).firstNei
            ≤ (res.fanRecords.getD (v + 1) default).firstNei)) ∧
    (overflowCollections ≠ [] ∧ (allCenters overflowCollections).Nodup ∧
      (∀ lt ∈ overflowCollections, lt.WellTyped ∧ lt.CentersBounded ∧ lt.OffsetsMonotone) ∧
      ∃ res, (uniteLocalTriangulations overflowCollections none []).1 = some res ∧
        res.fanRecords.map (·.firstNei) = [0, 1, 0, 1] ∧
        ¬ (∀ v, v + 1 < res.fanRecords.length →
          (res.fanRecords.getD v default).firstNei
            ≤ (res.fanRecords.getD (v + 1) default).firstNei)) := by
  refine ⟨⟨by decide, by decide, by decide, _, uniteLocalTriangulations_eq_some _ _ none []
    (fun f h => by cases h), by decide, ?_⟩, ⟨by decide, by decide, by decide, _,
    uniteLocalTriangulations_eq_some _ _ none [] (fun f h => by cases h), by decide, ?_⟩⟩
  · intro h
    exact absurd (h 1 (by decide)) (by decide)
  · intro h
    exact absurd (h 1 (by decide)) (by decide)


/-! ## Fans: lemmas -/

theorem cyclicPairs_length (fan : List Int) : (cyclicPairs fan).length = fan.length := by
  simp [cyclicPairs]

theorem cyclicPairs_eq_map_range (fan : List Int) :
    cyclicPairs fan = (List.range fan.length).map
      (fun j => (fan.getD j (-1), fan.getD ((j + 1) % fan.length) (-1))) := by
  apply List.ext_getElem
  · simp [cyclicPairs]
  · intro j h1 h2
    have hj : j < fan.length := by simpa [cyclicPairs] using h1
    have hm : (j + 1) % fan.length < fan.length := Nat.mod_lt _ (by omega)
    simp only [cyclicPairs, List.getElem_zip, List.getElem_rotate, List.getElem_map,
      List.getElem_range, List.getD_eq_getElem _ _ hj, List.getD_eq_getElem _ _ hm]

theorem slice_getD (nbrs : List Int) (a n j : Nat) (d : Int) (hj : j < n)
    (h : a + n ≤ nbrs.length) :
    ((nbrs.drop a).take n).getD j d = nbrs.getD (a + j) d := by
  have e1 : j < ((nbrs.drop a).take n).length := by simp; omega
  have e2 : a + j < nbrs.length := by omega
  rw [List.getD_eq_getElem _ _ e1, List.getD_eq_getElem _ _ e2]
  simp

theorem fanPairsAt_eq_cyclicPairs (nbrs : List Int) (nbeg nend : Nat) (h1 : nbeg ≤ nend)
    (h2 : nend ≤ nbrs.length) :
    fanPairsAt nbrs nbeg nend = cyclicPairs ((nbrs.drop nbeg).take (nend - nbeg)) := by
  rw [cyclicPairs_eq_map_range]
  have hlen : ((nbrs.drop nbeg).take (nend - nbeg)).length = nend - nbeg := by
    simp; omega
  rw [hlen]
  apply List.ext_getElem
  · simp [fanPairsAt]
  · intro j e1 e2
    have hj : j < nend - nbeg := by simpa [fanPairsAt] using e1
    have hm : (j + 1) % (nend - nbeg) < nend - nbeg := Nat.mod_lt _ (by omega)
    simp only [fanPairsAt, List.getElem_map, List.getElem_range', List.getElem_range, one_mul]
    have a1 : nbrs.getD (nbeg + j) (-1) = ((nbrs.drop nbeg).take (nend - nbeg)).getD j (-1) :=
      (slice_getD nbrs nbeg (nend - nbeg) j (-1) hj (by omega)).symm
    have a2 : nbrs.getD (if nbeg + j + 1 < nend then nbeg + j + 1 else nbeg) (-1)
        = ((nbrs.drop nbeg).take (nend - nbeg)).getD ((j + 1) % (nend - nbeg)) (-1) := by
      rw [slice_getD nbrs nbeg (nend - nbeg) _ (-1) hm (by omega)]
      by_cases hlt : nbeg + j + 1 < nend
      · have : (j + 1) % (nend - nbeg) = j + 1 := Nat.mod_eq_of_lt (by omega)
        rw [if_pos hlt, this, Nat.add_assoc]
      · have : j + 1 = nend - nbeg := by omega
        rw [if_neg hlt, this, Nat.mod_self, Nat.add_zero]
    rw [a1, a2]

theorem foldl_orientStep {α : Type} [Zero α] [Add α] [Sub α] [Mul α] [LT α]
    [DecidableRel (fun a b : α => a < b)] (dirC cp : Vector3 α)
    (coords : List (Vector3 α)) (bd : Int) (ps : List (Int × Int)) :
    ∀ acc : OrientAcc,
      (ps.foldl (orientStep dirC cp coords bd) acc).sum
        = acc.sum + (ps.map (fun p => if p.1 = bd then 0
            else triangleVote dirC cp coords p.1 p.2)).sum ∧
      (ps.foldl (orientStep dirC cp coords bd) acc).otherBd
        = ps.foldl (fun o p => if p.1 = bd then p.2 else o) acc.otherBd := by
  induction ps with
  | nil => intro acc; simp
  | cons p ps ih =>
    intro acc
    simp only [List.foldl_cons, List.map_cons, List.sum_cons]
    obtain ⟨h1, h2⟩ := ih (orientStep dirC cp coords bd acc p)
    rw [h1, h2]
    by_cases hb : p.1 = bd
    · simp [orientStep, hb]
    · simp only [orientStep, hb, if_false, triangleVote, signVote]
      split
      · simp; omega
      · split
        · simp; omega
        · simp

theorem fanTally_eq {α : Type} [Zero α] [Add α] [Sub α] [Mul α] [LT α]
    [DecidableRel (fun a b : α => a < b)] (dirC cp : Vector3 α)
    (coords : List (Vector3 α)) (bd : Int) (fan : List Int) :
    fanTally dirC cp coords bd fan
      = ((cyclicPairs fan).map (fun p => if p.1 = bd then 0
          else triangleVote dirC cp coords p.1 p.2)).sum := by
  rw [cyclicPairs_eq_map_range, fanTally, List.map_map]
  rfl
theorem reverseRange_length (nbrs : List Int) (a b : Nat) (h1 : a ≤ b) (h2 : b ≤ nbrs.length) :
    (reverseRange nbrs a b).length = nbrs.length := by
  simp [reverseRange]; omega

theorem reverseRange_getD_outside (nbrs : List Int) (a b : Nat) (h1 : a ≤ b)
    (h2 : b ≤ nbrs.length) (p : Nat) (d : Int) (hp : p < a ∨ b ≤ p) :
    (reverseRange nbrs a b).getD p d = nbrs.getD p d := by
  simp only [reverseRange, List.getD_eq_getElem?_getD]
  congr 1
  rcases hp with hp | hp
  · rw [List.append_assoc, List.getElem?_append_left (by simp only [List.length_append, List.length_take, List.length_reverse, List.length_drop]; omega)]
    simp [List.getElem?_take, hp]
  · rw [List.getElem?_append_right (by simp only [List.length_append, List.length_take, List.length_reverse, List.length_drop]; omega)]
    simp only [List.length_append, List.length_take, List.length_reverse, List.length_drop,
      List.getElem?_drop]
    congr 1
    omega

theorem reverseRange_getD_inside (nbrs : List Int) (a b : Nat) (h1 : a ≤ b)
    (h2 : b ≤ nbrs.length) (j : Nat) (d : Int) (hj : j < b - a) :
    (reverseRange nbrs a b).getD (a + j) d = nbrs.getD (a + (b - a - 1 - j)) d := by
  simp only [reverseRange, List.getD_eq_getElem?_getD]
  congr 1
  rw [List.getElem?_append_left (by simp only [List.length_append, List.length_take, List.length_reverse, List.length_drop]; omega), List.getElem?_append_right (by simp only [List.length_append, List.length_take, List.length_reverse, List.length_drop]; omega)]
  simp only [List.length_take]
  rw [List.getElem?_reverse (by simp only [List.length_append, List.length_take, List.length_reverse, List.length_drop]; omega)]
  simp only [List.length_take, List.length_drop, List.getElem?_take, List.getElem?_drop]
  have e1 : min a nbrs.length = a := by omega
  have e2 : min (b - a) (nbrs.length - a) = b - a := by omega
  rw [e1, e2, if_pos (by omega)]
  congr 1
  omega

theorem slice_ext (l1 l2 : List Int) (a1 a2 n : Nat) (h1 : a1 + n ≤ l1.length)
    (h2 : a2 + n ≤ l2.length) (h : ∀ j < n, l1.getD (a1 + j) (-1) = l2.getD (a2 + j) (-1)) :
    (l1.drop a1).take n = (l2.drop a2).take n := by
  apply List.ext_getElem
  · simp; omega
  · intro j e1 e2
    have hj : j < n := by simp at e1; omega
    have := h j hj
    rw [← slice_getD l1 a1 n j (-1) hj h1, ← slice_getD l2 a2 n j (-1) hj h2,
      List.getD_eq_getElem _ _ e1, List.getD_eq_getElem _ _ e2] at this
    exact this

theorem slice_reverseRange_self (nbrs : List Int) (a b : Nat) (h1 : a ≤ b)
    (h2 : b ≤ nbrs.length) :
    ((reverseRange nbrs a b).drop a).take (b - a) = ((nbrs.drop a).take (b - a)).reverse := by
  apply List.ext_getElem
  · simp [reverseRange_length nbrs a b h1 h2]
  · intro j e1 e2
    have hj : j < b - a := by simp at e2; omega
    have hr := reverseRange_getD_inside nbrs a b h1 h2 j (-1) hj
    have hlen := reverseRange_length nbrs a b h1 h2
    rw [← slice_getD _ a (b - a) j (-1) hj (by omega), List.getD_eq_getElem _ _ e1] at hr
    rw [hr, List.getElem_reverse]
    have e3 : ((nbrs.drop a).take (b - a)).length = b - a := by simp; omega
    rw [← List.getD_eq_getElem _ (-1), slice_getD nbrs a (b - a) _ (-1) (by omega) (by omega)]
    congr 1
    omega

theorem slice_reverseRange_other (nbrs : List Int) (a b : Nat) (h1 : a ≤ b)
    (h2 : b ≤ nbrs.length) (a1 n : Nat) (hn : a1 + n ≤ nbrs.length)
    (hd : a1 + n ≤ a ∨ b ≤ a1) :
    ((reverseRange nbrs a b).drop a1).take n = (nbrs.drop a1).take n := by
  apply slice_ext _ _ _ _ _ (by rw [reverseRange_length nbrs a b h1 h2]; exact hn) hn
  intro j hj
  exact reverseRange_getD_outside nbrs a b h1 h2 _ _ (by omega)


/-! ## orientLocalTriangulations: lemmas -/

theorem sameShape_refl (t : AllLocalTriangulations) : t.SameShape t := ⟨rfl, rfl⟩

theorem sameShape_trans {t t1 t2 : AllLocalTriangulations} (h1 : t.SameShape t1)
    (h2 : t1.SameShape t2) : t.SameShape t2 :=
  ⟨h2.1.trans h1.1, h2.2.trans h1.2⟩

theorem sameShape_length {t t1 : AllLocalTriangulations} (h : t.SameShape t1) :
    t1.fanRecords.length = t.fanRecords.length := by
  have := congrArg List.length h.1
  simpa using this

theorem sameShape_firstNei {t t1 : AllLocalTriangulations} (h : t.SameShape t1) (i : Nat) :
    (t1.fanRecords.getD i default).firstNei = (t.fanRecords.getD i default).firstNei := by
  rw [← getD_map_firstNei, ← getD_map_firstNei, h.1]

theorem sameShape_validCSR {t t1 : AllLocalTriangulations} (h : t.SameShape t1)
    (hv : t.ValidCSR) : t1.ValidCSR := by
  obtain ⟨h1, h2, h3⟩ := hv
  refine ⟨by rw [sameShape_length h]; exact h1, ?_, ?_⟩
  · intro i hi
    rw [sameShape_firstNei h, sameShape_firstNei h]
    exact h2 i (by rw [sameShape_length h] at hi; exact hi)
  · rw [sameShape_firstNei h, sameShape_length h, h.2]; exact h3

/-- In a valid store the offsets are monotone in the vertex. -/
theorem validCSR_mono (t : AllLocalTriangulations) (hv : t.ValidCSR) :
    ∀ b a, a ≤ b → b < t.fanRecords.length →
      (t.fanRecords.getD a default).firstNei ≤ (t.fanRecords.getD b default).firstNei :=
  firstNei_mono_le t.fanRecords (fun i hi => hv.2.1 i (by omega))

theorem validCSR_le_length (t : AllLocalTriangulations) (hv : t.ValidCSR) (i : Nat)
    (hi : i < t.fanRecords.length) :
    (t.fanRecords.getD i default).firstNei ≤ t.neighbors.length :=
  le_trans (validCSR_mono t hv _ i (by omega) (by have := hv.1; omega)) hv.2.2

theorem fanTally_nil {α : Type} [Zero α] [Add α] [Sub α] [Mul α] [LT α]
    [DecidableRel (fun a b : α => a < b)] (dirC cp : Vector3 α)
    (coords : List (Vector3 α)) (bd : Int) : fanTally dirC cp coords bd [] = 0 := by
  simp [fanTally]

/-- The tally that the loop of `orientLocalTriangulations` computes for the vertex `c`. -/
theorem orientLoop_eq {α : Type} [Zero α] [Add α] [Sub α] [Mul α] [LT α]
    [DecidableRel (fun a b : α => a < b)] (coords : List (Vector3 α))
    (dirC cp : Vector3 α) (t : AllLocalTriangulations) (hv : t.ValidCSR) (c : Nat)
    (hc : c + 1 < t.fanRecords.length) :
    ((fanPairsAt t.neighbors (t.fanRecords.getD c default).firstNei
        (t.fanRecords.getD (c + 1) default).firstNei).foldl
        (orientStep dirC cp coords (t.fanRecords.getD c default).border) ⟨0, -1⟩).sum
      = fanTally dirC cp coords (t.border c) (t.fan c) ∧
    ((fanPairsAt t.neighbors (t.fanRecords.getD c default).firstNei
        (t.fanRecords.getD (c + 1) default).firstNei).foldl
        (orientStep dirC cp coords (t.fanRecords.getD c default).border) ⟨0, -1⟩).otherBd
      = nextAfterBorder (t.border c) (t.fan c) := by
  have h1 := validCSR_mono t hv (c + 1) c (by omega) hc
  have h2 := validCSR_le_length t hv (c + 1) hc
  rw [fanPairsAt_eq_cyclicPairs _ _ _ h1 h2]
  obtain ⟨e1, e2⟩ := foldl_orientStep dirC cp coords (t.fanRecords.getD c default).border
    (cyclicPairs ((t.neighbors.drop (t.fanRecords.getD c default).firstNei).take
      ((t.fanRecords.getD (c + 1) default).firstNei - (t.fanRecords.getD c default).firstNei)))
    ⟨0, -1⟩
  rw [e1, e2, fanTally_eq]
  simp only [AllLocalTriangulations.fan, AllLocalTriangulations.border, nextAfterBorder,
    Int.zero_add, and_self]

theorem map_firstNei_set (recs : List FanRecord) (c : Nat) (b : Int) :
    (recs.set c ⟨b, (recs.getD c default).firstNei⟩).map (·.firstNei) = recs.map (·.firstNei) := by
  apply List.ext_getElem
  · simp
  · intro i h1 h2
    simp only [List.getElem_map, List.getElem_set]
    split
    · rename_i h; subst h
      rw [List.getD_eq_getElem _ _ (by simpa using h2)]
    · rfl

/-- The effect of the body of `orientLocalTriangulations` for the vertex `c` on a valid store. -/
theorem orientVertex_spec {α : Type} [Zero α] [Add α] [Sub α] [Mul α] [LT α]
    [DecidableRel (fun a b : α => a < b)] (coords : List (Vector3 α))
    (targetDir : Int → Vector3 α) (t : AllLocalTriangulations) (hv : t.ValidCSR) (c : Nat)
    (hc : c + 1 < t.fanRecords.length) :
    t.SameShape (orientVertex coords targetDir t c) ∧
    ((orientVertex coords targetDir t c).fan c, (orientVertex coords targetDir t c).border c)
      = orientFan (targetDir c) (getAt coords c default) coords (t.fan c) (t.border c) ∧
    ∀ c1, c1 ≠ c → c1 + 1 < t.fanRecords.length →
      (orientVertex coords targetDir t c).fan c1 = t.fan c1 ∧
      (orientVertex coords targetDir t c).border c1 = t.border c1 := by
  have h1 := validCSR_mono t hv (c + 1) c (by omega) hc
  have h2 := validCSR_le_length t hv (c + 1) hc
  obtain ⟨e1, e2⟩ := orientLoop_eq coords (targetDir c) (getAt coords c default) t hv c hc
  unfold orientVertex
  by_cases hempty : (t.fanRecords.getD (c + 1) default).firstNei
      ≤ (t.fanRecords.getD c default).firstNei
  · rw [if_pos hempty]
    refine ⟨sameShape_refl t, ?_, fun c1 _ _ => ⟨rfl, rfl⟩⟩
    have : t.fan c = [] := by
      simp only [AllLocalTriangulations.fan]
      have : (t.fanRecords.getD (c + 1) default).firstNei
          - (t.fanRecords.getD c default).firstNei = 0 := by omega
      rw [this, List.take_zero]
    rw [this, orientFan, fanTally_nil]
    simp
  · rw [if_neg hempty]
    by_cases hs : 0 ≤ fanTally (targetDir c) (getAt coords c default) coords (t.border c) (t.fan c)
    · rw [if_pos (by rw [e1]; exact hs)]
      refine ⟨sameShape_refl t, ?_, fun c1 _ _ => ⟨rfl, rfl⟩⟩
      rw [orientFan, if_neg (by omega)]
    · rw [if_neg (by rw [e1]; exact hs), e2, orientFan, if_pos (by omega), flipFan]
      generalize nextAfterBorder (t.border c) (t.fan c) = ob
      refine ⟨⟨map_firstNei_set _ _ _, reverseRange_length _ _ _ h1 h2⟩, ?_, ?_⟩
      · simp only [AllLocalTriangulations.fan, AllLocalTriangulations.border]
        rw [getD_set_eq _ _ _ _ (by omega), getD_set_ne _ _ _ _ _ (by omega)]
        simp only
        rw [slice_reverseRange_self _ _ _ h1 h2]
      · intro c1 hne hc1
        simp only [AllLocalTriangulations.fan, AllLocalTriangulations.border]
        have g1 : (t.fanRecords.set c ⟨ob,
            (t.fanRecords.getD c default).firstNei⟩).getD c1 default
            = t.fanRecords.getD c1 default := getD_set_ne _ _ _ _ _ (fun h => hne h.symm)
        have g2 : ((t.fanRecords.set c ⟨ob,
            (t.fanRecords.getD c default).firstNei⟩).getD (c1 + 1) default).firstNei
            = (t.fanRecords.getD (c1 + 1) default).firstNei := by
          by_cases h : c = c1 + 1
          · rw [← h, getD_set_eq _ _ _ _ (by omega)]
          · rw [getD_set_ne _ _ _ _ _ h]
        rw [g1, g2]
        refine ⟨?_, rfl⟩
        have m1 := validCSR_mono t hv (c1 + 1) c1 (by omega) hc1
        have m2 := validCSR_le_length t hv (c1 + 1) hc1
        apply slice_reverseRange_other _ _ _ h1 h2 _ _ (by omega)
        rcases Nat.lt_or_gt_of_ne hne with h | h
        · left
          have := validCSR_mono t hv c (c1 + 1) (by omega) (by omega)
          omega
        · right
          exact validCSR_mono t hv c1 (c + 1) (by omega) (by omega)

theorem foldl_orientVertex_spec {α : Type} [Zero α] [Add α] [Sub α] [Mul α] [LT α]
    [DecidableRel (fun a b : α => a < b)] (coords : List (Vector3 α))
    (targetDir : Int → Vector3 α) (cs : List Nat) :
    ∀ t : AllLocalTriangulations, t.ValidCSR → cs.Nodup →
      (∀ c ∈ cs, c + 1 < t.fanRecords.length) →
      t.SameShape (cs.foldl (orientVertex coords targetDir) t) ∧
      ∀ c, c + 1 < t.fanRecords.length →
        (c ∈ cs →
          ((cs.foldl (orientVertex coords targetDir) t).fan c,
            (cs.foldl (orientVertex coords targetDir) t).border c)
            = orientFan (targetDir c) (getAt coords c default) coords (t.fan c) (t.border c)) ∧
        (c ∉ cs →
          (cs.foldl (orientVertex coords targetDir) t).fan c = t.fan c ∧
          (cs.foldl (orientVertex coords targetDir) t).border c = t.border c) := by
  induction cs with
  | nil =>
    intro t _ _ _
    exact ⟨sameShape_refl t, fun c _ => ⟨fun h => absurd h (List.not_mem_nil _), fun _ => ⟨rfl, rfl⟩⟩⟩
  | cons a cs ih =>
    intro t hv hnd hlt
    obtain ⟨hs1, hf1, ho1⟩ := orientVertex_spec coords targetDir t hv a
      (hlt a (List.mem_cons_self _ _))
    have hv1 := sameShape_validCSR hs1 hv
    have hlen1 := sameShape_length hs1
    rw [List.nodup_cons] at hnd
    obtain ⟨hs2, hr⟩ := ih (orientVertex coords targetDir t a) hv1 hnd.2
      (fun c hc => by rw [hlen1]; exact hlt c (List.mem_cons_of_mem _ hc))
    simp only [List.foldl_cons]
    refine ⟨sameShape_trans hs1 hs2, ?_⟩
    intro c hc
    obtain ⟨hin, hout⟩ := hr c (by rw [hlen1]; exact hc)
    refine ⟨?_, ?_⟩
    · intro hmem
      by_cases hca : c = a
      · subst hca
        obtain ⟨g1, g2⟩ := hout hnd.1
        rw [g1, g2]; exact hf1
      · have hcs : c ∈ cs := by
          rcases List.mem_cons.1 hmem with h | h
          · exact absurd h hca
          · exact h
        rw [hin hcs, (ho1 c hca hc).1, (ho1 c hca hc).2]
    · intro hmem
      have hca : c ≠ a := fun h => hmem (by rw [h]; exact List.mem_cons_self _ _)
      have hcs : c ∉ cs := fun h => hmem (List.mem_cons_of_mem _ h)
      obtain ⟨g1, g2⟩ := hout hcs
      rw [g1, g2]
      exact ho1 c hca hc

/-- On a valid store `orientLocalTriangulations` keeps the shape and applies the flip rule to
every fan, each fan on its own. -/
theorem orientLocalTriangulations_spec {α : Type} [Zero α] [Add α] [Sub α] [Mul α] [LT α]
    [DecidableRel (fun a b : α => a < b)]
    (t : AllLocalTriangulations) (coords : List (Vector3 α)) (targetDir : Int → Vector3 α)
    (hv : t.ValidCSR) :
    t.SameShape (orientLocalTriangulations t coords targetDir) ∧
    ∀ c, c + 1 < t.fanRecords.length →
      ((orientLocalTriangulations t coords targetDir).fan c,
        (orientLocalTriangulations t coords targetDir).border c)
        = orientFan (targetDir c) (getAt coords c default) coords (t.fan c) (t.border c) := by
  unfold orientLocalTriangulations
  by_cases h : t.fanRecords.length ≤ 1
  · rw [if_pos h]
    exact ⟨sameShape_refl t, fun c hc => absurd hc (by omega)⟩
  · rw [if_neg h]
    obtain ⟨h1, h2⟩ := foldl_orientVertex_spec coords targetDir
      (List.range (t.fanRecords.length - 1)) t hv (List.nodup_range _)
      (fun c hc => by rw [List.mem_range] at hc; omega)
    exact ⟨h1, fun c hc => (h2 c hc).1 (by rw [List.mem_range]; omega)⟩


theorem rotate_succ_pred (fan : List Int) :
    fan.rotate (1 + (fan.length - 1 % fan.length)) = fan := by
  cases fan with
  | nil => simp
  | cons x xs =>
    rw [← List.rotate_mod]
    have : (1 + ((x :: xs).length - 1 % (x :: xs).length)) % (x :: xs).length = 0 := by
      cases xs with
      | nil => simp
      | cons y ys =>
        rw [Nat.mod_eq_of_lt (by simp : 1 < (x :: y :: ys).length)]
        have : 1 + ((x :: y :: ys).length - 1) = (x :: y :: ys).length := by simp; omega
        rw [this, Nat.mod_self]
    rw [this, List.rotate_zero]

/-- The cyclic pairs of the reversed fan are the swapped cyclic pairs of the fan, up to order. -/
theorem cyclicPairs_reverse_perm (fan : List Int) :
    (cyclicPairs fan.reverse).Perm ((cyclicPairs fan).map Prod.swap) := by
  have e1 : cyclicPairs fan.reverse
      = (fan.zip (fan.rotate (fan.length - 1 % fan.length))).reverse := by
    simp only [cyclicPairs, List.rotate_reverse, List.zip]
    rw [List.reverse_zipWith (by simp)]
  have e2 : (cyclicPairs fan).map Prod.swap = (fan.rotate 1).zip fan := by
    simp only [cyclicPairs, List.zip_swap]
  have e3 : fan.zip (fan.rotate (fan.length - 1 % fan.length))
      = ((fan.rotate 1).zip fan).rotate (fan.length - 1 % fan.length) := by
    simp only [List.zip]
    rw [List.zipWith_rotate_distrib _ _ _ _ (by simp), List.rotate_rotate, rotate_succ_pred]
  rw [e1, e2, e3]
  exact (List.reverse_perm _).trans (List.rotate_perm _ _)

theorem sum_cyclicPairs_reverse (fan : List Int) (h : Int × Int → Int) :
    ((cyclicPairs fan.reverse).map h).sum = ((cyclicPairs fan).map (fun q => h q.swap)).sum := by
  have := ((cyclicPairs_reverse_perm fan).map h).sum_eq
  rw [this, List.map_map]
  rfl

theorem cyclicPairs_map_fst (fan : List Int) : (cyclicPairs fan).map Prod.fst = fan :=
  List.map_fst_zip _ _ (by simp)

theorem cyclicPairs_map_snd (fan : List Int) : (cyclicPairs fan).map Prod.snd = fan.rotate 1 :=
  List.map_snd_zip _ _ (by simp)

theorem foldl_nextAfter_of_not_mem (bd : Int) (ps : List (Int × Int)) :
    ∀ o : Int, bd ∉ ps.map Prod.fst →
      ps.foldl (fun o p => if p.1 = bd then p.2 else o) o = o := by
  induction ps with
  | nil => intro o _; rfl
  | cons p ps ih =>
    intro o h
    simp only [List.map_cons, List.mem_cons, not_or] at h
    simp only [List.foldl_cons]
    rw [if_neg (fun e => h.1 e.symm)]
    exact ih o h.2

theorem foldl_nextAfter_mem (bd : Int) (ps : List (Int × Int)) :
    ∀ o : Int, (ps.map Prod.fst).Nodup → bd ∈ ps.map Prod.fst →
      (bd, ps.foldl (fun o p => if p.1 = bd then p.2 else o) o) ∈ ps := by
  induction ps with
  | nil => intro o _ h; simp at h
  | cons p ps ih =>
    intro o hnd h
    simp only [List.map_cons, List.nodup_cons] at hnd
    simp only [List.foldl_cons]
    by_cases hp : p.1 = bd
    · rw [if_pos hp, foldl_nextAfter_of_not_mem bd ps _ (by rw [← hp]; exact hnd.1)]
      have : p = (bd, p.2) := by rw [← hp]
      rw [← this]
      exact List.mem_cons_self _ _
    · rw [if_neg hp]
      have : bd ∈ ps.map Prod.fst := by
        simp only [List.map_cons, List.mem_cons] at h
        rcases h with h | h
        · exact absurd h.symm hp
        · exact h
      exact List.mem_cons_of_mem _ (ih o hnd.2 this)

theorem signVote_neg {α : Type} [LinearOrderedCommRing α] (d : α) :
    signVote (-d) = -signVote d := by
  simp only [signVote, Left.neg_pos_iff, Left.neg_neg_iff]
  rcases lt_trichotomy d 0 with h | h | h
  · simp [h, not_lt_of_lt h]
  · simp [h]
  · simp [h, not_lt_of_lt h]

theorem triangleVote_swap {α : Type} [LinearOrderedCommRing α] (dirC cp : Vector3 α)
    (coords : List (Vector3 α)) (a b : Int) :
    triangleVote dirC cp coords a b = -triangleVote dirC cp coords b a := by
  simp only [triangleVote]
  rw [← signVote_neg]
  congr 1
  simp only [dot, cross, Vector3.sub]
  ring

theorem triangleVote_ge {α : Type} [LinearOrderedCommRing α] (dirC cp : Vector3 α)
    (coords : List (Vector3 α)) (a b : Int) : -1 ≤ triangleVote dirC cp coords a b := by
  simp only [triangleVote, signVote]
  split
  · omega
  · split <;> omega

/-- At most one pair has the second component `x`: the votes of such pairs sum to at least -1. -/
theorem sum_snd_eq_ge (x : Int) (w : Int × Int → Int) (hw : ∀ q, -1 ≤ w q)
    (ps : List (Int × Int)) (hnd : (ps.map Prod.snd).Nodup) :
    -1 ≤ (ps.map (fun q => if q.2 = x then w q else 0)).sum ∧
    (x ∉ ps.map Prod.snd → (ps.map (fun q => if q.2 = x then w q else 0)).sum = 0) := by
  induction ps with
  | nil => simp
  | cons p ps ih =>
    simp only [List.map_cons, List.nodup_cons] at hnd
    obtain ⟨i1, i2⟩ := ih hnd.2
    simp only [List.map_cons, List.sum_cons, List.mem_cons, not_or]
    refine ⟨?_, ?_⟩
    · by_cases hp : p.2 = x
      · rw [if_pos hp, i2 (by rw [← hp]; exact hnd.1)]
        have := hw p; omega
      · rw [if_neg hp]; omega
    · intro h
      rw [if_neg (fun e => h.1 e.symm), i2 h.2]; rfl
/-- After the flip of a fan of pairwise distinct neighbours with a negative tally, the tally is
not negative. -/
theorem fanTally_flipFan_nonneg {α : Type} [LinearOrderedCommRing α] (dirC cp : Vector3 α)
    (coords : List (Vector3 α)) (fan : List Int) (bd : Int) (hnd : fan.Nodup)
    (hneg : fanTally dirC cp coords bd fan < 0) :
    0 ≤ fanTally dirC cp coords (flipFan fan bd).2 (flipFan fan bd).1 := by
  have hfst : ((cyclicPairs fan).map Prod.fst).Nodup := by rw [cyclicPairs_map_fst]; exact hnd
  have hsnd : ((cyclicPairs fan).map Prod.snd).Nodup := by
    rw [cyclicPairs_map_snd]; exact List.nodup_rotate.2 hnd
  rw [fanTally_eq] at hneg
  simp only [flipFan]
  rw [fanTally_eq, sum_cyclicPairs_reverse]
  simp only [Prod.fst_swap, Prod.snd_swap]
  by_cases hb : bd ∈ fan
  · -- the border occurs: the same pair is skipped before and after the flip
    have hmem : (bd, nextAfterBorder bd fan) ∈ cyclicPairs fan :=
      foldl_nextAfter_mem bd (cyclicPairs fan) (-1) hfst (by rw [cyclicPairs_map_fst]; exact hb)
    have hterm : ∀ q ∈ cyclicPairs fan,
        (if q.2 = nextAfterBorder bd fan then 0 else triangleVote dirC cp coords q.2 q.1)
          = -(if q.1 = bd then 0 else triangleVote dirC cp coords q.1 q.2) := by
      intro q hq
      by_cases h1 : q.1 = bd
      · have : q = (bd, nextAfterBorder bd fan) :=
          List.inj_on_of_nodup_map hfst hq hmem h1
        rw [if_pos h1, if_pos (by rw [this])]; rfl
      · have h2 : q.2 ≠ nextAfterBorder bd fan := by
          intro h
          have : q = (bd, nextAfterBorder bd fan) :=
            List.inj_on_of_nodup_map hsnd hq hmem h
          exact h1 (by rw [this])
        rw [if_neg h1, if_neg h2, triangleVote_swap]
    rw [List.map_congr_left hterm]
    have : ((cyclicPairs fan).map (fun q =>
        -(if q.1 = bd then 0 else triangleVote dirC cp coords q.1 q.2))).sum
        = -((cyclicPairs fan).map (fun q =>
            if q.1 = bd then 0 else triangleVote dirC cp coords q.1 q.2)).sum := by
      induction (cyclicPairs fan) with
      | nil => simp
      | cons p ps ih => simp only [List.map_cons, List.sum_cons, ih]; omega
    rw [this]
    omega
  · -- the border does not occur: the new border is `-1`, and at most one pair is skipped
    have hno : nextAfterBorder bd fan = -1 :=
      foldl_nextAfter_of_not_mem bd (cyclicPairs fan) (-1) (by rw [cyclicPairs_map_fst]; exact hb)
    rw [hno]
    have hterm : ∀ q ∈ cyclicPairs fan,
        (if q.2 = -1 then 0 else triangleVote dirC cp coords q.2 q.1)
          = -(if q.1 = bd then 0 else triangleVote dirC cp coords q.1 q.2)
            + (if q.2 = -1 then triangleVote dirC cp coords q.1 q.2 else 0) := by
      intro q hq
      have h1 : q.1 ≠ bd := by
        intro h
        apply hb
        rw [← h, ← cyclicPairs_map_fst fan]
        exact List.mem_map_of_mem _ hq
      rw [if_neg h1]
      by_cases h2 : q.2 = -1
      · rw [if_pos h2, if_pos h2]; omega
      · rw [if_neg h2, if_neg h2, triangleVote_swap]; omega
    rw [List.map_congr_left hterm]
    have hsplit : ∀ ps : List (Int × Int), (ps.map (fun q =>
        -(if q.1 = bd then 0 else triangleVote dirC cp coords q.1 q.2)
          + (if q.2 = -1 then triangleVote dirC cp coords q.1 q.2 else 0))).sum
        = -(ps.map (fun q => if q.1 = bd then 0 else triangleVote dirC cp coords q.1 q.2)).sum
          + (ps.map (fun q => if q.2 = -1 then triangleVote dirC cp coords q.1 q.2 else 0)).sum := by
      intro ps
      induction ps with
      | nil => simp
      | cons p ps ih => simp only [List.map_cons, List.sum_cons, ih]; omega
    rw [hsplit]
    have := (sum_snd_eq_ge (-1) (fun q => triangleVote dirC cp coords q.1 q.2)
      (fun q => triangleVote_ge dirC cp coords q.1 q.2) (cyclicPairs fan) hsnd).1
    omega

/-- After the flip rule, the tally of a fan of pairwise distinct neighbours is not negative. -/
theorem fanTally_orientFan_nonneg {α : Type} [LinearOrderedCommRing α] (dirC cp : Vector3 α)
    (coords : List (Vector3 α)) (fan : List Int) (bd : Int) (hnd : fan.Nodup) :
    0 ≤ fanTally dirC cp coords (orientFan dirC cp coords fan bd).2
      (orientFan dirC cp coords fan bd).1 := by
  unfold orientFan
  by_cases h : fanTally dirC cp coords bd fan < 0
  · rw [if_pos h]; exact fanTally_flipFan_nonneg dirC cp coords fan bd hnd h
  · rw [if_neg h]; simpa using h

/-- The body of `orientLocalTriangulations` changes nothing at a vertex whose tally is not
negative. -/
theorem orientVertex_eq_self {α : Type} [LinearOrderedCommRing α] (coords : List (Vector3 α))
    (targetDir : Int → Vector3 α) (t : AllLocalTriangulations) (hv : t.ValidCSR) (c : Nat)
    (hc : c + 1 < t.fanRecords.length)
    (hs : 0 ≤ fanTally (targetDir c) (getAt coords c default) coords (t.border c) (t.fan c)) :
    orientVertex coords targetDir t c = t := by
  obtain ⟨e1, _⟩ := orientLoop_eq coords (targetDir c) (getAt coords c default) t hv c hc
  unfold orientVertex
  split
  · rfl
  · rw [if_pos (by rw [e1]; exact hs)]

theorem foldl_eq_self {β γ : Type} (f : β → γ → β) (b : β) (l : List γ)
    (h : ∀ x ∈ l, f b x = b) : l.foldl f b = b := by
  induction l with
  | nil => rfl
  | cons x xs ih =>
    simp only [List.foldl_cons]
    rw [h x (List.mem_cons_self _ _)]
    exact ih (fun y hy => h y (List.mem_cons_of_mem _ hy))

/-- C5 (amended): the flip rule of `orientLocalTriangulations`, for the values that the code
computes. The scalar type `α` is any type with the operations `-`, `*`, `+` and the comparison `<`
of the code: the binary32 type `F32`, where every operation rounds, or an ordered ring, where the
values are exact. For every vertex `c` of a valid store (with a non-empty fan, or an empty one,
whose sum is 0), let `s` be the sum, over every fan position whose neighbour is not the border,
of the sign that the tests `d > 0` and `d < 0` give for the computed value
`d = dot(dir(c), cross(coords[next]-coords[c], coords[curr]-coords[c]))`, `next` being the cyclic
successor of `curr`. If `s < 0` the neighbour slice of `c` is reversed; if `s >= 0` (also on a
tie) the slice and the border of `c` are unchanged. -/
theorem orientLocalTriangulations_flip_rule {α : Type} [Zero α] [Add α] [Sub α] [Mul α] [LT α]
    [DecidableRel (fun a b : α => a < b)]
    (t : AllLocalTriangulations) (coords : List (Vector3 α)) (targetDir : Int → Vector3 α)
    (hv : t.ValidCSR) (c : Nat) (hc : c + 1 < t.fanRecords.length) :
    (fanTally (targetDir c) (getAt coords c default) coords (t.border c) (t.fan c) < 0 →
      (orientLocalTriangulations t coords targetDir).fan c = (t.fan c).reverse) ∧
    (0 ≤ fanTally (targetDir c) (getAt coords c default) coords (t.border c) (t.fan c) →
      (orientLocalTriangulations t coords targetDir).fan c = t.fan c ∧
      (orientLocalTriangulations t coords targetDir).border c = t.border c) := by
  have h := (orientLocalTriangulations_spec t coords targetDir hv).2 c hc
  refine ⟨?_, ?_⟩
  · intro hs
    rw [orientFan, if_pos hs, flipFan] at h
    exact (Prod.mk.inj h).1
  · intro hs
    rw [orientFan, if_neg (by omega)] at h
    exact Prod.mk.inj h

/-- C5 (amended) at concrete inputs. In exact arithmetic the fan 1, 2, 3 of the vertex 0 of
`triangleFanStore` has the tally -3 for the direction `(0, 0, 1)` and is reversed. In binary32
the fan 1, 2 of the vertex 0 of `roundingStore` has the tally 0 and is left as it is. -/
theorem orientLocalTriangulations_flip_rule_witness :
    (orientLocalTriangulations triangleFanStore triangleFanCoords upDir).fan 0 = [3, 2, 1] ∧
    ((orientLocalTriangulations roundingStore (coordsF32 roundingCoords)
        (fun _ => vecF32 0 0 1)).fan 0 = [1, 2] ∧
      (orientLocalTriangulations roundingStore (coordsF32 roundingCoords)
        (fun _ => vecF32 0 0 1)).border 0 = 2) :=
  ⟨(orientLocalTriangulations_flip_rule triangleFanStore triangleFanCoords upDir
      (by decide) 0 (by decide)).1 (by decide),
    (orientLocalTriangulations_flip_rule roundingStore (coordsF32 roundingCoords)
      (fun _ => vecF32 0 0 1) (by decide) 0 (by decide)).2 (by decide!)⟩

/-- C6 (amended): for every valid store in which every valid border occurs exactly once in its
fan and every fan lists pairwise distinct neighbours, for all coordinates and every direction
function, running `orientLocalTriangulations` twice with the same directions yields the same store
as running it once. -/
theorem orientLocalTriangulations_idempotent {α : Type} [LinearOrderedCommRing α]
    (t : AllLocalTriangulations) (coords : List (Vector3 α)) (targetDir : Int → Vector3 α)
    (hv : t.ValidCSR) (_hb : t.BordersOnce) (hn : t.FansNodup) :
    orientLocalTriangulations (orientLocalTriangulations t coords targetDir) coords targetDir
      = orientLocalTriangulations t coords targetDir := by
  obtain ⟨hs, hf⟩ := orientLocalTriangulations_spec t coords targetDir hv
  have hv1 := sameShape_validCSR hs hv
  have hlen := sameShape_length hs
  generalize orientLocalTriangulations t coords targetDir = t1 at *
  unfold orientLocalTriangulations
  split
  · rfl
  · apply foldl_eq_self
    intro c hc
    rw [List.mem_range] at hc
    have hc1 : c + 1 < t.fanRecords.length := by omega
    apply orientVertex_eq_self coords targetDir t1 hv1 c (by omega)
    have h1 := hf c hc1
    have h2 := fanTally_orientFan_nonneg (targetDir c) (getAt coords c default) coords
      (t.fan c) (t.border c) (hn c (by omega))
    rw [← h1] at h2
    exact h2

/-- C6 (amended) at a concrete input. -/
theorem orientLocalTriangulations_idempotent_witness :
    orientLocalTriangulations (orientLocalTriangulations triangleFanStore triangleFanCoords upDir)
        triangleFanCoords upDir
      = orientLocalTriangulations triangleFanStore triangleFanCoords upDir :=
  orientLocalTriangulations_idempotent triangleFanStore triangleFanCoords upDir
    (by decide) (by decide) (by decide)

/-- C6 fails as stated: in `repeatedNeighborStore` the border 1 occurs exactly once in its fan
1, 2, 3, 2, 4, 2, the first run reverses the fan and makes 2 the border, and the second run
reverses it again. -/
theorem orientLocalTriangulations_idempotent_fails :
    repeatedNeighborStore.ValidCSR ∧ repeatedNeighborStore.BordersOnce ∧
    orientLocalTriangulations repeatedNeighborStore repeatedNeighborCoords upDir
      = { neighbors := [2, 4, 2, 3, 2, 1]
          fanRecords := [⟨2, 0⟩, ⟨-1, 6⟩, ⟨-1, 6⟩, ⟨-1, 6⟩, ⟨-1, 6⟩, ⟨-1, 6⟩] } ∧
    orientLocalTriangulations
        (orientLocalTriangulations repeatedNeighborStore repeatedNeighborCoords upDir)
        repeatedNeighborCoords upDir
      ≠ orientLocalTriangulations repeatedNeighborStore repeatedNeighborCoords upDir := by
  decide


/-! ## Triangle maps: lemmas -/

theorem mapFind_eq_none_iff (m : TriangleMap) (key : UnorientedTriangle) :
    mapFind m key = none ↔ key ∉ m.map Prod.fst := by
  induction m with
  | nil => simp [mapFind]
  | cons e m ih =>
    obtain ⟨k, r⟩ := e
    simp only [mapFind, List.map_cons, List.mem_cons, not_or]
    by_cases h : k = key
    · simp [h]
    · rw [if_neg h, ih]
      exact ⟨fun h1 => ⟨fun e => h e.symm, h1⟩, fun h1 => h1.2⟩

theorem mapFind_of_mem (m : TriangleMap) (hnd : (m.map Prod.fst).Nodup)
    (key : UnorientedTriangle) (r : Repetitions) (h : (key, r) ∈ m) : mapFind m key = some r := by
  induction m with
  | nil => simp at h
  | cons e m ih =>
    obtain ⟨k, r1⟩ := e
    simp only [List.map_cons, List.nodup_cons] at hnd
    simp only [mapFind]
    rcases List.mem_cons.1 h with h1 | h1
    · have e1 : key = k := (Prod.mk.inj h1).1
      have e2 : r = r1 := (Prod.mk.inj h1).2
      rw [if_pos e1.symm, e2]
    · have : k ≠ key := by
        intro e
        apply hnd.1
        rw [e]
        exact List.mem_map_of_mem Prod.fst h1
      rw [if_neg this]
      exact ih hnd.2 h1

theorem tallyOf_of_mem (m : TriangleMap) (hnd : (m.map Prod.fst).Nodup)
    (key : UnorientedTriangle) (r : Repetitions) (h : (key, r) ∈ m) : tallyOf m key = r := by
  simp [tallyOf, mapFind_of_mem m hnd key r h]

theorem mapVote_keys (m : TriangleMap) (key : UnorientedTriangle) (f : Bool) :
    (mapVote m key f).map Prod.fst
      = if key ∈ m.map Prod.fst then m.map Prod.fst else m.map Prod.fst ++ [key] := by
  induction m with
  | nil => simp [mapVote]
  | cons e m ih =>
    obtain ⟨k, r⟩ := e
    simp only [mapVote]
    by_cases h : k = key
    · simp [h]
    · rw [if_neg h]
      simp only [List.map_cons, ih, List.mem_cons]
      have hne : ¬ key = k := fun e => h e.symm
      by_cases h2 : key ∈ m.map Prod.fst
      · simp [h2]
      · simp [h2, hne]

theorem mapVote_mem_keys (m : TriangleMap) (key : UnorientedTriangle) (f : Bool)
    (k : UnorientedTriangle) :
    k ∈ (mapVote m key f).map Prod.fst ↔ k ∈ m.map Prod.fst ∨ k = key := by
  rw [mapVote_keys]
  by_cases h : key ∈ m.map Prod.fst
  · rw [if_pos h]
    constructor
    · exact fun h1 => Or.inl h1
    · rintro (h1 | h1)
      · exact h1
      · rw [h1]; exact h
  · rw [if_neg h]; simp

theorem mapVote_nodup (m : TriangleMap) (key : UnorientedTriangle) (f : Bool)
    (hnd : (m.map Prod.fst).Nodup) : ((mapVote m key f).map Prod.fst).Nodup := by
  rw [mapVote_keys]
  by_cases h : key ∈ m.map Prod.fst
  · rw [if_pos h]; exact hnd
  · rw [if_neg h]
    exact List.Nodup.append hnd (List.nodup_singleton _) (by simpa using h)

theorem tallyOf_mapVote (m : TriangleMap) (key : UnorientedTriangle) (f : Bool)
    (k : UnorientedTriangle) :
    tallyOf (mapVote m key f) k = if k = key then (tallyOf m key).vote f else tallyOf m k := by
  induction m with
  | nil =>
    simp only [mapVote, tallyOf, mapFind]
    by_cases h : key = k
    · simp [h]
    · have : ¬ k = key := fun e => h e.symm
      simp [h, this]
  | cons e m ih =>
    obtain ⟨k1, r⟩ := e
    simp only [mapVote]
    by_cases h : k1 = key
    · subst h
      simp only [if_true, tallyOf, mapFind]
      by_cases h2 : k1 = k
      · simp [h2]
      · have : ¬ k = k1 := fun e => h2 e.symm
        simp [h2, this]
    · rw [if_neg h]
      simp only [tallyOf, mapFind] at ih ⊢
      by_cases h2 : k1 = k
      · have : ¬ k = key := by rw [← h2]; exact h
        simp [h2, this]
      · simp only [h2, if_false]
        rw [ih]
        by_cases h3 : k = key
        · simp [h3, h]
        · simp [h3]

theorem vote_lt (r : Repetitions) (f : Bool) :
    (r.vote f).sameOriented < 16 ∨ (r.vote f).sameOriented = r.sameOriented := by
  cases f <;> simp [Repetitions.vote] <;> omega

theorem mapVote_counters4 (m : TriangleMap) (key : UnorientedTriangle) (f : Bool)
    (h : Counters4 m) : Counters4 (mapVote m key f) := by
  induction m with
  | nil =>
    intro e he
    simp only [mapVote, List.mem_singleton] at he
    subst he
    cases f <;> simp [Repetitions.vote, default]
  | cons e m ih =>
    obtain ⟨k, r⟩ := e
    have h0 := h (k, r) (List.mem_cons_self _ _)
    have hrest : Counters4 m := fun e he => h e (List.mem_cons_of_mem _ he)
    simp only [mapVote]
    by_cases hk : k = key
    · rw [if_pos hk]
      intro e he
      rcases List.mem_cons.1 he with h1 | h1
      · subst h1
        cases f <;> simp only [Repetitions.vote] <;> simp at h0 ⊢ <;> omega
      · exact hrest e h1
    · rw [if_neg hk]
      intro e he
      rcases List.mem_cons.1 he with h1 | h1
      · subst h1; exact h0
      · exact ih hrest e h1

theorem mapFind_some_mem (m : TriangleMap) (key : UnorientedTriangle) (r : Repetitions)
    (h : mapFind m key = some r) : (key, r) ∈ m := by
  induction m with
  | nil => simp [mapFind] at h
  | cons e m ih =>
    obtain ⟨k, r1⟩ := e
    simp only [mapFind] at h
    by_cases hk : k = key
    · rw [if_pos hk] at h
      have : r1 = r := Option.some.inj h
      rw [← hk, ← this]
      exact List.mem_cons_self _ _
    · rw [if_neg hk] at h
      exact List.mem_cons_of_mem _ (ih h)

theorem tallyOf_lt (m : TriangleMap) (h : Counters4 m) (key : UnorientedTriangle) :
    (tallyOf m key).sameOriented < 16 ∧ (tallyOf m key).oppositeOriented < 16 := by
  unfold tallyOf
  cases hf : mapFind m key with
  | none => simp [default]
  | some r => exact h (key, r) (mapFind_some_mem m key r hf)

theorem count_cons_vote (v : UnorientedTriangle × Bool) (vs : List (UnorientedTriangle × Bool))
    (k : UnorientedTriangle) (f : Bool) :
    (v :: vs).count (k, f) = vs.count (k, f) + (if v.1 = k ∧ v.2 = f then 1 else 0) := by
  rw [List.count_cons]
  congr 1
  by_cases h : v.1 = k ∧ v.2 = f
  · have : v = (k, f) := by rw [← h.1, ← h.2]
    simp [this]
  · have : ¬ v = (k, f) := fun e => h (by rw [e]; exact ⟨rfl, rfl⟩)
    simp [this, h]

/-- The map after a sequence of votes. -/
theorem foldVotes_spec (vs : List (UnorientedTriangle × Bool)) :
    ∀ m : TriangleMap, (m.map Prod.fst).Nodup → Counters4 m →
      ((foldVotes m vs).map Prod.fst).Nodup ∧ Counters4 (foldVotes m vs) ∧
      (∀ k, k ∈ (foldVotes m vs).map Prod.fst ↔ k ∈ m.map Prod.fst ∨ k ∈ vs.map Prod.fst) ∧
      (∀ k, (tallyOf (foldVotes m vs) k).sameOriented
          = ((tallyOf m k).sameOriented + vs.count (k, false)) % 16) ∧
      (∀ k, (tallyOf (foldVotes m vs) k).oppositeOriented
          = ((tallyOf m k).oppositeOriented + vs.count (k, true)) % 16) := by
  induction vs with
  | nil =>
    intro m hnd hc
    refine ⟨hnd, hc, fun k => by simp [foldVotes], ?_, ?_⟩
    · intro k
      have := (tallyOf_lt m hc k).1
      simp only [foldVotes, List.foldl_nil, List.count_nil, Nat.add_zero]
      omega
    · intro k
      have := (tallyOf_lt m hc k).2
      simp only [foldVotes, List.foldl_nil, List.count_nil, Nat.add_zero]
      omega
  | cons v vs ih =>
    intro m hnd hc
    obtain ⟨i1, i2, i3, i4, i5⟩ := ih (mapVote m v.1 v.2) (mapVote_nodup m v.1 v.2 hnd)
      (mapVote_counters4 m v.1 v.2 hc)
    have hf : foldVotes m (v :: vs) = foldVotes (mapVote m v.1 v.2) vs := rfl
    rw [hf]
    refine ⟨i1, i2, ?_, ?_, ?_⟩
    · intro k
      rw [i3 k, mapVote_mem_keys]
      simp only [List.map_cons, List.mem_cons]
      tauto
    · intro k
      rw [i4 k, tallyOf_mapVote, count_cons_vote]
      by_cases hk : k = v.1
      · subst hk
        cases hv : v.2 <;> simp [Repetitions.vote] <;> omega
      · have : ¬ v.1 = k := fun e => hk e.symm
        simp [hk, this]
    · intro k
      rw [i5 k, tallyOf_mapVote, count_cons_vote]
      by_cases hk : k = v.1
      · subst hk
        cases hv : v.2 <;> simp [Repetitions.vote] <;> omega
      · have : ¬ v.1 = k := fun e => hk e.symm
        simp [hk, this]

theorem scanPart_eq (sh : Sharding) (t : AllLocalTriangulations) (m : TriangleMap) (p : Nat) :
    scanPart sh t m p = foldVotes m ((allTriplets t).filter (fun tr => sh.subidx tr.1 = p)) := by
  unfold scanPart foldVotes
  generalize allTriplets t = vs
  induction vs generalizing m with
  | nil => rfl
  | cons v vs ih =>
    simp only [List.foldl_cons, List.filter_cons]
    by_cases h : sh.subidx v.1 = p
    · rw [if_neg (by simp [h]), if_pos (by simp [h]), List.foldl_cons]
      exact ih _
    · rw [if_pos (by simp [h]), if_neg (by simp [h])]
      exact ih _

/-- The votes in the order in which the parts of the map register them. -/
theorem makeTriangleHashMap_eq (sh : Sharding) (t : AllLocalTriangulations) :
    makeTriangleHashMap sh t = foldVotes []
      ((List.range sh.subcnt).flatMap
        (fun p => (allTriplets t).filter (fun tr => sh.subidx tr.1 = p))) := by
  unfold makeTriangleHashMap
  generalize sh.subcnt = n
  induction n with
  | zero => rfl
  | succ n ih =>
    rw [List.range_succ, List.foldl_append, List.flatMap_append, ih]
    simp only [List.foldl_cons, List.foldl_nil, List.flatMap_cons, List.flatMap_nil,
      List.append_nil, scanPart_eq]
    simp only [foldVotes, List.foldl_append]

theorem count_filter_ite (vs : List (UnorientedTriangle × Bool))
    (q : UnorientedTriangle × Bool → Bool) (x : UnorientedTriangle × Bool) :
    (vs.filter q).count x = if q x = true then vs.count x else 0 := by
  by_cases h : q x = true
  · rw [if_pos h, List.count_filter h]
  · rw [if_neg h]
    apply List.count_eq_zero_of_not_mem
    intro hm
    exact h (List.mem_filter.1 hm).2

theorem count_sharded (vs : List (UnorientedTriangle × Bool)) (g : UnorientedTriangle → Nat)
    (x : UnorientedTriangle × Bool) (n : Nat) :
    ((List.range n).flatMap (fun p => vs.filter (fun tr => g tr.1 = p))).count x
      = if g x.1 < n then vs.count x else 0 := by
  induction n with
  | zero => simp
  | succ n ih =>
    rw [List.range_succ, List.flatMap_append, List.count_append, ih]
    simp only [List.flatMap_cons, List.flatMap_nil, List.append_nil]
    rw [count_filter_ite]
    simp only [decide_eq_true_eq]
    by_cases h1 : g x.1 < n
    · have e1 : ¬ g x.1 = n := by omega
      have e2 : g x.1 < n + 1 := by omega
      rw [if_pos h1, if_neg e1, if_pos e2, Nat.add_zero]
    · by_cases h2 : g x.1 = n
      · have e2 : g x.1 < n + 1 := by omega
        rw [if_neg h1, if_pos h2, if_pos e2, Nat.zero_add]
      · have e2 : ¬ g x.1 < n + 1 := by omega
        rw [if_neg h1, if_neg h2, if_neg e2]

theorem mem_sharded (vs : List (UnorientedTriangle × Bool)) (g : UnorientedTriangle → Nat)
    (n : Nat) (hg : ∀ k, g k < n) (k : UnorientedTriangle) :
    k ∈ ((List.range n).flatMap (fun p => vs.filter (fun tr => g tr.1 = p))).map Prod.fst
      ↔ k ∈ vs.map Prod.fst := by
  simp only [List.mem_map, List.mem_flatMap, List.mem_range, List.mem_filter, decide_eq_true_eq]
  constructor
  · rintro ⟨x, ⟨p, _, hx, _⟩, hk⟩
    exact ⟨x, hx, hk⟩
  · rintro ⟨x, hx, hk⟩
    exact ⟨x, ⟨g x.1, hg _, hx, rfl⟩, hk⟩

/-- The map built by `makeTriangleHashMap`: its keys are pairwise distinct, they are the
triangles of the fans, and the counters are the numbers of votes modulo 16. -/
theorem makeTriangleHashMap_spec (sh : Sharding) (t : AllLocalTriangulations) :
    ((makeTriangleHashMap sh t).map Prod.fst).Nodup ∧
    (∀ k, k ∈ (makeTriangleHashMap sh t).map Prod.fst ↔ k ∈ (allTriplets t).map Prod.fst) ∧
    (∀ e ∈ makeTriangleHashMap sh t,
      e.2.sameOriented = sameVotes t e.1 % 16 ∧
      e.2.oppositeOriented = oppositeVotes t e.1 % 16) := by
  have hg : ∀ k, sh.subidx k < sh.subcnt := fun k => Nat.mod_lt _ sh.subcnt_pos
  obtain ⟨h1, _, h3, h4, h5⟩ := foldVotes_spec
    ((List.range sh.subcnt).flatMap
      (fun p => (allTriplets t).filter (fun tr => sh.subidx tr.1 = p))) [] (by simp)
    (by intro e he; simp at he)
  rw [← makeTriangleHashMap_eq] at h1 h3 h4 h5
  refine ⟨h1, ?_, ?_⟩
  · intro k
    rw [h3 k, mem_sharded _ _ _ hg]
    simp
  · intro e he
    obtain ⟨k, r⟩ := e
    have ht := tallyOf_of_mem _ h1 k r he
    have e4 := h4 k
    have e5 := h5 k
    rw [ht, count_sharded, if_pos (hg k)] at e4 e5
    simp only [tallyOf, mapFind, Option.getD_none, default, Nat.zero_add] at e4 e5
    exact ⟨e4, e5⟩


theorem bump_length (res : List Nat) (i : Nat) : (bump res i).length = res.length := by
  simp [bump]

theorem bump_getD (res : List Nat) (i j : Nat) (hi : i < res.length) :
    (bump res i).getD j 0 = res.getD j 0 + (if i = j then 1 else 0) := by
  unfold bump
  by_cases h : i = j
  · subst h
    rw [getD_set_eq _ _ _ _ hi, if_pos rfl]
  · rw [getD_set_ne _ _ _ _ _ h, if_neg h, Nat.add_zero]

/-- The histogram loop over entries whose counters sum to 1, 2 or 3. -/
theorem foldl_repetitionsStep (m : TriangleMap)
    (hm : ∀ e ∈ m, 1 ≤ e.2.sameOriented + e.2.oppositeOriented ∧
      e.2.sameOriented + e.2.oppositeOriented ≤ 3) :
    ∀ res : List Nat, res.length = 4 →
      (m.foldl repetitionsStep res).length = 4 ∧
      (∀ c, 1 ≤ c → (m.foldl repetitionsStep res).getD c 0
        = res.getD c 0 + m.countP (fun e => e.2.sameOriented + e.2.oppositeOriented = c)) ∧
      (m.foldl repetitionsStep res).getD 0 0
        = res.getD 0 0 + m.countP (fun e => 1 ≤ e.2.sameOriented ∧ 1 ≤ e.2.oppositeOriented) := by
  induction m with
  | nil => intro res h; simp [h]
  | cons e m ih =>
    intro res hlen
    have he := hm e (List.mem_cons_self _ _)
    have hl1 : (repetitionsStep res e).length = 4 := by
      unfold repetitionsStep; split <;> simp [bump_length, hlen]
    obtain ⟨i1, i2, i3⟩ := ih (fun x hx => hm x (List.mem_cons_of_mem _ hx))
      (repetitionsStep res e) hl1
    simp only [List.foldl_cons]
    refine ⟨i1, ?_, ?_⟩
    · intro c hc
      rw [i2 c hc, List.countP_cons]
      have : (repetitionsStep res e).getD c 0
          = res.getD c 0 + (if e.2.sameOriented + e.2.oppositeOriented = c then 1 else 0) := by
        unfold repetitionsStep
        split
        · rw [bump_getD _ _ _ (by rw [bump_length]; omega), bump_getD _ _ _ (by omega)]
          have : ¬ 0 = c := by omega
          rw [if_neg this, Nat.add_zero]
        · rw [bump_getD _ _ _ (by omega)]
      rw [this]
      by_cases h : e.2.sameOriented + e.2.oppositeOriented = c
      · simp [h]; omega
      · simp [h]
    · rw [i3, List.countP_cons]
      have : (repetitionsStep res e).getD 0 0
          = res.getD 0 0 + (if 1 ≤ e.2.sameOriented ∧ 1 ≤ e.2.oppositeOriented then 1 else 0) := by
        unfold repetitionsStep
        by_cases h : 1 ≤ e.2.sameOriented ∧ 1 ≤ e.2.oppositeOriented
        · rw [if_pos h, if_pos h, bump_getD _ _ _ (by rw [bump_length]; omega),
            bump_getD _ _ _ (by omega)]
          have : ¬ e.2.sameOriented + e.2.oppositeOriented = 0 := by omega
          rw [if_neg this, if_pos rfl]
        · rw [if_neg h, if_neg h, bump_getD _ _ _ (by omega)]
          have : ¬ e.2.sameOriented + e.2.oppositeOriented = 0 := by omega
          rw [if_neg this]
      rw [this]
      by_cases h : 1 ≤ e.2.sameOriented ∧ 1 ≤ e.2.oppositeOriented
      · simp [h]; omega
      · simp [h]

theorem mem_distinctTriangles (t : AllLocalTriangulations) (k : UnorientedTriangle) :
    k ∈ distinctTriangles t ↔ k ∈ (allTriplets t).map Prod.fst := by
  simp [distinctTriangles]

theorem totalVotes_pos (t : AllLocalTriangulations) (k : UnorientedTriangle)
    (h : k ∈ (allTriplets t).map Prod.fst) : 1 ≤ totalVotes t k := by
  obtain ⟨x, hx, hk⟩ := List.mem_map.1 h
  unfold totalVotes sameVotes oppositeVotes
  obtain ⟨k1, f⟩ := x
  simp only at hk
  subst hk
  cases f
  · have := List.count_pos_iff.2 hx; omega
  · have := List.count_pos_iff.2 hx; omega

/-- When no triangle has more than three votes, the entries of the map hold the numbers of votes
and the keys are the distinct triangles, up to order. -/
theorem makeTriangleHashMap_exact (sh : Sharding) (t : AllLocalTriangulations)
    (h3 : t.TalliesWithin3) :
    ((makeTriangleHashMap sh t).map Prod.fst).Perm (distinctTriangles t) ∧
    (∀ e ∈ makeTriangleHashMap sh t,
      e.2 = ⟨sameVotes t e.1, oppositeVotes t e.1⟩ ∧ 1 ≤ totalVotes t e.1 ∧
      totalVotes t e.1 ≤ 3) := by
  obtain ⟨h1, h2, h4⟩ := makeTriangleHashMap_spec sh t
  refine ⟨?_, ?_⟩
  · have hd : (distinctTriangles t).Nodup := List.nodup_dedup _
    rw [List.perm_ext_iff_of_nodup h1 hd]
    intro k
    rw [h2 k, mem_distinctTriangles]
  · intro e he
    have hk : e.1 ∈ (allTriplets t).map Prod.fst := (h2 e.1).1 (List.mem_map_of_mem _ he)
    have hle := h3 e.1 ((mem_distinctTriangles t e.1).2 hk)
    have hpos := totalVotes_pos t e.1 hk
    obtain ⟨e4, e5⟩ := h4 e he
    refine ⟨?_, hpos, hle⟩
    unfold totalVotes at hle
    have a1 : e.2.sameOriented = sameVotes t e.1 := by omega
    have a2 : e.2.oppositeOriented = oppositeVotes t e.1 := by omega
    cases hr : e.2
    rw [hr] at a1 a2
    simp only at a1 a2
    rw [a1, a2]

theorem countP_entries (sh : Sharding) (t : AllLocalTriangulations) (h3 : t.TalliesWithin3)
    (q : Repetitions → Bool) :
    (makeTriangleHashMap sh t).countP (fun e => q e.2)
      = (distinctTriangles t).countP (fun k => q ⟨sameVotes t k, oppositeVotes t k⟩) := by
  obtain ⟨hp, he⟩ := makeTriangleHashMap_exact sh t h3
  rw [← hp.countP_eq, List.countP_map]
  apply List.countP_congr
  intro e hm
  simp only [Function.comp_apply]
  rw [(he e hm).1]


/-- C7: for every store whose tallies stay within 1..3, the histogram of
`computeTrianglesRepetitions` has four entries; for `c` in 1..3, entry `c` is the number of
distinct unoriented triangles whose total number of votes is exactly `c`; entry 0 is the number of
distinct triangles with at least one same-oriented and at least one opposite-oriented vote; and
each triangle counted in entry 0 has 2 or 3 votes, so it is also counted in entry 2 or 3. -/
theorem computeTrianglesRepetitions_histogram (sh : Sharding) (t : AllLocalTriangulations)
    (h3 : t.TalliesWithin3) :
    (computeTrianglesRepetitions sh t).length = 4 ∧
    (∀ c, 1 ≤ c → c ≤ 3 → (computeTrianglesRepetitions sh t).getD c 0
      = (distinctTriangles t).countP (fun k => totalVotes t k = c)) ∧
    (computeTrianglesRepetitions sh t).getD 0 0
      = (distinctTriangles t).countP (fun k => 1 ≤ sameVotes t k ∧ 1 ≤ oppositeVotes t k) ∧
    (∀ k ∈ distinctTriangles t, 1 ≤ sameVotes t k → 1 ≤ oppositeVotes t k →
      totalVotes t k = 2 ∨ totalVotes t k = 3) := by
  obtain ⟨_, he⟩ := makeTriangleHashMap_exact sh t h3
  obtain ⟨i1, i2, i3⟩ := foldl_repetitionsStep (makeTriangleHashMap sh t)
    (fun e hm => by
      obtain ⟨a1, a2, a3⟩ := he e hm
      rw [a1]; exact ⟨a2, a3⟩) [0, 0, 0, 0] rfl
  refine ⟨i1, ?_, ?_, ?_⟩
  · intro c hc _
    unfold computeTrianglesRepetitions
    rw [i2 c hc]
    have := countP_entries sh t h3 (fun r => decide (r.sameOriented + r.oppositeOriented = c))
    simp only at this
    rw [this]
    have h0 : ([0, 0, 0, 0] : List Nat).getD c 0 = 0 := by
      rcases c with _ | _ | _ | _ | c <;> simp
    rw [h0, Nat.zero_add]
    rfl
  · unfold computeTrianglesRepetitions
    rw [i3]
    have := countP_entries sh t h3
      (fun r => decide (1 ≤ r.sameOriented ∧ 1 ≤ r.oppositeOriented))
    simp only at this
    rw [this]
    simp
  · intro k hk hs ho
    have := h3 k hk
    unfold totalVotes at this ⊢
    omega

/-- C7 at a concrete input: the three triangles of the fan 1, 2, 3 have one vote each. -/
theorem computeTrianglesRepetitions_histogram_witness :
    (computeTrianglesRepetitions fourShards triangleFanStore).getD 1 0 = 3 := by
  have h := (computeTrianglesRepetitions_histogram fourShards triangleFanStore
    (by decide)).2.1 1 (by decide) (by decide)
  rw [h]
  decide

/-- C8 (amended): for every store whose tallies stay within 1..3 and every `k` in 1..3,
`findRepeatedTriangles( k )` returns every unoriented triangle whose total number of votes is
exactly `k`, each exactly once, and no other triangle; the length of its result is entry `k` of
`computeTrianglesRepetitions`. -/
theorem findRepeatedTriangles_spec (sh : Sharding) (t : AllLocalTriangulations)
    (h3 : t.TalliesWithin3) (k : Nat) (hk1 : 1 ≤ k) (_hk3 : k ≤ 3) :
    (findRepeatedTriangles sh t k).Nodup ∧
    (∀ tri, tri ∈ findRepeatedTriangles sh t k ↔
      tri ∈ distinctTriangles t ∧ totalVotes t tri = k) ∧
    (findRepeatedTriangles sh t k).length = (computeTrianglesRepetitions sh t).getD k 0 := by
  obtain ⟨hnd, hkeys, _⟩ := makeTriangleHashMap_spec sh t
  obtain ⟨_, he⟩ := makeTriangleHashMap_exact sh t h3
  obtain ⟨_, i2, _⟩ := foldl_repetitionsStep (makeTriangleHashMap sh t)
    (fun e hm => by
      obtain ⟨a1, a2, a3⟩ := he e hm
      rw [a1]; exact ⟨a2, a3⟩) [0, 0, 0, 0] rfl
  refine ⟨?_, ?_, ?_⟩
  · exact List.Nodup.sublist (List.Sublist.map _ (List.filter_sublist _)) hnd
  · intro tri
    unfold findRepeatedTriangles
    simp only [List.mem_map, List.mem_filter, decide_eq_true_eq]
    constructor
    · rintro ⟨e, ⟨hm, hc⟩, rfl⟩
      obtain ⟨a1, _, _⟩ := he e hm
      refine ⟨(mem_distinctTriangles t e.1).2 ((hkeys e.1).1 (List.mem_map_of_mem _ hm)), ?_⟩
      rw [a1] at hc
      exact hc
    · rintro ⟨hd, hv⟩
      have : tri ∈ (makeTriangleHashMap sh t).map Prod.fst :=
        (hkeys tri).2 ((mem_distinctTriangles t tri).1 hd)
      obtain ⟨e, hm, rfl⟩ := List.mem_map.1 this
      obtain ⟨a1, _, _⟩ := he e hm
      refine ⟨e, ⟨hm, ?_⟩, rfl⟩
      rw [a1]
      exact hv
  · unfold findRepeatedTriangles computeTrianglesRepetitions
    rw [i2 k hk1, List.length_map, ← List.countP_eq_length_filter]
    have h0 : ([0, 0, 0, 0] : List Nat).getD k 0 = 0 := by
      rcases k with _ | _ | _ | _ | k <;> simp
    rw [h0, Nat.zero_add]

/-- C8 (amended) at a concrete input. -/
theorem findRepeatedTriangles_spec_witness :
    (findRepeatedTriangles fourShards triangleFanStore 1).length = 3 := by
  have h := (findRepeatedTriangles_spec fourShards triangleFanStore (by decide) 1
    (by decide) (by decide)).2.2
  rw [h]
  decide

/-- C8 fails as stated: in `wrapStore` the triangle 0, 1, 2 has 33 votes (16 same-oriented and
17 opposite-oriented ones), the 4-bit counters hold 0 and 1, and `findRepeatedTriangles( 1 )`
returns the triangle. -/
theorem findRepeatedTriangles_wraps :
    wrapStore.ValidCSR ∧ totalVotes wrapStore ⟨0, 1, 2⟩ = 33 ∧
    findRepeatedTriangles oneShard wrapStore 1 = [⟨0, 1, 2⟩] := by
  decide


/-! ## The vote-tally bound: lemmas -/

theorem unorientedTriangle_center (v n c : Int) (K : UnorientedTriangle)
    (h : (unorientedTriangle v n c).1 = K) : v = K.a ∨ v = K.b ∨ v = K.c := by
  subst h
  simp only [unorientedTriangle]
  split_ifs <;> simp

theorem unorientedTriangle_pair (v n1 c1 n2 c2 : Int)
    (h : (unorientedTriangle v n1 c1).1 = (unorientedTriangle v n2 c2).1) :
    (c1 = c2 ∧ n1 = n2) ∨ (c1 = n2 ∧ n1 = c2) := by
  simp only [unorientedTriangle] at h
  split_ifs at h <;> simp only [UnorientedTriangle.mk.injEq] at h <;> omega
theorem mem_cyclicPairs_iff (fan : List Int) (p : Int × Int) :
    p ∈ cyclicPairs fan ↔ ∃ i, i < fan.length ∧ fan.getD i (-1) = p.1 ∧
      fan.getD ((i + 1) % fan.length) (-1) = p.2 := by
  rw [cyclicPairs_eq_map_range]
  simp only [List.mem_map, List.mem_range]
  constructor
  · rintro ⟨i, hi, rfl⟩; exact ⟨i, hi, rfl, rfl⟩
  · rintro ⟨i, hi, h1, h2⟩; exact ⟨i, hi, by rw [h1, h2]⟩

theorem nodup_getD_inj (fan : List Int) (hnd : fan.Nodup) (i j : Nat) (hi : i < fan.length)
    (hj : j < fan.length) (h : fan.getD i (-1) = fan.getD j (-1)) : i = j := by
  rw [List.getD_eq_getElem _ _ hi, List.getD_eq_getElem _ _ hj] at h
  exact (List.Nodup.getElem_inj_iff hnd).1 h

/-- In a fan of pairwise distinct neighbours, two different neighbours that follow each other
both ways are the whole fan. -/
theorem cyclicPairs_swap_length (fan : List Int) (hnd : fan.Nodup) (x y : Int) (hxy : x ≠ y)
    (h1 : (x, y) ∈ cyclicPairs fan) (h2 : (y, x) ∈ cyclicPairs fan) : fan.length = 2 := by
  obtain ⟨i, hi, a1, a2⟩ := (mem_cyclicPairs_iff fan (x, y)).1 h1
  obtain ⟨j, hj, b1, b2⟩ := (mem_cyclicPairs_iff fan (y, x)).1 h2
  simp only at a1 a2 b1 b2
  have hm1 : (i + 1) % fan.length < fan.length := Nat.mod_lt _ (by omega)
  have hm2 : (j + 1) % fan.length < fan.length := Nat.mod_lt _ (by omega)
  have e1 : (i + 1) % fan.length = j := nodup_getD_inj fan hnd _ _ hm1 hj (by rw [a2, b1])
  have e2 : (j + 1) % fan.length = i := nodup_getD_inj fan hnd _ _ hm2 hi (by rw [b2, a1])
  have hij : i ≠ j := by
    intro e
    apply hxy
    rw [← a1, ← b1, e]
  by_cases c1 : i + 1 < fan.length
  · rw [Nat.mod_eq_of_lt c1] at e1
    by_cases c2 : j + 1 < fan.length
    · rw [Nat.mod_eq_of_lt c2] at e2; omega
    · have : j + 1 = fan.length := by omega
      rw [this, Nat.mod_self] at e2
      omega
  · have : i + 1 = fan.length := by omega
    rw [this, Nat.mod_self] at e1
    by_cases c2 : j + 1 < fan.length
    · rw [Nat.mod_eq_of_lt c2] at e2; omega
    · omega

theorem countP_le_one {β : Type} (q : β → Bool) (l : List β) (hnd : l.Nodup)
    (h : ∀ x ∈ l, ∀ y ∈ l, q x = true → q y = true → x = y) : l.countP q ≤ 1 := by
  induction l with
  | nil => simp
  | cons a l ih =>
    rw [List.nodup_cons] at hnd
    rw [List.countP_cons]
    have i1 := ih hnd.2 (fun x hx y hy => h x (List.mem_cons_of_mem _ hx) y (List.mem_cons_of_mem _ hy))
    by_cases ha : q a = true
    · have : l.countP q = 0 := by
        rw [List.countP_eq_zero]
        intro x hx hq
        have := h a (List.mem_cons_self _ _) x (List.mem_cons_of_mem _ hx) ha hq
        exact hnd.1 (by rw [this]; exact hx)
      rw [this, if_pos ha]
    · rw [if_neg ha]; omega

theorem cyclicPairs_nodup (fan : List Int) (hnd : fan.Nodup) : (cyclicPairs fan).Nodup := by
  have : ((cyclicPairs fan).map Prod.fst).Nodup := by rw [cyclicPairs_map_fst]; exact hnd
  exact List.Nodup.of_map _ this

/-- The triangles of the fan of `v` in a valid store, from the cyclic pairs of the fan. -/
theorem fanTriplets_eq (t : AllLocalTriangulations) (hv : t.ValidCSR) (v : Nat)
    (hc : v + 1 < t.fanRecords.length) :
    fanTriplets t v = (cyclicPairs (t.fan v)).filterMap
      (fun p => if p.1 = t.border v then none else some (unorientedTriangle v p.2 p.1)) := by
  have h1 := validCSR_mono t hv (v + 1) v (by omega) hc
  have h2 := validCSR_le_length t hv (v + 1) hc
  unfold fanTriplets
  rw [fanPairsAt_eq_cyclicPairs _ _ _ h1 h2]
  rfl

theorem countP_filterMap_key (ps : List (Int × Int)) (bd : Int) (v : Int)
    (K : UnorientedTriangle) :
    (ps.filterMap (fun p => if p.1 = bd then none
        else some (unorientedTriangle v p.2 p.1))).countP (fun tr => tr.1 = K)
      = ps.countP (fun p => decide (p.1 ≠ bd ∧ (unorientedTriangle v p.2 p.1).1 = K)) := by
  induction ps with
  | nil => rfl
  | cons p ps ih =>
    rw [List.filterMap_cons, List.countP_cons]
    by_cases hb : p.1 = bd
    · simp only [hb, if_true, ne_eq, not_true_eq_false, false_and, decide_False,
        Bool.false_eq_true, if_false, Nat.add_zero]
      simpa [hb] using ih
    · simp only [hb, if_false, List.countP_cons, ih, ne_eq, not_false_eq_true, true_and]

/-- One fan votes at most once for a triangle, unless it is a closed fan of two neighbours; and
it votes only for triangles that contain its centre. -/
theorem fanTriplets_count_le (t : AllLocalTriangulations) (hv : t.ValidCSR) (v : Nat)
    (hc : v + 1 < t.fanRecords.length) (hnd : (t.fan v).Nodup)
    (h2 : (t.fan v).length = 2 → t.border v ∈ t.fan v) (K : UnorientedTriangle) :
    (fanTriplets t v).countP (fun tr => tr.1 = K) ≤ 1 ∧
    ((fanTriplets t v).countP (fun tr => tr.1 = K) ≠ 0 →
      (v : Int) = K.a ∨ (v : Int) = K.b ∨ (v : Int) = K.c) := by
  rw [fanTriplets_eq t hv v hc, countP_filterMap_key]
  refine ⟨?_, ?_⟩
  · apply countP_le_one _ _ (cyclicPairs_nodup _ hnd)
    intro p hp q hq h1 h3
    simp only [ne_eq, decide_eq_true_eq] at h1 h3
    have := unorientedTriangle_pair v p.2 p.1 q.2 q.1 (h1.2.trans h3.2.symm)
    rcases this with ⟨e1, e2⟩ | ⟨e1, e2⟩
    · exact Prod.ext e1 e2
    · by_cases hxy : p.1 = p.2
      · exact Prod.ext (by omega) (by omega)
      · exfalso
        have hp1 : (p.1, p.2) ∈ cyclicPairs (t.fan v) := hp
        have hq1 : (p.2, p.1) ∈ cyclicPairs (t.fan v) := by
          have : q = (p.2, p.1) := Prod.ext e2.symm e1.symm
          rw [← this]; exact hq
        have hlen := cyclicPairs_swap_length _ hnd p.1 p.2 hxy hp1 hq1
        have hb := h2 hlen
        -- the border is the first component of one of the cyclic pairs
        rw [← cyclicPairs_map_fst (t.fan v)] at hb
        obtain ⟨r, hr, hrb⟩ := List.mem_map.1 hb
        obtain ⟨i, hi, a1, _⟩ := (mem_cyclicPairs_iff _ r).1 hr
        obtain ⟨j, hj, b1, b2⟩ := (mem_cyclicPairs_iff _ (p.1, p.2)).1 hp1
        simp only at b1 b2
        have hm : (j + 1) % (t.fan v).length < (t.fan v).length := Nat.mod_lt _ (by omega)
        have hcases : i = j ∨ i = (j + 1) % (t.fan v).length := by
          rw [hlen] at hi hj ⊢
          interval_cases i <;> interval_cases j <;> simp
        rcases hcases with e | e
        · have : t.border v = p.1 := by rw [← hrb, ← a1, e, b1]
          exact h1.1 this.symm
        · have : t.border v = q.1 := by rw [← hrb, ← a1, e, b2, e2]
          exact h3.1 this.symm
  · intro hne
    have hpos : 0 < (cyclicPairs (t.fan v)).countP
        (fun p => decide (p.1 ≠ t.border v ∧ (unorientedTriangle v p.2 p.1).1 = K)) := by omega
    obtain ⟨p, _, hp⟩ := List.countP_pos_iff.1 hpos
    simp only [ne_eq, decide_eq_true_eq] at hp
    exact unorientedTriangle_center v p.2 p.1 K hp.2


theorem count_both_eq_countP (l : List (UnorientedTriangle × Bool)) (K : UnorientedTriangle) :
    l.count (K, false) + l.count (K, true) = l.countP (fun tr => tr.1 = K) := by
  induction l with
  | nil => rfl
  | cons x l ih =>
    rw [count_cons_vote, count_cons_vote, List.countP_cons, ← ih]
    obtain ⟨k, f⟩ := x
    by_cases hk : k = K
    · cases f <;> simp [hk] <;> omega
    · simp [hk]

theorem countP_flatMap_range {β : Type} (f : Nat → List β) (q : β → Bool) (n : Nat) :
    ((List.range n).flatMap f).countP q = ((List.range n).map (fun v => (f v).countP q)).sum := by
  induction n with
  | zero => rfl
  | succ n ih =>
    rw [List.range_succ, List.flatMap_append, List.countP_append, ih, List.map_append,
      List.sum_append]
    simp

theorem sum_indicator (a : Int) (n : Nat) :
    ((List.range n).map (fun v : Nat => if (v : Int) = a then 1 else 0)).sum
      = if 0 ≤ a ∧ a < n then 1 else 0 := by
  induction n with
  | zero =>
    have : ¬ (0 ≤ a ∧ a < ((0 : Nat) : Int)) := by omega
    rw [if_neg this]; rfl
  | succ n ih =>
    rw [List.range_succ, List.map_append, List.sum_append, ih]
    simp only [List.map_cons, List.map_nil, List.sum_cons, List.sum_nil, Nat.add_zero]
    by_cases h1 : 0 ≤ a ∧ a < (n : Int)
    · have e1 : ¬ (n : Int) = a := by omega
      have e2 : 0 ≤ a ∧ a < ((n + 1 : Nat) : Int) := by omega
      rw [if_pos h1, if_neg e1, if_pos e2]
    · by_cases h2 : (n : Int) = a
      · have e2 : 0 ≤ a ∧ a < ((n + 1 : Nat) : Int) := by omega
        rw [if_neg h1, if_pos h2, if_pos e2]
      · have e2 : ¬ (0 ≤ a ∧ a < ((n + 1 : Nat) : Int)) := by omega
        rw [if_neg h1, if_neg h2, if_neg e2]

/-- A sum of numbers that are at most 1 and vanish outside of three indices is at most 3. -/
theorem sum_le_three (f : Nat → Nat) (a b c : Int) (n : Nat)
    (h1 : ∀ v < n, f v ≤ 1)
    (h2 : ∀ v < n, f v ≠ 0 → (v : Int) = a ∨ (v : Int) = b ∨ (v : Int) = c) :
    ((List.range n).map f).sum ≤ 3 := by
  have key : ∀ m ≤ n, ((List.range m).map f).sum
      ≤ ((List.range m).map (fun v : Nat => if (v : Int) = a then 1 else 0)).sum
        + ((List.range m).map (fun v : Nat => if (v : Int) = b then 1 else 0)).sum
        + ((List.range m).map (fun v : Nat => if (v : Int) = c then 1 else 0)).sum := by
    intro m
    induction m with
    | zero => intro _; simp
    | succ m ih =>
      intro hm
      have i1 := ih (by omega)
      simp only [List.range_succ, List.map_append, List.sum_append, List.map_cons, List.map_nil,
        List.sum_cons, List.sum_nil, Nat.add_zero]
      have b1 := h1 m (by omega)
      have b2 := h2 m (by omega)
      by_cases hz : f m = 0
      · omega
      · rcases b2 hz with e | e | e
        · rw [if_pos e]; omega
        · rw [if_pos e]; omega
        · rw [if_pos e]; omega
  have := key n (le_refl _)
  rw [sum_indicator, sum_indicator, sum_indicator] at this
  split_ifs at this <;> omega

/-- In a valid store whose fans list pairwise distinct neighbours and whose fans of two
neighbours are open, no triangle receives more than three votes. -/
theorem totalVotes_le_three (t : AllLocalTriangulations) (hv : t.ValidCSR) (hn : t.FansNodup)
    (h2 : t.TwoFansOpen) (K : UnorientedTriangle) : totalVotes t K ≤ 3 := by
  unfold totalVotes sameVotes oppositeVotes
  rw [count_both_eq_countP]
  unfold allTriplets
  rw [countP_flatMap_range]
  apply sum_le_three _ K.a K.b K.c
  · intro v hlt
    exact (fanTriplets_count_le t hv v (by omega) (hn v hlt) (h2 v hlt) K).1
  · intro v hlt
    exact (fanTriplets_count_le t hv v (by omega) (hn v hlt) (h2 v hlt) K).2

/-- The vote-tally bound where it holds: for every valid store in which each fan lists pairwise distinct neighbours, all
different from the centre of the fan, and in which no fan of exactly two neighbours is closed, no
triangle receives more than three votes and every entry of the vote-tally map built over the
whole store satisfies `1 <= sameOriented + oppositeOriented <= 3`: the assertions
`c >= 1 && c <= 3` hold and the histogram index stays within 0..3. -/
theorem makeTriangleHashMap_tally_bound (sh : Sharding) (t : AllLocalTriangulations)
    (hv : t.ValidCSR) (hn : t.FansNodup) (_hc : t.NoCenterInFan) (h2 : t.TwoFansOpen) :
    t.TalliesWithin3 ∧
    ∀ e ∈ makeTriangleHashMap sh t,
      1 ≤ e.2.sameOriented + e.2.oppositeOriented ∧
      e.2.sameOriented + e.2.oppositeOriented ≤ 3 := by
  have h3 : t.TalliesWithin3 := fun K _ => totalVotes_le_three t hv hn h2 K
  refine ⟨h3, ?_⟩
  intro e he
  obtain ⟨a1, a2, a3⟩ := (makeTriangleHashMap_exact sh t h3).2 e he
  rw [a1]
  exact ⟨a2, a3⟩

/-- The vote-tally bound at a concrete input: the triangle 0, 1, 2 of `triangleFanStore` has at
most three votes. -/
theorem makeTriangleHashMap_tally_bound_witness :
    totalVotes triangleFanStore ⟨0, 1, 2⟩ ≤ 3 :=
  (makeTriangleHashMap_tally_bound fourShards triangleFanStore (by decide) (by decide)
    (by decide) (by decide)).1 ⟨0, 1, 2⟩ (by decide)

/-- C9, the failing input: in `twoFanStore` the closed fans 1, 2 of the vertex 0 and 2, 0 of the
vertex 1 list pairwise distinct neighbours different from their centres, each of them votes twice
for the triangle 0, 1, 2, and the entry of the triangle holds 2 + 2 = 4 votes: the condition of
`assert( c >= 1 && c <= 3 )` is false for it. -/
theorem makeTriangleHashMap_tally_bound_fails :
    twoFanStore.ValidCSR ∧ twoFanStore.FansNodup ∧ twoFanStore.NoCenterInFan ∧
    makeTriangleHashMap oneShard twoFanStore = [(⟨0, 1, 2⟩, ⟨2, 2⟩)] ∧
    ¬ (∀ e ∈ makeTriangleHashMap oneShard twoFanStore,
      1 ≤ e.2.sameOriented + e.2.oppositeOriented ∧
      e.2.sameOriented + e.2.oppositeOriented ≤ 3) := by
  decide


/-! ## autoOrientLocalTriangulations: lemmas -/

theorem heapLess_none {α : Type} [LinearOrder α] (a : Option α) : heapLess a none = false := by
  cases a <;> rfl

theorem heapLess_none_left {α : Type} [LinearOrder α] (x : Option α)
    (h : heapLess none x = false) : x = none := by
  cases x with
  | none => rfl
  | some y => simp [heapLess] at h

theorem heapTopFrom_spec {α : Type} [LinearOrder α] (xs : List (Option α)) :
    ∀ (i : Nat) (best : Nat × Option α),
      ((heapTopFrom xs i best) = best ∨
        ∃ j, j < xs.length ∧ heapTopFrom xs i best = (i + j, xs.getD j none)) ∧
      ((heapTopFrom xs i best).2 = none → best.2 = none ∧ ∀ x ∈ xs, x = none) := by
  induction xs with
  | nil => intro i best; exact ⟨Or.inl rfl, fun h => ⟨h, fun x hx => absurd hx (List.not_mem_nil _)⟩⟩
  | cons x xs ih =>
    intro i best
    simp only [heapTopFrom]
    obtain ⟨h1, h2⟩ := ih (i + 1) (if heapLess best.2 x then (i, x) else best)
    refine ⟨?_, ?_⟩
    · rcases h1 with h | ⟨j, hj, h⟩
      · rw [h]
        by_cases hl : heapLess best.2 x = true
        · rw [if_pos hl]
          exact Or.inr ⟨0, by simp, by simp⟩
        · rw [if_neg hl]; exact Or.inl rfl
      · refine Or.inr ⟨j + 1, by simp; omega, ?_⟩
        rw [h, List.getD_cons_succ]
        congr 1
        omega
    · intro hn
      obtain ⟨g1, g2⟩ := h2 hn
      by_cases hl : heapLess best.2 x = true
      · rw [if_pos hl] at g1
        simp only at g1
        rw [g1, heapLess_none] at hl
        exact absurd hl (by simp)
      · rw [if_neg hl] at g1
        have hx : x = none := by
          rw [g1] at hl
          exact heapLess_none_left x (by simpa using hl)
        refine ⟨g1, ?_⟩
        intro y hy
        rcases List.mem_cons.1 hy with e | e
        · rw [e]; exact hx
        · exact g2 y e

/-- The top of a heap that is not empty is one of its elements, with its value; if the value is
`InvalidWeight`, every value of the heap is. -/
theorem heapTop_spec {α : Type} [LinearOrder α] (h : Heap α) (hne : 0 < h.length) :
    (heapTop h).1 < h.length ∧ h.getD (heapTop h).1 none = (heapTop h).2 ∧
    ((heapTop h).2 = none → ∀ j, h.getD j none = none) := by
  cases h with
  | nil => simp at hne
  | cons x xs =>
    simp only [heapTop, List.tail_cons, List.headD_cons]
    obtain ⟨h1, h2⟩ := heapTopFrom_spec xs 1 (0, x)
    refine ⟨?_, ?_, ?_⟩
    · rcases h1 with e | ⟨j, hj, e⟩
      · rw [e]; simp
      · rw [e]; simp; omega
    · rcases h1 with e | ⟨j, hj, e⟩
      · rw [e]; simp
      · rw [e]
        have : 1 + j = j + 1 := by omega
        simp only [this, List.getD_cons_succ]
    · intro hn j
      obtain ⟨g1, g2⟩ := h2 hn
      simp only at g1
      cases j with
      | zero => simpa using g1
      | succ j =>
        rw [List.getD_cons_succ]
        by_cases hj : j < xs.length
        · rw [List.getD_eq_getElem _ _ hj]
          exact g2 _ (List.getElem_mem hj)
        · rw [List.getD_eq_default _ _ (by omega)]

/-- The second loop of `enqueueNeighbors` keeps the length of the heap and changes only values
of vertices that are not visited, to a value other than `InvalidWeight`. -/
theorem foldl_reweighStep_heap {α : Type} [LinearOrderedField α] (nv : List Bool)
    (map : TriangleMap) (ns : List Nat) :
    ∀ s : AllLocalTriangulations × Heap α,
      (ns.foldl (reweighStep nv map) s).2.length = s.2.length ∧
      ∀ x, (ns.foldl (reweighStep nv map) s).2.getD x none = s.2.getD x none ∨
        (nv.getD x false = true ∧ (ns.foldl (reweighStep nv map) s).2.getD x none ≠ none) := by
  induction ns with
  | nil => intro s; exact ⟨rfl, fun x => Or.inl rfl⟩
  | cons n ns ih =>
    intro s
    simp only [List.foldl_cons]
    obtain ⟨i1, i2⟩ := ih (reweighStep nv map s n)
    have hstep : (reweighStep nv map s n).2.length = s.2.length ∧
        ∀ x, (reweighStep nv map s n).2.getD x none = s.2.getD x none ∨
          (nv.getD x false = true ∧ (reweighStep nv map s n).2.getD x none ≠ none ∧
            x < s.2.length) := by
      unfold reweighStep
      by_cases ht : testBit nv (s.1.neighbors.getD n (-1)) = true
      · rw [if_pos ht]
        refine ⟨by simp, ?_⟩
        intro x
        by_cases hx : (s.1.neighbors.getD n (-1)).toNat = x
        · by_cases hl : x < s.2.length
          · right
            simp only [testBit, Bool.and_eq_true, decide_eq_true_eq] at ht
            rw [hx] at ht
            refine ⟨ht.2, ?_, hl⟩
            simp only [hx]
            rw [getD_set_eq _ _ _ _ hl]
            simp
          · left
            simp only [hx]
            rw [List.set_eq_of_length_le (by omega)]
        · left
          simp only
          rw [getD_set_ne _ _ _ _ _ hx]
      · rw [if_neg ht]
        exact ⟨rfl, fun x => Or.inl rfl⟩
    refine ⟨by rw [i1, hstep.1], ?_⟩
    intro x
    rcases i2 x with e | e
    · rcases hstep.2 x with e1 | e1
      · left; rw [e, e1]
      · right; rw [e]; exact ⟨e1.1, e1.2.1⟩
    · right; exact e

theorem countBits_set_false (bs : List Bool) (i : Nat) (h : bs.getD i false = true) :
    countBits (bs.set i false) + 1 = countBits bs := by
  unfold countBits
  induction bs generalizing i with
  | nil => simp at h
  | cons b bs ih =>
    cases i with
    | zero =>
      simp only [List.getD_cons_zero] at h
      subst h
      simp
    | succ i =>
      simp only [List.getD_cons_succ] at h
      simp only [List.set_cons_succ, List.count_cons]
      have := ih i h
      omega

theorem countBits_eq_zero (bs : List Bool) (h : ∀ j, bs.getD j false = false) :
    countBits bs = 0 := by
  unfold countBits
  rw [List.count_eq_zero]
  intro hm
  obtain ⟨j, hj, e⟩ := List.getElem_of_mem hm
  have := h j
  rw [List.getD_eq_getElem _ _ hj, e] at this
  exact absurd this (by simp)

theorem countBits_pos (bs : List Bool) (j : Nat) (h : bs.getD j false = true) :
    0 < countBits bs := by
  unfold countBits
  rw [List.count_pos_iff]
  by_cases hj : j < bs.length
  · rw [List.getD_eq_getElem _ _ hj] at h
    rw [← h]; exact List.getElem_mem hj
  · rw [List.getD_eq_default _ _ (by omega)] at h
    exact absurd h (by simp)

theorem getD_set_false (bs : List Bool) (i j : Nat) :
    (bs.set i false).getD j false = if i = j then false else bs.getD j false := by
  by_cases h : i = j
  · subst h
    rw [if_pos rfl]
    by_cases hl : i < bs.length
    · exact getD_set_eq _ _ _ _ hl
    · rw [List.getD_eq_default _ _ (by simp; omega)]
  · rw [if_neg h]
    exact getD_set_ne _ _ _ _ _ h

/-- One iteration of the expansion loop keeps the invariant and visits one more vertex. -/
theorem enqueueNeighbors_inv {α : Type} [LinearOrderedField α] (valid : List Bool) (n : Nat)
    (s : OrientState α) (base : Nat) (hinv : LoopInv valid n s) (hbn : base < n)
    (hb : s.notVisited.getD base false = true) :
    LoopInv valid n (enqueueNeighbors { s with heap := s.heap.set base none } base) ∧
    countBits (enqueueNeighbors { s with heap := s.heap.set base none } base).notVisited + 1
      = countBits s.notVisited ∧
    (enqueueNeighbors { s with heap := s.heap.set base none } base).visitOrder
      = s.visitOrder ++ [base] := by
  have hnotin : base ∉ s.visitOrder := by
    intro hm
    have := hinv.order_visited base hm
    rw [hb] at this
    exact absurd this (by simp)
  obtain ⟨f1, f2⟩ := foldl_reweighStep_heap (α := α) (s.notVisited.set base false)
    ((fanPairsAt s.triangs.neighbors (s.triangs.fanRecords.getD base default).firstNei
        (s.triangs.fanRecords.getD (base + 1) default).firstNei).foldl
      (registerStep (s.notVisited.set base false) base
        (s.triangs.fanRecords.getD base default).border) s.map)
    (List.range' (s.triangs.fanRecords.getD base default).firstNei
      ((s.triangs.fanRecords.getD (base + 1) default).firstNei
        - (s.triangs.fanRecords.getD base default).firstNei))
    (s.triangs, s.heap.set base none)
  refine ⟨⟨?_, ?_, ?_, ?_, ?_, ?_, ?_⟩, ?_, rfl⟩
  · simp only [enqueueNeighbors]
    rw [f1]
    simp only [List.length_set]
    exact hinv.heap_length
  · intro v
    simp only [enqueueNeighbors]
    rw [getD_set_false]
    rcases f2 v with e | e
    · rw [e]
      by_cases hv : base = v
      · subst hv
        rw [if_pos rfl, getD_set_eq _ _ _ _ (by rw [hinv.heap_length]; exact hbn)]
        simp
      · rw [if_neg hv, getD_set_ne _ _ _ _ _ hv]
        exact hinv.heap_iff v
    · rw [getD_set_false] at e
      exact ⟨fun _ => e.1, fun _ => e.2⟩
  · simp only [enqueueNeighbors]
    exact List.Nodup.append hinv.order_nodup (List.nodup_singleton _)
      (by simpa using hnotin)
  · intro v hv
    simp only [enqueueNeighbors] at hv ⊢
    rw [getD_set_false]
    by_cases hbv : base = v
    · rw [if_pos hbv]
    · rw [if_neg hbv]
      rcases List.mem_append.1 hv with h | h
      · exact hinv.order_visited v h
      · simp at h; exact absurd h.symm hbv
  · intro v
    simp only [enqueueNeighbors]
    rw [getD_set_false, hinv.valid_iff v]
    by_cases hbv : base = v
    · subst hbv
      rw [if_pos rfl]
      exact ⟨fun _ => Or.inl (List.mem_append_right _ (List.mem_singleton_self _)),
        fun _ => Or.inr hb⟩
    · have : ¬ v = base := fun e => hbv e.symm
      rw [if_neg hbv, List.mem_append, List.mem_singleton]
      constructor
      · rintro (h | h)
        · exact Or.inl (Or.inl h)
        · exact Or.inr h
      · rintro ((h | h) | h)
        · exact Or.inl h
        · exact absurd h this
        · exact Or.inr h
  · simp only [enqueueNeighbors, List.length_append, List.length_singleton]
    have := countBits_set_false s.notVisited base hb
    have := hinv.count_eq
    omega
  · simp only [enqueueNeighbors, List.length_append, List.length_singleton]
    rw [hinv.visitedCount_eq]
  · simp only [enqueueNeighbors]
    exact countBits_set_false s.notVisited base hb

theorem reportProgressEvery_true (cb : ProgressCallback) (log : ProgressLog) (v : ℚ)
    (counter divider : Nat) (h : ∀ f, cb = some f → ∀ k v, f k v = true) :
    (reportProgressEvery cb log v counter divider).1 = true := by
  unfold reportProgressEvery
  split
  · exact reportProgress_true cb log v h
  · rfl

/-- With a callback that never answers false, the expansion loop ends after one iteration for
every vertex that is not visited yet, and the function returns true. -/
theorem expansionLoop_terminates {α : Type} [LinearOrderedField α] (progress : ProgressCallback)
    (hprog : ∀ f, progress = some f → ∀ k v, f k v = true) (total : Nat) (valid : List Bool)
    (n : Nat) (hn : 0 < n) :
    ∀ (fuel : Nat) (s : OrientState α) (log : ProgressLog), LoopInv valid n s →
      countBits s.notVisited < fuel →
      ∃ r, expansionLoop progress total fuel s log = some r ∧ r.ok = true ∧
        LoopInv valid n r.state ∧ countBits r.state.notVisited = 0 ∧
        ∃ rest, r.state.visitOrder = s.visitOrder ++ rest := by
  intro fuel
  induction fuel with
  | zero => intro s log _ h; omega
  | succ fuel ih =>
    intro s log hinv hfuel
    obtain ⟨t1, t2, t3⟩ := heapTop_spec s.heap (by rw [hinv.heap_length]; exact hn)
    simp only [expansionLoop]
    by_cases htop : (heapTop s.heap).2 = none
    · rw [if_pos htop]
      refine ⟨_, rfl, rfl, hinv, ?_, [], by simp⟩
      apply countBits_eq_zero
      intro j
      have h1 := t3 htop j
      have h2 := hinv.heap_iff j
      rw [h1] at h2
      cases hj : s.notVisited.getD j false
      · rfl
      · exact absurd (h2.2 hj) (by simp)
    · rw [if_neg htop]
      have hb : s.notVisited.getD (heapTop s.heap).1 false = true :=
        (hinv.heap_iff _).1 (by rw [t2]; exact htop)
      obtain ⟨e1, e2, e3⟩ := enqueueNeighbors_inv valid n s (heapTop s.heap).1 hinv
        (by rw [← hinv.heap_length]; exact t1) hb
      rw [if_neg (by rw [reportProgressEvery_true _ _ _ _ _ hprog]; simp)]
      obtain ⟨r, r1, r2, r3, r4, rest, r5⟩ := ih _
        (reportProgressEvery progress log _ _ 65536).2 e1 (by omega)
      exact ⟨r, r1, r2, r3, r4, (heapTop s.heap).1 :: rest, by rw [r5, e3]; simp⟩

theorem initialHeap_getD {α : Type} [LinearOrderedField α] (pc : PointCloud α)
    (hvalid : ∀ v, pc.validPoints.getD v false = true → v < pc.points.length) (v : Nat) :
    (initialHeap pc).getD v none ≠ none ↔ pc.validPoints.getD v false = true := by
  unfold initialHeap
  by_cases hv : v < pc.points.length
  · rw [List.getD_eq_getElem _ _ (by simp only [List.length_map, List.length_range]; exact hv)]
    simp only [List.getElem_map, List.getElem_range]
    cases pc.validPoints.getD v false <;> simp
  · rw [List.getD_eq_default _ _ (by simp only [List.length_map, List.length_range]; omega)]
    constructor
    · intro h; exact absurd rfl h
    · intro h; exact absurd (hvalid v h) hv

theorem loopInv_initial {α : Type} [LinearOrderedField α] (pc : PointCloud α)
    (t : AllLocalTriangulations)
    (hvalid : ∀ v, pc.validPoints.getD v false = true → v < pc.points.length) :
    LoopInv pc.validPoints pc.points.length
      (⟨t, initialHeap pc, [], pc.validPoints, 0, []⟩ : OrientState α) where
  heap_length := by simp [initialHeap]
  heap_iff := initialHeap_getD pc hvalid
  order_nodup := List.nodup_nil
  order_visited := fun v hv => absurd hv (List.not_mem_nil v)
  valid_iff := fun v => ⟨fun h => Or.inr h, fun h => h.elim (fun h => absurd h (List.not_mem_nil v)) id⟩
  count_eq := by simp
  visitedCount_eq := rfl

/-- Termination of the expansion loop over exact arithmetic: for every point cloud with at least one point whose
valid points are points of the cloud, and every store with a record for each point plus the sentinel, if the progress callback
never answers false then `autoOrientLocalTriangulations` returns true as soon as the expansion
loop is given more than `|validPoints|` iterations: the loop ends after exactly `|validPoints|`
calls of `enqueueNeighbors`, the visited vertices are pairwise distinct, and a vertex is visited
if and only if it is valid (also when no fan connects it to the vertex visited first). The
weights are numbers of an ordered field, and `InvalidWeight` is a value below all of them. -/
theorem autoOrientLocalTriangulations_terminates {α : Type} [LinearOrderedField α]
    (fuel : Nat) (pc : PointCloud α) (triangs : AllLocalTriangulations)
    (progress : ProgressCallback) (sched : List ℚ)
    (hpts : 0 < pc.points.length)
    (hvalid : ∀ v, pc.validPoints.getD v false = true → v < pc.points.length)
    (_hrec : pc.points.length + 1 ≤ triangs.fanRecords.length)
    (hprog : ∀ f, progress = some f → ∀ k v, f k v = true)
    (hfuel : countBits pc.validPoints < fuel) :
    ∃ r, autoOrientLocalTriangulations fuel pc triangs progress sched = some r ∧
      r.ok = true ∧
      r.state.visitedCount = countBits pc.validPoints ∧
      r.state.visitOrder.length = countBits pc.validPoints ∧
      r.state.visitOrder.Nodup ∧
      (∀ v, v ∈ r.state.visitOrder ↔ pc.validPoints.getD v false = true) ∧
      countBits r.state.notVisited = 0 := by
  obtain ⟨r, r1, r2, r3, r4, _⟩ := expansionLoop_terminates (α := α)
    (subprogress progress (1 / 10) 1) (subprogress_true progress _ _ hprog)
    (countBits pc.validPoints) pc.validPoints pc.points.length hpts fuel
    ⟨orientLocalTriangulations triangs pc.points
      (fun v => (getAt pc.points v default).sub (boxCenter pc.computeBoundingBox)),
      initialHeap pc, [], pc.validPoints, 0, []⟩
    (reportProgress progress (parallelForProgress (subprogress progress (1 / 20) (3 / 40)) sched
      (reportProgress progress (reportProgress progress (reportProgress progress [] (1 / 40)).2
        (1 / 40)).2 (1 / 20)).2).2 (1 / 10)).2
    (loopInv_initial pc _ hvalid) hfuel
  refine ⟨r, ?_, r2, ?_, ?_, r3.order_nodup, ?_, r4⟩
  · simp only [autoOrientLocalTriangulations]
    rw [if_neg (by rw [reportProgress_true _ _ _ hprog]; simp),
      if_neg (by rw [reportProgress_true _ _ _ hprog]; simp),
      if_neg (by rw [reportProgress_true _ _ _ hprog]; simp),
      if_neg (by rw [parallelForProgress_true _ _ (subprogress_true progress _ _ hprog)]; simp),
      if_neg (by rw [reportProgress_true _ _ _ hprog]; simp)]
    exact r1
  · have := r3.count_eq
    have := r3.visitedCount_eq
    omega
  · have := r3.count_eq
    omega
  · intro v
    have hnv : r.state.notVisited.getD v false = false := by
      cases h : r.state.notVisited.getD v false
      · rfl
      · have := countBits_pos _ _ h
        omega
    rw [r3.valid_iff v, hnv]
    simp

/-- The termination over exact arithmetic at a concrete input: the five valid points of `islandCloud` are visited, the point 4,
which no fan of `islandStore` mentions, among them. -/
theorem autoOrientLocalTriangulations_terminates_witness :
    ∃ r, autoOrientLocalTriangulations 6 islandCloud islandStore none [] = some r ∧
      r.ok = true ∧
      r.state.visitedCount = countBits islandCloud.validPoints ∧
      r.state.visitOrder.length = countBits islandCloud.validPoints ∧
      r.state.visitOrder.Nodup ∧
      (∀ v, v ∈ r.state.visitOrder ↔ islandCloud.validPoints.getD v false = true) ∧
      countBits r.state.notVisited = 0 :=
  autoOrientLocalTriangulations_terminates 6 islandCloud islandStore none [] (by decide)
    (fun v h => by
      rcases Nat.lt_or_ge v 5 with h5 | h5
      · exact h5
      · rw [List.getD_eq_default _ _ h5] at h
        exact absurd h (by decide))
    (by decide) (fun _ h => Option.noConfusion h) (by decide)

/-- C14: the cancellation scenario of the propagator. For every point cloud and every store, if
the callback answers false at its first invocation, or at its second one (both report the
fraction 0.025, the second before the seed pass starts), `autoOrientLocalTriangulations` returns
false without entering the expansion loop, and the store is the one it was given: offsets,
borders and neighbour array are unchanged. -/
theorem autoOrientLocalTriangulations_cancel {α : Type} [LinearOrderedField α] (fuel : Nat)
    (pc : PointCloud α) (triangs : AllLocalTriangulations) (f : Nat → ℚ → Bool) (sched : List ℚ)
    (hf : f 0 (1 / 40) = false ∨ f 1 (1 / 40) = false) :
    ∃ r, autoOrientLocalTriangulations fuel pc triangs (some f) sched = some r ∧
      r.ok = false ∧ r.state.triangs = triangs ∧ r.state.visitedCount = 0 ∧
      (r.log = [false] ∨ r.log = [true, false]) := by
  by_cases h0 : f 0 (1 / 40) = false
  · refine ⟨⟨false, ⟨triangs, [], [], pc.validPoints, 0, []⟩, [false]⟩, ?_, rfl, rfl, rfl,
      Or.inl rfl⟩
    simp only [autoOrientLocalTriangulations, reportProgress, List.length_nil, List.nil_append,
      h0, Bool.not_false, if_true]
  · have h1 : f 1 (1 / 40) = false := hf.resolve_left h0
    have h0t : f 0 (1 / 40) = true := by
      cases h : f 0 (1 / 40)
      · exact absurd h h0
      · rfl
    refine ⟨⟨false, ⟨triangs, [], [], pc.validPoints, 0, []⟩, [true, false]⟩, ?_, rfl, rfl, rfl,
      Or.inr rfl⟩
    simp only [autoOrientLocalTriangulations, reportProgress, List.length_nil, List.nil_append,
      List.length_singleton, List.singleton_append, Nat.zero_add, h0t, h1, Bool.not_true,
      Bool.not_false, if_true, Bool.false_eq_true, if_false]

/-- C14 at a concrete input: a callback that answers true once and false from then on. -/
theorem autoOrientLocalTriangulations_cancel_witness :
    ∃ r, autoOrientLocalTriangulations 0 islandCloud islandStore
        (some (fun k _ => decide (k < 1))) [] = some r ∧
      r.ok = false ∧ r.state.triangs = islandStore ∧ r.state.visitedCount = 0 ∧
      (r.log = [false] ∨ r.log = [true, false]) :=
  autoOrientLocalTriangulations_cancel 0 islandCloud islandStore (fun k _ => decide (k < 1)) []
    (Or.inr (by decide))

/-- C20 (amended): the two vote counters are 4-bit counters that wrap around. Registering a vote
adds one to the counter of its kind modulo 16 (a counter that holds 15, its largest value,
becomes 0) and leaves the other counter unchanged; every entry of the map built by
`makeTriangleHashMap` holds the numbers of same-oriented and opposite-oriented votes of its
triangle modulo 16. -/
theorem repetitions_vote_wraps (sh : Sharding) (t : AllLocalTriangulations) :
    (∀ r : Repetitions, r.sameOriented < 16 →
      (r.vote false).sameOriented = (if r.sameOriented = 15 then 0 else r.sameOriented + 1) ∧
      (r.vote false).oppositeOriented = r.oppositeOriented) ∧
    (∀ r : Repetitions, r.oppositeOriented < 16 →
      (r.vote true).oppositeOriented
        = (if r.oppositeOriented = 15 then 0 else r.oppositeOriented + 1) ∧
      (r.vote true).sameOriented = r.sameOriented) ∧
    (∀ e ∈ makeTriangleHashMap sh t,
      e.2.sameOriented = sameVotes t e.1 % 16 ∧
      e.2.oppositeOriented = oppositeVotes t e.1 % 16) := by
  refine ⟨?_, ?_, (makeTriangleHashMap_spec sh t).2.2⟩
  · intro r hr
    simp only [Repetitions.vote, Bool.false_eq_true, if_false]
    refine ⟨?_, trivial⟩
    split_ifs with h
    · rw [h]
    · exact Nat.mod_eq_of_lt (by omega)
  · intro r hr
    simp only [Repetitions.vote, if_true]
    refine ⟨?_, trivial⟩
    split_ifs with h
    · rw [h]
    · exact Nat.mod_eq_of_lt (by omega)

/-- C20 (amended) at a concrete input: a vote on the counters 3 and 0. -/
theorem repetitions_vote_wraps_witness :
    (Repetitions.vote ⟨3, 0⟩ false).sameOriented = 4 :=
  ((repetitions_vote_wraps oneShard triangleFanStore).1 ⟨3, 0⟩ (by decide)).1

/-- C20 fails as stated: a same-oriented vote on a counter that holds 15 sets it to 0, and so
does an opposite-oriented vote; in `wrapStore` the triangle 0, 1, 2 has 16 same-oriented and
17 opposite-oriented votes, and its entry in the map holds the counters 0 and 1. -/
theorem repetitions_vote_not_saturating :
    (Repetitions.vote ⟨15, 0⟩ false).sameOriented = 0 ∧
    (Repetitions.vote ⟨0, 15⟩ true).oppositeOriented = 0 ∧
    sameVotes wrapStore ⟨0, 1, 2⟩ = 16 ∧ oppositeVotes wrapStore ⟨0, 1, 2⟩ = 17 ∧
    makeTriangleHashMap oneShard wrapStore = [(⟨0, 1, 2⟩, ⟨0, 1⟩)] := by
  decide

/-- The flip of `computeVertWeight` and `orientLocalTriangulations`: same offsets, the fan of
`v` reversed, its border replaced by the neighbour after the border, the other fans as before. -/
theorem flipVertex_spec (t : AllLocalTriangulations) (hv : t.ValidCSR) (c : Nat)
    (hc : c + 1 < t.fanRecords.length) :
    t.SameShape (flipVertex t c) ∧
    (flipVertex t c).fan c = (t.fan c).reverse ∧
    (flipVertex t c).border c = nextAfterBorder (t.border c) (t.fan c) ∧
    ∀ c1, c1 ≠ c → c1 + 1 < t.fanRecords.length →
      (flipVertex t c).fan c1 = t.fan c1 ∧ (flipVertex t c).border c1 = t.border c1 := by
  have h1 := validCSR_mono t hv (c + 1) c (by omega) hc
  have h2 := validCSR_le_length t hv (c + 1) hc
  unfold flipVertex
  rw [fanPairsAt_eq_cyclicPairs _ _ _ h1 h2]
  have eb : (cyclicPairs ((t.neighbors.drop (t.fanRecords.getD c default).firstNei).take
      ((t.fanRecords.getD (c + 1) default).firstNei
        - (t.fanRecords.getD c default).firstNei))).foldl
      (fun o p => if p.1 = (t.fanRecords.getD c default).border then p.2 else o) (-1)
      = nextAfterBorder (t.border c) (t.fan c) := rfl
  rw [eb]
  generalize nextAfterBorder (t.border c) (t.fan c) = ob
  refine ⟨⟨map_firstNei_set _ _ _, reverseRange_length _ _ _ h1 h2⟩, ?_, ?_, ?_⟩
  · simp only [AllLocalTriangulations.fan]
    rw [getD_set_eq _ _ _ _ (by omega), getD_set_ne _ _ _ _ _ (by omega)]
    simp only
    rw [slice_reverseRange_self _ _ _ h1 h2]
  · simp only [AllLocalTriangulations.border]
    rw [getD_set_eq _ _ _ _ (by omega)]
  · intro c1 hne hc1
    simp only [AllLocalTriangulations.fan, AllLocalTriangulations.border]
    have g1 : (t.fanRecords.set c ⟨ob,
        (t.fanRecords.getD c default).firstNei⟩).getD c1 default
        = t.fanRecords.getD c1 default := getD_set_ne _ _ _ _ _ (fun h => hne h.symm)
    have g2 : ((t.fanRecords.set c ⟨ob,
        (t.fanRecords.getD c default).firstNei⟩).getD (c1 + 1) default).firstNei
        = (t.fanRecords.getD (c1 + 1) default).firstNei := by
      by_cases h : c = c1 + 1
      · rw [← h, getD_set_eq _ _ _ _ (by omega)]
      · rw [getD_set_ne _ _ _ _ _ h]
    rw [g1, g2]
    refine ⟨?_, rfl⟩
    have m1 := validCSR_mono t hv (c1 + 1) c1 (by omega) hc1
    have m2 := validCSR_le_length t hv (c1 + 1) hc1
    apply slice_reverseRange_other _ _ _ h1 h2 _ _ (by omega)
    rcases Nat.lt_or_gt_of_ne hne with h | h
    · left
      have := validCSR_mono t hv c (c1 + 1) (by omega) (by omega)
      omega
    · right
      exact validCSR_mono t hv c1 (c + 1) (by omega) (by omega)

theorem fanPairsAt_nil (nbrs : List Int) (a b : Nat) (h : b ≤ a) : fanPairsAt nbrs a b = [] := by
  unfold fanPairsAt
  rw [Nat.sub_eq_zero_of_le h]
  rfl

/-- The body of `orientLocalTriangulations` for a vertex leaves the store as it is or flips the
fan of the vertex, which is not empty then. -/
theorem orientVertex_eq_or_flip {α : Type} [Zero α] [Add α] [Sub α] [Mul α] [LT α]
    [DecidableRel (fun a b : α => a < b)] (coords : List (Vector3 α))
    (targetDir : Int → Vector3 α) (t : AllLocalTriangulations) (c : Nat) :
    orientVertex coords targetDir t c = t ∨
    ((t.fanRecords.getD c default).firstNei < (t.fanRecords.getD (c + 1) default).firstNei ∧
      orientVertex coords targetDir t c = flipVertex t c) := by
  unfold orientVertex
  split_ifs with h1 h2
  · exact Or.inl rfl
  · exact Or.inl rfl
  · right
    refine ⟨by omega, ?_⟩
    unfold flipVertex
    rw [(foldl_orientStep _ _ _ _ _ _).2]

theorem foldl_weightStep_otherBd (map : TriangleMap) (v border : Int) (ps : List (Int × Int)) :
    ∀ acc : WeightAcc, (ps.foldl (weightStep map v border) acc).otherBd
      = ps.foldl (fun o p => if p.1 = border then p.2 else o) acc.otherBd := by
  induction ps with
  | nil => intro acc; rfl
  | cons p ps ih =>
    intro acc
    have hstep : (weightStep map v border acc p).otherBd
        = (if p.1 = border then p.2 else acc.otherBd) := by
      unfold weightStep
      by_cases hb : p.1 = border
      · rw [if_pos hb, if_pos hb]
      · rw [if_neg hb, if_neg hb]
        cases mapFind map (unorientedTriangle v p.2 p.1).1 with
        | none => rfl
        | some r =>
          simp only []
          split_ifs <;> rfl
    simp only [List.foldl_cons]
    rw [ih, hstep]

/-- The lambda `computeVertWeight( v )` leaves the store as it is or flips the fan of `v`, which
is not empty then. -/
theorem computeVertWeight_eq_or_flip (t : AllLocalTriangulations) (map : TriangleMap) (v : Int) :
    (computeVertWeight t map v).1 = t ∨
    ((t.fanRecords.getD v.toNat default).firstNei
        < (t.fanRecords.getD (v.toNat + 1) default).firstNei ∧
      (computeVertWeight t map v).1 = flipVertex t v.toNat) := by
  unfold computeVertWeight
  simp only
  split_ifs with h
  · right
    constructor
    · by_contra hle
      unfold weightAcc at h
      rw [fanPairsAt_nil _ _ _ (by omega)] at h
      simp at h
    · unfold flipVertex weightAcc
      rw [foldl_weightStep_otherBd]
  · exact Or.inl rfl


theorem vector3_ext {α : Type} (a b : Vector3 α) (hx : a.x = b.x) (hy : a.y = b.y)
    (hz : a.z = b.z) : a = b := by
  cases a; cases b; simp only [Vector3.mk.injEq]; exact ⟨hx, hy, hz⟩

theorem cross_swap {α : Type} [CommRing α] (a b : Vector3 α) : cross a b = (cross b a).neg := by
  apply vector3_ext <;> simp only [cross, Vector3.neg] <;> ring

/-- The loop of `computeNormal` adds up the terms of the pairs whose first neighbour is not the
border. -/
theorem normalStep_foldl {α : Type} [CommRing α] (ops : VectorOps α) (points : List (Vector3 α))
    (pv : Vector3 α) (border : Int) (ps : List (Int × Int)) :
    ∀ acc : Vector3 α,
      ps.foldl (normalStep ops points pv border) acc
        = ⟨acc.x + (ps.map (fun p => if p.1 = border then 0
              else (normalTerm ops points pv p).x)).sum,
            acc.y + (ps.map (fun p => if p.1 = border then 0
              else (normalTerm ops points pv p).y)).sum,
            acc.z + (ps.map (fun p => if p.1 = border then 0
              else (normalTerm ops points pv p).z)).sum⟩ := by
  induction ps with
  | nil => intro acc; simp
  | cons p ps ih =>
    intro acc
    simp only [List.foldl_cons, List.map_cons, List.sum_cons]
    rw [ih]
    unfold normalStep
    by_cases hb : p.1 = border
    · simp only [if_pos hb, zero_add]
    · simp only [if_neg hb, Vector3.add]
      apply vector3_ext <;> simp only [add_assoc]

theorem sum_map_zero {α β : Type} [AddMonoid α] (l : List β) (g : β → α)
    (h : ∀ p ∈ l, g p = 0) : (l.map g).sum = 0 := by
  induction l with
  | nil => rfl
  | cons a l ih =>
    rw [List.map_cons, List.sum_cons, h a (List.mem_cons_self _ _),
      ih (fun p hp => h p (List.mem_cons_of_mem _ hp)), add_zero]

/-- C17: `computeNormal` returns the zero vector for a vertex whose fan is empty and for a fan
all of whose triangles are degenerate (the cross product of every pair that is not skipped is
the zero vector), provided that `normalized()` maps the zero vector to the zero vector: the sum
stays the zero vector it is initialised with, and no length is divided by. -/
theorem computeNormal_zero {α : Type} [CommRing α] (ops : VectorOps α)
    (hz : ops.normalized ⟨0, 0, 0⟩ = ⟨0, 0, 0⟩) (t : AllLocalTriangulations)
    (points : List (Vector3 α)) (v : Nat) :
    ((t.fanRecords.getD (v + 1) default).firstNei ≤ (t.fanRecords.getD v default).firstNei →
      computeNormal ops t points v = ⟨0, 0, 0⟩) ∧
    ((∀ p ∈ fanPairsAt t.neighbors (t.fanRecords.getD v default).firstNei
        (t.fanRecords.getD (v + 1) default).firstNei,
        p.1 ≠ (t.fanRecords.getD v default).border →
        cross ((getAt points p.2 default).sub (points.getD v default))
          ((getAt points p.1 default).sub (points.getD v default)) = ⟨0, 0, 0⟩) →
      computeNormal ops t points v = ⟨0, 0, 0⟩) := by
  have key : (∀ p ∈ fanPairsAt t.neighbors (t.fanRecords.getD v default).firstNei
        (t.fanRecords.getD (v + 1) default).firstNei,
        p.1 ≠ (t.fanRecords.getD v default).border →
        cross ((getAt points p.2 default).sub (points.getD v default))
          ((getAt points p.1 default).sub (points.getD v default)) = ⟨0, 0, 0⟩) →
      computeNormal ops t points v = ⟨0, 0, 0⟩ := by
    intro hdeg
    unfold computeNormal
    rw [normalStep_foldl]
    have hterm : ∀ p ∈ fanPairsAt t.neighbors (t.fanRecords.getD v default).firstNei
        (t.fanRecords.getD (v + 1) default).firstNei,
        p.1 ≠ (t.fanRecords.getD v default).border →
        normalTerm ops points (points.getD v default) p = ⟨0, 0, 0⟩ := by
      intro p hp hb
      unfold normalTerm
      rw [hdeg p hp hb, hz]
      simp only [Vector3.scale, mul_zero]
    rw [sum_map_zero, sum_map_zero, sum_map_zero]
    · simp only [add_zero]
      exact hz
    all_goals
      intro p hp
      by_cases hb : p.1 = (t.fanRecords.getD v default).border
      · rw [if_pos hb]
      · rw [if_neg hb, hterm p hp hb]
  refine ⟨fun hempty => key ?_, key⟩
  rw [fanPairsAt_nil _ _ _ hempty]
  intro p hp
  exact absurd hp (List.not_mem_nil p)

/-- C17 at a concrete input: the fan of the vertex 1 of `triangleFanStore` is empty. -/
theorem computeNormal_zero_witness :
    computeNormal quarterTurnOps triangleFanStore triangleFanCoords 1 = ⟨0, 0, 0⟩ :=
  (computeNormal_zero quarterTurnOps rfl triangleFanStore triangleFanCoords 1).1 (by decide)


theorem sum_map_cyclicPairs_reverse {α : Type} [AddCommMonoid α] (fan : List Int)
    (g : Int × Int → α) :
    ((cyclicPairs fan.reverse).map g).sum = ((cyclicPairs fan).map (fun q => g q.swap)).sum := by
  have h := (cyclicPairs_reverse_perm fan).map g
  rw [h.sum_eq, List.map_map]
  rfl

/-- In a fan of pairwise distinct neighbours, the position skipped after a flip is the one
skipped before: a neighbour is followed by the new border exactly when it is the old border. -/
theorem snd_eq_nextAfterBorder_iff (fan : List Int) (hnd : fan.Nodup) (b : Int)
    (hb : b ∈ fan ∨ (-1 : Int) ∉ fan) (q : Int × Int) (hq : q ∈ cyclicPairs fan) :
    q.2 = nextAfterBorder b fan ↔ q.1 = b := by
  have hfst : ((cyclicPairs fan).map Prod.fst).Nodup := by rw [cyclicPairs_map_fst]; exact hnd
  have hsnd : ((cyclicPairs fan).map Prod.snd).Nodup := by
    rw [cyclicPairs_map_snd]; exact List.nodup_rotate.2 hnd
  have hq1 : q.1 ∈ fan := by
    rw [← cyclicPairs_map_fst fan]; exact List.mem_map_of_mem _ hq
  have hq2 : q.2 ∈ fan := by
    have : q.2 ∈ fan.rotate 1 := by
      rw [← cyclicPairs_map_snd fan]; exact List.mem_map_of_mem _ hq
    exact List.mem_rotate.1 this
  by_cases hbf : b ∈ fan
  · have hm : (b, nextAfterBorder b fan) ∈ cyclicPairs fan :=
      foldl_nextAfter_mem b (cyclicPairs fan) (-1) hfst (by rw [cyclicPairs_map_fst]; exact hbf)
    constructor
    · intro h
      have := List.inj_on_of_nodup_map hsnd hq hm h
      rw [this]
    · intro h
      have := List.inj_on_of_nodup_map hfst hq hm h
      rw [this]
  · have hn1 : (-1 : Int) ∉ fan := hb.resolve_left hbf
    have e : nextAfterBorder b fan = -1 :=
      foldl_nextAfter_of_not_mem b (cyclicPairs fan) (-1)
        (by rw [cyclicPairs_map_fst]; exact hbf)
    rw [e]
    constructor
    · intro h; rw [h] at hq2; exact absurd hq2 hn1
    · intro h; rw [h] at hq1; exact absurd hq1 hbf

theorem computeNormal_eq {α : Type} [CommRing α] (ops : VectorOps α)
    (t : AllLocalTriangulations) (hv : t.ValidCSR) (points : List (Vector3 α)) (v : Nat)
    (hc : v + 1 < t.fanRecords.length) :
    computeNormal ops t points v = ops.normalized
      ⟨((cyclicPairs (t.fan v)).map (fun p => if p.1 = t.border v then 0
          else (normalTerm ops points (points.getD v default) p).x)).sum,
        ((cyclicPairs (t.fan v)).map (fun p => if p.1 = t.border v then 0
          else (normalTerm ops points (points.getD v default) p).y)).sum,
        ((cyclicPairs (t.fan v)).map (fun p => if p.1 = t.border v then 0
          else (normalTerm ops points (points.getD v default) p).z)).sum⟩ := by
  have h1 := validCSR_mono t hv (v + 1) v (by omega) hc
  have h2 := validCSR_le_length t hv (v + 1) hc
  unfold computeNormal
  rw [normalStep_foldl, fanPairsAt_eq_cyclicPairs _ _ _ h1 h2]
  simp only [zero_add]
  rfl

theorem normalTerm_swap {α : Type} [CommRing α] (ops : VectorOps α)
    (hang : ∀ a b, ops.angle a b = ops.angle b a)
    (hneg : ∀ u, ops.normalized u.neg = (ops.normalized u).neg)
    (points : List (Vector3 α)) (pv : Vector3 α) (q : Int × Int) :
    normalTerm ops points pv q.swap = (normalTerm ops points pv q).neg := by
  unfold normalTerm
  simp only [Prod.fst_swap, Prod.snd_swap]
  rw [cross_swap, hneg, hang]
  apply vector3_ext <;> simp only [Vector3.scale, Vector3.neg, mul_neg]

theorem sum_map_neg {α β : Type} [AddCommGroup α] (l : List β) (g : β → α) :
    (l.map (fun p => -g p)).sum = -(l.map g).sum := by
  induction l with
  | nil => simp
  | cons a l ih => simp only [List.map_cons, List.sum_cons, ih]; abel

/-- C16 (amended): over exact arithmetic, with an angle that is symmetric in its arguments and a
normalisation that commutes with negation, for every vertex `v` of a valid store whose fan lists
pairwise distinct valid neighbours, `computeNormal` on the store obtained by flipping the fan
of `v` (slice reversed, border replaced as the orientation components do) is the negation of
`computeNormal` on the original store. -/
theorem computeNormal_flipVertex {α : Type} [CommRing α] (ops : VectorOps α)
    (hang : ∀ a b, ops.angle a b = ops.angle b a)
    (hneg : ∀ u, ops.normalized u.neg = (ops.normalized u).neg)
    (t : AllLocalTriangulations) (hv : t.ValidCSR) (points : List (Vector3 α)) (v : Nat)
    (hc : v + 1 < t.fanRecords.length) (hnd : (t.fan v).Nodup)
    (hval : ∀ x ∈ t.fan v, 0 ≤ x) :
    computeNormal ops (flipVertex t v) points v = (computeNormal ops t points v).neg := by
  obtain ⟨f1, f2, f3, _⟩ := flipVertex_spec t hv v hc
  have hv1 : (flipVertex t v).ValidCSR := sameShape_validCSR f1 hv
  have hc1 : v + 1 < (flipVertex t v).fanRecords.length := by
    rw [sameShape_length f1]; exact hc
  have hn1 : (-1 : Int) ∉ t.fan v := fun h => absurd (hval _ h) (by decide)
  rw [computeNormal_eq ops _ hv1 points v hc1, computeNormal_eq ops t hv points v hc, f2, f3,
    ← hneg]
  congr 1
  have hcomp : ∀ π : Vector3 α → α, (∀ u, π u.neg = -π u) →
      ((cyclicPairs (t.fan v).reverse).map (fun p =>
        if p.1 = nextAfterBorder (t.border v) (t.fan v) then 0
        else π (normalTerm ops points (points.getD v default) p))).sum
      = -((cyclicPairs (t.fan v)).map (fun p => if p.1 = t.border v then 0
        else π (normalTerm ops points (points.getD v default) p))).sum := by
    intro π hπ
    rw [sum_map_cyclicPairs_reverse, ← sum_map_neg]
    congr 1
    apply List.map_congr_left
    intro q hq
    have hiff := snd_eq_nextAfterBorder_iff (t.fan v) hnd (t.border v) (Or.inr hn1) q hq
    simp only [Prod.fst_swap]
    by_cases hb : q.1 = t.border v
    · rw [if_pos (hiff.2 hb), if_pos hb, neg_zero]
    · rw [if_neg (fun h => hb (hiff.1 h)), if_neg hb,
        normalTerm_swap ops hang hneg, hπ]
  apply vector3_ext
  · exact hcomp (fun u => u.x) (fun u => rfl)
  · exact hcomp (fun u => u.y) (fun u => rfl)
  · exact hcomp (fun u => u.z) (fun u => rfl)

/-- C16 (amended) at a concrete input: the fan 1, 2, 3 of the vertex 0 of `triangleFanStore`. -/
theorem computeNormal_flipVertex_witness :
    computeNormal quarterTurnOps (flipVertex triangleFanStore 0) triangleFanCoords 0
      = (computeNormal quarterTurnOps triangleFanStore triangleFanCoords 0).neg :=
  computeNormal_flipVertex quarterTurnOps (fun _ _ => rfl) (fun _ => rfl) triangleFanStore
    (by decide) triangleFanCoords 0 (by decide) (by decide) (by decide)

/-- C16 fails as stated: in `twiceNeighborStore` the border 1 of the fan 1, 2, 3, 2 of the
vertex 0 occurs exactly once; `orientLocalTriangulations` with the direction `(0, 0, -1)` flips
the fan to 2, 3, 2, 1 with the border 2, which skips two positions. Before the flip the terms
of the pairs (2, 3) and (3, 2) cancel and the normal is that of the pair (2, 1), `(0, 0, 1)`;
after the flip the terms of the pairs (3, 2) and (1, 2) cancel and the normal is the zero
vector, not `(0, 0, -1)`. All angles of this input are quarter turns and all cross products have
length 1. -/
theorem computeNormal_flip_fails :
    twiceNeighborStore.ValidCSR ∧ twiceNeighborStore.BordersOnce ∧
    orientLocalTriangulations twiceNeighborStore twiceNeighborCoords downDir
      = flipVertex twiceNeighborStore 0 ∧
    flipVertex twiceNeighborStore 0
      = { neighbors := [2, 3, 2, 1]
          fanRecords := [⟨2, 0⟩, ⟨-1, 4⟩, ⟨-1, 4⟩, ⟨-1, 4⟩, ⟨-1, 4⟩] } ∧
    computeNormal quarterTurnOps twiceNeighborStore twiceNeighborCoords 0 = ⟨0, 0, 1⟩ ∧
    computeNormal quarterTurnOps (flipVertex twiceNeighborStore 0) twiceNeighborCoords 0
      = ⟨0, 0, 0⟩ := by
  decide


theorem heapTop_nil {α : Type} [LinearOrder α] : (heapTop ([] : Heap α)).2 = none := rfl

theorem expansionLoop_succ {α : Type} [LinearOrderedField α] (progress : ProgressCallback)
    (total fuel : Nat) (s : OrientState α) (log : ProgressLog) :
    expansionLoop progress total (fuel + 1) s log =
      if (heapTop s.heap).2 = none then some ⟨true, s, log⟩
      else if !(reportProgressEvery progress log
          (((loopStep s).visitedCount : ℚ) / (total : ℚ)) (loopStep s).visitedCount 65536).1
        then some ⟨false, loopStep s, (reportProgressEvery progress log
          (((loopStep s).visitedCount : ℚ) / (total : ℚ)) (loopStep s).visitedCount 65536).2⟩
        else expansionLoop progress total fuel (loopStep s) (reportProgressEvery progress log
          (((loopStep s).visitedCount : ℚ) / (total : ℚ)) (loopStep s).visitedCount 65536).2 :=
  rfl

/-- Induction over the expansion loop: a property of the state that every iteration keeps, while
the number of vertices that are not visited decreases, holds when the loop is left, and the loop
is left within that number of iterations. -/
theorem expansionLoop_induction {α : Type} [LinearOrderedField α] (progress : ProgressCallback)
    (total : Nat) (P : OrientState α → Prop)
    (hstep : ∀ s, P s → (heapTop s.heap).2 ≠ none →
      P (loopStep s) ∧ countBits (loopStep s).notVisited < countBits s.notVisited) :
    ∀ (fuel : Nat) (s : OrientState α) (log : ProgressLog), P s →
      countBits s.notVisited < fuel →
      ∃ r, expansionLoop progress total fuel s log = some r ∧ P r.state ∧
        (r.ok = true → (heapTop r.state.heap).2 = none) := by
  intro fuel
  induction fuel with
  | zero => intro s log _ h; omega
  | succ fuel ih =>
    intro s log hP hfuel
    rw [expansionLoop_succ]
    by_cases htop : (heapTop s.heap).2 = none
    · rw [if_pos htop]
      exact ⟨_, rfl, hP, fun _ => htop⟩
    · rw [if_neg htop]
      obtain ⟨hP1, hlt⟩ := hstep s hP htop
      split_ifs with hp
      · exact ⟨_, rfl, hP1, fun h => absurd h (by simp)⟩
      · exact ih _ _ hP1 (by omega)

/-- An iteration of the expansion loop visits a vertex that was not visited, and keeps the
weights of the visited vertices at `InvalidWeight`. -/
theorem loopStep_tracks {α : Type} [LinearOrderedField α] (s : OrientState α)
    (hw : HeapTracksUnvisited s) (htop : (heapTop s.heap).2 ≠ none) :
    HeapTracksUnvisited (loopStep s) ∧
    s.notVisited.getD (heapTop s.heap).1 false = true ∧
    (loopStep s).notVisited = s.notVisited.set (heapTop s.heap).1 false ∧
    countBits (loopStep s).notVisited < countBits s.notVisited := by
  have hne : 0 < s.heap.length := by
    rcases Nat.eq_zero_or_pos s.heap.length with h | h
    · rw [List.length_eq_zero] at h
      rw [h] at htop
      exact absurd heapTop_nil htop
    · exact h
  obtain ⟨t1, t2, _⟩ := heapTop_spec s.heap hne
  have hb : s.notVisited.getD (heapTop s.heap).1 false = true := hw _ (by rw [t2]; exact htop)
  obtain ⟨_, f2⟩ := foldl_reweighStep_heap (α := α) (s.notVisited.set (heapTop s.heap).1 false)
    ((fanPairsAt s.triangs.neighbors
        (s.triangs.fanRecords.getD (heapTop s.heap).1 default).firstNei
        (s.triangs.fanRecords.getD ((heapTop s.heap).1 + 1) default).firstNei).foldl
      (registerStep (s.notVisited.set (heapTop s.heap).1 false) (heapTop s.heap).1
        (s.triangs.fanRecords.getD (heapTop s.heap).1 default).border) s.map)
    (List.range' (s.triangs.fanRecords.getD (heapTop s.heap).1 default).firstNei
      ((s.triangs.fanRecords.getD ((heapTop s.heap).1 + 1) default).firstNei
        - (s.triangs.fanRecords.getD (heapTop s.heap).1 default).firstNei))
    (s.triangs, s.heap.set (heapTop s.heap).1 none)
  refine ⟨?_, hb, rfl, ?_⟩
  · intro v hvne
    simp only [loopStep, enqueueNeighbors] at hvne ⊢
    rcases f2 v with e | e
    · rw [e] at hvne
      rw [getD_set_false]
      by_cases hv : (heapTop s.heap).1 = v
      · subst hv
        rw [getD_set_eq _ _ _ _ t1] at hvne
        exact absurd rfl hvne
      · rw [if_neg hv]
        rw [getD_set_ne _ _ _ _ _ hv] at hvne
        exact hw v hvne
    · exact e.1
  · have := countBits_set_false s.notVisited (heapTop s.heap).1 hb
    simp only [loopStep, enqueueNeighbors]
    omega


theorem foldl_orientVertex_closed {α : Type} [Zero α] [Add α] [Sub α] [Mul α] [LT α]
    [DecidableRel (fun a b : α => a < b)]
    (Q : AllLocalTriangulations → Prop)
    (hflip : ∀ t u, Q t → (t.fanRecords.getD u default).firstNei
      < (t.fanRecords.getD (u + 1) default).firstNei → Q (flipVertex t u))
    (coords : List (Vector3 α)) (targetDir : Int → Vector3 α) (cs : List Nat) :
    ∀ t, Q t → Q (cs.foldl (orientVertex coords targetDir) t) := by
  induction cs with
  | nil => intro t h; exact h
  | cons c cs ih =>
    intro t h
    rw [List.foldl_cons]
    apply ih
    rcases orientVertex_eq_or_flip coords targetDir t c with e | ⟨hlt, e⟩
    · rw [e]; exact h
    · rw [e]; exact hflip t c h hlt

/-- A property of the store that every flip of a non-empty fan keeps is kept by
`orientLocalTriangulations`. -/
theorem orientLocalTriangulations_closed {α : Type} [Zero α] [Add α] [Sub α] [Mul α] [LT α]
    [DecidableRel (fun a b : α => a < b)]
    (Q : AllLocalTriangulations → Prop)
    (hflip : ∀ t u, Q t → (t.fanRecords.getD u default).firstNei
      < (t.fanRecords.getD (u + 1) default).firstNei → Q (flipVertex t u))
    (coords : List (Vector3 α)) (targetDir : Int → Vector3 α) (t : AllLocalTriangulations)
    (h : Q t) : Q (orientLocalTriangulations t coords targetDir) := by
  unfold orientLocalTriangulations
  split_ifs
  · exact h
  · exact foldl_orientVertex_closed Q hflip coords targetDir _ t h

theorem foldl_reweighStep_closed {α : Type} [LinearOrderedField α]
    (Q : AllLocalTriangulations → Prop)
    (hflip : ∀ t u, Q t → (t.fanRecords.getD u default).firstNei
      < (t.fanRecords.getD (u + 1) default).firstNei → Q (flipVertex t u))
    (nv : List Bool) (map : TriangleMap) (ns : List Nat) :
    ∀ s : AllLocalTriangulations × Heap α, Q s.1 → Q (ns.foldl (reweighStep nv map) s).1 := by
  induction ns with
  | nil => intro s h; exact h
  | cons n ns ih =>
    intro s h
    rw [List.foldl_cons]
    apply ih
    unfold reweighStep
    split_ifs
    · rcases computeVertWeight_eq_or_flip s.1 map (s.1.neighbors.getD n (-1)) with e | ⟨hlt, e⟩
      · simp only; rw [e]; exact h
      · simp only; rw [e]; exact hflip _ _ h hlt
    · exact h

theorem loopStep_closed {α : Type} [LinearOrderedField α]
    (Q : AllLocalTriangulations → Prop)
    (hflip : ∀ t u, Q t → (t.fanRecords.getD u default).firstNei
      < (t.fanRecords.getD (u + 1) default).firstNei → Q (flipVertex t u))
    (s : OrientState α) (h : Q s.triangs) : Q (loopStep s).triangs := by
  simp only [loopStep, enqueueNeighbors]
  exact foldl_reweighStep_closed Q hflip _ _ _ _ h

theorem initialHeap_tracks {α : Type} [LinearOrderedField α] (pc : PointCloud α)
    (t : AllLocalTriangulations) :
    HeapTracksUnvisited (⟨t, initialHeap pc, [], pc.validPoints, 0, []⟩ : OrientState α) := by
  intro v hv
  simp only at hv ⊢
  unfold initialHeap at hv
  by_cases hlt : v < pc.points.length
  · rw [List.getD_eq_getElem _ _ (by simp only [List.length_map, List.length_range]; exact hlt)]
      at hv
    simp only [List.getElem_map, List.getElem_range] at hv
    cases h : pc.validPoints.getD v false
    · rw [h] at hv; simp at hv
    · rfl
  · rw [List.getD_eq_default _ _ (by simp only [List.length_map, List.length_range]; omega)] at hv
    exact absurd rfl hv

/-- A property of the store that every flip of a non-empty fan keeps holds for the store that
`autoOrientLocalTriangulations` leaves, whatever it returns; the function returns when the
expansion loop is given more iterations than there are valid points. -/
theorem autoOrientLocalTriangulations_closed {α : Type} [LinearOrderedField α]
    (Q : AllLocalTriangulations → Prop)
    (hflip : ∀ t u, Q t → (t.fanRecords.getD u default).firstNei
      < (t.fanRecords.getD (u + 1) default).firstNei → Q (flipVertex t u))
    (fuel : Nat) (pc : PointCloud α) (triangs : AllLocalTriangulations)
    (progress : ProgressCallback) (sched : List ℚ) (h : Q triangs)
    (hfuel : countBits pc.validPoints < fuel) :
    ∃ r, autoOrientLocalTriangulations fuel pc triangs progress sched = some r ∧
      Q r.state.triangs := by
  have h1 : Q (orientLocalTriangulations triangs pc.points
      (fun v => (getAt pc.points v default).sub (boxCenter pc.computeBoundingBox))) :=
    orientLocalTriangulations_closed Q hflip _ _ _ h
  simp only [autoOrientLocalTriangulations]
  split_ifs
  · exact ⟨_, rfl, h⟩
  · exact ⟨_, rfl, h⟩
  · exact ⟨_, rfl, h1⟩
  · exact ⟨_, rfl, h1⟩
  · exact ⟨_, rfl, h1⟩
  · obtain ⟨r, r1, r2, _⟩ := expansionLoop_induction (α := α)
      (subprogress progress (1 / 10) 1) (countBits pc.validPoints)
      (fun s => Q s.triangs ∧ HeapTracksUnvisited s)
      (fun s hs htop => ⟨⟨loopStep_closed Q hflip s hs.1, (loopStep_tracks s hs.2 htop).1⟩,
        (loopStep_tracks s hs.2 htop).2.2.2⟩)
      fuel _ _ ⟨h1, initialHeap_tracks pc _⟩ hfuel
    exact ⟨r, r1, r2.1⟩


theorem sameFansUpToReversal_of {t t1 : AllLocalTriangulations} (hs : t.SameShape t1)
    (hf : ∀ v, v + 1 < t.fanRecords.length →
      t1.fan v = t.fan v ∨ t1.fan v = (t.fan v).reverse) : t.SameFansUpToReversal t1 :=
  ⟨sameShape_length hs, sameShape_firstNei hs, hs.2, hf⟩

theorem lt_length_of_firstNei_lt (t : AllLocalTriangulations) (u : Nat)
    (h : (t.fanRecords.getD u default).firstNei
      < (t.fanRecords.getD (u + 1) default).firstNei) : u + 1 < t.fanRecords.length := by
  by_contra hge
  have e : t.fanRecords.getD (u + 1) default = default :=
    List.getD_eq_default _ _ (by omega)
  rw [e] at h
  exact absurd h (Nat.not_lt_zero _)

/-- The relation "same offsets, every fan kept or reversed" to a valid store `t` is kept by every
flip of a non-empty fan. -/
theorem fansReversed_flip (t : AllLocalTriangulations) (hv : t.ValidCSR)
    (t1 : AllLocalTriangulations) (u : Nat)
    (h : t.SameShape t1 ∧ ∀ v, v + 1 < t.fanRecords.length →
      t1.fan v = t.fan v ∨ t1.fan v = (t.fan v).reverse)
    (hlt : (t1.fanRecords.getD u default).firstNei
      < (t1.fanRecords.getD (u + 1) default).firstNei) :
    t.SameShape (flipVertex t1 u) ∧ ∀ v, v + 1 < t.fanRecords.length →
      (flipVertex t1 u).fan v = t.fan v ∨ (flipVertex t1 u).fan v = (t.fan v).reverse := by
  have hv1 : t1.ValidCSR := sameShape_validCSR h.1 hv
  have hu : u + 1 < t1.fanRecords.length := lt_length_of_firstNei_lt t1 u hlt
  have hlen := sameShape_length h.1
  obtain ⟨f1, f2, _, f4⟩ := flipVertex_spec t1 hv1 u hu
  refine ⟨sameShape_trans h.1 f1, ?_⟩
  intro v hvl
  by_cases hvu : v = u
  · subst hvu
    rw [f2]
    rcases h.2 v hvl with e | e
    · right; rw [e]
    · left; rw [e, List.reverse_reverse]
  · rw [(f4 v hvu (by omega)).1]
    exact h.2 v hvl

/-- C19 (amended): on a store whose offsets are non-decreasing and lie inside the neighbour
array, `orientLocalTriangulations` (for all coordinates and directions) and
`autoOrientLocalTriangulations` (for every point cloud and callback, whatever it returns) leave
the number of fan records, every `firstNei` offset and the length of the neighbour array
unchanged, and every fan afterwards is the fan before or its exact reverse. -/
theorem orientation_keeps_frame {α : Type} [LinearOrderedField α] (t : AllLocalTriangulations)
    (hv : t.ValidCSR) :
    (∀ (coords : List (Vector3 α)) (targetDir : Int → Vector3 α),
      t.SameFansUpToReversal (orientLocalTriangulations t coords targetDir)) ∧
    (∀ (fuel : Nat) (pc : PointCloud α) (progress : ProgressCallback) (sched : List ℚ),
      countBits pc.validPoints < fuel →
      ∃ r, autoOrientLocalTriangulations fuel pc t progress sched = some r ∧
        t.SameFansUpToReversal r.state.triangs) := by
  have h0 : t.SameShape t ∧ ∀ v, v + 1 < t.fanRecords.length →
      t.fan v = t.fan v ∨ t.fan v = (t.fan v).reverse :=
    ⟨sameShape_refl t, fun _ _ => Or.inl rfl⟩
  constructor
  · intro coords targetDir
    have := orientLocalTriangulations_closed
      (fun t1 => t.SameShape t1 ∧ ∀ v, v + 1 < t.fanRecords.length →
        t1.fan v = t.fan v ∨ t1.fan v = (t.fan v).reverse)
      (fun t1 u h hlt => fansReversed_flip t hv t1 u h hlt) coords targetDir t h0
    exact sameFansUpToReversal_of this.1 this.2
  · intro fuel pc progress sched hfuel
    obtain ⟨r, r1, r2⟩ := autoOrientLocalTriangulations_closed
      (fun t1 => t.SameShape t1 ∧ ∀ v, v + 1 < t.fanRecords.length →
        t1.fan v = t.fan v ∨ t1.fan v = (t.fan v).reverse)
      (fun t1 u h hlt => fansReversed_flip t hv t1 u h hlt) fuel pc t progress sched h0 hfuel
    exact ⟨r, r1, sameFansUpToReversal_of r2.1 r2.2⟩

/-- C19 (amended) at a concrete input: the neighbour array of `islandStore` keeps its length. -/
theorem orientation_keeps_frame_witness :
    (orientLocalTriangulations islandStore islandCloud.points
      (fun _ => (⟨0, 0, 1⟩ : Vector3 ℚ))).neighbors.length = 3 :=
  ((orientation_keeps_frame islandStore (by decide)).1 islandCloud.points
    (fun _ => (⟨0, 0, 1⟩ : Vector3 ℚ))).2.2.1

/-- C19 fails as stated: `overlappingStore` has the offsets 0, 3, 1, 3, 3, so that the slice of
the vertex 2 lies inside the slice of the vertex 0. `orientLocalTriangulations` reverses the
slice 1, 2, 3 of the vertex 0, and the slice of the vertex 2 changes from 2, 3 to 2, 1, which is
neither the slice before nor its reverse. -/
theorem orientation_keeps_frame_fails :
    orientLocalTriangulations overlappingStore triangleFanCoords upDir
      = { neighbors := [3, 2, 1]
          fanRecords := [⟨-1, 0⟩, ⟨-1, 3⟩, ⟨-1, 1⟩, ⟨-1, 3⟩, ⟨-1, 3⟩] } ∧
    overlappingStore.fan 2 = [2, 3] ∧
    (orientLocalTriangulations overlappingStore triangleFanCoords upDir).fan 2 = [2, 1] ∧
    ¬ overlappingStore.SameFansUpToReversal
      (orientLocalTriangulations overlappingStore triangleFanCoords upDir) := by
  refine ⟨by decide, by decide, by decide, ?_⟩
  intro h
  have := h.2.2.2 2 (by decide)
  revert this
  decide


theorem unorientedTriangle_swap_key (v a b : Int) :
    (unorientedTriangle v b a).1 = (unorientedTriangle v a b).1 := by
  simp only [unorientedTriangle]
  split_ifs <;> (try simp only [UnorientedTriangle.mk.injEq, true_and, and_true] at *) <;> omega

theorem unorientedTriangle_swap_flag (v a b : Int) (hva : v ≠ a) (hvb : v ≠ b) (hab : a ≠ b) :
    (unorientedTriangle v b a).2 = !(unorientedTriangle v a b).2 := by
  simp only [unorientedTriangle]
  split_ifs <;> (try simp only [] at *) <;> first | rfl | (exfalso; omega)

theorem unorientedTriangle_swap (v a b : Int) (hva : v ≠ a) (hvb : v ≠ b) (hab : a ≠ b) :
    unorientedTriangle v b a = ((unorientedTriangle v a b).1, !(unorientedTriangle v a b).2) :=
  Prod.ext (unorientedTriangle_swap_key v a b) (unorientedTriangle_swap_flag v a b hva hvb hab)

theorem mem_fan_of_mem_cyclicPairs (fan : List Int) (q : Int × Int) (hq : q ∈ cyclicPairs fan) :
    q.1 ∈ fan ∧ q.2 ∈ fan := by
  constructor
  · rw [← cyclicPairs_map_fst fan]; exact List.mem_map_of_mem _ hq
  · have : q.2 ∈ fan.rotate 1 := by
      rw [← cyclicPairs_map_snd fan]; exact List.mem_map_of_mem _ hq
    exact List.mem_rotate.1 this

theorem cyclicPairs_fst_ne_snd (fan : List Int) (hnd : fan.Nodup) (h2 : 2 ≤ fan.length)
    (q : Int × Int) (hq : q ∈ cyclicPairs fan) : q.1 ≠ q.2 := by
  obtain ⟨i, hi, e1, e2⟩ := (mem_cyclicPairs_iff fan q).1 hq
  intro h
  rw [← e1, ← e2] at h
  have := nodup_getD_inj fan hnd i ((i + 1) % fan.length) hi (Nat.mod_lt _ (by omega)) h
  rcases Nat.lt_or_ge (i + 1) fan.length with h1 | h1
  · rw [Nat.mod_eq_of_lt h1] at this; omega
  · have e : i + 1 = fan.length := by omega
    rw [e, Nat.mod_self] at this; omega


/-- The triangles of a flipped fan: the pairs of the reversed fan, without those that start with
the new border, are the swapped pairs of the fan without those that start with the old border. -/
theorem filterMap_cyclicPairs_reverse {β : Type} (fan : List Int) (hnd : fan.Nodup) (b : Int)
    (hb : b ∈ fan ∨ (-1 : Int) ∉ fan) (T1 T : Int × Int → β)
    (hT : ∀ q ∈ cyclicPairs fan, q.1 ≠ b → T1 q.swap = T q) :
    ((cyclicPairs fan.reverse).filterMap
        (fun p => if p.1 = nextAfterBorder b fan then none else some (T1 p))).Perm
      ((cyclicPairs fan).filterMap (fun p => if p.1 = b then none else some (T p))) := by
  refine ((cyclicPairs_reverse_perm fan).filterMap _).trans ?_
  rw [List.filterMap_map]
  apply List.Perm.of_eq
  apply List.filterMap_congr
  intro q hq
  have hiff := snd_eq_nextAfterBorder_iff fan hnd b hb q hq
  simp only [Function.comp, Prod.fst_swap]
  by_cases h : q.1 = b
  · rw [if_pos (hiff.2 h), if_pos h]
  · rw [if_neg (fun h1 => h (hiff.1 h1)), if_neg h, hT q hq h]

theorem fanTriplets_flipVertex (t : AllLocalTriangulations) (hv : t.ValidCSR) (v : Nat)
    (hc : v + 1 < t.fanRecords.length) (hnd : (t.fan v).Nodup)
    (hb : t.border v ∈ t.fan v ∨ (-1 : Int) ∉ t.fan v) (hcen : (v : Int) ∉ t.fan v)
    (h2 : 2 ≤ (t.fan v).length) :
    (fanTriplets (flipVertex t v) v).Perm ((fanTriplets t v).map (fun e => (e.1, !e.2))) := by
  obtain ⟨f1, f2, f3, _⟩ := flipVertex_spec t hv v hc
  have hv1 : (flipVertex t v).ValidCSR := sameShape_validCSR f1 hv
  have hc1 : v + 1 < (flipVertex t v).fanRecords.length := by
    rw [sameShape_length f1]; exact hc
  rw [fanTriplets_eq _ hv1 v hc1, fanTriplets_eq t hv v hc, f2, f3, List.map_filterMap]
  refine (filterMap_cyclicPairs_reverse (t.fan v) hnd (t.border v) hb
    (fun p => unorientedTriangle v p.2 p.1)
    (fun p => ((unorientedTriangle v p.2 p.1).1, !(unorientedTriangle v p.2 p.1).2)) ?_).trans ?_
  · intro q hq _
    obtain ⟨m1, m2⟩ := mem_fan_of_mem_cyclicPairs _ q hq
    simp only [Prod.fst_swap, Prod.snd_swap]
    exact unorientedTriangle_swap v q.2 q.1 (fun h => hcen (h ▸ m2)) (fun h => hcen (h ▸ m1))
      (fun h => cyclicPairs_fst_ne_snd _ hnd h2 q hq h.symm)
  · apply List.Perm.of_eq
    apply List.filterMap_congr
    intro q _
    by_cases h : q.1 = t.border v
    · simp only [if_pos h, Option.map_none']
    · simp only [if_neg h, Option.map_some']

theorem fanTriplets_flipVertex_keys (t : AllLocalTriangulations) (hv : t.ValidCSR) (v : Nat)
    (hc : v + 1 < t.fanRecords.length) (hnd : (t.fan v).Nodup)
    (hb : t.border v ∈ t.fan v ∨ (-1 : Int) ∉ t.fan v) :
    ((fanTriplets (flipVertex t v) v).map Prod.fst).Perm ((fanTriplets t v).map Prod.fst) := by
  obtain ⟨f1, f2, f3, _⟩ := flipVertex_spec t hv v hc
  have hv1 : (flipVertex t v).ValidCSR := sameShape_validCSR f1 hv
  have hc1 : v + 1 < (flipVertex t v).fanRecords.length := by
    rw [sameShape_length f1]; exact hc
  rw [fanTriplets_eq _ hv1 v hc1, fanTriplets_eq t hv v hc, f2, f3, List.map_filterMap,
    List.map_filterMap]
  have e : ∀ (bd : Int) (ps : List (Int × Int)),
      ps.filterMap (fun x => Option.map Prod.fst
        (if x.1 = bd then none else some (unorientedTriangle v x.2 x.1)))
      = ps.filterMap (fun p => if p.1 = bd then none
        else some (unorientedTriangle v p.2 p.1).1) := by
    intro bd ps
    apply List.filterMap_congr
    intro q _
    by_cases h : q.1 = bd
    · simp only [if_pos h, Option.map_none']
    · simp only [if_neg h, Option.map_some']
  rw [e, e]
  exact filterMap_cyclicPairs_reverse (t.fan v) hnd (t.border v) hb
    (fun p => (unorientedTriangle v p.2 p.1).1) (fun p => (unorientedTriangle v p.2 p.1).1)
    (fun q _ _ => unorientedTriangle_swap_key v q.2 q.1)

theorem fanTriplets_flipVertex_other (t : AllLocalTriangulations) (hv : t.ValidCSR) (v : Nat)
    (hc : v + 1 < t.fanRecords.length) (c1 : Nat) (hne : c1 ≠ v)
    (hc1 : c1 + 1 < t.fanRecords.length) :
    fanTriplets (flipVertex t v) c1 = fanTriplets t c1 := by
  obtain ⟨f1, _, _, f4⟩ := flipVertex_spec t hv v hc
  have hv1 : (flipVertex t v).ValidCSR := sameShape_validCSR f1 hv
  rw [fanTriplets_eq _ hv1 c1 (by rw [sameShape_length f1]; exact hc1),
    fanTriplets_eq t hv c1 hc1, (f4 c1 hne hc1).1, (f4 c1 hne hc1).2]

/-- C18 (amended): a flip keeps the triangles of a fan and toggles their winding. For a vertex
`v` of a valid store whose fan lists at least two pairwise distinct valid neighbours, all
different from `v`: `orientLocalTriangulations` and `computeVertWeight` leave the store as it is
or flip the fan of `v`; the flip reverses the slice; a closed fan stays closed; the new border
of an open fan is the neighbour that cyclically followed the old border, and in the flipped fan
the old border follows the new one, so that the missing gap is the same unordered pair; and the
triangles enumerated from the flipped fan are those enumerated before, each with its `flipped`
flag toggled. -/
theorem flipVertex_keeps_triangles {α : Type} [LinearOrderedCommRing α]
    (t : AllLocalTriangulations) (hv : t.ValidCSR) (v : Nat)
    (hc : v + 1 < t.fanRecords.length) (hnd : (t.fan v).Nodup) (hval : ∀ x ∈ t.fan v, 0 ≤ x)
    (hcen : (v : Int) ∉ t.fan v) (h2 : 2 ≤ (t.fan v).length) :
    (∀ (coords : List (Vector3 α)) (targetDir : Int → Vector3 α),
      orientVertex coords targetDir t v = t ∨ orientVertex coords targetDir t v = flipVertex t v) ∧
    (∀ map : TriangleMap, (computeVertWeight t map v).1 = t ∨
      (computeVertWeight t map v).1 = flipVertex t v) ∧
    (flipVertex t v).fan v = (t.fan v).reverse ∧
    (t.border v < 0 → (flipVertex t v).border v = -1) ∧
    (t.border v ∈ t.fan v →
      (t.border v, (flipVertex t v).border v) ∈ cyclicPairs (t.fan v) ∧
      ((flipVertex t v).border v, t.border v) ∈ cyclicPairs ((flipVertex t v).fan v)) ∧
    (fanTriplets (flipVertex t v) v).Perm ((fanTriplets t v).map (fun e => (e.1, !e.2))) := by
  obtain ⟨_, f2, f3, _⟩ := flipVertex_spec t hv v hc
  have hn1 : (-1 : Int) ∉ t.fan v := fun h => absurd (hval _ h) (by decide)
  refine ⟨?_, ?_, f2, ?_, ?_, fanTriplets_flipVertex t hv v hc hnd (Or.inr hn1) hcen h2⟩
  · intro coords targetDir
    rcases orientVertex_eq_or_flip coords targetDir t v with e | ⟨_, e⟩
    · exact Or.inl e
    · exact Or.inr e
  · intro map
    rcases computeVertWeight_eq_or_flip t map v with e | ⟨_, e⟩
    · exact Or.inl e
    · right
      rw [e, Int.toNat_ofNat]
  · intro hneg
    rw [f3]
    exact foldl_nextAfter_of_not_mem _ _ _
      (by rw [cyclicPairs_map_fst]; exact fun h => absurd (hval _ h) (by omega))
  · intro hmem
    have hm : (t.border v, nextAfterBorder (t.border v) (t.fan v)) ∈ cyclicPairs (t.fan v) :=
      foldl_nextAfter_mem _ _ _ (by rw [cyclicPairs_map_fst]; exact hnd)
        (by rw [cyclicPairs_map_fst]; exact hmem)
    rw [f3, f2]
    refine ⟨hm, ?_⟩
    rw [(cyclicPairs_reverse_perm (t.fan v)).mem_iff]
    exact List.mem_map.2 ⟨_, hm, rfl⟩

/-- C18 (amended) at a concrete input: the flip of the fan 1, 2, 3 of the vertex 0 of
`triangleFanStore`. -/
theorem flipVertex_keeps_triangles_witness :
    (flipVertex triangleFanStore 0).fan 0 = [3, 2, 1] ∧
    (fanTriplets (flipVertex triangleFanStore 0) 0).Perm
      ((fanTriplets triangleFanStore 0).map (fun e => (e.1, !e.2))) :=
  ⟨(flipVertex_keeps_triangles (α := Int) triangleFanStore (by decide) 0 (by decide) (by decide)
      (by decide) (by decide) (by decide)).2.2.1,
    (flipVertex_keeps_triangles (α := Int) triangleFanStore (by decide) 0 (by decide) (by decide)
      (by decide) (by decide) (by decide)).2.2.2.2.2⟩

/-- C18 fails as stated: in `returningStore` the border 1 of the fan 1, 2, 3, 4, 2 of the
vertex 0 occurs exactly once. `orientLocalTriangulations` flips the fan to 2, 4, 3, 2, 1 with
the new border 2, which occurs twice: the flipped fan skips the pairs (2, 4) and (2, 1), and the
triangle 0, 2, 4, which the fan enumerated before the flip, is not enumerated after it. -/
theorem flip_loses_triangle :
    returningStore.ValidCSR ∧ returningStore.BordersOnce ∧
    orientLocalTriangulations returningStore returningCoords upDir
      = { neighbors := [2, 4, 3, 2, 1]
          fanRecords := [⟨2, 0⟩, ⟨-1, 5⟩, ⟨-1, 5⟩, ⟨-1, 5⟩, ⟨-1, 5⟩, ⟨-1, 5⟩] } ∧
    orientLocalTriangulations returningStore returningCoords upDir = flipVertex returningStore 0 ∧
    (fanTriplets returningStore 0).map Prod.fst
      = [⟨0, 2, 3⟩, ⟨0, 3, 4⟩, ⟨0, 2, 4⟩, ⟨0, 1, 2⟩] ∧
    (fanTriplets (orientLocalTriangulations returningStore returningCoords upDir) 0).map Prod.fst
      = [⟨0, 3, 4⟩, ⟨0, 2, 3⟩, ⟨0, 1, 2⟩] := by
  decide


theorem totalVotes_eq_count (t : AllLocalTriangulations) (K : UnorientedTriangle) :
    totalVotes t K = ((allTriplets t).map Prod.fst).count K := by
  unfold totalVotes sameVotes oppositeVotes
  rw [count_both_eq_countP, List.count, List.countP_map]
  apply List.countP_congr
  intro x _
  simp only [Function.comp, decide_eq_true_eq, beq_iff_eq]

theorem findRepeatedTriangles_mem (sh : Sharding) (t : AllLocalTriangulations)
    (h3 : t.TalliesWithin3) (k : Nat) (tri : UnorientedTriangle) :
    tri ∈ findRepeatedTriangles sh t k ↔ tri ∈ distinctTriangles t ∧ totalVotes t tri = k := by
  obtain ⟨_, hkeys, _⟩ := makeTriangleHashMap_spec sh t
  obtain ⟨_, he⟩ := makeTriangleHashMap_exact sh t h3
  unfold findRepeatedTriangles
  simp only [List.mem_map, List.mem_filter, decide_eq_true_eq]
  constructor
  · rintro ⟨e, ⟨hm, hc⟩, rfl⟩
    obtain ⟨a1, _, _⟩ := he e hm
    refine ⟨(mem_distinctTriangles t e.1).2 ((hkeys e.1).1 (List.mem_map_of_mem _ hm)), ?_⟩
    rw [a1] at hc
    exact hc
  · rintro ⟨hd, hv⟩
    have : tri ∈ (makeTriangleHashMap sh t).map Prod.fst :=
      (hkeys tri).2 ((mem_distinctTriangles t tri).1 hd)
    obtain ⟨e, hm, rfl⟩ := List.mem_map.1 this
    obtain ⟨a1, _, _⟩ := he e hm
    refine ⟨e, ⟨hm, ?_⟩, rfl⟩
    rw [a1]
    exact hv

theorem computeTrianglesRepetitions_getD (sh : Sharding) (t : AllLocalTriangulations)
    (h3 : t.TalliesWithin3) (c : Nat) (hc : 1 ≤ c) :
    (computeTrianglesRepetitions sh t).getD c 0
      = (distinctTriangles t).countP (fun k => totalVotes t k = c) := by
  obtain ⟨_, he⟩ := makeTriangleHashMap_exact sh t h3
  obtain ⟨_, i2, _⟩ := foldl_repetitionsStep (makeTriangleHashMap sh t)
    (fun e hm => by
      obtain ⟨a1, a2, a3⟩ := he e hm
      rw [a1]; exact ⟨a2, a3⟩) [0, 0, 0, 0] rfl
  unfold computeTrianglesRepetitions
  rw [i2 c hc]
  have := countP_entries sh t h3 (fun r => decide (r.sameOriented + r.oppositeOriented = c))
  simp only at this
  rw [this]
  have h0 : ([0, 0, 0, 0] : List Nat).getD c 0 = 0 := by
    rcases c with _ | _ | _ | _ | c <;> simp
  rw [h0, Nat.zero_add]
  rfl

/-- Two stores whose fans enumerate the same triangles, up to the order, have the same
multiplicity diagnostics. -/
theorem sameMultiplicities_of_perm (sh : Sharding) (t t1 : AllLocalTriangulations)
    (h3 : t.TalliesWithin3)
    (hp : ((allTriplets t1).map Prod.fst).Perm ((allTriplets t).map Prod.fst)) :
    t1.TalliesWithin3 ∧ (∀ K, totalVotes t1 K = totalVotes t K) ∧ SameMultiplicities sh t t1 := by
  have htot : ∀ K, totalVotes t1 K = totalVotes t K := by
    intro K
    rw [totalVotes_eq_count, totalVotes_eq_count, hp.count_eq]
  have hmem : ∀ K, K ∈ distinctTriangles t1 ↔ K ∈ distinctTriangles t := by
    intro K
    rw [mem_distinctTriangles, mem_distinctTriangles, hp.mem_iff]
  have h31 : t1.TalliesWithin3 := by
    intro K hK
    rw [htot K]
    exact h3 K ((hmem K).1 hK)
  refine ⟨h31, htot, ?_⟩
  intro k hk1 _
  constructor
  · intro tri
    rw [findRepeatedTriangles_mem sh t1 h31, findRepeatedTriangles_mem sh t h3, hmem, htot]
  · rw [computeTrianglesRepetitions_getD sh t1 h31 k hk1,
      computeTrianglesRepetitions_getD sh t h3 k hk1]
    have hd : (distinctTriangles t1).Perm (distinctTriangles t) := hp.dedup
    rw [hd.countP_eq]
    apply List.countP_congr
    intro K _
    rw [htot]

theorem allTriplets_keys_perm (t t1 : AllLocalTriangulations) (hs : t.SameShape t1)
    (h : ∀ v, v + 1 < t.fanRecords.length →
      ((fanTriplets t1 v).map Prod.fst).Perm ((fanTriplets t v).map Prod.fst)) :
    ((allTriplets t1).map Prod.fst).Perm ((allTriplets t).map Prod.fst) := by
  unfold allTriplets
  rw [List.map_flatMap, List.map_flatMap, sameShape_length hs]
  apply List.Perm.flatMap_left
  intro v hv
  exact h v (by have := List.mem_range.1 hv; omega)

/-- The relation "same offsets, every fan kept or reversed, every fan enumerating the same
triangles" to a valid store with pairwise distinct valid neighbours is kept by every flip of a
non-empty fan. -/
theorem keysKept_flip (t : AllLocalTriangulations) (hv : t.ValidCSR) (hn : t.FansNodup)
    (hval : t.NeighborsValid) (t1 : AllLocalTriangulations) (u : Nat)
    (h : t.SameShape t1 ∧ ∀ v, v + 1 < t.fanRecords.length →
      (t1.fan v = t.fan v ∨ t1.fan v = (t.fan v).reverse) ∧
      ((fanTriplets t1 v).map Prod.fst).Perm ((fanTriplets t v).map Prod.fst))
    (hlt : (t1.fanRecords.getD u default).firstNei
      < (t1.fanRecords.getD (u + 1) default).firstNei) :
    t.SameShape (flipVertex t1 u) ∧ ∀ v, v + 1 < t.fanRecords.length →
      ((flipVertex t1 u).fan v = t.fan v ∨ (flipVertex t1 u).fan v = (t.fan v).reverse) ∧
      ((fanTriplets (flipVertex t1 u) v).map Prod.fst).Perm
        ((fanTriplets t v).map Prod.fst) := by
  have hv1 : t1.ValidCSR := sameShape_validCSR h.1 hv
  have hu : u + 1 < t1.fanRecords.length := lt_length_of_firstNei_lt t1 u hlt
  have hlen := sameShape_length h.1
  obtain ⟨g1, g2⟩ := fansReversed_flip t hv t1 u ⟨h.1, fun v hvl => (h.2 v hvl).1⟩ hlt
  refine ⟨g1, fun v hvl => ⟨g2 v hvl, ?_⟩⟩
  by_cases hvu : v = u
  · subst hvu
    have hmem : ∀ x, x ∈ t1.fan v ↔ x ∈ t.fan v := by
      intro x
      rcases (h.2 v hvl).1 with e | e
      · rw [e]
      · rw [e, List.mem_reverse]
    have hnd1 : (t1.fan v).Nodup := by
      rcases (h.2 v hvl).1 with e | e
      · rw [e]; exact hn v (by omega)
      · rw [e]; exact List.nodup_reverse.2 (hn v (by omega))
    have hn1 : (-1 : Int) ∉ t1.fan v := by
      rw [hmem]
      exact fun hm => absurd (hval v (by omega) _ hm) (by decide)
    exact (fanTriplets_flipVertex_keys t1 hv1 v hu hnd1 (Or.inr hn1)).trans (h.2 v hvl).2
  · rw [fanTriplets_flipVertex_other t1 hv1 u hu v hvu (by omega)]
    exact (h.2 v hvl).2

/-- C15 (amended): the multiplicity diagnostics do not depend on the winding. For every valid
store in which every valid border occurs exactly once in its fan, every fan lists pairwise
distinct valid neighbours and no triangle has more than three votes, and for every orientation
pass (`orientLocalTriangulations` with any coordinates and directions, or
`autoOrientLocalTriangulations` with any point cloud and callback, whatever it returns),
`findRepeatedTriangles( k )` returns the same set of triangles before and after the pass for
every `k` in 1..3, and the entries 1, 2 and 3 of `computeTrianglesRepetitions` are unchanged. -/
theorem orientation_keeps_multiplicities {α : Type} [LinearOrderedField α] (sh : Sharding)
    (t : AllLocalTriangulations) (hv : t.ValidCSR) (_hb : t.BordersOnce) (hn : t.FansNodup)
    (hval : t.NeighborsValid) (h3 : t.TalliesWithin3) :
    (∀ (coords : List (Vector3 α)) (targetDir : Int → Vector3 α),
      SameMultiplicities sh t (orientLocalTriangulations t coords targetDir)) ∧
    (∀ (fuel : Nat) (pc : PointCloud α) (progress : ProgressCallback) (sched : List ℚ),
      countBits pc.validPoints < fuel →
      ∃ r, autoOrientLocalTriangulations fuel pc t progress sched = some r ∧
        SameMultiplicities sh t r.state.triangs) := by
  have h0 : t.SameShape t ∧ ∀ v, v + 1 < t.fanRecords.length →
      (t.fan v = t.fan v ∨ t.fan v = (t.fan v).reverse) ∧
      ((fanTriplets t v).map Prod.fst).Perm ((fanTriplets t v).map Prod.fst) :=
    ⟨sameShape_refl t, fun _ _ => ⟨Or.inl rfl, List.Perm.refl _⟩⟩
  have hfin : ∀ t1 : AllLocalTriangulations,
      (t.SameShape t1 ∧ ∀ v, v + 1 < t.fanRecords.length →
        (t1.fan v = t.fan v ∨ t1.fan v = (t.fan v).reverse) ∧
        ((fanTriplets t1 v).map Prod.fst).Perm ((fanTriplets t v).map Prod.fst)) →
      SameMultiplicities sh t t1 := fun t1 h =>
    (sameMultiplicities_of_perm sh t t1 h3
      (allTriplets_keys_perm t t1 h.1 (fun v hvl => (h.2 v hvl).2))).2.2
  constructor
  · intro coords targetDir
    exact hfin _ (orientLocalTriangulations_closed _
      (fun t1 u h hlt => keysKept_flip t hv hn hval t1 u h hlt) coords targetDir t h0)
  · intro fuel pc progress sched hfuel
    obtain ⟨r, r1, r2⟩ := autoOrientLocalTriangulations_closed _
      (fun t1 u h hlt => keysKept_flip t hv hn hval t1 u h hlt) fuel pc t progress sched h0 hfuel
    exact ⟨r, r1, hfin _ r2⟩

/-- C15 (amended) at a concrete input: the seed pass on `islandStore` keeps entry 1 of the
histogram. -/
theorem orientation_keeps_multiplicities_witness :
    (computeTrianglesRepetitions fourShards
        (orientLocalTriangulations islandStore islandCloud.points
          (fun _ => (⟨0, 0, 1⟩ : Vector3 ℚ)))).getD 1 0
      = (computeTrianglesRepetitions fourShards islandStore).getD 1 0 :=
  (((orientation_keeps_multiplicities fourShards islandStore (by decide) (by decide) (by decide)
    (by decide) (by decide)).1 islandCloud.points (fun _ => (⟨0, 0, 1⟩ : Vector3 ℚ))) 1
    (by decide) (by decide)).2

/-- C15 fails as stated: in `repeatedNeighborStore` the border 1 occurs exactly once in the fan
1, 2, 3, 2, 4, 2 of the vertex 0, and no triangle has more than three votes. Before the pass the
triangles 0, 2, 3 and 0, 2, 4 have two votes each and `findRepeatedTriangles( 2 )` returns them;
`orientLocalTriangulations` flips the fan and makes 2 its border, the flipped fan skips three
positions, and `findRepeatedTriangles( 2 )` returns nothing; the entries 1 and 2 of the histogram
change from 1 and 2 to 3 and 0. -/
theorem orientation_changes_multiplicities :
    repeatedNeighborStore.ValidCSR ∧ repeatedNeighborStore.BordersOnce ∧
    repeatedNeighborStore.TalliesWithin3 ∧
    findRepeatedTriangles oneShard repeatedNeighborStore 2 = [⟨0, 2, 3⟩, ⟨0, 2, 4⟩] ∧
    findRepeatedTriangles oneShard
      (orientLocalTriangulations repeatedNeighborStore repeatedNeighborCoords upDir) 2 = [] ∧
    computeTrianglesRepetitions oneShard repeatedNeighborStore = [2, 1, 2, 0] ∧
    computeTrianglesRepetitions oneShard
      (orientLocalTriangulations repeatedNeighborStore repeatedNeighborCoords upDir)
      = [0, 3, 0, 0] := by
  decide

/-- C13: the concrete scenario of the flat 3 x 3 grid. In `gridStore` every fan is clockwise (its
tally for the direction `(0, 0, 1)` is positive) except the fan of the centre vertex 4, which is
counter-clockwise (negative tally). Before the propagation each of the eight triangles has
three votes, and the six triangles incident to the centre vertex carry both same-oriented and
opposite-oriented votes; `autoOrientLocalTriangulations` returns true and leaves
`gridStoreOriented`, in which the fan of the centre vertex is reversed and all others are as
before: no triangle has both a same-oriented and an opposite-oriented vote. -/
theorem autoOrientLocalTriangulations_grid :
    (∀ v : Nat, v < 9 → v ≠ 4 → 0 < fanTally (upDirQ v) (gridCloud.points.getD v default) gridCloud.points
      (gridStore.border v) (gridStore.fan v)) ∧
    fanTally (upDirQ 4) (gridCloud.points.getD 4 default) gridCloud.points
      (gridStore.border 4) (gridStore.fan 4) < 0 ∧
    (∀ e ∈ makeTriangleHashMap oneShard gridStore,
      e.2.sameOriented + e.2.oppositeOriented = 3 ∧
      ((e.1.a = 4 ∨ e.1.b = 4 ∨ e.1.c = 4) ↔
        (1 ≤ e.2.sameOriented ∧ 1 ≤ e.2.oppositeOriented))) ∧
    computeTrianglesRepetitions oneShard gridStore = [6, 0, 0, 8] ∧
    (autoOrientLocalTriangulations 10 gridCloud gridStore none []).map
      (fun r => (r.ok, r.state.triangs, r.state.visitedCount))
      = some (true, gridStoreOriented, 9) ∧
    (∀ e ∈ makeTriangleHashMap oneShard gridStoreOriented,
      e.2.sameOriented = 0 ∨ e.2.oppositeOriented = 0) ∧
    computeTrianglesRepetitions oneShard gridStoreOriented = [0, 0, 0, 8] := by
  decide!


theorem unorientedTriangle_rot_key (a b c : Int) :
    (unorientedTriangle c a b).1 = (unorientedTriangle a b c).1 := by
  simp only [unorientedTriangle]
  split_ifs <;> (try simp only [UnorientedTriangle.mk.injEq, true_and, and_true] at *) <;> omega

theorem unorientedTriangle_rot_flag (a b c : Int) (hab : a ≠ b) (hac : a ≠ c) (hbc : b ≠ c) :
    (unorientedTriangle c a b).2 = (unorientedTriangle a b c).2 := by
  simp only [unorientedTriangle]
  split_ifs <;> (try simp only [] at *) <;> first | rfl | (exfalso; omega)

theorem unorientedTriangle_rot (a b c : Int) (hab : a ≠ b) (hac : a ≠ c) (hbc : b ≠ c) :
    unorientedTriangle c a b = unorientedTriangle a b c :=
  Prod.ext (unorientedTriangle_rot_key a b c) (unorientedTriangle_rot_flag a b c hab hac hbc)

theorem unorientedTriangle_components (a b c : Int) :
    ((unorientedTriangle a b c).1.a = a ∨ (unorientedTriangle a b c).1.a = b ∨
      (unorientedTriangle a b c).1.a = c) ∧
    ((unorientedTriangle a b c).1.b = a ∨ (unorientedTriangle a b c).1.b = b ∨
      (unorientedTriangle a b c).1.b = c) ∧
    ((unorientedTriangle a b c).1.c = a ∨ (unorientedTriangle a b c).1.c = b ∨
      (unorientedTriangle a b c).1.c = c) := by
  simp only [unorientedTriangle]
  split_ifs <;> simp


theorem cyclicPairs_no_swap (fan : List Int) (hnd : fan.Nodup) (h3 : 3 ≤ fan.length)
    (x y : Int) (h1 : (x, y) ∈ cyclicPairs fan) (h2 : (y, x) ∈ cyclicPairs fan) : False := by
  have hne : x ≠ y := cyclicPairs_fst_ne_snd fan hnd (by omega) (x, y) h1
  have := cyclicPairs_swap_length fan hnd x y hne h1 h2
  omega

theorem orientedPair_facts {t : AllLocalTriangulations} {n : Nat} {σ : Nat → Bool}
    (h : t.Coherent n σ) {v : Nat} (hv : v < n) {c x : Int} (hp : t.OrientedPair σ v c x) :
    c ∈ t.fan v ∧ x ∈ t.fan v ∧ c ≠ x ∧ c ≠ (v : Int) ∧ x ≠ (v : Int) ∧
    0 ≤ c ∧ c.toNat < n ∧ 0 ≤ x ∧ x.toNat < n := by
  obtain ⟨_, _, _, h4, h5, _⟩ := h
  unfold AllLocalTriangulations.OrientedPair at hp
  have hmem : c ∈ t.fan v ∧ x ∈ t.fan v ∧ c ≠ x := by
    by_cases hs : σ v = true
    · rw [if_pos hs] at hp
      have := mem_fan_of_mem_cyclicPairs _ _ hp
      have hne := cyclicPairs_fst_ne_snd _ (h4 v hv).1 (by have := (h4 v hv).2; omega) _ hp
      exact ⟨this.2, this.1, fun e => hne e.symm⟩
    · rw [if_neg hs] at hp
      have := mem_fan_of_mem_cyclicPairs _ _ hp
      have hne := cyclicPairs_fst_ne_snd _ (h4 v hv).1 (by have := (h4 v hv).2; omega) _ hp
      exact ⟨this.1, this.2, hne⟩
  obtain ⟨m1, m2, m3⟩ := hmem
  obtain ⟨a1, a2, a3⟩ := h5 v hv c m1
  obtain ⟨b1, b2, b3⟩ := h5 v hv x m2
  exact ⟨m1, m2, m3, a3, b3, a1, a2, b1, b2⟩

theorem orientedPair_next {t : AllLocalTriangulations} {n : Nat} {σ : Nat → Bool}
    (h : t.Coherent n σ) {v : Nat} (hv : v < n) {c x : Int} (hp : t.OrientedPair σ v c x) :
    t.OrientedPair σ c.toNat x v := by
  have h6 := h.2.2.2.2.2 v hv _ hp
  by_cases hs : σ v = true
  · simpa only [if_pos hs] using h6
  · simpa only [if_neg hs] using h6

theorem orientedPair_no_swap {t : AllLocalTriangulations} {n : Nat} {σ : Nat → Bool}
    (h : t.Coherent n σ) {v : Nat} (hv : v < n) {c x : Int} (hp : t.OrientedPair σ v c x)
    (hq : t.OrientedPair σ v x c) : False := by
  obtain ⟨_, _, _, h4, _, _⟩ := h
  unfold AllLocalTriangulations.OrientedPair at hp hq
  by_cases hs : σ v = true
  · rw [if_pos hs] at hp hq
    exact cyclicPairs_no_swap _ (h4 v hv).1 (h4 v hv).2 _ _ hp hq
  · rw [if_neg hs] at hp hq
    exact cyclicPairs_no_swap _ (h4 v hv).1 (h4 v hv).2 _ _ hp hq

/-- In a coherent collection, two fans that list the same triangle (read in their consistent
directions) list it with the same `flipped` flag. -/
theorem coherent_flag_eq {t : AllLocalTriangulations} {n : Nat} {σ : Nat → Bool}
    (h : t.Coherent n σ) {v1 v2 : Nat} (hv1 : v1 < n) (hv2 : v2 < n) {c1 x1 c2 x2 : Int}
    (hp1 : t.OrientedPair σ v1 c1 x1) (hp2 : t.OrientedPair σ v2 c2 x2)
    (hk : (unorientedTriangle v1 x1 c1).1 = (unorientedTriangle v2 x2 c2).1) :
    (unorientedTriangle v1 x1 c1).2 = (unorientedTriangle v2 x2 c2).2 := by
  obtain ⟨_, _, f3, f4, f5, f6, f7, f8, f9⟩ := orientedPair_facts h hv1 hp1
  have hcen := unorientedTriangle_center (v2 : Int) x2 c2 _ hk.symm
  obtain ⟨ka, kb, kc⟩ := unorientedTriangle_components (v1 : Int) x1 c1
  have hin : (v2 : Int) = v1 ∨ (v2 : Int) = x1 ∨ (v2 : Int) = c1 := by
    rcases hcen with e | e | e <;> rw [e]
    · exact ka
    · exact kb
    · exact kc
  rcases hin with e | e | e
  · have e' : v2 = v1 := by omega
    subst e'
    rcases unorientedTriangle_pair _ _ _ _ _ hk with ⟨g1, g2⟩ | ⟨g1, g2⟩
    · rw [g1, g2]
    · subst g1 g2
      exact absurd (orientedPair_no_swap h hv1 hp1 hp2) id
  · -- the second fan is the fan of `x1`
    have hq1 := orientedPair_next h hv1 hp1
    have hq2 := orientedPair_next h f7 hq1
    have e' : v2 = x1.toNat := by omega
    subst e'
    have ex : ((x1.toNat : Nat) : Int) = x1 := Int.toNat_of_nonneg f8
    have ec : ((c1.toNat : Nat) : Int) = c1 := Int.toNat_of_nonneg f6
    rw [ex] at hk ⊢
    rw [ec] at hq2
    have hrot := unorientedTriangle_rot (x1) c1 (v1 : Int) (fun e => f3 e.symm) f5 f4
    -- unorientedTriangle v1 x1 c1 = unorientedTriangle x1 c1 v1
    rw [hrot] at hk ⊢
    rcases unorientedTriangle_pair _ _ _ _ _ hk with ⟨g1, g2⟩ | ⟨g1, g2⟩
    · rw [g1, g2]
    · rw [← g1, ← g2] at hp2
      exact absurd (orientedPair_no_swap h f9 hq2 hp2) id
  · have hq1 := orientedPair_next h hv1 hp1
    have e' : v2 = c1.toNat := by omega
    subst e'
    have ec : ((c1.toNat : Nat) : Int) = c1 := Int.toNat_of_nonneg f6
    rw [ec] at hk ⊢
    have hrot := unorientedTriangle_rot (c1) (v1 : Int) x1 f4 f3 (fun e => f5 e.symm)
    -- unorientedTriangle x1 c1 v1 = unorientedTriangle c1 v1 x1
    have hrot2 := unorientedTriangle_rot (x1) c1 (v1 : Int) (fun e => f3 e.symm) f5 f4
    rw [hrot2, hrot] at hk ⊢
    rcases unorientedTriangle_pair _ _ _ _ _ hk with ⟨g1, g2⟩ | ⟨g1, g2⟩
    · rw [g1, g2]
    · rw [← g1, ← g2] at hp2
      exact absurd (orientedPair_no_swap h f7 hq1 hp2) id


theorem orientedPair_of_mem (t : AllLocalTriangulations) (σ : Nat → Bool) (v : Nat)
    (p : Int × Int) (hp : p ∈ cyclicPairs (t.fan v)) :
    t.OrientedPair σ v (if σ v then p.2 else p.1) (if σ v then p.1 else p.2) := by
  unfold AllLocalTriangulations.OrientedPair
  by_cases hs : σ v = true
  · simp only [if_pos hs]; exact hp
  · simp only [if_neg hs]; exact hp

/-- The triangle that the loops construct for a pair of a fan, in terms of the pair read in the
consistent direction: the same key, and the flag toggled when the fan counts as flipped. -/
theorem real_triangle_eq {t : AllLocalTriangulations} {n : Nat} {σ : Nat → Bool}
    (h : t.Coherent n σ) {v : Nat} (hv : v < n) (p : Int × Int)
    (hp : p ∈ cyclicPairs (t.fan v)) :
    (unorientedTriangle v p.2 p.1).1
      = (unorientedTriangle v (if σ v then p.1 else p.2) (if σ v then p.2 else p.1)).1 ∧
    (unorientedTriangle v p.2 p.1).2
      = xor (σ v)
        (unorientedTriangle v (if σ v then p.1 else p.2) (if σ v then p.2 else p.1)).2 := by
  obtain ⟨_, _, f3, f4, f5, _⟩ := orientedPair_facts h hv (orientedPair_of_mem t σ v p hp)
  by_cases hs : σ v = true
  · simp only [if_pos hs] at f3 f4 f5 ⊢
    rw [hs]
    rw [unorientedTriangle_swap (v : Int) p.1 p.2 (fun e => f5 e.symm) (fun e => f4 e.symm)
      (fun e => f3 e.symm)]
    simp
  · simp only [if_neg hs]
    have : σ v = false := by simpa using hs
    rw [this]
    simp

/-- In a coherent collection, two fans that list the same triangle list it with flags that
differ exactly when one of the two fans counts as flipped and the other does not. -/
theorem coherent_real_flags {t : AllLocalTriangulations} {n : Nat} {σ : Nat → Bool}
    (h : t.Coherent n σ) {v1 v2 : Nat} (hv1 : v1 < n) (hv2 : v2 < n) (p1 p2 : Int × Int)
    (hp1 : p1 ∈ cyclicPairs (t.fan v1)) (hp2 : p2 ∈ cyclicPairs (t.fan v2))
    (hk : (unorientedTriangle v1 p1.2 p1.1).1 = (unorientedTriangle v2 p2.2 p2.1).1) :
    xor (σ v1) (unorientedTriangle v1 p1.2 p1.1).2
      = xor (σ v2) (unorientedTriangle v2 p2.2 p2.1).2 := by
  obtain ⟨k1, g1⟩ := real_triangle_eq h hv1 p1 hp1
  obtain ⟨k2, g2⟩ := real_triangle_eq h hv2 p2 hp2
  rw [k1, k2] at hk
  have := coherent_flag_eq h hv1 hv2 (orientedPair_of_mem t σ v1 p1 hp1)
    (orientedPair_of_mem t σ v2 p2 hp2) hk
  rw [g1, g2, this]
  simp

theorem mem_cyclicPairs_reverse (fan : List Int) (p : Int × Int) :
    p ∈ cyclicPairs fan.reverse ↔ p.swap ∈ cyclicPairs fan := by
  rw [(cyclicPairs_reverse_perm fan).mem_iff, List.mem_map]
  constructor
  · rintro ⟨q, hq, rfl⟩
    simpa using hq
  · intro hq
    exact ⟨p.swap, hq, by simp⟩

/-- The closure form of the consistency of the windings. -/
theorem coherent_of_closure (t : AllLocalTriangulations) (n : Nat) (σ : Nat → Bool)
    (h1 : t.ValidCSR) (h2 : t.fanRecords.length = n + 1) (h3 : ∀ v < n, t.border v < 0)
    (h4 : ∀ v < n, (t.fan v).Nodup ∧ 3 ≤ (t.fan v).length)
    (h5 : ∀ v < n, ∀ x ∈ t.fan v, 0 ≤ x ∧ x.toNat < n ∧ x ≠ (v : Int))
    (h6 : ∀ v < n, ∀ c x, t.OrientedPair σ v c x → t.OrientedPair σ c.toNat x v) :
    t.Coherent n σ :=
  ⟨h1, h2, h3, h4, h5, fun v hv p hp => h6 v hv _ _ (orientedPair_of_mem t σ v p hp)⟩

/-- Flipping the fan of a vertex and toggling its mark keeps a collection coherent. -/
theorem coherent_flipVertex {t : AllLocalTriangulations} {n : Nat} {σ : Nat → Bool}
    (h : t.Coherent n σ) {u : Nat} (hu : u < n) :
    (flipVertex t u).Coherent n (Function.update σ u (!σ u)) := by
  have h' := h
  obtain ⟨h1, h2, h3, h4, h5, _⟩ := h
  obtain ⟨f1, f2, f3, f4⟩ := flipVertex_spec t h1 u (by omega)
  have hfan : ∀ v, v < n → v ≠ u → (flipVertex t u).fan v = t.fan v :=
    fun v hv hne => (f4 v hne (by omega)).1
  have hmem : ∀ v, v < n → ∀ x, x ∈ (flipVertex t u).fan v ↔ x ∈ t.fan v := by
    intro v hv x
    by_cases hvu : v = u
    · subst hvu; rw [f2, List.mem_reverse]
    · rw [hfan v hv hvu]
  have hop : ∀ v, v < n → ∀ c x,
      (flipVertex t u).OrientedPair (Function.update σ u (!σ u)) v c x ↔
        t.OrientedPair σ v c x := by
    intro v hv c x
    unfold AllLocalTriangulations.OrientedPair
    by_cases hvu : v = u
    · subst hvu
      rw [f2, mem_cyclicPairs_reverse, Function.update_same]
      cases σ v <;> simp
    · rw [hfan v hv hvu, Function.update_noteq hvu]
  apply coherent_of_closure
  · exact sameShape_validCSR f1 h1
  · rw [sameShape_length f1]; exact h2
  · intro v hv
    by_cases hvu : v = u
    · subst hvu
      rw [f3, nextAfterBorder, foldl_nextAfter_of_not_mem]
      · decide
      · rw [cyclicPairs_map_fst]
        intro hm
        have := (h5 v hv _ hm).1
        have := h3 v hv
        omega
    · rw [(f4 v hvu (by omega)).2]; exact h3 v hv
  · intro v hv
    by_cases hvu : v = u
    · subst hvu
      rw [f2, List.nodup_reverse, List.length_reverse]; exact h4 v hv
    · rw [hfan v hv hvu]; exact h4 v hv
  · intro v hv x hx
    exact h5 v hv x ((hmem v hv x).1 hx)
  · intro v hv c x hp
    have hp0 := (hop v hv c x).1 hp
    have hc := (orientedPair_facts h' hv hp0).2.2.2.2.2.2.1
    exact (hop _ hc x v).2 (orientedPair_next h' hv hp0)

/-- A coherent collection stays coherent, for some marks, under every flip of a non-empty fan. -/
theorem exists_coherent_flip (n : Nat) (t : AllLocalTriangulations) (u : Nat)
    (h : ∃ σ, t.Coherent n σ)
    (hlt : (t.fanRecords.getD u default).firstNei
      < (t.fanRecords.getD (u + 1) default).firstNei) :
    ∃ σ, (flipVertex t u).Coherent n σ := by
  obtain ⟨σ, hσ⟩ := h
  have hu := lt_length_of_firstNei_lt t u hlt
  rw [hσ.2.1] at hu
  exact ⟨_, coherent_flipVertex hσ (by omega)⟩


theorem mem_allTriplets (t : AllLocalTriangulations) (hv : t.ValidCSR)
    (tr : UnorientedTriangle × Bool) (h : tr ∈ allTriplets t) :
    ∃ v, v + 1 < t.fanRecords.length ∧ ∃ p ∈ cyclicPairs (t.fan v),
      p.1 ≠ t.border v ∧ unorientedTriangle v p.2 p.1 = tr := by
  unfold allTriplets at h
  obtain ⟨v, hvr, hm⟩ := List.mem_flatMap.1 h
  have hvl : v + 1 < t.fanRecords.length := by have := List.mem_range.1 hvr; omega
  rw [fanTriplets_eq t hv v hvl] at hm
  obtain ⟨p, hp, he⟩ := List.mem_filterMap.1 hm
  by_cases hb : p.1 = t.border v
  · rw [if_pos hb] at he; exact absurd he (by simp)
  · rw [if_neg hb] at he
    exact ⟨v, hvl, p, hp, hb, by simpa using he⟩

/-- In a coherent collection all of whose fans count as flipped, or none, no triangle has both a
same-oriented and an opposite-oriented vote. -/
theorem coherent_const_pure {t : AllLocalTriangulations} {n : Nat} {σ : Nat → Bool}
    (h : t.Coherent n σ) (hc : ∀ u v, u < n → v < n → σ u = σ v) (K : UnorientedTriangle) :
    sameVotes t K = 0 ∨ oppositeVotes t K = 0 := by
  by_contra hne
  rw [not_or] at hne
  have h1 : (K, false) ∈ allTriplets t := List.count_pos_iff.1 (Nat.pos_of_ne_zero hne.1)
  have h2 : (K, true) ∈ allTriplets t := List.count_pos_iff.1 (Nat.pos_of_ne_zero hne.2)
  obtain ⟨v1, hv1, p1, hp1, _, e1⟩ := mem_allTriplets t h.1 _ h1
  obtain ⟨v2, hv2, p2, hp2, _, e2⟩ := mem_allTriplets t h.1 _ h2
  have hn1 : v1 < n := by have := h.2.1; omega
  have hn2 : v2 < n := by have := h.2.1; omega
  have := coherent_real_flags h hn1 hn2 p1 p2 hp1 hp2 (by rw [e1, e2])
  rw [e1, e2, hc v1 v2 hn1 hn2] at this
  simp at this

theorem coherent_talliesWithin3 {t : AllLocalTriangulations} {n : Nat} {σ : Nat → Bool}
    (h : t.Coherent n σ) : t.TalliesWithin3 := by
  intro K _
  apply totalVotes_le_three t h.1
  · intro v hv
    exact (h.2.2.2.1 v (by have := h.2.1; omega)).1
  · intro v hv h2
    have := (h.2.2.2.1 v (by have := h.2.1; omega)).2
    omega

theorem computeTrianglesRepetitions_getD_zero (sh : Sharding) (t : AllLocalTriangulations)
    (h3 : t.TalliesWithin3) :
    (computeTrianglesRepetitions sh t).getD 0 0
      = (distinctTriangles t).countP
        (fun k => decide (1 ≤ sameVotes t k ∧ 1 ≤ oppositeVotes t k)) := by
  obtain ⟨_, he⟩ := makeTriangleHashMap_exact sh t h3
  obtain ⟨_, _, i3⟩ := foldl_repetitionsStep (makeTriangleHashMap sh t)
    (fun e hm => by
      obtain ⟨a1, a2, a3⟩ := he e hm
      rw [a1]; exact ⟨a2, a3⟩) [0, 0, 0, 0] rfl
  unfold computeTrianglesRepetitions
  rw [i3]
  have := countP_entries sh t h3
    (fun r => decide (1 ≤ r.sameOriented ∧ 1 ≤ r.oppositeOriented))
  simp only at this
  rw [this]
  simp

/-- A coherent collection all of whose fans count as flipped, or none, has no conflict: entry 0
of the histogram is 0 and every entry of the map has a counter that is 0. -/
theorem coherent_const_no_conflict (sh : Sharding) {t : AllLocalTriangulations} {n : Nat}
    {σ : Nat → Bool} (h : t.Coherent n σ) (hc : ∀ u v, u < n → v < n → σ u = σ v) :
    (computeTrianglesRepetitions sh t).getD 0 0 = 0 ∧
    ∀ e ∈ makeTriangleHashMap sh t, e.2.sameOriented = 0 ∨ e.2.oppositeOriented = 0 := by
  have h3 := coherent_talliesWithin3 h
  constructor
  · rw [computeTrianglesRepetitions_getD_zero sh t h3, List.countP_eq_zero]
    intro K _
    have := coherent_const_pure h hc K
    simp only [decide_eq_true_eq]
    omega
  · intro e he
    obtain ⟨a1, _, _⟩ := (makeTriangleHashMap_exact sh t h3).2 e he
    rw [a1]
    exact coherent_const_pure h hc e.1


/-- A point in a box: between the corners in every coordinate. -/
theorem includePoint_foldl {α : Type} [LinearOrderedField α] (points : List (Vector3 α))
    (vs : List Nat) :
    ∀ b : Option (Box3 α),
      ∃ bx, vs.foldl (fun b v => Box3.includePoint b (points.getD v default)) b
          = (if vs = [] then b else some bx) ∧
        (∀ b0, b = some b0 → vs ≠ [] → bx.min.x ≤ b0.min.x ∧ bx.min.y ≤ b0.min.y ∧
          bx.min.z ≤ b0.min.z ∧ b0.max.x ≤ bx.max.x ∧ b0.max.y ≤ bx.max.y ∧
          b0.max.z ≤ bx.max.z) ∧
        (∀ v ∈ vs, bx.min.x ≤ (points.getD v default).x ∧ bx.min.y ≤ (points.getD v default).y ∧
          bx.min.z ≤ (points.getD v default).z ∧ (points.getD v default).x ≤ bx.max.x ∧
          (points.getD v default).y ≤ bx.max.y ∧ (points.getD v default).z ≤ bx.max.z) := by
  induction vs with
  | nil => intro b; exact ⟨⟨default, default⟩, by simp, fun _ _ h => absurd rfl h, by simp⟩
  | cons v vs ih =>
    intro b
    obtain ⟨bx, e, h1, h2⟩ := ih (Box3.includePoint b (points.getD v default))
    have hinc : ∃ b1, Box3.includePoint b (points.getD v default) = some b1 ∧
        (b1.min.x ≤ (points.getD v default).x ∧ b1.min.y ≤ (points.getD v default).y ∧
          b1.min.z ≤ (points.getD v default).z ∧ (points.getD v default).x ≤ b1.max.x ∧
          (points.getD v default).y ≤ b1.max.y ∧ (points.getD v default).z ≤ b1.max.z) ∧
        (∀ b0, b = some b0 → b1.min.x ≤ b0.min.x ∧ b1.min.y ≤ b0.min.y ∧
          b1.min.z ≤ b0.min.z ∧ b0.max.x ≤ b1.max.x ∧ b0.max.y ≤ b1.max.y ∧
          b0.max.z ≤ b1.max.z) := by
      cases b with
      | none =>
        exact ⟨_, rfl, ⟨le_refl _, le_refl _, le_refl _, le_refl _, le_refl _, le_refl _⟩,
          fun b0 h => absurd h (by simp)⟩
      | some b0 =>
        refine ⟨_, rfl, ⟨min_le_right _ _, min_le_right _ _, min_le_right _ _,
          le_max_right _ _, le_max_right _ _, le_max_right _ _⟩, ?_⟩
        intro b0' hb
        simp only [Option.some.injEq] at hb
        subst hb
        exact ⟨min_le_left _ _, min_le_left _ _, min_le_left _ _,
          le_max_left _ _, le_max_left _ _, le_max_left _ _⟩
    obtain ⟨b1, e1, g1, g2⟩ := hinc
    by_cases hvs : vs = []
    · subst hvs
      refine ⟨b1, by rw [List.foldl_cons, if_neg (List.cons_ne_nil _ _)]; exact e1, ?_, ?_⟩
      · intro b0 hb _
        exact g2 b0 hb
      · intro w hw
        simp only [List.mem_singleton] at hw
        subst hw
        exact g1
    · rw [if_neg hvs] at e
      refine ⟨bx, by rw [List.foldl_cons, if_neg (List.cons_ne_nil _ _)]; exact e, ?_, ?_⟩
      · intro b0 hb _
        obtain ⟨a1, a2, a3, a4, a5, a6⟩ := h1 b1 e1 hvs
        obtain ⟨c1, c2, c3, c4, c5, c6⟩ := g2 b0 hb
        exact ⟨le_trans a1 c1, le_trans a2 c2, le_trans a3 c3, le_trans c4 a4, le_trans c5 a5,
          le_trans c6 a6⟩
      · intro w hw
        rcases List.mem_cons.1 hw with hw | hw
        · subst hw
          obtain ⟨a1, a2, a3, a4, a5, a6⟩ := h1 b1 e1 hvs
          obtain ⟨c1, c2, c3, c4, c5, c6⟩ := g1
          exact ⟨le_trans a1 c1, le_trans a2 c2, le_trans a3 c3, le_trans c4 a4,
            le_trans c5 a5, le_trans c6 a6⟩
        · exact h2 w hw

theorem sq_mid_le {α : Type} [LinearOrderedField α] (lo hi p : α) (h1 : lo ≤ p) (h2 : p ≤ hi) :
    (p - (lo + hi) / 2) * (p - (lo + hi) / 2) ≤ (hi - lo) * (hi - lo) / 4 := by
  have e : (hi - lo) * (hi - lo) / 4 - (p - (lo + hi) / 2) * (p - (lo + hi) / 2)
      = (p - lo) * (hi - p) := by
    field_simp
    ring
  have : 0 ≤ (p - lo) * (hi - p) := mul_nonneg (sub_nonneg.2 h1) (sub_nonneg.2 h2)
  linarith

/-- The assertion `w <= 0` of the source: the initial weight of a valid point is not
positive. -/
theorem initialHeap_le_zero {α : Type} [LinearOrderedField α] (pc : PointCloud α) (v : Nat)
    (hv : v < pc.points.length) (hlen : v < pc.validPoints.length)
    (hval : pc.validPoints.getD v false = true) :
    ∃ x : α, x ≤ 0 ∧ (initialHeap pc).getD v none = some x := by
  unfold initialHeap
  rw [List.getD_eq_getElem _ _ (by simp only [List.length_map, List.length_range]; exact hv)]
  simp only [List.getElem_map, List.getElem_range, hval, if_true]
  refine ⟨_, ?_, rfl⟩
  have hmem : v ∈ (List.range pc.validPoints.length).filter
      (fun v => pc.validPoints.getD v false) := by
    rw [List.mem_filter]
    exact ⟨List.mem_range.2 hlen, hval⟩
  obtain ⟨bx, e, _, h2⟩ := includePoint_foldl pc.points
    ((List.range pc.validPoints.length).filter (fun v => pc.validPoints.getD v false)) none
  rw [if_neg (List.ne_nil_of_mem hmem)] at e
  obtain ⟨a1, a2, a3, a4, a5, a6⟩ := h2 v hmem
  have eb : pc.computeBoundingBox = some bx := e
  rw [eb]
  simp only [boxCenter, boxMaxDistSq, dot, Vector3.sub]
  have s1 := sq_mid_le _ _ _ a1 a4
  have s2 := sq_mid_le _ _ _ a2 a5
  have s3 := sq_mid_le _ _ _ a3 a6
  have : ((bx.max.x - bx.min.x) * (bx.max.x - bx.min.x) +
      (bx.max.y - bx.min.y) * (bx.max.y - bx.min.y) +
      (bx.max.z - bx.min.z) * (bx.max.z - bx.min.z)) / 4
      = (bx.max.x - bx.min.x) * (bx.max.x - bx.min.x) / 4 +
        (bx.max.y - bx.min.y) * (bx.max.y - bx.min.y) / 4 +
        (bx.max.z - bx.min.z) * (bx.max.z - bx.min.z) / 4 := by ring
  rw [this]
  linarith


theorem heapLess_irrefl {α : Type} [LinearOrder α] (a : Option α) : heapLess a a = false := by
  cases a <;> simp [heapLess]

theorem heapLess_trans {α : Type} [LinearOrder α] (a b c : Option α)
    (h1 : heapLess a b = true) (h2 : heapLess b c = true) : heapLess a c = true := by
  cases a <;> cases b <;> cases c <;> simp [heapLess] at h1 h2 ⊢
  exact lt_trans h1 h2

theorem heapLess_of_not {α : Type} [LinearOrder α] (r b x : Option α)
    (h1 : heapLess r x = true) (h2 : heapLess b x = false) : heapLess r b = true := by
  cases r <;> cases b <;> cases x <;> simp [heapLess] at h1 h2 ⊢
  exact lt_of_lt_of_le h1 h2

theorem heapTopFrom_max {α : Type} [LinearOrder α] (xs : List (Option α)) :
    ∀ (i : Nat) (best : Nat × Option α),
      heapLess (heapTopFrom xs i best).2 best.2 = false ∧
      ∀ x ∈ xs, heapLess (heapTopFrom xs i best).2 x = false := by
  induction xs with
  | nil =>
    intro i best
    exact ⟨heapLess_irrefl _, fun x hx => absurd hx (List.not_mem_nil _)⟩
  | cons x xs ih =>
    intro i best
    simp only [heapTopFrom]
    obtain ⟨h1, h2⟩ := ih (i + 1) (if heapLess best.2 x then (i, x) else best)
    by_cases hl : heapLess best.2 x = true
    · simp only [if_pos hl] at h1 h2 ⊢
      refine ⟨?_, ?_⟩
      · rw [Bool.eq_false_iff]
        intro h
        rw [heapLess_trans _ _ _ h hl] at h1
        exact absurd h1 (by simp)
      · intro y hy
        rcases List.mem_cons.1 hy with e | e
        · rw [e]; exact h1
        · exact h2 y e
    · simp only [if_neg hl] at h1 h2 ⊢
      refine ⟨h1, ?_⟩
      intro y hy
      rcases List.mem_cons.1 hy with e | e
      · rw [e, Bool.eq_false_iff]
        intro h
        rw [heapLess_of_not _ _ _ h (by simpa using hl)] at h1
        exact absurd h1 (by simp)
      · exact h2 y e

/-- No value of the heap is above the value of its top. -/
theorem heapTop_max {α : Type} [LinearOrder α] (h : Heap α) (j : Nat) :
    heapLess (heapTop h).2 (h.getD j none) = false := by
  cases h with
  | nil => simp [heapTop, heapTopFrom, heapLess]
  | cons x xs =>
    obtain ⟨h1, h2⟩ := heapTopFrom_max xs 1 (0, x)
    simp only [heapTop, List.tail_cons, List.headD_cons]
    cases j with
    | zero => simpa using h1
    | succ j =>
      rw [List.getD_cons_succ]
      by_cases hj : j < xs.length
      · rw [List.getD_eq_getElem _ _ hj]
        exact h2 _ (List.getElem_mem hj)
      · rw [List.getD_eq_default _ _ (by omega)]
        exact heapLess_none _

/-- A path that starts inside a set and ends outside of it has a step that leaves the set. -/
theorem reflTransGen_crossing {β : Type} (r : β → β → Prop) (S : β → Prop) (a b : β)
    (h : Relation.ReflTransGen r a b) (ha : S a) (hb : ¬ S b) :
    ∃ x y, Relation.ReflTransGen r a x ∧ r x y ∧ S x ∧ ¬ S y := by
  induction h with
  | refl => exact absurd ha hb
  | tail hab hbc ih =>
    rename_i b c
    by_cases hSb : S b
    · exact ⟨b, c, hab, hbc, hSb, hb⟩
    · exact ih hSb

theorem reachable_lt {t : AllLocalTriangulations} {n : Nat} {σ : Nat → Bool}
    (h : t.Coherent n σ) (a b : Nat) (ha : a < n)
    (hr : Relation.ReflTransGen (fun a b : Nat => (b : Int) ∈ t.fan a) a b) : b < n := by
  induction hr with
  | refl => exact ha
  | tail _ hbc ih =>
    have := (h.2.2.2.2.1 _ ih _ hbc).2.1
    simpa using this

theorem fan_symm {t : AllLocalTriangulations} {n : Nat} {σ : Nat → Bool}
    (h : t.Coherent n σ) (a b : Nat) (ha : a < n) (hab : (b : Int) ∈ t.fan a) :
    (a : Int) ∈ t.fan b := by
  have hfst : (b : Int) ∈ (cyclicPairs (t.fan a)).map Prod.fst := by
    rw [cyclicPairs_map_fst]; exact hab
  obtain ⟨p, hp, e⟩ := List.mem_map.1 hfst
  have hop := orientedPair_of_mem t σ a p hp
  have hnext := orientedPair_next h ha hop
  obtain ⟨_, _, _, _, _, _, f7, _, f9⟩ := orientedPair_facts h ha hop
  have eb : p.1.toNat = b := by rw [e]; simp
  by_cases hs : σ a = true
  · simp only [if_pos hs] at hop hnext f7 f9
    have hnext2 := orientedPair_next h f7 hnext
    obtain ⟨g1, _⟩ := orientedPair_facts h f9 hnext2
    rw [eb] at g1
    exact g1
  · simp only [if_neg hs] at hop hnext f7 f9
    obtain ⟨_, g2, _⟩ := orientedPair_facts h f7 hnext
    rw [eb] at g2
    exact g2

/-- In a connected coherent collection, between a set of vertices that is neither empty nor
everything and its complement there is a fan step from the set into the complement. -/
theorem exists_frontier {t : AllLocalTriangulations} {n : Nat} {σ : Nat → Bool}
    (h : t.Coherent n σ) (hconn : t.Connected n) (S : Nat → Prop) (w u : Nat) (hw : w < n)
    (hu : u < n) (hSw : S w) (hSu : ¬ S u) :
    ∃ x y, x < n ∧ y < n ∧ S x ∧ ¬ S y ∧ (y : Int) ∈ t.fan x := by
  have h0 : 0 < n := by omega
  by_cases hS0 : S 0
  · obtain ⟨x, y, hax, hxy, hx, hy⟩ := reflTransGen_crossing _ S 0 u (hconn u hu) hS0 hSu
    have hxn := reachable_lt h 0 x h0 hax
    exact ⟨x, y, hxn, reachable_lt h 0 y h0 (hax.tail hxy), hx, hy, hxy⟩
  · obtain ⟨x, y, hax, hxy, hx, hy⟩ := reflTransGen_crossing _ (fun v => ¬ S v) 0 w
      (hconn w hw) hS0 (fun hc => hc hSw)
    have hxn := reachable_lt h 0 x h0 hax
    have hyn := reachable_lt h 0 y h0 (hax.tail hxy)
    exact ⟨y, x, hyn, hxn, not_not.1 hy, hx, fan_symm h x y hxn hxy⟩


theorem mapFind_mapVote (m : TriangleMap) (key : UnorientedTriangle) (f : Bool)
    (k : UnorientedTriangle) :
    mapFind (mapVote m key f) k
      = if k = key then some ((tallyOf m key).vote f) else mapFind m k := by
  induction m with
  | nil =>
    simp only [mapVote, mapFind, tallyOf, Option.getD_none]
    by_cases h : k = key
    · rw [if_pos h.symm, if_pos h]
    · rw [if_neg (fun e => h e.symm), if_neg h]
  | cons e m ih =>
    obtain ⟨k0, r0⟩ := e
    by_cases h0 : k0 = key
    · subst h0
      by_cases h : k = k0
      · subst h
        simp [mapVote, mapFind, tallyOf]
      · have h' : ¬ k0 = k := fun e => h e.symm
        simp [mapVote, mapFind, h, h']
    · by_cases h1 : k0 = k
      · subst h1
        simp [mapVote, mapFind, h0]
      · by_cases h : k = key
        · subst h
          simp [mapVote, mapFind, tallyOf, h0, ih]
        · simp [mapVote, mapFind, h0, h1, h, ih]

theorem mapErase_keys_sublist (m : TriangleMap) (key : UnorientedTriangle) :
    ((mapErase m key).map Prod.fst).Sublist (m.map Prod.fst) := by
  induction m with
  | nil => exact List.Sublist.refl _
  | cons e m ih =>
    obtain ⟨k0, r0⟩ := e
    by_cases h0 : k0 = key
    · simp only [mapErase, if_pos h0, List.map_cons]
      exact List.sublist_cons_self _ _
    · simp only [mapErase, if_neg h0, List.map_cons]
      exact ih.cons₂ _

theorem mapErase_nodup (m : TriangleMap) (key : UnorientedTriangle)
    (hnd : (m.map Prod.fst).Nodup) : ((mapErase m key).map Prod.fst).Nodup :=
  hnd.sublist (mapErase_keys_sublist m key)

theorem mapFind_mapErase (m : TriangleMap) (hnd : (m.map Prod.fst).Nodup)
    (key k : UnorientedTriangle) :
    mapFind (mapErase m key) k = if k = key then none else mapFind m k := by
  induction m with
  | nil => simp [mapErase, mapFind]
  | cons e m ih =>
    obtain ⟨k0, r0⟩ := e
    simp only [List.map_cons, List.nodup_cons] at hnd
    by_cases h0 : k0 = key
    · simp only [mapErase, if_pos h0, mapFind]
      by_cases h : k = key
      · rw [if_pos h, mapFind_eq_none_iff, h, ← h0]
        exact hnd.1
      · rw [if_neg h, if_neg (fun e => h (e.symm.trans h0))]
    · simp only [mapErase, if_neg h0, mapFind]
      by_cases h1 : k0 = k
      · rw [if_pos h1, if_pos h1, if_neg (fun e => h0 (h1.trans e))]
      · rw [if_neg h1, if_neg h1, ih hnd.2]

/-- The first loop of `enqueueNeighbors`, for pairs that start with no border and have pairwise
distinct triangles: the entry of a triangle of the loop is erased when its two other corners are
visited and receives one vote otherwise; the other entries are as before. -/
theorem foldl_registerStep_spec (nv : List Bool) (base border : Int) (ps : List (Int × Int))
    (hb : ∀ p ∈ ps, p.1 ≠ border)
    (hinj : ps.Pairwise (fun p q =>
      (unorientedTriangle base p.2 p.1).1 ≠ (unorientedTriangle base q.2 q.1).1)) :
    ∀ m : TriangleMap, (m.map Prod.fst).Nodup →
      ((ps.foldl (registerStep nv base border) m).map Prod.fst).Nodup ∧
      (∀ K, (∀ p ∈ ps, (unorientedTriangle base p.2 p.1).1 ≠ K) →
        mapFind (ps.foldl (registerStep nv base border) m) K = mapFind m K) ∧
      (∀ p ∈ ps, mapFind (ps.foldl (registerStep nv base border) m)
          (unorientedTriangle base p.2 p.1).1
        = if (!testBit nv p.1 && !testBit nv p.2) = true then none
          else some ((tallyOf m (unorientedTriangle base p.2 p.1).1).vote
            (unorientedTriangle base p.2 p.1).2)) := by
  induction ps with
  | nil =>
    intro m hm
    exact ⟨hm, fun _ _ => rfl, fun p hp => absurd hp (List.not_mem_nil _)⟩
  | cons p ps ih =>
    intro m hm
    rw [List.pairwise_cons] at hinj
    have hpb : p.1 ≠ border := hb p (List.mem_cons_self _ _)
    have hm1 : ((registerStep nv base border m p).map Prod.fst).Nodup := by
      unfold registerStep
      rw [if_neg hpb]
      split_ifs
      · exact mapErase_nodup _ _ hm
      · exact mapVote_nodup _ _ _ hm
    have hfind1 : ∀ K, mapFind (registerStep nv base border m p) K
        = if K = (unorientedTriangle base p.2 p.1).1 then
            (if (!testBit nv p.1 && !testBit nv p.2) = true then none
              else some ((tallyOf m (unorientedTriangle base p.2 p.1).1).vote
                (unorientedTriangle base p.2 p.1).2))
          else mapFind m K := by
      intro K
      unfold registerStep
      rw [if_neg hpb]
      by_cases hc : (!testBit nv p.1 && !testBit nv p.2) = true
      · rw [if_pos hc, if_pos hc, mapFind_mapErase _ hm]
      · rw [if_neg hc, if_neg hc, mapFind_mapVote]
    obtain ⟨i1, i2, i3⟩ := ih (fun q hq => hb q (List.mem_cons_of_mem _ hq)) hinj.2
      (registerStep nv base border m p) hm1
    rw [List.foldl_cons]
    refine ⟨i1, ?_, ?_⟩
    · intro K hK
      rw [i2 K (fun q hq => hK q (List.mem_cons_of_mem _ hq)), hfind1,
        if_neg (fun e => hK p (List.mem_cons_self _ _) e.symm)]
    · intro q hq
      rcases List.mem_cons.1 hq with e | e
      · subst e
        rw [i2 _ (fun q' hq' => (hinj.1 q' hq').symm), hfind1, if_pos rfl]
      · rw [i3 q e]
        have hne : (unorientedTriangle base q.2 q.1).1 ≠ (unorientedTriangle base p.2 p.1).1 :=
          (hinj.1 q e).symm
        have : tallyOf (registerStep nv base border m p) (unorientedTriangle base q.2 q.1).1
            = tallyOf m (unorientedTriangle base q.2 q.1).1 := by
          unfold tallyOf
          rw [hfind1, if_neg hne]
        rw [this]

theorem cyclicPairs_keys_pairwise (fan : List Int) (hnd : fan.Nodup) (h3 : 3 ≤ fan.length)
    (base : Int) :
    (cyclicPairs fan).Pairwise (fun p q =>
      (unorientedTriangle base p.2 p.1).1 ≠ (unorientedTriangle base q.2 q.1).1) := by
  apply List.Pairwise.imp_of_mem _ (cyclicPairs_nodup fan hnd)
  intro p q hp hq hne hk
  rcases unorientedTriangle_pair _ _ _ _ _ hk with ⟨g1, g2⟩ | ⟨g1, g2⟩
  · exact hne (Prod.ext g1 g2)
  · have : (p.2, p.1) ∈ cyclicPairs fan := by rw [g1, g2]; exact hq
    exact cyclicPairs_no_swap fan hnd h3 p.1 p.2 hp this


theorem unorientedTriangle_corner (a b c y : Int) (hy : y = a ∨ y = b ∨ y = c) :
    y = (unorientedTriangle a b c).1.a ∨ y = (unorientedTriangle a b c).1.b ∨
      y = (unorientedTriangle a b c).1.c := by
  simp only [unorientedTriangle]
  split_ifs <;> simp only [] <;> tauto

theorem visitedCorners_mono (V : List Nat) (b : Nat) (K : UnorientedTriangle) :
    visitedCorners V K ≤ visitedCorners (V ++ [b]) K := by
  unfold visitedCorners
  have h : ∀ x : Int, (if x.toNat ∈ V then 1 else 0) ≤ (if x.toNat ∈ V ++ [b] then 1 else 0) := by
    intro x
    by_cases hx : x.toNat ∈ V
    · rw [if_pos hx, if_pos (List.mem_append_left _ hx)]
    · rw [if_neg hx]; exact Nat.zero_le _
  have := h K.a; have := h K.b; have := h K.c
  omega

theorem visitedCorners_succ (V : List Nat) (b : Nat) (hb : b ∉ V) (K : UnorientedTriangle)
    (hK : (b : Int) = K.a ∨ (b : Int) = K.b ∨ (b : Int) = K.c) :
    visitedCorners V K + 1 ≤ visitedCorners (V ++ [b]) K := by
  unfold visitedCorners
  have h : ∀ x : Int, (if x.toNat ∈ V then 1 else 0) ≤ (if x.toNat ∈ V ++ [b] then 1 else 0) := by
    intro x
    by_cases hx : x.toNat ∈ V
    · rw [if_pos hx, if_pos (List.mem_append_left _ hx)]
    · rw [if_neg hx]; exact Nat.zero_le _
  have h1 : ∀ x : Int, (b : Int) = x →
      (if x.toNat ∈ V then 1 else 0) + 1 ≤ (if x.toNat ∈ V ++ [b] then 1 else 0) := by
    intro x hx
    have e : x.toNat = b := by rw [← hx]; simp
    rw [e, if_neg hb, if_pos (List.mem_append_right _ (List.mem_singleton_self _))]
  have := h K.a; have := h K.b; have := h K.c
  rcases hK with e | e | e
  · have := h1 _ e; omega
  · have := h1 _ e; omega
  · have := h1 _ e; omega

theorem visitedCorners_le (V : List Nat) (K : UnorientedTriangle) : visitedCorners V K ≤ 3 := by
  unfold visitedCorners
  split_ifs <;> omega

theorem pureFor_vote (r : Repetitions) (fl : Bool) (h : r.PureFor fl)
    (hle : r.sameOriented + r.oppositeOriented ≤ 3) :
    (r.vote fl).PureFor fl ∧
    (r.vote fl).sameOriented + (r.vote fl).oppositeOriented
      = r.sameOriented + r.oppositeOriented + 1 := by
  unfold Repetitions.PureFor at h ⊢
  cases fl
  · simp only [Bool.false_eq_true, if_false, Repetitions.vote] at h ⊢
    rw [Nat.mod_eq_of_lt (by omega)]
    omega
  · simp only [if_true, Repetitions.vote] at h ⊢
    rw [Nat.mod_eq_of_lt (by omega)]
    omega

theorem pureFor_default_vote (fl : Bool) :
    ((default : Repetitions).vote fl).PureFor fl ∧
    ((default : Repetitions).vote fl).sameOriented
      + ((default : Repetitions).vote fl).oppositeOriented = 1 := by
  cases fl <;> simp [Repetitions.PureFor, Repetitions.vote, default]

theorem testBit_eq_true_iff (nv : List Bool) (x : Int) (hx : 0 ≤ x) :
    testBit nv x = true ↔ nv.getD x.toNat false = true := by
  unfold testBit
  simp [hx]


/-- The first loop of `enqueueNeighbors( base )` keeps the invariant of the map, for the visited
vertices with `base` added, when the fan of `base` has the kind of the fans visited before. -/
theorem registerStep_mapInv {t : AllLocalTriangulations} {n : Nat} {σ : Nat → Bool}
    (h : t.Coherent n σ) (V : List Nat) (hV : ∀ v ∈ V, v < n) (base : Nat) (hb : base < n)
    (hbV : base ∉ V) (hσb : ∀ v ∈ V, σ base = σ v) (nv : List Bool)
    (hnv : ∀ v < n, (nv.getD v false = true ↔ v ∉ V ∧ v ≠ base))
    (m : TriangleMap) (hm : MapInv t V m) :
    MapInv t (V ++ [base])
      ((cyclicPairs (t.fan base)).foldl (registerStep nv base (t.border base)) m) := by
  have hfacts : ∀ p ∈ cyclicPairs (t.fan base),
      0 ≤ p.1 ∧ p.1.toNat < n ∧ 0 ≤ p.2 ∧ p.2.toNat < n := by
    intro p hp
    obtain ⟨m1, m2⟩ := mem_fan_of_mem_cyclicPairs _ p hp
    have a := h.2.2.2.2.1 base hb p.1 m1
    have b := h.2.2.2.2.1 base hb p.2 m2
    exact ⟨a.1, a.2.1, b.1, b.2.1⟩
  have hbd : ∀ p ∈ cyclicPairs (t.fan base), p.1 ≠ t.border base := by
    intro p hp e
    have := (hfacts p hp).1
    have := h.2.2.1 base hb
    omega
  have hinj := cyclicPairs_keys_pairwise (t.fan base) (h.2.2.2.1 base hb).1
    (h.2.2.2.1 base hb).2 (base : Int)
  obtain ⟨i1, i2, i3⟩ := foldl_registerStep_spec nv base (t.border base)
    (cyclicPairs (t.fan base)) hbd hinj m hm.keys_nodup
  have hvis : ∀ x : Int, 0 ≤ x → x.toNat < n →
      ((!testBit nv x) = true ↔ x.toNat ∈ V ++ [base]) := by
    intro x hx hxn
    have := hnv x.toNat hxn
    rw [Bool.not_eq_true', ← Bool.not_eq_true, testBit_eq_true_iff nv x hx, this,
      List.mem_append, List.mem_singleton]
    tauto
  have hcond : ∀ p ∈ cyclicPairs (t.fan base),
      ((!testBit nv p.1 && !testBit nv p.2) = true ↔
        p.1.toNat ∈ V ++ [base] ∧ p.2.toNat ∈ V ++ [base]) := by
    intro p hp
    obtain ⟨a1, a2, a3, a4⟩ := hfacts p hp
    rw [Bool.and_eq_true, hvis p.1 a1 a2, hvis p.2 a3 a4]
  have hsub : ∀ v ∈ V, v ∈ V ++ [base] := fun v hv => List.mem_append_left _ hv
  refine ⟨i1, ?_, ?_⟩
  · intro K r hfind
    by_cases hex : ∃ p ∈ cyclicPairs (t.fan base), (unorientedTriangle base p.2 p.1).1 = K
    · obtain ⟨p, hp, hK⟩ := hex
      subst hK
      rw [i3 p hp] at hfind
      by_cases hc : (!testBit nv p.1 && !testBit nv p.2) = true
      · rw [if_pos hc] at hfind; exact absurd hfind (by simp)
      · rw [if_neg hc] at hfind
        simp only [Option.some.injEq] at hfind
        subst hfind
        have hcorner := unorientedTriangle_center (base : Int) p.2 p.1 _ rfl
        refine ⟨base, List.mem_append_right _ (List.mem_singleton_self _), p, hp, rfl, ?_⟩
        cases hf : mapFind m (unorientedTriangle base p.2 p.1).1 with
        | none =>
          have e : tallyOf m (unorientedTriangle base p.2 p.1).1 = default := by
            unfold tallyOf; rw [hf]; rfl
          rw [e]
          obtain ⟨q1, q2⟩ := pureFor_default_vote (unorientedTriangle base p.2 p.1).2
          refine ⟨q1, ?_⟩
          have := visitedCorners_succ V base hbV _ hcorner
          omega
        | some r0 =>
          have e : tallyOf m (unorientedTriangle base p.2 p.1).1 = r0 := by
            unfold tallyOf; rw [hf]; rfl
          rw [e]
          obtain ⟨v0, hv0, p0, hp0, hk0, hpure, hbound⟩ := hm.sound _ r0 hf
          have hfl := coherent_real_flags h (hV v0 hv0) hb p0 p hp0 hp hk0
          rw [hσb v0 hv0] at hfl
          have hfl' : (unorientedTriangle v0 p0.2 p0.1).2 = (unorientedTriangle base p.2 p.1).2 := by
            revert hfl
            cases σ v0 <;> cases (unorientedTriangle v0 p0.2 p0.1).2 <;>
              cases (unorientedTriangle base p.2 p.1).2 <;> simp
          rw [hfl'] at hpure
          have hle := visitedCorners_le V (unorientedTriangle base p.2 p.1).1
          obtain ⟨q1, q2⟩ := pureFor_vote r0 _ hpure (by omega)
          refine ⟨q1, ?_⟩
          have := visitedCorners_succ V base hbV _ hcorner
          omega
    · rw [i2 K (fun p hp e => hex ⟨p, hp, e⟩)] at hfind
      obtain ⟨v0, hv0, p0, hp0, hk0, hpure, hbound⟩ := hm.sound K r hfind
      exact ⟨v0, hsub v0 hv0, p0, hp0, hk0, hpure,
        le_trans hbound (visitedCorners_mono V base K)⟩
  · intro v hv p hp hunv
    by_cases hex : ∃ q ∈ cyclicPairs (t.fan base),
        (unorientedTriangle base q.2 q.1).1 = (unorientedTriangle v p.2 p.1).1
    · obtain ⟨q, hq, hK⟩ := hex
      rw [← hK, i3 q hq]
      have hnc : ¬ (!testBit nv q.1 && !testBit nv q.2) = true := by
        rw [hcond q hq]
        rintro ⟨c1, c2⟩
        have hy : ∀ y : Int, (y = (v : Int) ∨ y = p.2 ∨ y = p.1) → y.toNat ∉ V ++ [base] →
            False := by
          intro y hy hny
          have hc := unorientedTriangle_corner (v : Int) p.2 p.1 y hy
          rw [← hK] at hc
          obtain ⟨ka, kb, kc⟩ := unorientedTriangle_components (base : Int) q.2 q.1
          have hin : y = (base : Int) ∨ y = q.2 ∨ y = q.1 := by
            rcases hc with e | e | e <;> rw [e]
            · exact ka
            · exact kb
            · exact kc
          rcases hin with e | e | e
          · apply hny
            rw [e]
            simp
          · exact hny (e ▸ c2)
          · exact hny (e ▸ c1)
        rcases hunv with e | e
        · exact hy p.1 (Or.inr (Or.inr rfl)) e
        · exact hy p.2 (Or.inr (Or.inl rfl)) e
      rw [if_neg hnc]
      simp
    · rw [i2 _ (fun q hq e => hex ⟨q, hq, e⟩)]
      rcases List.mem_append.1 hv with hv | hv
      · exact hm.complete v hv p hp (hunv.imp (fun e x => e (hsub _ x)) (fun e x => e (hsub _ x)))
      · rw [List.mem_singleton] at hv
        subst hv
        exact absurd ⟨p, hp, rfl⟩ hex


theorem computeVertWeight_fst (t : AllLocalTriangulations) (map : TriangleMap) (v : Int) :
    (computeVertWeight t map v).1
      = if (weightAcc t map v).sameOriented < (weightAcc t map v).oppositeOriented
        then flipVertex t v.toNat else t := by
  unfold computeVertWeight
  simp only
  split_ifs with h
  · unfold flipVertex weightAcc
    rw [foldl_weightStep_otherBd]
  · rfl

/-- The loop of `computeVertWeight` over pairs whose entries, if any, hold votes of one kind:
the kind of the pair itself (`good`) or the other kind. It counts the pairs that have an entry,
in `sameOriented` in the first case and in `oppositeOriented` in the second. -/
theorem foldl_weightStep_spec (m : TriangleMap) (v border : Int) (good : Bool)
    (qs : List (Int × Int))
    (hq : ∀ q ∈ qs, q.1 ≠ border ∧ ∀ r, mapFind m (unorientedTriangle v q.2 q.1).1 = some r →
      r.PureFor (if good then (unorientedTriangle v q.2 q.1).2
        else !(unorientedTriangle v q.2 q.1).2)) :
    ∀ acc : WeightAcc,
      (qs.foldl (weightStep m v border) acc).sameOriented = acc.sameOriented +
        (if good then qs.countP (fun q => (mapFind m (unorientedTriangle v q.2 q.1).1).isSome)
          else 0) ∧
      (qs.foldl (weightStep m v border) acc).oppositeOriented = acc.oppositeOriented +
        (if good then 0
          else qs.countP (fun q => (mapFind m (unorientedTriangle v q.2 q.1).1).isSome)) := by
  induction qs with
  | nil => intro acc; simp
  | cons q qs ih =>
    intro acc
    obtain ⟨hb, hp⟩ := hq q (List.mem_cons_self _ _)
    obtain ⟨i1, i2⟩ := ih (fun q' hq' => hq q' (List.mem_cons_of_mem _ hq'))
      (weightStep m v border acc q)
    rw [List.foldl_cons, i1, i2, List.countP_cons]
    have hstep : (weightStep m v border acc q).sameOriented = acc.sameOriented +
        (if good then (if (mapFind m (unorientedTriangle v q.2 q.1).1).isSome then 1 else 0)
          else 0) ∧
        (weightStep m v border acc q).oppositeOriented = acc.oppositeOriented +
        (if good then 0
          else (if (mapFind m (unorientedTriangle v q.2 q.1).1).isSome then 1 else 0)) := by
      unfold weightStep
      rw [if_neg hb]
      cases hf : mapFind m (unorientedTriangle v q.2 q.1).1 with
      | none => cases good <;> simp
      | some r =>
        have hpure := hp r hf
        unfold Repetitions.PureFor at hpure
        simp only [Option.isSome_some, if_true]
        cases good <;> cases hfl : (unorientedTriangle v q.2 q.1).2 <;>
          simp only [hfl, if_true, if_false, Bool.not_true, Bool.not_false,
            Bool.false_eq_true] at hpure <;>
          obtain ⟨p1, p2⟩ := hpure
        · have c1 : r.sameOriented = 0 ∧ 0 < r.oppositeOriented := ⟨p1, p2⟩
          have c2 : ¬ (0 < r.sameOriented ∧ r.oppositeOriented = 0) := by omega
          simp only [if_pos c1, if_neg c2, Bool.false_eq_true, if_false, add_zero, and_self]
        · have c1 : ¬ (r.sameOriented = 0 ∧ 0 < r.oppositeOriented) := by omega
          have c2 : 0 < r.sameOriented ∧ r.oppositeOriented = 0 := ⟨p1, p2⟩
          simp only [if_neg c1, if_pos c2, Bool.false_eq_true, if_false, if_true, add_zero,
            and_self]
        · have c1 : ¬ (r.sameOriented = 0 ∧ 0 < r.oppositeOriented) := by omega
          have c2 : 0 < r.sameOriented ∧ r.oppositeOriented = 0 := ⟨p1, p2⟩
          simp only [if_neg c1, if_pos c2, Bool.false_eq_true, if_false, if_true, add_zero,
            and_self]
        · have c1 : r.sameOriented = 0 ∧ 0 < r.oppositeOriented := ⟨p1, p2⟩
          have c2 : ¬ (0 < r.sameOriented ∧ r.oppositeOriented = 0) := by omega
          simp only [if_pos c1, if_neg c2, Bool.false_eq_true, if_false, if_true, add_zero,
            and_self]
    rw [hstep.1, hstep.2]
    cases good <;> simp <;> omega


theorem orientedPair_real (t : AllLocalTriangulations) (σ : Nat → Bool) (w : Nat) (c x : Int)
    (hp : t.OrientedPair σ w c x) :
    ∃ q ∈ cyclicPairs (t.fan w),
      (unorientedTriangle w q.2 q.1).1 = (unorientedTriangle w x c).1 := by
  unfold AllLocalTriangulations.OrientedPair at hp
  cases hs : σ w
  · rw [hs] at hp
    exact ⟨(c, x), hp, rfl⟩
  · rw [hs] at hp
    exact ⟨(x, c), hp, unorientedTriangle_swap_key _ _ _⟩

/-- A triangle of the fan of `v` is a triangle of the fans of its two other corners. -/
theorem triangle_listed {t : AllLocalTriangulations} {n : Nat} {σ : Nat → Bool}
    (h : t.Coherent n σ) {v : Nat} (hv : v < n) (p : Int × Int)
    (hp : p ∈ cyclicPairs (t.fan v)) (u : Nat) (hu : (u : Int) = p.1 ∨ (u : Int) = p.2) :
    ∃ q ∈ cyclicPairs (t.fan u),
      (unorientedTriangle u q.2 q.1).1 = (unorientedTriangle v p.2 p.1).1 := by
  have hop := orientedPair_of_mem t σ v p hp
  have hkey := (real_triangle_eq h hv p hp).1
  obtain ⟨-, -, -, -, -, f6, f7, f8, f9⟩ := orientedPair_facts h hv hop
  have hn1 := orientedPair_next h hv hop
  have hn2 := orientedPair_next h f7 hn1
  have ec : ((if σ v then p.2 else p.1).toNat : Int) = (if σ v then p.2 else p.1) :=
    Int.toNat_of_nonneg f6
  have ex : ((if σ v then p.1 else p.2).toNat : Int) = (if σ v then p.1 else p.2) :=
    Int.toNat_of_nonneg f8
  rw [ec] at hn2
  have hu2 : (u : Int) = (if σ v then p.2 else p.1) ∨ (u : Int) = (if σ v then p.1 else p.2) := by
    cases σ v <;> simp <;> tauto
  rcases hu2 with e | e
  · have eu : u = (if σ v then p.2 else p.1).toNat := by rw [← e]; simp
    obtain ⟨q, hq, hk⟩ := orientedPair_real t σ _ _ _ hn1
    rw [← eu] at hq hk
    refine ⟨q, hq, ?_⟩
    rw [hk, hkey, e]
    exact unorientedTriangle_rot_key _ _ _
  · have eu : u = (if σ v then p.1 else p.2).toNat := by rw [← e]; simp
    obtain ⟨q, hq, hk⟩ := orientedPair_real t σ _ _ _ hn2
    rw [← eu] at hq hk
    refine ⟨q, hq, ?_⟩
    rw [hk, hkey, e]
    rw [unorientedTriangle_rot_key, unorientedTriangle_rot_key]


theorem weightAcc_eq (t : AllLocalTriangulations) (hv : t.ValidCSR) (m : TriangleMap) (u : Nat)
    (hu : u + 1 < t.fanRecords.length) :
    weightAcc t m (u : Int)
      = (cyclicPairs (t.fan u)).foldl (weightStep m (u : Int) (t.border u)) ⟨0, 0, -1⟩ := by
  have h1 := validCSR_mono t hv (u + 1) u (by omega) hu
  have h2 := validCSR_le_length t hv (u + 1) hu
  unfold weightAcc
  simp only [Int.toNat_natCast]
  rw [fanPairsAt_eq_cyclicPairs _ _ _ h1 h2]
  rfl

/-- The lambda `computeVertWeight` at a vertex `u` that is not visited and has a visited
neighbour: the weight is at least 1, and the fan of `u` is reversed exactly when its kind
differs from the kind `ρ` of the visited fans. -/
theorem computeVertWeight_spec {t : AllLocalTriangulations} {n : Nat} {σ : Nat → Bool}
    (h : t.Coherent n σ) (V : List Nat) (hV : ∀ v ∈ V, v < n) (ρ : Bool)
    (hρ : ∀ v ∈ V, σ v = ρ) (m : TriangleMap) (hm : MapInv t V m) (u : Nat) (hu : u < n)
    (huV : u ∉ V) (hadj : ∃ x ∈ V, (u : Int) ∈ t.fan x) :
    1 ≤ (computeVertWeight t m (u : Int)).2 ∧
    ((σ u = ρ ∧ (computeVertWeight t m (u : Int)).1 = t) ∨
      (σ u ≠ ρ ∧ (computeVertWeight t m (u : Int)).1 = flipVertex t u)) := by
  have hlen : u + 1 < t.fanRecords.length := by rw [h.2.1]; omega
  have hacc := weightAcc_eq t h.1 m u hlen
  have hq : ∀ q ∈ cyclicPairs (t.fan u), q.1 ≠ t.border u ∧
      ∀ r, mapFind m (unorientedTriangle (u : Int) q.2 q.1).1 = some r →
        r.PureFor (if (σ u == ρ) then (unorientedTriangle (u : Int) q.2 q.1).2
          else !(unorientedTriangle (u : Int) q.2 q.1).2) := by
    intro q hq
    constructor
    · intro e
      have a := (h.2.2.2.2.1 u hu q.1 (mem_fan_of_mem_cyclicPairs _ q hq).1).1
      have b := h.2.2.1 u hu
      omega
    · intro r hr
      obtain ⟨v, hvV, p, hp, hk, hpure, -⟩ := hm.sound _ r hr
      have hx := coherent_real_flags h (hV v hvV) hu p q hp hq hk
      rw [hρ v hvV] at hx
      have e : (if (σ u == ρ) then (unorientedTriangle (u : Int) q.2 q.1).2
          else !(unorientedTriangle (u : Int) q.2 q.1).2) = (unorientedTriangle (v : Int) p.2 p.1).2 := by
        revert hx
        cases σ u <;> cases ρ <;> cases (unorientedTriangle (u : Int) q.2 q.1).2 <;>
          cases (unorientedTriangle (v : Int) p.2 p.1).2 <;> simp
      rw [e]
      exact hpure
  obtain ⟨c1, c2⟩ := foldl_weightStep_spec m (u : Int) (t.border u) (σ u == ρ)
    (cyclicPairs (t.fan u)) hq ⟨0, 0, -1⟩
  rw [← hacc] at c1 c2
  have hcnt : 1 ≤ (cyclicPairs (t.fan u)).countP
      (fun q => (mapFind m (unorientedTriangle (u : Int) q.2 q.1).1).isSome) := by
    obtain ⟨x, hxV, hux⟩ := hadj
    have hxn := hV x hxV
    -- a pair of the fan of `x` that starts with `u`
    have hmem : (u : Int) ∈ (cyclicPairs (t.fan x)).map Prod.fst := by
      rw [cyclicPairs_map_fst]; exact hux
    obtain ⟨p, hp, hp1⟩ := List.mem_map.1 hmem
    have hnone := hm.complete x hxV p hp (Or.inl (by rw [hp1]; simpa using huV))
    obtain ⟨q, hq1, hk⟩ := triangle_listed h hxn p hp u (Or.inl hp1.symm)
    rw [← hk] at hnone
    apply List.countP_pos_iff.2
    refine ⟨q, hq1, ?_⟩
    cases hf : mapFind m (unorientedTriangle (u : Int) q.2 q.1).1 with
    | none => exact absurd hf hnone
    | some r => rfl
  have hfst := computeVertWeight_fst t m (u : Int)
  simp only [Int.toNat_natCast] at hfst
  have hsnd : (computeVertWeight t m (u : Int)).2
      = ((weightAcc t m (u : Int)).sameOriented - (weightAcc t m (u : Int)).oppositeOriented)
        + ((weightAcc t m (u : Int)).oppositeOriented - (weightAcc t m (u : Int)).sameOriented) :=
    rfl
  by_cases hg : σ u = ρ
  · have hb : (σ u == ρ) = true := by simp [hg]
    rw [hb] at c1 c2
    simp only [if_true, zero_add, add_zero] at c1 c2
    refine ⟨by rw [hsnd]; omega, Or.inl ⟨hg, ?_⟩⟩
    rw [hfst, if_neg (by omega)]
  · have hb : (σ u == ρ) = false := by simp [hg]
    rw [hb] at c1 c2
    simp only [Bool.false_eq_true, if_false, zero_add, add_zero] at c1 c2
    refine ⟨by rw [hsnd]; omega, Or.inr ⟨hg, ?_⟩⟩
    rw [hfst, if_pos (by omega)]


theorem fan_length (t : AllLocalTriangulations) (hv : t.ValidCSR) (v : Nat)
    (hc : v + 1 < t.fanRecords.length) :
    (t.fan v).length = (t.fanRecords.getD (v + 1) default).firstNei
      - (t.fanRecords.getD v default).firstNei := by
  have h1 := validCSR_mono t hv (v + 1) v (by omega) hc
  have h2 := validCSR_le_length t hv (v + 1) hc
  unfold AllLocalTriangulations.fan
  rw [List.length_take, List.length_drop]
  omega

/-- The neighbour at a position of the slice of `v` is the member of the fan of `v` at that
position. -/
theorem neighbors_getD_fan (t : AllLocalTriangulations) (hv : t.ValidCSR) (v : Nat)
    (hc : v + 1 < t.fanRecords.length) (j : Nat)
    (hj1 : (t.fanRecords.getD v default).firstNei ≤ j)
    (hj2 : j < (t.fanRecords.getD (v + 1) default).firstNei) :
    t.neighbors.getD j (-1)
      = (t.fan v).getD (j - (t.fanRecords.getD v default).firstNei) (-1) ∧
    t.neighbors.getD j (-1) ∈ t.fan v := by
  have h2 := validCSR_le_length t hv (v + 1) hc
  have hlen := fan_length t hv v hc
  have e : t.neighbors.getD j (-1)
      = (t.fan v).getD (j - (t.fanRecords.getD v default).firstNei) (-1) := by
    unfold AllLocalTriangulations.fan
    rw [slice_getD _ _ _ _ _ (by omega) (by omega)]
    congr 1
    omega
  refine ⟨e, ?_⟩
  rw [e, List.getD_eq_getElem _ _ (by rw [hlen]; omega)]
  exact List.getElem_mem _

theorem mem_fan_position (t : AllLocalTriangulations) (hv : t.ValidCSR) (v : Nat)
    (hc : v + 1 < t.fanRecords.length) (x : Int) (hx : x ∈ t.fan v) :
    ∃ j, (t.fanRecords.getD v default).firstNei ≤ j ∧
      j < (t.fanRecords.getD (v + 1) default).firstNei ∧ t.neighbors.getD j (-1) = x := by
  obtain ⟨i, hi, e⟩ := List.getElem_of_mem hx
  have hlen := fan_length t hv v hc
  refine ⟨(t.fanRecords.getD v default).firstNei + i, by omega, by omega, ?_⟩
  rw [(neighbors_getD_fan t hv v hc _ (by omega) (by omega)).1]
  rw [Nat.add_sub_cancel_left, List.getD_eq_getElem _ _ hi]
  exact e

theorem mapInv_congr {t t1 : AllLocalTriangulations} {V : List Nat} {m : TriangleMap}
    (hm : MapInv t V m) (hf : ∀ v ∈ V, t1.fan v = t.fan v) : MapInv t1 V m := by
  refine ⟨hm.keys_nodup, ?_, ?_⟩
  · intro K r hr
    obtain ⟨v, hv, p, hp, rest⟩ := hm.sound K r hr
    exact ⟨v, hv, p, by rw [hf v hv]; exact hp, rest⟩
  · intro v hv p hp hc
    rw [hf v hv] at hp
    exact hm.complete v hv p hp hc


/-- The lambda `computeVertWeight` at a vertex `u` that is not visited and has a visited
neighbour: the weight is at least 1, and the store stays consistent with the fan of `u` now of
the kind `ρ` of the visited fans. -/
theorem computeVertWeight_coherent {t : AllLocalTriangulations} {n : Nat} {σ : Nat → Bool}
    (h : t.Coherent n σ) (V : List Nat) (hV : ∀ v ∈ V, v < n) (ρ : Bool)
    (hρ : ∀ v ∈ V, σ v = ρ) (m : TriangleMap) (hm : MapInv t V m) (u : Nat) (hu : u < n)
    (huV : u ∉ V) (hadj : ∃ x ∈ V, (u : Int) ∈ t.fan x) :
    1 ≤ (computeVertWeight t m (u : Int)).2 ∧
    ∃ σ1, (computeVertWeight t m (u : Int)).1.Coherent n σ1 ∧
      t.SameShape (computeVertWeight t m (u : Int)).1 ∧
      (∀ v < n, v ≠ u → (computeVertWeight t m (u : Int)).1.fan v = t.fan v) ∧
      (∀ v < n, ∀ x, x ∈ (computeVertWeight t m (u : Int)).1.fan v ↔ x ∈ t.fan v) ∧
      σ1 u = ρ ∧ ∀ v, v ≠ u → σ1 v = σ v := by
  obtain ⟨hw, hcase⟩ := computeVertWeight_spec h V hV ρ hρ m hm u hu huV hadj
  refine ⟨hw, ?_⟩
  rcases hcase with ⟨hk, hst⟩ | ⟨hk, hst⟩
  · rw [hst]
    exact ⟨σ, h, sameShape_refl t, fun _ _ _ => rfl, fun _ _ _ => Iff.rfl, hk, fun _ _ => rfl⟩
  · rw [hst]
    have hlen : u + 1 < t.fanRecords.length := by rw [h.2.1]; omega
    obtain ⟨f1, f2, -, f4⟩ := flipVertex_spec t h.1 u hlen
    refine ⟨Function.update σ u (!σ u), coherent_flipVertex h hu, f1, ?_, ?_, ?_, ?_⟩
    · intro v hv hne
      exact (f4 v hne (by rw [h.2.1]; omega)).1
    · intro v hv x
      by_cases e : v = u
      · subst e; rw [f2, List.mem_reverse]
      · rw [(f4 v e (by rw [h.2.1]; omega)).1]
    · rw [Function.update_same]
      revert hk
      cases σ u <;> cases ρ <;> simp
    · intro v hne
      rw [Function.update_noteq hne]

theorem reweighStep_inv {α : Type} [LinearOrderedField α] {n : Nat}
    {t0 : AllLocalTriangulations} {σ0 : Nat → Bool} (ht0 : t0.Coherent n σ0) (h0 : Heap α)
    (hh0 : h0.length = n) (V : List Nat) (hV : ∀ v ∈ V, v < n) (base : Nat) (hbV : base ∈ V)
    (ρ : Bool) (nv : List Bool) (hnv : ∀ v < n, (nv.getD v false = true ↔ v ∉ V))
    (m : TriangleMap) (hm : MapInv t0 V m) (done : List Nat)
    (s : AllLocalTriangulations × Heap α) (σ : Nat → Bool)
    (hinv : ReweighInv n t0 σ0 h0 V base ρ done s σ) (j : Nat)
    (hj1 : (t0.fanRecords.getD base default).firstNei ≤ j)
    (hj2 : j < (t0.fanRecords.getD (base + 1) default).firstNei) :
    ∃ σ1, ReweighInv n t0 σ0 h0 V base ρ (done ++ [j]) (reweighStep nv m s j) σ1 := by
  have hbn := hV base hbV
  have hcs := hinv.coherent
  have hlen1 : base + 1 < s.1.fanRecords.length := by rw [hcs.2.1]; omega
  have hlen0 : base + 1 < t0.fanRecords.length := by rw [ht0.2.1]; omega
  have e1 := sameShape_firstNei hinv.shape base
  have e2 := sameShape_firstNei hinv.shape (base + 1)
  obtain ⟨a1, a2⟩ := neighbors_getD_fan s.1 hcs.1 base hlen1 j (by omega) (by omega)
  obtain ⟨b1, b2⟩ := neighbors_getD_fan t0 ht0.1 base hlen0 j hj1 hj2
  have hx_eq : s.1.neighbors.getD j (-1) = t0.neighbors.getD j (-1) := by
    rw [a1, b1, hinv.fans_visited base hbV, e1]
  obtain ⟨x0, x1, x2⟩ := ht0.2.2.2.2.1 base hbn _ b2
  rw [← hx_eq] at x0 x1 x2 b2
  have hcast : ((s.1.neighbors.getD j (-1)).toNat : Int) = s.1.neighbors.getD j (-1) :=
    Int.toNat_of_nonneg x0
  have htest := testBit_eq_true_iff nv _ x0
  unfold reweighStep
  by_cases ht : testBit nv (s.1.neighbors.getD j (-1)) = true
  · rw [if_pos ht]
    have hu0V : (s.1.neighbors.getD j (-1)).toNat ∉ V := (hnv _ x1).1 (htest.1 ht)
    have hadj : ∃ x ∈ V, (((s.1.neighbors.getD j (-1)).toNat : Nat) : Int) ∈ s.1.fan x :=
      ⟨base, hbV, by rw [hcast, hinv.fans_visited base hbV]; exact b2⟩
    have hm1 : MapInv s.1 V m := mapInv_congr hm hinv.fans_visited
    obtain ⟨hw, σ1, c1, c2, c3, c4, c5, c6⟩ := computeVertWeight_coherent hcs V hV ρ
      hinv.kind_visited m hm1 _ x1 hu0V hadj
    rw [hcast] at hw c1 c2 c3 c4
    generalize hcv : computeVertWeight s.1 m (s.1.neighbors.getD j (-1)) = cv at hw c1 c2 c3 c4
    generalize hu0 : (s.1.neighbors.getD j (-1)).toNat = u0 at *
    have hhl : u0 < s.2.length := by rw [hinv.heap_length, hh0]; exact x1
    have hnew : σ1 u0 = ρ ∧ ∃ w : Nat, 1 ≤ w ∧
        (s.2.set u0 (some ((cv.2 : Nat) : α))).getD u0 none = some (w : α) :=
      ⟨c5, cv.2, hw, getD_set_eq _ _ _ _ hhl⟩
    have hu0mem : (u0 : Int) ∈ t0.fan base := by rw [hcast]; exact b2
    refine ⟨σ1, ⟨c1, sameShape_trans hinv.shape c2, ?_, ?_, ?_, ?_, ?_, ?_⟩⟩
    · intro v hv
      have hne : v ≠ u0 := fun e => hu0V (e ▸ hv)
      show cv.1.fan v = t0.fan v
      rw [c3 v (hV v hv) hne]
      exact hinv.fans_visited v hv
    · intro v hv
      have hne : v ≠ u0 := fun e => hu0V (e ▸ hv)
      rw [c6 v hne]
      exact hinv.kind_visited v hv
    · intro v hv x
      show x ∈ cv.1.fan v ↔ _
      rw [c4 v hv x]
      exact hinv.mem_iff v hv x
    · show (s.2.set u0 _).length = _
      rw [List.length_set]
      exact hinv.heap_length
    · intro u hu huV
      show ((s.2.set u0 _).getD u none = _ ∧ _) ∨ (_ ∧ _ ∧ ∃ w : Nat, _ ∧ (s.2.set u0 _).getD u none = _)
      by_cases e : u = u0
      · subst e
        exact Or.inr ⟨hu0mem, hnew⟩
      · rw [getD_set_ne _ _ _ _ _ (Ne.symm e), c6 u e]
        exact hinv.other u hu huV
    · intro j1 hj1 u hu huV hux
      show _ ∧ ∃ w : Nat, _ ∧ (s.2.set u0 _).getD u none = _
      by_cases e : u = u0
      · subst e
        exact hnew
      · rw [getD_set_ne _ _ _ _ _ (Ne.symm e), c6 u e]
        rcases List.mem_append.1 hj1 with hd | hd
        · exact hinv.passed j1 hd u hu huV hux
        · exfalso
          rw [List.mem_singleton] at hd
          subst hd
          rw [← hx_eq] at hux
          apply e
          rw [← hu0, ← hux]
          simp
  · rw [if_neg ht]
    refine ⟨σ, ⟨hinv.coherent, hinv.shape, hinv.fans_visited, hinv.kind_visited, hinv.mem_iff,
      hinv.heap_length, hinv.other, ?_⟩⟩
    intro j1 hj1 u hu huV hux
    rcases List.mem_append.1 hj1 with hd | hd
    · exact hinv.passed j1 hd u hu huV hux
    · exfalso
      rw [List.mem_singleton] at hd
      subst hd
      rw [← hx_eq] at hux
      apply ht
      rw [htest, ← hux]
      simp only [Int.toNat_natCast]
      exact (hnv u hu).2 huV


theorem foldl_reweighStep_inv {α : Type} [LinearOrderedField α] {n : Nat}
    {t0 : AllLocalTriangulations} {σ0 : Nat → Bool} (ht0 : t0.Coherent n σ0) (h0 : Heap α)
    (hh0 : h0.length = n) (V : List Nat) (hV : ∀ v ∈ V, v < n) (base : Nat) (hbV : base ∈ V)
    (ρ : Bool) (nv : List Bool) (hnv : ∀ v < n, (nv.getD v false = true ↔ v ∉ V))
    (m : TriangleMap) (hm : MapInv t0 V m) (ns : List Nat)
    (hns : ∀ j ∈ ns, (t0.fanRecords.getD base default).firstNei ≤ j ∧
      j < (t0.fanRecords.getD (base + 1) default).firstNei) :
    ∀ (done : List Nat) (s : AllLocalTriangulations × Heap α) (σ : Nat → Bool),
      ReweighInv n t0 σ0 h0 V base ρ done s σ →
      ∃ σ1, ReweighInv n t0 σ0 h0 V base ρ (done ++ ns) (ns.foldl (reweighStep nv m) s) σ1 := by
  induction ns with
  | nil =>
    intro done s σ hinv
    rw [List.append_nil]
    exact ⟨σ, hinv⟩
  | cons j ns ih =>
    intro done s σ hinv
    obtain ⟨hj1, hj2⟩ := hns j (List.mem_cons_self _ _)
    obtain ⟨σ1, h1⟩ := reweighStep_inv ht0 h0 hh0 V hV base hbV ρ nv hnv m hm done s σ hinv j
      hj1 hj2
    obtain ⟨σ2, h2⟩ := ih (fun j1 hj => hns j1 (List.mem_cons_of_mem _ hj)) (done ++ [j]) _ σ1 h1
    rw [List.append_assoc, List.singleton_append] at h2
    exact ⟨σ2, h2⟩

theorem fan_eq_nil_of_ge (t : AllLocalTriangulations) (v : Nat)
    (h : t.fanRecords.length ≤ v + 1) : t.fan v = [] := by
  unfold AllLocalTriangulations.fan
  rw [List.getD_eq_default _ _ h]
  simp [show (default : FanRecord).firstNei = 0 from rfl]

theorem connected_congr {t t1 : AllLocalTriangulations} {n : Nat}
    (hmem : ∀ v, ∀ x, x ∈ t1.fan v ↔ x ∈ t.fan v) (h : t.Connected n) : t1.Connected n := by
  intro v hv
  exact Relation.ReflTransGen.mono (fun a b hab => (hmem a b).2 hab) (h v hv)

/-- The facts about the visited vertices that the invariant of the expansion loop holds for a
cloud whose `n` points are all valid. -/
theorem loopInv_visited {α : Type} {valid : List Bool} {n : Nat} {s : OrientState α}
    (hvalid : ∀ v, valid.getD v false = true ↔ v < n) (hl : LoopInv valid n s) :
    (∀ v ∈ s.visitOrder, v < n) ∧
    (∀ v < n, (s.notVisited.getD v false = true ↔ v ∉ s.visitOrder)) := by
  refine ⟨fun v hv => (hvalid v).1 ((hl.valid_iff v).2 (Or.inl hv)), fun v hv => ⟨?_, ?_⟩⟩
  · intro h1 h2
    rw [hl.order_visited v h2] at h1
    exact absurd h1 (by simp)
  · intro h1
    rcases (hl.valid_iff v).1 ((hvalid v).2 hv) with h2 | h2
    · exact absurd h2 h1
    · exact h2


theorem loopStep_eq {α : Type} [LinearOrderedField α] (s : OrientState α)
    (hv : s.triangs.ValidCSR) (hc : (heapTop s.heap).1 + 1 < s.triangs.fanRecords.length) :
    loopStep s =
      { triangs := ((List.range' (s.triangs.fanRecords.getD (heapTop s.heap).1 default).firstNei
            ((s.triangs.fanRecords.getD ((heapTop s.heap).1 + 1) default).firstNei
              - (s.triangs.fanRecords.getD (heapTop s.heap).1 default).firstNei)).foldl
          (reweighStep (s.notVisited.set (heapTop s.heap).1 false)
            ((cyclicPairs (s.triangs.fan (heapTop s.heap).1)).foldl
              (registerStep (s.notVisited.set (heapTop s.heap).1 false) (heapTop s.heap).1
                (s.triangs.border (heapTop s.heap).1)) s.map))
          (s.triangs, s.heap.set (heapTop s.heap).1 none)).1
        heap := ((List.range' (s.triangs.fanRecords.getD (heapTop s.heap).1 default).firstNei
            ((s.triangs.fanRecords.getD ((heapTop s.heap).1 + 1) default).firstNei
              - (s.triangs.fanRecords.getD (heapTop s.heap).1 default).firstNei)).foldl
          (reweighStep (s.notVisited.set (heapTop s.heap).1 false)
            ((cyclicPairs (s.triangs.fan (heapTop s.heap).1)).foldl
              (registerStep (s.notVisited.set (heapTop s.heap).1 false) (heapTop s.heap).1
                (s.triangs.border (heapTop s.heap).1)) s.map))
          (s.triangs, s.heap.set (heapTop s.heap).1 none)).2
        map := (cyclicPairs (s.triangs.fan (heapTop s.heap).1)).foldl
          (registerStep (s.notVisited.set (heapTop s.heap).1 false) (heapTop s.heap).1
            (s.triangs.border (heapTop s.heap).1)) s.map
        notVisited := s.notVisited.set (heapTop s.heap).1 false
        visitedCount := s.visitedCount + 1
        visitOrder := s.visitOrder ++ [(heapTop s.heap).1] } := by
  have h1 := validCSR_mono s.triangs hv ((heapTop s.heap).1 + 1) (heapTop s.heap).1 (by omega) hc
  have h2 := validCSR_le_length s.triangs hv ((heapTop s.heap).1 + 1) hc
  simp only [loopStep, enqueueNeighbors]
  rw [fanPairsAt_eq_cyclicPairs _ _ _ h1 h2]
  rfl


/-- An iteration of the expansion loop keeps the invariant `OrientInv`: the top of the heap is a
vertex with a visited neighbour as soon as a vertex is visited, its fan has the kind of the
visited fans, and the fans of its neighbours get that kind. -/
theorem loopStep_orientInv {α : Type} [LinearOrderedField α] {valid : List Bool} {n : Nat}
    (hvalid : ∀ v, valid.getD v false = true ↔ v < n) (s : OrientState α)
    (hl : LoopInv valid n s) (σ : Nat → Bool) (ho : OrientInv n s σ)
    (htop : (heapTop s.heap).2 ≠ none) :
    ∃ σ1, OrientInv n (loopStep s) σ1 := by
  obtain ⟨hVn, hnvV⟩ := loopInv_visited hvalid hl
  have hpos : 0 < s.heap.length := by
    rcases Nat.eq_zero_or_pos s.heap.length with e | e
    · rw [List.length_eq_zero] at e
      rw [e] at htop
      exact absurd heapTop_nil htop
    · exact e
  obtain ⟨t1, t2, -⟩ := heapTop_spec s.heap hpos
  rw [hl.heap_length] at t1
  have hc : (heapTop s.heap).1 + 1 < s.triangs.fanRecords.length := by
    rw [ho.coherent.2.1]; omega
  rw [loopStep_eq s ho.coherent.1 hc]
  generalize (heapTop s.heap).1 = base at *
  have hnvb : s.notVisited.getD base false = true :=
    (hl.heap_iff base).1 (by rw [t2]; exact htop)
  have hbV : base ∉ s.visitOrder := (hnvV base t1).1 hnvb
  have hσb : ∀ v ∈ s.visitOrder, σ base = σ v := by
    intro v hv
    by_cases hadj : ∃ x ∈ s.visitOrder, (base : Int) ∈ s.triangs.fan x
    · exact (ho.frontier base t1 hbV hadj).1 v hv
    · exfalso
      obtain ⟨x0, hx0, hx1⟩ := ho.interior base t1 hbV hadj
      obtain ⟨x, y, hx, hy, hSx, hSy, hxy⟩ := exists_frontier ho.coherent ho.connected
        (fun w => w ∈ s.visitOrder) v base (hVn v hv) t1 hv hbV
      obtain ⟨-, w, hw1, hw2⟩ := ho.frontier y hy hSy ⟨x, hSx, hxy⟩
      have hmax := heapTop_max s.heap y
      rw [← t2, hx1, hw2] at hmax
      simp only [heapLess, decide_eq_false_iff_not, not_lt] at hmax
      have h1w : (1 : α) ≤ (w : α) := by exact_mod_cast hw1
      linarith
  have hnv1 : ∀ v < n, ((s.notVisited.set base false).getD v false = true ↔
      v ∉ s.visitOrder ∧ v ≠ base) := by
    intro v hv
    rw [getD_set_false]
    by_cases e : base = v
    · rw [if_pos e]
      constructor
      · intro h; exact absurd h (by simp)
      · intro h; exact absurd e.symm h.2
    · rw [if_neg e, hnvV v hv]
      exact ⟨fun h => ⟨h, Ne.symm e⟩, fun h => h.1⟩
  have hm1 := registerStep_mapInv ho.coherent s.visitOrder hVn base t1 hbV hσb _ hnv1 s.map
    ho.map_inv
  have hV1 : ∀ v ∈ s.visitOrder ++ [base], v < n := by
    intro v hv
    rcases List.mem_append.1 hv with h | h
    · exact hVn v h
    · rw [List.mem_singleton] at h; rw [h]; exact t1
  have hbmem : base ∈ s.visitOrder ++ [base] :=
    List.mem_append_right _ (List.mem_singleton_self _)
  have hnv2 : ∀ v < n, ((s.notVisited.set base false).getD v false = true ↔
      v ∉ s.visitOrder ++ [base]) := by
    intro v hv
    rw [hnv1 v hv, List.mem_append, List.mem_singleton]
    tauto
  have hinit : ReweighInv n s.triangs σ (s.heap.set base none) (s.visitOrder ++ [base]) base
      (σ base) [] (s.triangs, s.heap.set base none) σ := by
    refine ⟨ho.coherent, sameShape_refl _, fun _ _ => rfl, ?_, fun _ _ _ => Iff.rfl, rfl,
      fun _ _ _ => Or.inl ⟨rfl, rfl⟩, fun j hj => absurd hj (List.not_mem_nil _)⟩
    intro v hv
    rcases List.mem_append.1 hv with h | h
    · exact (hσb v h).symm
    · rw [List.mem_singleton] at h; rw [h]
  obtain ⟨σ1, hR⟩ := foldl_reweighStep_inv ho.coherent (s.heap.set base none)
    (by rw [List.length_set]; exact hl.heap_length) (s.visitOrder ++ [base]) hV1 base hbmem
    (σ base) _ hnv2 _ hm1
    (List.range' (s.triangs.fanRecords.getD base default).firstNei
      ((s.triangs.fanRecords.getD (base + 1) default).firstNei
        - (s.triangs.fanRecords.getD base default).firstNei))
    (by
      intro j hj
      rw [List.mem_range'_1] at hj
      omega) [] _ σ hinit
  rw [List.nil_append] at hR
  have hheap : ∀ u, u ∉ s.visitOrder ++ [base] →
      (s.heap.set base none).getD u none = s.heap.getD u none := by
    intro u hu
    apply getD_set_ne
    intro e
    apply hu
    rw [← e]
    exact hbmem
  refine ⟨σ1, ⟨hR.coherent, ?_, mapInv_congr hm1 hR.fans_visited, ?_, ?_, ?_⟩⟩
  · refine connected_congr ?_ ho.connected
    intro v x
    by_cases hv : v < n
    · exact hR.mem_iff v hv x
    · rw [fan_eq_nil_of_ge _ v (by rw [hR.coherent.2.1]; omega),
        fan_eq_nil_of_ge _ v (by rw [ho.coherent.2.1]; omega)]
  · intro u hu v hv
    rw [hR.kind_visited u hu, hR.kind_visited v hv]
  · intro u hu huV hadj
    have huV0 : u ∉ s.visitOrder := fun h => huV (List.mem_append_left _ h)
    suffices hD : σ1 u = σ base ∧ ∃ w : Nat, 1 ≤ w ∧ _ = some (w : α) from
      ⟨fun v hv => by rw [hD.1, hR.kind_visited v hv], hD.2⟩
    rcases hR.other u hu huV with ⟨e1, e2⟩ | ⟨-, d1, d2⟩
    · obtain ⟨x, hx, hux⟩ := hadj
      have hux0 : (u : Int) ∈ s.triangs.fan x := (hR.mem_iff x (hV1 x hx) _).1 hux
      rcases List.mem_append.1 hx with hxV | hxb
      · obtain ⟨f1, w, hw1, hw2⟩ := ho.frontier u hu huV0 ⟨x, hxV, hux0⟩
        refine ⟨?_, w, hw1, ?_⟩
        · rw [e2, f1 x hxV, hσb x hxV]
        · exact (e1.trans (hheap u huV)).trans hw2
      · rw [List.mem_singleton] at hxb
        rw [hxb] at hux0
        obtain ⟨j, hj1, hj2, hje⟩ := mem_fan_position s.triangs ho.coherent.1 base
          (by rw [ho.coherent.2.1]; omega) (u : Int) hux0
        exact hR.passed j (by rw [List.mem_range'_1]; omega) u hu huV hje.symm
    · exact ⟨d1, d2⟩
  · intro u hu huV hnadj
    have huV0 : u ∉ s.visitOrder := fun h => huV (List.mem_append_left _ h)
    rcases hR.other u hu huV with ⟨e1, -⟩ | ⟨d0, -, -⟩
    · obtain ⟨x0, hx0, hx1⟩ := ho.interior u hu huV0 (fun ⟨x, hx, hux⟩ =>
        hnadj ⟨x, List.mem_append_left _ hx, (hR.mem_iff x (hVn x hx) _).2 hux⟩)
      exact ⟨x0, hx0, (e1.trans (hheap u huV)).trans hx1⟩
    · exact absurd ⟨base, hbmem, (hR.mem_iff base t1 _).2 d0⟩ hnadj


theorem flipVertex_mem_iff (t : AllLocalTriangulations) (hv : t.ValidCSR) (u : Nat)
    (hu : u + 1 < t.fanRecords.length) (v : Nat) (x : Int) :
    x ∈ (flipVertex t u).fan v ↔ x ∈ t.fan v := by
  obtain ⟨f1, f2, -, f4⟩ := flipVertex_spec t hv u hu
  by_cases e : v = u
  · subst e; rw [f2, List.mem_reverse]
  · by_cases hl : v + 1 < t.fanRecords.length
    · rw [(f4 v e hl).1]
    · rw [fan_eq_nil_of_ge _ v (by rw [sameShape_length f1]; omega),
        fan_eq_nil_of_ge _ v (by omega)]

/-- On a closed, connected, orientable surface whose points are all valid the function returns,
and when it returns true the fans of the resulting store are consistently wound, up to a flip
of all of them. -/
theorem autoOrient_uniform {α : Type} [LinearOrderedField α] (fuel : Nat) (pc : PointCloud α)
    (triangs : AllLocalTriangulations) (progress : ProgressCallback) (sched : List ℚ)
    (n : Nat) (σ : Nat → Bool) (hpts : pc.points.length = n)
    (hvalid : ∀ v, pc.validPoints.getD v false = true ↔ v < n)
    (hcoh : triangs.Coherent n σ) (hconn : triangs.Connected n)
    (hfuel : countBits pc.validPoints < fuel) :
    ∃ r, autoOrientLocalTriangulations fuel pc triangs progress sched = some r ∧
      (r.ok = true → ∃ σ1, r.state.triangs.Coherent n σ1 ∧
        ∀ u v, u < n → v < n → σ1 u = σ1 v) := by
  have hflip : ∀ t u, ((∃ σ, t.Coherent n σ) ∧ t.Connected n) →
      (t.fanRecords.getD u default).firstNei < (t.fanRecords.getD (u + 1) default).firstNei →
      ((∃ σ, (flipVertex t u).Coherent n σ) ∧ (flipVertex t u).Connected n) := by
    intro t u ⟨⟨σ0, h0⟩, hc0⟩ hlt
    refine ⟨exists_coherent_flip n t u ⟨σ0, h0⟩ hlt, ?_⟩
    exact connected_congr
      (flipVertex_mem_iff t h0.1 u (lt_length_of_firstNei_lt t u hlt)) hc0
  obtain ⟨⟨σ1, hcoh1⟩, hconn1⟩ := orientLocalTriangulations_closed
    (fun t => (∃ σ, t.Coherent n σ) ∧ t.Connected n) hflip pc.points
    (fun v => (getAt pc.points v default).sub (boxCenter pc.computeBoundingBox)) triangs
    ⟨⟨σ, hcoh⟩, hconn⟩
  simp only [autoOrientLocalTriangulations]
  split_ifs
  · exact ⟨_, rfl, fun h => absurd h (by simp)⟩
  · exact ⟨_, rfl, fun h => absurd h (by simp)⟩
  · exact ⟨_, rfl, fun h => absurd h (by simp)⟩
  · exact ⟨_, rfl, fun h => absurd h (by simp)⟩
  · exact ⟨_, rfl, fun h => absurd h (by simp)⟩
  · have htopfacts : ∀ s : OrientState α, LoopInv pc.validPoints n s →
        (heapTop s.heap).2 ≠ none →
        (heapTop s.heap).1 < n ∧ s.notVisited.getD (heapTop s.heap).1 false = true := by
      intro s hl htop
      have hpos : 0 < s.heap.length := by
        rcases Nat.eq_zero_or_pos s.heap.length with e | e
        · rw [List.length_eq_zero] at e
          rw [e] at htop
          exact absurd heapTop_nil htop
        · exact e
      obtain ⟨t1, t2, -⟩ := heapTop_spec s.heap hpos
      rw [hl.heap_length] at t1
      exact ⟨t1, (hl.heap_iff _).1 (by rw [t2]; exact htop)⟩
    have hinit : LoopInv pc.validPoints n
        (⟨orientLocalTriangulations triangs pc.points
          (fun v => (getAt pc.points v default).sub (boxCenter pc.computeBoundingBox)),
          initialHeap pc, [], pc.validPoints, 0, []⟩ : OrientState α) := by
      have := loopInv_initial (α := α) pc (orientLocalTriangulations triangs pc.points
          (fun v => (getAt pc.points v default).sub (boxCenter pc.computeBoundingBox)))
        (fun v h => by rw [hpts]; exact (hvalid v).1 h)
      rw [hpts] at this
      exact this
    have hoinit : OrientInv n
        (⟨orientLocalTriangulations triangs pc.points
          (fun v => (getAt pc.points v default).sub (boxCenter pc.computeBoundingBox)),
          initialHeap pc, [], pc.validPoints, 0, []⟩ : OrientState α) σ1 := by
      refine ⟨hcoh1, hconn1, ⟨List.nodup_nil, ?_, ?_⟩, ?_, ?_, ?_⟩
      · intro K r h
        exact absurd h (by simp [mapFind])
      · intro v hv
        exact absurd hv (List.not_mem_nil _)
      · intro u hu
        exact absurd hu (List.not_mem_nil _)
      · intro u _ _ ⟨x, hx, _⟩
        exact absurd hx (List.not_mem_nil _)
      · intro u hu _ _
        have hval := (hvalid u).2 hu
        have hlen : u < pc.validPoints.length := by
          by_contra hge
          rw [List.getD_eq_default _ _ (by omega)] at hval
          exact absurd hval (by simp)
        exact initialHeap_le_zero pc u (by rw [hpts]; exact hu) hlen hval
    obtain ⟨r, r1, ⟨hl, σ2, ho⟩, r3⟩ := expansionLoop_induction (α := α)
      (subprogress progress (1 / 10) 1) (countBits pc.validPoints)
      (fun s => LoopInv pc.validPoints n s ∧ ∃ σ, OrientInv n s σ)
      (fun s hs htop => by
        obtain ⟨hl, σ0, ho⟩ := hs
        obtain ⟨b1, b2⟩ := htopfacts s hl htop
        obtain ⟨e1, e2, -⟩ := enqueueNeighbors_inv pc.validPoints n s _ hl b1 b2
        exact ⟨⟨e1, loopStep_orientInv hvalid s hl σ0 ho htop⟩, by unfold loopStep; omega⟩)
      fuel _ _ ⟨hinit, σ1, hoinit⟩ hfuel
    refine ⟨r, r1, fun hok => ⟨σ2, ho.coherent, ?_⟩⟩
    have hnone := r3 hok
    obtain ⟨hVn, hnvV⟩ := loopInv_visited hvalid hl
    have hall : ∀ u < n, u ∈ r.state.visitOrder := by
      intro u hu
      by_contra hnot
      have hnv := (hnvV u hu).2 hnot
      have hne := (hl.heap_iff u).2 hnv
      have hpos : 0 < r.state.heap.length := by rw [hl.heap_length]; omega
      exact hne ((heapTop_spec r.state.heap hpos).2.2 hnone u)
    intro u v hu hv
    exact ho.kind_visited u (hall u hu) v (hall v hv)


theorem tetraCloud_valid (v : Nat) : tetraCloud.validPoints.getD v false = true ↔ v < 4 := by
  rcases Nat.lt_or_ge v 4 with h | h
  · interval_cases v <;> simp [tetraCloud]
  · rw [List.getD_eq_default _ _ h]
    constructor
    · intro e; exact absurd e (by simp)
    · intro e; omega

theorem tetraStore_connected : tetraStore.Connected 4 := by
  intro v hv
  interval_cases v
  · exact Relation.ReflTransGen.refl
  · exact Relation.ReflTransGen.single (by decide)
  · exact Relation.ReflTransGen.single (by decide)
  · exact Relation.ReflTransGen.single (by decide)

theorem tetraStoreMixed_connected : tetraStoreMixed.Connected 4 := by
  intro v hv
  interval_cases v
  · exact Relation.ReflTransGen.refl
  · exact Relation.ReflTransGen.single (by decide)
  · exact Relation.ReflTransGen.single (by decide)
  · exact Relation.ReflTransGen.single (by decide)

/-- Global consistency over exact arithmetic (the coordinates and the weights are elements of
an ordered field, and the initial weights are at most 0, as the function asserts): for every
point cloud with `n` points, all of them valid, and every closed, connected,
orientable, topologically well-formed fan collection for its vertices with arbitrary windings
of the fans (`Coherent`: every fan is closed and lists at least three pairwise distinct
neighbours, every fan triangle is listed by the fans of its three vertices, and flipping the
fans marked by some `σ` makes the windings consistent; `Connected`), the function
`autoOrientLocalTriangulations` returns as soon as its loop is given more than `n` iterations,
whatever the progress callback answers, and when it returns true entry 0 of
`computeTrianglesRepetitions` of the resulting store is 0: no triangle has both a
same-oriented and an opposite-oriented vote. -/
theorem autoOrientLocalTriangulations_consistent {α : Type} [LinearOrderedField α]
    (fuel : Nat) (pc : PointCloud α) (triangs : AllLocalTriangulations)
    (progress : ProgressCallback) (sched : List ℚ) (sh : Sharding) (n : Nat) (σ : Nat → Bool)
    (hpts : pc.points.length = n)
    (hvalid : ∀ v, pc.validPoints.getD v false = true ↔ v < n)
    (hcoh : triangs.Coherent n σ) (hconn : triangs.Connected n)
    (hfuel : countBits pc.validPoints < fuel) :
    ∃ r, autoOrientLocalTriangulations fuel pc triangs progress sched = some r ∧
      (r.ok = true → (computeTrianglesRepetitions sh r.state.triangs).getD 0 0 = 0) := by
  obtain ⟨r, r1, r2⟩ := autoOrient_uniform fuel pc triangs progress sched n σ hpts hvalid hcoh
    hconn hfuel
  refine ⟨r, r1, fun hok => ?_⟩
  obtain ⟨σ1, c1, c2⟩ := r2 hok
  exact (coherent_const_no_conflict sh c1 c2).1

/-- Global consistency at a concrete input: the tetrahedron whose fans of the vertices 1 and 3 are wound
against the fans of the vertices 0 and 2; the function returns true. -/
theorem autoOrientLocalTriangulations_consistent_witness :
    tetraStoreMixed.Coherent 4 tetraFlips ∧ tetraStoreMixed.Connected 4 ∧
    (autoOrientLocalTriangulations 5 tetraCloud tetraStoreMixed none []).map (fun r => r.ok)
      = some true ∧
    ∃ r, autoOrientLocalTriangulations 5 tetraCloud tetraStoreMixed none [] = some r ∧
      (r.ok = true → (computeTrianglesRepetitions oneShard r.state.triangs).getD 0 0 = 0) :=
  ⟨by decide, tetraStoreMixed_connected, by decide!,
    autoOrientLocalTriangulations_consistent 5 tetraCloud tetraStoreMixed none [] oneShard 4
      tetraFlips rfl tetraCloud_valid (by decide) tetraStoreMixed_connected (by decide)⟩

/-- C12 as stated fails: on the consistently wound tetrahedron the function returns true and
changes no fan, and the triangles 0, 1, 2 and 0, 2, 3 of the tally of the resulting store have
three opposite-oriented votes (the triangles 0, 1, 3 and 1, 2, 3 have three same-oriented
votes). The function in binary32 gives the same result; the initial weights are 0 there. -/
theorem autoOrientLocalTriangulations_opposite_votes :
    tetraStore.Coherent 4 (fun _ => false) ∧ tetraStore.Connected 4 ∧
    (autoOrientLocalTriangulations 5 tetraCloud tetraStore none []).map
      (fun r => (r.ok, r.state.triangs, makeTriangleHashMap oneShard r.state.triangs))
      = some (true, tetraStore,
        [(⟨0, 1, 2⟩, ⟨0, 3⟩), (⟨0, 2, 3⟩, ⟨0, 3⟩), (⟨0, 1, 3⟩, ⟨3, 0⟩), (⟨1, 2, 3⟩, ⟨3, 0⟩)]) ∧
    initialHeapF32 tetraCloudF32 = [F32.finite 0, F32.finite 0, F32.finite 0, F32.finite 0] ∧
    (autoOrientLocalTriangulationsF32 5 tetraCloudF32 tetraStore none []).map
      (fun r => (r.ok, r.state.triangs, makeTriangleHashMap oneShard r.state.triangs))
      = some (true, tetraStore,
        [(⟨0, 1, 2⟩, ⟨0, 3⟩), (⟨0, 2, 3⟩, ⟨0, 3⟩), (⟨0, 1, 3⟩, ⟨3, 0⟩), (⟨1, 2, 3⟩, ⟨3, 0⟩)]) :=
  ⟨by decide, tetraStore_connected, by decide!, by decide!, by decide!⟩

/-- Consensus over exact arithmetic (the coordinates and the weights are elements of an
ordered field): for every point cloud with `n` points, all of them valid, and every closed,
connected, orientable, topologically well-formed fan collection for its vertices, when
`autoOrientLocalTriangulations` returns true every triangle of the vote tally
(`makeTriangleHashMap`) of the resulting store has votes of one kind only: `sameOriented == 0`
or `oppositeOriented == 0`. -/
theorem autoOrientLocalTriangulations_consensus {α : Type} [LinearOrderedField α]
    (fuel : Nat) (pc : PointCloud α) (triangs : AllLocalTriangulations)
    (progress : ProgressCallback) (sched : List ℚ) (sh : Sharding) (n : Nat) (σ : Nat → Bool)
    (hpts : pc.points.length = n)
    (hvalid : ∀ v, pc.validPoints.getD v false = true ↔ v < n)
    (hcoh : triangs.Coherent n σ) (hconn : triangs.Connected n)
    (hfuel : countBits pc.validPoints < fuel) :
    ∃ r, autoOrientLocalTriangulations fuel pc triangs progress sched = some r ∧
      (r.ok = true → ∀ e ∈ makeTriangleHashMap sh r.state.triangs,
        e.2.sameOriented = 0 ∨ e.2.oppositeOriented = 0) := by
  obtain ⟨r, r1, r2⟩ := autoOrient_uniform fuel pc triangs progress sched n σ hpts hvalid hcoh
    hconn hfuel
  refine ⟨r, r1, fun hok => ?_⟩
  obtain ⟨σ1, c1, c2⟩ := r2 hok
  exact (coherent_const_no_conflict sh c1 c2).2

/-- The consensus over exact arithmetic at a concrete input: the consistently wound
tetrahedron. -/
theorem autoOrientLocalTriangulations_consensus_witness :
    tetraStore.Coherent 4 (fun _ => false) ∧ tetraStore.Connected 4 ∧
    ∃ r, autoOrientLocalTriangulations 5 tetraCloud tetraStore none [] = some r ∧
      (r.ok = true → ∀ e ∈ makeTriangleHashMap oneShard r.state.triangs,
        e.2.sameOriented = 0 ∨ e.2.oppositeOriented = 0) :=
  ⟨by decide, tetraStore_connected,
    autoOrientLocalTriangulations_consensus 5 tetraCloud tetraStore none [] oneShard 4
      (fun _ => false) rfl tetraCloud_valid (by decide) tetraStore_connected (by decide)⟩


theorem allTriplets_length (t : AllLocalTriangulations) :
    (allTriplets t).length = fanTriangleCount t := by
  unfold allTriplets fanTriangleCount
  rw [List.length_flatMap]
  congr 1
  apply List.map_congr_left
  intro v _
  simp only [Function.comp, fanTriplets, fanPairsAt]
  rw [List.length_filterMap_eq_countP, List.countP_map]
  apply List.countP_congr
  intro n _
  simp only [Function.comp]
  by_cases h : t.neighbors.getD n (-1) = (t.fanRecords.getD v default).border
  · simp [h]
  · simp [h]

theorem sum_by_value (f : UnorientedTriangle → Nat) (D : List UnorientedTriangle)
    (h : ∀ k ∈ D, 1 ≤ f k ∧ f k ≤ 3) :
    (D.map f).sum = D.countP (fun k => f k = 1) + 2 * D.countP (fun k => f k = 2)
      + 3 * D.countP (fun k => f k = 3) := by
  induction D with
  | nil => simp
  | cons k D ih =>
    have hk := h k (List.mem_cons_self _ _)
    have ih1 := ih (fun k1 hk1 => h k1 (List.mem_cons_of_mem _ hk1))
    rw [List.map_cons, List.sum_cons, ih1, List.countP_cons, List.countP_cons, List.countP_cons]
    have h123 : f k = 1 ∨ f k = 2 ∨ f k = 3 := by omega
    rcases h123 with e | e | e <;> simp [e] <;> omega

theorem votes_sum_eq_length (t : AllLocalTriangulations) :
    ((distinctTriangles t).map (totalVotes t)).sum = (allTriplets t).length := by
  have h := List.sum_map_count_dedup_eq_length ((allTriplets t).map Prod.fst)
  rw [List.length_map] at h
  rw [← h]
  unfold distinctTriangles
  congr 1
  apply List.map_congr_left
  intro k _
  exact totalVotes_eq_count t k

/-- C27: for every store whose tallies stay within 1..3 and every partition of the hash map,
the histogram `h` of `computeTrianglesRepetitions` satisfies
`h[1] + 2 * h[2] + 3 * h[3] = ` the total number of fan triangles, which is the number of
neighbour positions, over all vertices, whose neighbour is not the border of its fan. -/
theorem computeTrianglesRepetitions_conservation (sh : Sharding) (t : AllLocalTriangulations)
    (h3 : t.TalliesWithin3) :
    (computeTrianglesRepetitions sh t).getD 1 0 + 2 * (computeTrianglesRepetitions sh t).getD 2 0
      + 3 * (computeTrianglesRepetitions sh t).getD 3 0 = fanTriangleCount t ∧
    fanTriangleCount t = (allTriplets t).length := by
  refine ⟨?_, (allTriplets_length t).symm⟩
  rw [computeTrianglesRepetitions_getD sh t h3 1 (by omega),
    computeTrianglesRepetitions_getD sh t h3 2 (by omega),
    computeTrianglesRepetitions_getD sh t h3 3 (by omega), ← allTriplets_length,
    ← votes_sum_eq_length]
  have := sum_by_value (totalVotes t) (distinctTriangles t) (fun k hk =>
    ⟨totalVotes_pos t k ((mem_distinctTriangles t k).1 hk), h3 k hk⟩)
  rw [this]

/-- C27 at a concrete input: the tetrahedron has four triangles with three votes each, and
twelve neighbour positions. -/
theorem computeTrianglesRepetitions_conservation_witness :
    tetraStore.TalliesWithin3 ∧
    computeTrianglesRepetitions oneShard tetraStore = [0, 0, 0, 4] ∧
    fanTriangleCount tetraStore = 12 ∧
    (computeTrianglesRepetitions oneShard tetraStore).getD 1 0
      + 2 * (computeTrianglesRepetitions oneShard tetraStore).getD 2 0
      + 3 * (computeTrianglesRepetitions oneShard tetraStore).getD 3 0
      = fanTriangleCount tetraStore :=
  ⟨by decide, by decide, by decide,
    (computeTrianglesRepetitions_conservation oneShard tetraStore (by decide)).1⟩


theorem mapFind_eq_ite (m : TriangleMap) (k : UnorientedTriangle) :
    mapFind m k = if k ∈ m.map Prod.fst then some (tallyOf m k) else none := by
  cases h : mapFind m k with
  | none => rw [if_neg ((mapFind_eq_none_iff m k).1 h)]
  | some r =>
    have hk : k ∈ m.map Prod.fst := by
      by_contra hn
      rw [(mapFind_eq_none_iff m k).2 hn] at h
      exact absurd h (by simp)
    rw [if_pos hk]
    simp [tallyOf, h]

theorem repetitions_ext (a b : Repetitions) (h1 : a.sameOriented = b.sameOriented)
    (h2 : a.oppositeOriented = b.oppositeOriented) : a = b := by
  cases a; cases b; simp only [Repetitions.mk.injEq]; exact ⟨h1, h2⟩

theorem mapVote_append (m m1 : TriangleMap) (k : UnorientedTriangle) (f : Bool)
    (hk : k ∉ m.map Prod.fst) : mapVote (m ++ m1) k f = m ++ mapVote m1 k f := by
  induction m with
  | nil => rfl
  | cons e m ih =>
    obtain ⟨k1, r1⟩ := e
    simp only [List.map_cons, List.mem_cons, not_or] at hk
    have hne : ¬ k1 = k := fun e => hk.1 e.symm
    show mapVote ((k1, r1) :: (m ++ m1)) k f = (k1, r1) :: (m ++ mapVote m1 k f)
    rw [← ih hk.2]
    simp only [mapVote, if_neg hne]

theorem foldVotes_append (vs : List (UnorientedTriangle × Bool)) (m : TriangleMap)
    (hd : ∀ v ∈ vs, v.1 ∉ m.map Prod.fst) :
    ∀ m1, foldVotes (m ++ m1) vs = m ++ foldVotes m1 vs := by
  induction vs with
  | nil => intro m1; rfl
  | cons v vs ih =>
    intro m1
    have hf : ∀ m0, foldVotes m0 (v :: vs) = foldVotes (mapVote m0 v.1 v.2) vs := fun _ => rfl
    rw [hf, hf, mapVote_append m m1 v.1 v.2 (hd v (List.mem_cons_self _ _))]
    exact ih (fun v1 h1 => hd v1 (List.mem_cons_of_mem _ h1)) _

theorem shardMap_spec (sh : Sharding) (t : AllLocalTriangulations) (p : Nat) :
    ((shardMap sh t p).map Prod.fst).Nodup ∧
    (∀ k, k ∈ (shardMap sh t p).map Prod.fst ↔
      sh.subidx k = p ∧ k ∈ (allTriplets t).map Prod.fst) ∧
    (∀ k, sh.subidx k = p →
      tallyOf (shardMap sh t p) k = ⟨sameVotes t k % 16, oppositeVotes t k % 16⟩) := by
  obtain ⟨h1, _, h3, h4, h5⟩ := foldVotes_spec
    ((allTriplets t).filter (fun tr => sh.subidx tr.1 = p)) [] (by simp)
    (by intro e he; simp at he)
  have he : shardMap sh t p
      = foldVotes [] ((allTriplets t).filter (fun tr => sh.subidx tr.1 = p)) :=
    scanPart_eq sh t [] p
  rw [← he] at h1 h3 h4 h5
  refine ⟨h1, ?_, ?_⟩
  · intro k
    rw [h3 k]
    simp only [List.map_nil, List.not_mem_nil, false_or, List.mem_map, List.mem_filter,
      decide_eq_true_eq]
    constructor
    · rintro ⟨a, ⟨ha, hp⟩, rfl⟩
      exact ⟨hp, a, ha, rfl⟩
    · rintro ⟨hp, a, ha, rfl⟩
      exact ⟨a, ⟨ha, hp⟩, rfl⟩
  · intro k hk
    have e4 := h4 k
    have e5 := h5 k
    rw [count_filter_ite] at e4 e5
    simp only [hk, decide_True, if_true, tallyOf, mapFind, Option.getD_none, default,
      Nat.zero_add] at e4 e5
    exact repetitions_ext _ _ e4 e5

theorem sequentialTally_spec (t : AllLocalTriangulations) :
    ((sequentialTally t).map Prod.fst).Nodup ∧
    (∀ k, k ∈ (sequentialTally t).map Prod.fst ↔ k ∈ (allTriplets t).map Prod.fst) ∧
    (∀ k, tallyOf (sequentialTally t) k = ⟨sameVotes t k % 16, oppositeVotes t k % 16⟩) := by
  obtain ⟨h1, _, h3, h4, h5⟩ := foldVotes_spec (allTriplets t) [] (by simp)
    (by intro e he; simp at he)
  have he : sequentialTally t = foldVotes [] (allTriplets t) := rfl
  rw [← he] at h1 h3 h4 h5
  refine ⟨h1, ?_, ?_⟩
  · intro k
    rw [h3 k]
    simp
  · intro k
    have e4 := h4 k
    have e5 := h5 k
    simp only [tallyOf, mapFind, Option.getD_none, default, Nat.zero_add] at e4 e5
    exact repetitions_ext _ _ e4 e5

theorem foldl_scanPart_eq (sh : Sharding) (t : AllLocalTriangulations) (n : Nat) :
    (List.range n).foldl (scanPart sh t) [] = (List.range n).flatMap (shardMap sh t) := by
  induction n with
  | zero => rfl
  | succ n ih =>
    rw [List.range_succ, List.foldl_append, List.flatMap_append, ih]
    simp only [List.foldl_cons, List.foldl_nil, List.flatMap_cons, List.flatMap_nil,
      List.append_nil]
    rw [scanPart_eq]
    have := foldVotes_append ((allTriplets t).filter (fun tr => sh.subidx tr.1 = n))
      ((List.range n).flatMap (shardMap sh t)) (by
        intro v hv hmem
        rw [List.mem_filter, decide_eq_true_eq] at hv
        rw [List.map_flatMap, List.mem_flatMap] at hmem
        obtain ⟨p, hp, hk⟩ := hmem
        rw [List.mem_range] at hp
        have := ((shardMap_spec sh t p).2.1 v.1).1 hk
        omega) []
    rw [List.append_nil] at this
    rw [this]
    congr 1
    exact (scanPart_eq sh t [] n).symm

/-- C21: for every store, every number `N >= 1` of parts and every partition function (the
part of a key is `hash key % N`), the maps of the parts built by `makeTriangleHashMap` (each
part scans all fans and keeps the triangles of its own part) have pairwise disjoint key sets;
the map of a part holds, for the keys of the part, exactly the entries of the map built by one
sequential scan that registers every fan triangle; the map that `makeTriangleHashMap` returns
is the union of the maps of its parts; and it has, key by key and counter by counter, the
entries of the sequential map. -/
theorem makeTriangleHashMap_sharded (sh : Sharding) (t : AllLocalTriangulations) :
    (∀ p q, p ≠ q → ∀ k, k ∈ (shardMap sh t p).map Prod.fst →
      k ∉ (shardMap sh t q).map Prod.fst) ∧
    (∀ p k, mapFind (shardMap sh t p) k
      = if sh.subidx k = p then mapFind (sequentialTally t) k else none) ∧
    makeTriangleHashMap sh t = (List.range sh.subcnt).flatMap (shardMap sh t) ∧
    (∀ k, sh.subidx k < sh.subcnt ∧
      mapFind (makeTriangleHashMap sh t) k = mapFind (sequentialTally t) k ∧
      mapFind (makeTriangleHashMap sh t) k = mapFind (shardMap sh t (sh.subidx k)) k) := by
  have hshard : ∀ p k, mapFind (shardMap sh t p) k
      = if sh.subidx k = p then mapFind (sequentialTally t) k else none := by
    intro p k
    obtain ⟨-, a2, a3⟩ := shardMap_spec sh t p
    obtain ⟨-, b2, b3⟩ := sequentialTally_spec t
    rw [mapFind_eq_ite (shardMap sh t p), mapFind_eq_ite (sequentialTally t)]
    by_cases hk : sh.subidx k = p
    · rw [if_pos hk, a3 k hk, b3 k]
      by_cases hm : k ∈ (allTriplets t).map Prod.fst
      · rw [if_pos ((a2 k).2 ⟨hk, hm⟩), if_pos ((b2 k).2 hm)]
      · rw [if_neg (fun h => hm ((a2 k).1 h).2), if_neg (fun h => hm ((b2 k).1 h))]
    · rw [if_neg hk, if_neg (fun h => hk ((a2 k).1 h).1)]
  have hmain : ∀ k, mapFind (makeTriangleHashMap sh t) k = mapFind (sequentialTally t) k := by
    intro k
    obtain ⟨c1, c2, c3⟩ := makeTriangleHashMap_spec sh t
    obtain ⟨-, b2, b3⟩ := sequentialTally_spec t
    rw [mapFind_eq_ite (makeTriangleHashMap sh t), mapFind_eq_ite (sequentialTally t)]
    by_cases hm : k ∈ (allTriplets t).map Prod.fst
    · rw [if_pos ((c2 k).2 hm), if_pos ((b2 k).2 hm), b3 k]
      obtain ⟨e, he, hek⟩ := List.mem_map.1 ((c2 k).2 hm)
      obtain ⟨k1, r⟩ := e
      simp only at hek
      subst hek
      rw [tallyOf_of_mem _ c1 k1 r he]
      obtain ⟨d1, d2⟩ := c3 _ he
      congr 1
      exact repetitions_ext _ _ d1 d2
    · rw [if_neg (fun h => hm ((c2 k).1 h)), if_neg (fun h => hm ((b2 k).1 h))]
  refine ⟨?_, hshard, foldl_scanPart_eq sh t sh.subcnt, ?_⟩
  · intro p q hpq k hp hq
    have a := ((shardMap_spec sh t p).2.1 k).1 hp
    have b := ((shardMap_spec sh t q).2.1 k).1 hq
    exact hpq (a.1.symm.trans b.1)
  · intro k
    refine ⟨Nat.mod_lt _ sh.subcnt_pos, hmain k, ?_⟩
    rw [hmain k, hshard, if_pos rfl]


theorem initialWeight_le_zero {α : Type} [LinearOrderedField α] (pc : PointCloud α) (v : Nat)
    (hval : pc.validPoints.getD v false = true) : initialWeight pc v ≤ 0 := by
  have hlen : v < pc.validPoints.length := by
    by_contra hge
    rw [List.getD_eq_default _ _ (by omega)] at hval
    exact absurd hval (by simp)
  have hmem : v ∈ (List.range pc.validPoints.length).filter
      (fun v => pc.validPoints.getD v false) := by
    rw [List.mem_filter]
    exact ⟨List.mem_range.2 hlen, hval⟩
  obtain ⟨bx, e, _, h2⟩ := includePoint_foldl pc.points
    ((List.range pc.validPoints.length).filter (fun v => pc.validPoints.getD v false)) none
  rw [if_neg (List.ne_nil_of_mem hmem)] at e
  obtain ⟨a1, a2, a3, a4, a5, a6⟩ := h2 v hmem
  have eb : pc.computeBoundingBox = some bx := e
  unfold initialWeight
  rw [eb]
  simp only [boxCenter, boxMaxDistSq, dot, Vector3.sub]
  have s1 := sq_mid_le _ _ _ a1 a4
  have s2 := sq_mid_le _ _ _ a2 a5
  have s3 := sq_mid_le _ _ _ a3 a6
  have : ((bx.max.x - bx.min.x) * (bx.max.x - bx.min.x) +
      (bx.max.y - bx.min.y) * (bx.max.y - bx.min.y) +
      (bx.max.z - bx.min.z) * (bx.max.z - bx.min.z)) / 4
      = (bx.max.x - bx.min.x) * (bx.max.x - bx.min.x) / 4 +
        (bx.max.y - bx.min.y) * (bx.max.y - bx.min.y) / 4 +
        (bx.max.z - bx.min.z) * (bx.max.z - bx.min.z) / 4 := by ring
  rw [this]
  linarith

theorem initialHeap_getD_valid {α : Type} [LinearOrderedField α] (pc : PointCloud α) (v : Nat)
    (hv : v < pc.points.length) (hval : pc.validPoints.getD v false = true) :
    (initialHeap pc).getD v none = some (initialWeight pc v) := by
  unfold initialHeap
  rw [List.getD_eq_getElem _ _ (by simp only [List.length_map, List.length_range]; exact hv)]
  simp only [List.getElem_map, List.getElem_range, hval, if_true]
  rfl

/-- C22: for every point cloud and every valid point `v`, over exact arithmetic (an ordered
field), the initial priority `|p_v - c|^2 - |d|^2 / 4` is at most 0, where `c` is the centre and
`d` the diagonal of the bounding box of the valid points: the assertion `w <= 0` of the priority
initialization holds, and this value is the weight of `v` in the initial heap. -/
theorem initialWeight_nonpos {α : Type} [LinearOrderedField α] (pc : PointCloud α) (v : Nat)
    (hval : pc.validPoints.getD v false = true) :
    initialWeight pc v ≤ 0 ∧
    initialWeight pc v
      = dot ((pc.points.getD v default).sub (boxCenter pc.computeBoundingBox))
          ((pc.points.getD v default).sub (boxCenter pc.computeBoundingBox))
        - boxMaxDistSq pc.computeBoundingBox ∧
    (v < pc.points.length → (initialHeap pc).getD v none = some (initialWeight pc v)) :=
  ⟨initialWeight_le_zero pc v hval, rfl, fun hv => initialHeap_getD_valid pc v hv hval⟩

/-- C22 at a concrete input: the point 4 of `islandCloud`, a corner of the bounding box, has
the initial priority 0, the point 0 has a negative one. -/
theorem initialWeight_nonpos_witness :
    initialWeight islandCloud 4 = 0 ∧ initialWeight islandCloud 0 < 0 ∧
    (initialWeight islandCloud 4 ≤ 0 ∧
      initialWeight islandCloud 4
        = dot ((islandCloud.points.getD 4 default).sub (boxCenter islandCloud.computeBoundingBox))
            ((islandCloud.points.getD 4 default).sub
              (boxCenter islandCloud.computeBoundingBox))
          - boxMaxDistSq islandCloud.computeBoundingBox ∧
      (4 < islandCloud.points.length →
        (initialHeap islandCloud).getD 4 none = some (initialWeight islandCloud 4))) :=
  ⟨by decide!, by decide!, initialWeight_nonpos islandCloud 4 (by decide)⟩


/-- The neighbour after the border of the flipped fan is the old border. -/
theorem nextAfterBorder_flip (fan : List Int) (hnd : fan.Nodup) (bd : Int)
    (hb : bd ∈ fan ∨ bd = -1) :
    nextAfterBorder (nextAfterBorder bd fan) fan.reverse = bd := by
  by_cases hmem : bd ∈ fan
  · have hm : bd ∈ (cyclicPairs fan).map Prod.fst := by rw [cyclicPairs_map_fst]; exact hmem
    obtain ⟨q, hq, hq1⟩ := List.mem_map.1 hm
    have e1 : q.2 = nextAfterBorder bd fan :=
      (snd_eq_nextAfterBorder_iff fan hnd bd (Or.inl hmem) q hq).2 hq1
    have hq2 : q.2 ∈ fan := (mem_fan_of_mem_cyclicPairs fan q hq).2
    have hrev : (q.2, q.1) ∈ cyclicPairs fan.reverse := by
      rw [mem_cyclicPairs_reverse]
      exact hq
    have e2 := (snd_eq_nextAfterBorder_iff fan.reverse (List.nodup_reverse.2 hnd) q.2
      (Or.inl (List.mem_reverse.2 hq2)) (q.2, q.1) hrev).2 rfl
    rw [← e1, ← e2]
    exact hq1
  · have hbd : bd = -1 := hb.resolve_left hmem
    subst hbd
    have h1 : nextAfterBorder (-1) fan = -1 := by
      unfold nextAfterBorder
      apply foldl_nextAfter_of_not_mem
      rw [cyclicPairs_map_fst]
      exact hmem
    rw [h1]
    unfold nextAfterBorder
    apply foldl_nextAfter_of_not_mem
    rw [cyclicPairs_map_fst, List.mem_reverse]
    exact hmem

/-- C26 as stated fails: the border 1 of the fan 2, 3, 1, 2 of the vertex 0 of
`wrapBorderStore` occurs exactly once; the first flip gives the fan 2, 1, 3, 2 with the border
2, which occurs twice, and the second flip restores the slice but leaves the border 2. -/
theorem flipVertex_twice_changes_border :
    wrapBorderStore.ValidCSR ∧
    (wrapBorderStore.fan 0).count (wrapBorderStore.border 0) = 1 ∧
    wrapBorderStore.fan 0 = [2, 3, 1, 2] ∧ wrapBorderStore.border 0 = 1 ∧
    (flipVertex wrapBorderStore 0).fan 0 = [2, 1, 3, 2] ∧
    (flipVertex wrapBorderStore 0).border 0 = 2 ∧
    (flipVertex (flipVertex wrapBorderStore 0) 0).fan 0 = [2, 3, 1, 2] ∧
    (flipVertex (flipVertex wrapBorderStore 0) 0).border 0 = 2 ∧
    flipFan (flipFan [2, 3, 1, 2] 1).1 (flipFan [2, 3, 1, 2] 1).2 = ([2, 3, 1, 2], 2) := by
  decide

/-- C26 (amended): the flip of a fan (reverse the slice and set the border to the neighbour that
followed the old border) is an involution on every fan that lists pairwise distinct neighbours
and whose border is one of them or the invalid id `-1`: in a store with non-decreasing offsets
inside the neighbour array, flipping the fan of a vertex `v` twice restores its slice and its
border, and leaves the offsets and all other slices and borders as they were. -/
theorem flipVertex_involution (t : AllLocalTriangulations) (hv : t.ValidCSR) (v : Nat)
    (hc : v + 1 < t.fanRecords.length) (hnd : (t.fan v).Nodup)
    (hb : t.border v ∈ t.fan v ∨ t.border v = -1) :
    flipFan (flipFan (t.fan v) (t.border v)).1 (flipFan (t.fan v) (t.border v)).2
      = (t.fan v, t.border v) ∧
    t.SameShape (flipVertex (flipVertex t v) v) ∧
    ∀ c, c + 1 < t.fanRecords.length →
      (flipVertex (flipVertex t v) v).fan c = t.fan c ∧
      (flipVertex (flipVertex t v) v).border c = t.border c := by
  have hbb := nextAfterBorder_flip (t.fan v) hnd (t.border v) hb
  obtain ⟨f1, f2, f3, f4⟩ := flipVertex_spec t hv v hc
  have hv1 : (flipVertex t v).ValidCSR := sameShape_validCSR f1 hv
  have hc1 : v + 1 < (flipVertex t v).fanRecords.length := by
    rw [sameShape_length f1]; exact hc
  obtain ⟨g1, g2, g3, g4⟩ := flipVertex_spec (flipVertex t v) hv1 v hc1
  refine ⟨?_, sameShape_trans f1 g1, ?_⟩
  · simp only [flipFan, List.reverse_reverse, hbb]
  · intro c hcl
    by_cases e : c = v
    · subst e
      rw [g2, g3, f2, f3, List.reverse_reverse, hbb]
      exact ⟨rfl, rfl⟩
    · have a := g4 c e (by rw [sameShape_length f1]; exact hcl)
      have b := f4 c e hcl
      exact ⟨a.1.trans b.1, a.2.trans b.2⟩

/-- C26 (amended) at a concrete input: the open fan 3, 4, 1 with the border 1 of the vertex 0
of `gridStore`. -/
theorem flipVertex_involution_witness :
    gridStore.fan 0 = [3, 4, 1] ∧ gridStore.border 0 = 1 ∧
    (flipVertex gridStore 0).fan 0 = [1, 4, 3] ∧ (flipVertex gridStore 0).border 0 = 3 ∧
    (flipFan (flipFan (gridStore.fan 0) (gridStore.border 0)).1
        (flipFan (gridStore.fan 0) (gridStore.border 0)).2
      = (gridStore.fan 0, gridStore.border 0) ∧
    gridStore.SameShape (flipVertex (flipVertex gridStore 0) 0) ∧
    ∀ c, c + 1 < gridStore.fanRecords.length →
      (flipVertex (flipVertex gridStore 0) 0).fan c = gridStore.fan c ∧
      (flipVertex (flipVertex gridStore 0) 0).border c = gridStore.border c) :=
  ⟨by decide, by decide, by decide, by decide,
    flipVertex_involution gridStore (by decide) 0 (by decide) (by decide) (by decide)⟩


theorem weightStep_counts (m : TriangleMap) (v border : Int) (acc : WeightAcc)
    (p : Int × Int) :
    (weightStep m v border acc p).sameOriented = acc.sameOriented +
      (if votedOnly m v border (unorientedTriangle v p.2 p.1).2 p then 1 else 0) ∧
    (weightStep m v border acc p).oppositeOriented = acc.oppositeOriented +
      (if votedOnly m v border (!(unorientedTriangle v p.2 p.1).2) p then 1 else 0) := by
  unfold weightStep votedOnly
  by_cases hb : p.1 = border
  · simp [hb]
  · rw [if_neg hb]
    cases hf : mapFind m (unorientedTriangle v p.2 p.1).1 with
    | none => simp
    | some r =>
      simp only [ne_eq, hb, not_false_eq_true, decide_True, Bool.true_and,
        Repetitions.onlyVotes]
      cases hfl : (unorientedTriangle v p.2 p.1).2 <;>
        simp only [Bool.not_false, Bool.not_true, if_true, if_false, Bool.false_eq_true,
          decide_eq_true_eq] <;>
        by_cases c1 : r.sameOriented = 0 ∧ 0 < r.oppositeOriented <;>
        by_cases c2 : 0 < r.sameOriented ∧ r.oppositeOriented = 0 <;>
        simp only [c1, c2, if_true, if_false, and_self, add_zero] <;>
        first
          | trivial
          | (exfalso; omega)
          | simp

theorem foldl_weightStep_counts (m : TriangleMap) (v border : Int) (ps : List (Int × Int)) :
    ∀ acc : WeightAcc,
      (ps.foldl (weightStep m v border) acc).sameOriented = acc.sameOriented +
        ps.countP (fun p => votedOnly m v border (unorientedTriangle v p.2 p.1).2 p) ∧
      (ps.foldl (weightStep m v border) acc).oppositeOriented = acc.oppositeOriented +
        ps.countP (fun p => votedOnly m v border (!(unorientedTriangle v p.2 p.1).2) p) := by
  induction ps with
  | nil => intro acc; simp
  | cons p ps ih =>
    intro acc
    obtain ⟨i1, i2⟩ := ih (weightStep m v border acc p)
    obtain ⟨s1, s2⟩ := weightStep_counts m v border acc p
    rw [List.foldl_cons, i1, i2, s1, s2, List.countP_cons, List.countP_cons]
    constructor <;> omega

theorem weightAcc_counts (t : AllLocalTriangulations) (m : TriangleMap) (u : Nat) :
    (weightAcc t m (u : Int)).sameOriented = agreeingTriangles t m u ∧
    (weightAcc t m (u : Int)).oppositeOriented = disagreeingTriangles t m u := by
  obtain ⟨c1, c2⟩ := foldl_weightStep_counts m (u : Int)
    (t.fanRecords.getD u default).border
    (fanPairsAt t.neighbors (t.fanRecords.getD u default).firstNei
      (t.fanRecords.getD (u + 1) default).firstNei) ⟨0, 0, -1⟩
  unfold weightAcc agreeingTriangles disagreeingTriangles
  simp only [Int.toNat_natCast]
  rw [c1, c2]
  simp

/-- The confidence recomputation of a neighbour `u` that is not visited, over exact
arithmetic. With `S` the
number of fan triangles of `u` present in the incremental map whose only votes agree with the
winding that the fan of `u` gives the triangle, and `O` the number of those whose only votes
disagree (a triangle that is absent from the map, or holds votes of both kinds, counts in
neither): `computeVertWeight` reverses the fan of `u` in place exactly when `O > S` (a tie
leaves the store as it is) and returns `|S - O|`; the second loop of `enqueueNeighbors` sets
this value as the priority of `u` when `u` is not visited and does nothing otherwise; the value
is at least 0 and so at least every initial priority. -/
theorem computeVertWeight_confidence {α : Type} [LinearOrderedField α]
    (t : AllLocalTriangulations) (map : TriangleMap) (u : Nat) :
    (computeVertWeight t map (u : Int)).1
      = (if agreeingTriangles t map u < disagreeingTriangles t map u then flipVertex t u
        else t) ∧
    (((computeVertWeight t map (u : Int)).2 : Nat) : Int)
      = |(agreeingTriangles t map u : Int) - (disagreeingTriangles t map u : Int)| ∧
    (∀ (nv : List Bool) (heap : Heap α) (j : Nat), t.neighbors.getD j (-1) = (u : Int) →
      reweighStep nv map (t, heap) j
        = if nv.getD u false = true then
            ((computeVertWeight t map (u : Int)).1,
              heap.set u (some (((computeVertWeight t map (u : Int)).2 : Nat) : α)))
          else (t, heap)) ∧
    (0 : α) ≤ (((computeVertWeight t map (u : Int)).2 : Nat) : α) ∧
    (∀ (pc : PointCloud α) (v : Nat), pc.validPoints.getD v false = true →
      initialWeight pc v ≤ (((computeVertWeight t map (u : Int)).2 : Nat) : α)) := by
  obtain ⟨c1, c2⟩ := weightAcc_counts t map u
  have hfst := computeVertWeight_fst t map (u : Int)
  rw [c1, c2, Int.toNat_natCast] at hfst
  have hsnd : (computeVertWeight t map (u : Int)).2
      = (agreeingTriangles t map u - disagreeingTriangles t map u)
        + (disagreeingTriangles t map u - agreeingTriangles t map u) := by
    rw [← c1, ← c2]
    rfl
  have hnn : (0 : α) ≤ (((computeVertWeight t map (u : Int)).2 : Nat) : α) := Nat.cast_nonneg _
  refine ⟨hfst, ?_, ?_, hnn, ?_⟩
  · rw [hsnd]
    rcases Nat.lt_or_ge (agreeingTriangles t map u) (disagreeingTriangles t map u) with h | h
    · rw [abs_of_nonpos (by omega)]
      omega
    · rw [abs_of_nonneg (by omega)]
      omega
  · intro nv heap j hj
    unfold reweighStep
    simp only [hj, testBit, Int.toNat_natCast, Int.natCast_nonneg, decide_True, Bool.true_and]
  · intro pc v hval
    exact le_trans (initialWeight_le_zero pc v hval) hnn


theorem iterationState_succ {α : Type} [LinearOrderedField α] (k : Nat) (s : OrientState α) :
    iterationState (k + 1) s
      = if (heapTop s.heap).2 = none then none else iterationState k (loopStep s) := rfl

theorem iterationState_add {α : Type} [LinearOrderedField α] (m : Nat) :
    ∀ (k : Nat) (s s1 : OrientState α), iterationState k s = some s1 →
      iterationState (k + m) s = iterationState m s1 := by
  intro k
  induction k with
  | zero =>
    intro s s1 h
    simp only [iterationState, Option.some.injEq] at h
    rw [Nat.zero_add, h]
  | succ k ih =>
    intro s s1 h
    rw [iterationState_succ] at h
    have e : k + 1 + m = (k + m) + 1 := by omega
    rw [e, iterationState_succ]
    by_cases htop : (heapTop s.heap).2 = none
    · rw [if_pos htop] at h
      exact absurd h (by simp)
    · rw [if_neg htop] at h
      rw [if_neg htop]
      exact ih _ _ h

/-- A property of the entry state that every expansion step keeps holds at the start of every
iteration. -/
theorem iterationState_induction {α : Type} [LinearOrderedField α] (P : OrientState α → Prop)
    (hstep : ∀ s, P s → (heapTop s.heap).2 ≠ none → P (loopStep s)) :
    ∀ (k : Nat) (s0 s : OrientState α), P s0 → iterationState k s0 = some s → P s := by
  intro k
  induction k with
  | zero =>
    intro s0 s h0 h
    simp only [iterationState, Option.some.injEq] at h
    rw [← h]
    exact h0
  | succ k ih =>
    intro s0 s h0 h
    rw [iterationState_succ] at h
    by_cases htop : (heapTop s0.heap).2 = none
    · rw [if_pos htop] at h
      exact absurd h (by simp)
    · rw [if_neg htop] at h
      exact ih _ _ (hstep s0 h0 htop) h

/-- The state in which the expansion loop ends is the state at the start of one of its
iterations. -/
theorem expansionLoop_iteration {α : Type} [LinearOrderedField α] (progress : ProgressCallback)
    (total : Nat) :
    ∀ (fuel : Nat) (s : OrientState α) (log : ProgressLog) (r : AutoOrientResult α),
      expansionLoop progress total fuel s log = some r →
      ∃ k, iterationState k s = some r.state ∧
        (r.ok = true → (heapTop r.state.heap).2 = none) := by
  intro fuel
  induction fuel with
  | zero =>
    intro s log r h
    simp [expansionLoop] at h
  | succ fuel ih =>
    intro s log r h
    rw [expansionLoop_succ] at h
    by_cases htop : (heapTop s.heap).2 = none
    · rw [if_pos htop] at h
      simp only [Option.some.injEq] at h
      subst h
      exact ⟨0, rfl, fun _ => htop⟩
    · rw [if_neg htop] at h
      split_ifs at h with hp
      · simp only [Option.some.injEq] at h
        subst h
        refine ⟨1, ?_, fun hok => absurd hok (by simp)⟩
        rw [iterationState_succ, if_neg htop]
        rfl
      · obtain ⟨k, hk, hok⟩ := ih _ _ _ h
        refine ⟨k + 1, ?_, hok⟩
        rw [iterationState_succ, if_neg htop]
        exact hk

/-- The state in which `autoOrientLocalTriangulations` returns: when the function is cancelled
before its expansion loop no vertex is visited and the map is empty; otherwise the state is the
one at the start of an iteration of the loop, and the top weight is `InvalidWeight` when the
function returns true. -/
theorem autoOrient_state_cases {α : Type} [LinearOrderedField α] (fuel : Nat)
    (pc : PointCloud α) (triangs : AllLocalTriangulations) (progress : ProgressCallback)
    (sched : List ℚ) (r : AutoOrientResult α)
    (h : autoOrientLocalTriangulations fuel pc triangs progress sched = some r) :
    (r.ok = false ∧ r.state.visitOrder = [] ∧ r.state.map = []) ∨
    ∃ k, iterationState k (loopEntryState pc triangs) = some r.state ∧
      (r.ok = true → (heapTop r.state.heap).2 = none) := by
  simp only [autoOrientLocalTriangulations] at h
  split_ifs at h
  · simp only [Option.some.injEq] at h; subst h; exact Or.inl ⟨rfl, rfl, rfl⟩
  · simp only [Option.some.injEq] at h; subst h; exact Or.inl ⟨rfl, rfl, rfl⟩
  · simp only [Option.some.injEq] at h; subst h; exact Or.inl ⟨rfl, rfl, rfl⟩
  · simp only [Option.some.injEq] at h; subst h; exact Or.inl ⟨rfl, rfl, rfl⟩
  · simp only [Option.some.injEq] at h; subst h; exact Or.inl ⟨rfl, rfl, rfl⟩
  · exact Or.inr (expansionLoop_iteration _ _ _ _ _ _ h)

theorem heapTop_pos {α : Type} [LinearOrder α] (h : Heap α) (htop : (heapTop h).2 ≠ none) :
    0 < h.length := by
  rcases Nat.eq_zero_or_pos h.length with e | e
  · rw [List.length_eq_zero] at e
    rw [e] at htop
    exact absurd heapTop_nil htop
  · exact e

/-- Under the invariant of the loop the top of the heap, when its weight is not
`InvalidWeight`, is a vertex that is not visited. -/
theorem loopInv_top {α : Type} [LinearOrderedField α] {valid : List Bool} {n : Nat}
    (s : OrientState α) (hl : LoopInv valid n s) (htop : (heapTop s.heap).2 ≠ none) :
    (heapTop s.heap).1 < n ∧ s.notVisited.getD (heapTop s.heap).1 false = true := by
  obtain ⟨t1, t2, -⟩ := heapTop_spec s.heap (heapTop_pos s.heap htop)
  rw [hl.heap_length] at t1
  exact ⟨t1, (hl.heap_iff _).1 (by rw [t2]; exact htop)⟩

theorem loopInv_step {α : Type} [LinearOrderedField α] {valid : List Bool} {n : Nat}
    (s : OrientState α) (hl : LoopInv valid n s) (htop : (heapTop s.heap).2 ≠ none) :
    LoopInv valid n (loopStep s) := by
  obtain ⟨b1, b2⟩ := loopInv_top s hl htop
  exact (enqueueNeighbors_inv valid n s _ hl b1 b2).1

theorem loopInv_iteration {α : Type} [LinearOrderedField α] (pc : PointCloud α)
    (triangs : AllLocalTriangulations)
    (hvalid : ∀ v, pc.validPoints.getD v false = true → v < pc.points.length) (k : Nat)
    (s : OrientState α) (hs : iterationState k (loopEntryState pc triangs) = some s) :
    LoopInv pc.validPoints pc.points.length s :=
  iterationState_induction (fun s => LoopInv pc.validPoints pc.points.length s)
    (fun s hl htop => loopInv_step s hl htop) k _ s (loopInv_initial pc _ hvalid) hs

/-- C29: for every point cloud whose valid points are points of the cloud and every store, at
the start of every iteration of the expansion loop of `autoOrientLocalTriangulations` the heap
value of a vertex differs from `InvalidWeight` if and only if its bit in `notVisited` is set,
which is the case if and only if the vertex is valid and not visited yet; hence the vertex
extracted in an iteration that does not end the loop is a valid vertex that is not visited, and
the assertion `notVisited.test( base )` of `enqueueNeighbors` holds. -/
theorem heap_value_iff_unvisited {α : Type} [LinearOrderedField α] (pc : PointCloud α)
    (triangs : AllLocalTriangulations)
    (hvalid : ∀ v, pc.validPoints.getD v false = true → v < pc.points.length) (k : Nat)
    (s : OrientState α) (hs : iterationState k (loopEntryState pc triangs) = some s) :
    (∀ v, s.heap.getD v none ≠ none ↔ s.notVisited.getD v false = true) ∧
    (∀ v, s.notVisited.getD v false = true ↔
      (pc.validPoints.getD v false = true ∧ v ∉ s.visitOrder)) ∧
    ((heapTop s.heap).2 ≠ none →
      testBit s.notVisited ((heapTop s.heap).1 : Int) = true ∧
      pc.validPoints.getD (heapTop s.heap).1 false = true ∧
      (heapTop s.heap).1 ∉ s.visitOrder) := by
  have hl := loopInv_iteration pc triangs hvalid k s hs
  have h2 : ∀ v, s.notVisited.getD v false = true ↔
      (pc.validPoints.getD v false = true ∧ v ∉ s.visitOrder) := by
    intro v
    constructor
    · intro h
      refine ⟨(hl.valid_iff v).2 (Or.inr h), fun hm => ?_⟩
      rw [hl.order_visited v hm] at h
      exact absurd h (by simp)
    · rintro ⟨h1, h3⟩
      rcases (hl.valid_iff v).1 h1 with h4 | h4
      · exact absurd h4 h3
      · exact h4
  refine ⟨hl.heap_iff, h2, fun htop => ?_⟩
  obtain ⟨-, b2⟩ := loopInv_top s hl htop
  refine ⟨?_, ((h2 _).1 b2).1, ((h2 _).1 b2).2⟩
  rw [testBit_eq_true_iff _ _ (Int.natCast_nonneg _), Int.toNat_natCast]
  exact b2

theorem island_iteration_two :
    iterationState 2 (loopEntryState islandCloud islandStore)
      = some (loopStep (loopStep (loopEntryState islandCloud islandStore))) := by
  have h1 : ¬ (heapTop (loopEntryState islandCloud islandStore).heap).2 = none := by decide!
  have h2 : ¬ (heapTop (loopStep (loopEntryState islandCloud islandStore)).heap).2 = none := by
    decide!
  rw [iterationState_succ, if_neg h1, iterationState_succ, if_neg h2]
  rfl

/-- C29 at a concrete input: the state of `islandCloud` and `islandStore` after two expansion
steps, in which the vertices 3 and 4 are visited and the vertex 0 is extracted next. -/
theorem heap_value_iff_unvisited_witness :
    ∃ s, iterationState 2 (loopEntryState islandCloud islandStore) = some s ∧
      s.visitOrder = [3, 4] ∧ (heapTop s.heap).1 = 0 ∧
      (∀ v, s.heap.getD v none ≠ none ↔ s.notVisited.getD v false = true) ∧
      (∀ v, s.notVisited.getD v false = true ↔
        (islandCloud.validPoints.getD v false = true ∧ v ∉ s.visitOrder)) ∧
      ((heapTop s.heap).2 ≠ none →
        testBit s.notVisited ((heapTop s.heap).1 : Int) = true ∧
        islandCloud.validPoints.getD (heapTop s.heap).1 false = true ∧
        (heapTop s.heap).1 ∉ s.visitOrder) :=
  ⟨loopStep (loopStep (loopEntryState islandCloud islandStore)), island_iteration_two,
    by decide!, by decide!,
    heap_value_iff_unvisited islandCloud islandStore
      (fun v h => by
        rcases Nat.lt_or_ge v 5 with h5 | h5
        · exact h5
        · rw [List.getD_eq_default _ _ h5] at h
          exact absurd h (by decide)) 2 _ island_iteration_two⟩


/-- The second loop of `enqueueNeighbors( base )`, from the store `t0` on: the offsets stay, and
a fan or border that differs from the one in `t0` belongs to a vertex that is not visited and is
a neighbour of `base`. -/
theorem foldl_reweighStep_frame {α : Type} [LinearOrderedField α] (t0 : AllLocalTriangulations)
    (hv0 : t0.ValidCSR) (nv : List Bool) (base : Nat) (hnvb : nv.getD base false = false)
    (map : TriangleMap) (ns : List Nat)
    (hns : ∀ j ∈ ns, (t0.fanRecords.getD base default).firstNei ≤ j ∧
      j < (t0.fanRecords.getD (base + 1) default).firstNei) :
    ∀ s : AllLocalTriangulations × Heap α,
      (t0.SameShape s.1 ∧ ∀ c, c + 1 < t0.fanRecords.length →
        (nv.getD c false = true ∧ (c : Int) ∈ t0.fan base) ∨
        (s.1.fan c = t0.fan c ∧ s.1.border c = t0.border c)) →
      (t0.SameShape (ns.foldl (reweighStep nv map) s).1 ∧
        ∀ c, c + 1 < t0.fanRecords.length →
          (nv.getD c false = true ∧ (c : Int) ∈ t0.fan base) ∨
          ((ns.foldl (reweighStep nv map) s).1.fan c = t0.fan c ∧
            (ns.foldl (reweighStep nv map) s).1.border c = t0.border c)) := by
  induction ns with
  | nil => intro s h; exact h
  | cons j ns ih =>
    intro s h
    rw [List.foldl_cons]
    apply ih (fun j1 hj1 => hns j1 (List.mem_cons_of_mem _ hj1))
    obtain ⟨hj1, hj2⟩ := hns j (List.mem_cons_self _ _)
    have hb0 : base + 1 < t0.fanRecords.length :=
      lt_length_of_firstNei_lt t0 base (by omega)
    obtain ⟨hs, hf⟩ := h
    have hvs : s.1.ValidCSR := sameShape_validCSR hs hv0
    have hlen := sameShape_length hs
    have hfb : s.1.fan base = t0.fan base := by
      rcases hf base hb0 with ⟨l, -⟩ | ⟨r, -⟩
      · rw [hnvb] at l; exact absurd l (by simp)
      · exact r
    unfold reweighStep
    by_cases ht : testBit nv (s.1.neighbors.getD j (-1)) = true
    · rw [if_pos ht]
      rcases computeVertWeight_eq_or_flip s.1 map (s.1.neighbors.getD j (-1)) with e | ⟨hlt, e⟩
      · simp only; rw [e]; exact ⟨hs, hf⟩
      · simp only
        rw [e]
        have hx0 : 0 ≤ s.1.neighbors.getD j (-1) := by
          unfold testBit at ht
          simp only [Bool.and_eq_true, decide_eq_true_eq] at ht
          exact ht.1
        have hnvx := (testBit_eq_true_iff nv _ hx0).1 ht
        have hu := lt_length_of_firstNei_lt s.1 _ hlt
        obtain ⟨f1, -, -, f4⟩ := flipVertex_spec s.1 hvs _ hu
        have hmem := (neighbors_getD_fan s.1 hvs base (by rw [hlen]; exact hb0) j
          (by rw [sameShape_firstNei hs]; exact hj1)
          (by rw [sameShape_firstNei hs]; exact hj2)).2
        rw [hfb] at hmem
        refine ⟨sameShape_trans hs f1, fun c hc => ?_⟩
        by_cases ec : c = (s.1.neighbors.getD j (-1)).toNat
        · left
          rw [ec]
          refine ⟨hnvx, ?_⟩
          rw [Int.toNat_of_nonneg hx0]
          exact hmem
        · rcases hf c hc with l | r
          · exact Or.inl l
          · right
            obtain ⟨g1, g2⟩ := f4 c ec (by rw [hlen]; exact hc)
            exact ⟨g1.trans r.1, g2.trans r.2⟩
    · rw [if_neg ht]
      exact ⟨hs, hf⟩

/-- An expansion step keeps the offsets, and changes the fan or the border only of vertices
that are not visited and are neighbours of the vertex that the step visits. -/
theorem loopStep_frame {α : Type} [LinearOrderedField α] (s : OrientState α)
    (hv : s.triangs.ValidCSR) :
    s.triangs.SameShape (loopStep s).triangs ∧
    ∀ c, c + 1 < s.triangs.fanRecords.length →
      ((s.notVisited.set (heapTop s.heap).1 false).getD c false = true ∧
        (c : Int) ∈ s.triangs.fan (heapTop s.heap).1) ∨
      ((loopStep s).triangs.fan c = s.triangs.fan c ∧
        (loopStep s).triangs.border c = s.triangs.border c) := by
  simp only [loopStep, enqueueNeighbors]
  apply foldl_reweighStep_frame s.triangs hv _ (heapTop s.heap).1
    (by rw [getD_set_false, if_pos rfl])
  · intro j hj
    rw [List.mem_range'_1] at hj
    omega
  · exact ⟨sameShape_refl _, fun c _ => Or.inr ⟨rfl, rfl⟩⟩

theorem loopStep_fields {α : Type} [LinearOrderedField α] (s : OrientState α) :
    (loopStep s).notVisited = s.notVisited.set (heapTop s.heap).1 false ∧
    (loopStep s).visitOrder = s.visitOrder ++ [(heapTop s.heap).1] := ⟨rfl, rfl⟩

/-- From the start of an iteration of the expansion loop to the start of a later one: the
offsets stay, the visited vertices stay visited, and the fan and the border of a vertex whose
bit in `notVisited` is cleared stay as they are. -/
theorem iteration_frame {α : Type} [LinearOrderedField α] (m : Nat) :
    ∀ (s s1 : OrientState α), s.triangs.ValidCSR → iterationState m s = some s1 →
      s.triangs.SameShape s1.triangs ∧
      (∀ v, s.notVisited.getD v false = false → s1.notVisited.getD v false = false) ∧
      (∀ c, c + 1 < s.triangs.fanRecords.length → s.notVisited.getD c false = false →
        s1.triangs.fan c = s.triangs.fan c ∧ s1.triangs.border c = s.triangs.border c) := by
  induction m with
  | zero =>
    intro s s1 _ h
    simp only [iterationState, Option.some.injEq] at h
    subst h
    exact ⟨sameShape_refl _, fun _ h => h, fun _ _ _ => ⟨rfl, rfl⟩⟩
  | succ m ih =>
    intro s s1 hv h
    rw [iterationState_succ] at h
    by_cases htop : (heapTop s.heap).2 = none
    · rw [if_pos htop] at h
      exact absurd h (by simp)
    · rw [if_neg htop] at h
      obtain ⟨a1, a2⟩ := loopStep_frame s hv
      obtain ⟨b1, b2, b3⟩ := ih _ _ (sameShape_validCSR a1 hv) h
      have hnv : ∀ v, s.notVisited.getD v false = false →
          (loopStep s).notVisited.getD v false = false := by
        intro v hvz
        rw [(loopStep_fields s).1, getD_set_false]
        split_ifs
        · rfl
        · exact hvz
      refine ⟨sameShape_trans a1 b1, fun v hvz => b2 v (hnv v hvz), fun c hc hcz => ?_⟩
      obtain ⟨c1, c2⟩ := b3 c (by rw [sameShape_length a1]; exact hc) (hnv c hcz)
      rcases a2 c hc with ⟨l, -⟩ | r
      · exfalso
        rw [getD_set_false] at l
        by_cases e : (heapTop s.heap).1 = c
        · rw [if_pos e] at l
          exact Bool.noConfusion l
        · rw [if_neg e, hcz] at l
          exact Bool.noConfusion l
      · exact ⟨c1.trans r.1, c2.trans r.2⟩

/-- The visited vertices have their bit in `notVisited` cleared. -/
theorem iteration_visited {α : Type} [LinearOrderedField α] (k : Nat) (s0 s : OrientState α)
    (h0 : ∀ v ∈ s0.visitOrder, s0.notVisited.getD v false = false)
    (hs : iterationState k s0 = some s) :
    ∀ v ∈ s.visitOrder, s.notVisited.getD v false = false :=
  iterationState_induction (fun s => ∀ v ∈ s.visitOrder, s.notVisited.getD v false = false)
    (fun s hP _ v hv => by
      rw [(loopStep_fields s).1, getD_set_false]
      rw [(loopStep_fields s).2] at hv
      split_ifs with e
      · rfl
      · rcases List.mem_append.1 hv with h | h
        · exact hP v h
        · rw [List.mem_singleton] at h
          exact absurd h.symm e) k s0 s h0 hs

theorem loopEntryState_validCSR {α : Type} [LinearOrderedField α] (pc : PointCloud α)
    (triangs : AllLocalTriangulations) (hv : triangs.ValidCSR) :
    triangs.SameShape (loopEntryState pc triangs).triangs ∧
    (loopEntryState pc triangs).triangs.ValidCSR := by
  have h := (orientLocalTriangulations_spec triangs pc.points
    (fun v => (getAt pc.points v default).sub (boxCenter pc.computeBoundingBox)) hv).1
  exact ⟨h, sameShape_validCSR h hv⟩

theorem tetraMixed_iteration_one :
    iterationState 1 (loopEntryState tetraCloud tetraStoreMixed)
      = some (loopStep (loopEntryState tetraCloud tetraStoreMixed)) := by
  have h1 : ¬ (heapTop (loopEntryState tetraCloud tetraStoreMixed).heap).2 = none := by decide!
  rw [iterationState_succ, if_neg h1]
  rfl

/-- C28: for every point cloud and every store with non-decreasing offsets inside the neighbour
array, in the expansion loop of `autoOrientLocalTriangulations`: the expansion step that visits
the top `v` of the heap keeps all offsets, and a vertex whose fan or border it changes is a
neighbour of `v` that is not visited; and the fan and the border of a vertex that is visited at
the start of an iteration are the same at the start of every later iteration, hence in the
state in which the function returns. -/
theorem visited_fan_final {α : Type} [LinearOrderedField α] (pc : PointCloud α)
    (triangs : AllLocalTriangulations) (hv : triangs.ValidCSR) (k : Nat) (s : OrientState α)
    (hs : iterationState k (loopEntryState pc triangs) = some s) :
    (s.triangs.SameShape (loopStep s).triangs ∧
      ∀ c, c + 1 < s.triangs.fanRecords.length →
        ((loopStep s).triangs.fan c ≠ s.triangs.fan c ∨
          (loopStep s).triangs.border c ≠ s.triangs.border c) →
        s.notVisited.getD c false = true ∧ c ≠ (heapTop s.heap).1 ∧ c ∉ s.visitOrder ∧
        (c : Int) ∈ s.triangs.fan (heapTop s.heap).1) ∧
    (∀ m s1, iterationState (k + m) (loopEntryState pc triangs) = some s1 →
      s.triangs.SameShape s1.triangs ∧
      ∀ c ∈ s.visitOrder, c + 1 < s.triangs.fanRecords.length →
        s1.triangs.fan c = s.triangs.fan c ∧ s1.triangs.border c = s.triangs.border c) := by
  obtain ⟨e1, e2⟩ := loopEntryState_validCSR pc triangs hv
  obtain ⟨i1, -, -⟩ := iteration_frame k _ _ e2 hs
  have hvs : s.triangs.ValidCSR := sameShape_validCSR i1 e2
  have hvis := iteration_visited k _ s (fun v hv0 => absurd hv0 (List.not_mem_nil _)) hs
  obtain ⟨a1, a2⟩ := loopStep_frame s hvs
  refine ⟨⟨a1, fun c hc hne => ?_⟩, fun m s1 hs1 => ?_⟩
  · rcases a2 c hc with ⟨l1, l2⟩ | ⟨r1, r2⟩
    · rw [getD_set_false] at l1
      by_cases e : (heapTop s.heap).1 = c
      · rw [if_pos e] at l1
        exact Bool.noConfusion l1
      · rw [if_neg e] at l1
        refine ⟨l1, fun h => e h.symm, fun hm => ?_, l2⟩
        rw [hvis c hm] at l1
        exact Bool.noConfusion l1
    · rcases hne with h | h
      · exact absurd r1 h
      · exact absurd r2 h
  · rw [iterationState_add m k _ s hs] at hs1
    obtain ⟨b1, -, b3⟩ := iteration_frame m _ _ hvs hs1
    exact ⟨b1, fun c hc hlen => b3 c hlen (hvis c hc)⟩

/-- C28 at a concrete input: the state of the tetrahedron with mixed windings after the first
expansion step, which visits the vertex 0. -/
theorem visited_fan_final_witness :
    ∃ s, iterationState 1 (loopEntryState tetraCloud tetraStoreMixed) = some s ∧
      s.visitOrder = [0] ∧
      (s.triangs.SameShape (loopStep s).triangs ∧
        ∀ c, c + 1 < s.triangs.fanRecords.length →
          ((loopStep s).triangs.fan c ≠ s.triangs.fan c ∨
            (loopStep s).triangs.border c ≠ s.triangs.border c) →
          s.notVisited.getD c false = true ∧ c ≠ (heapTop s.heap).1 ∧ c ∉ s.visitOrder ∧
          (c : Int) ∈ s.triangs.fan (heapTop s.heap).1) ∧
      (∀ m s1, iterationState (1 + m) (loopEntryState tetraCloud tetraStoreMixed) = some s1 →
        s.triangs.SameShape s1.triangs ∧
        ∀ c ∈ s.visitOrder, c + 1 < s.triangs.fanRecords.length →
          s1.triangs.fan c = s.triangs.fan c ∧ s1.triangs.border c = s.triangs.border c) :=
  ⟨loopStep (loopEntryState tetraCloud tetraStoreMixed), tetraMixed_iteration_one, by decide!,
    visited_fan_final tetraCloud tetraStoreMixed (by decide) 1 _ tetraMixed_iteration_one⟩

theorem registerStep_nodup (nv : List Bool) (base bd : Int) (m : TriangleMap) (p : Int × Int)
    (hnd : (m.map Prod.fst).Nodup) : ((registerStep nv base bd m p).map Prod.fst).Nodup := by
  unfold registerStep
  split_ifs
  · exact hnd
  · exact mapErase_nodup _ _ hnd
  · exact mapVote_nodup _ _ _ hnd

/-- The first loop of `enqueueNeighbors( base )` over the pairs `ps`: an entry of the map after
the loop is an entry from before the loop whose triangle the loop did not meet, or belongs to a
triangle that the loop met with a corner that is not visited yet. -/
theorem foldl_registerStep_pruned (nv : List Bool) (base bd : Int) :
    ∀ (ps : List (Int × Int)) (m : TriangleMap), (m.map Prod.fst).Nodup →
      ((ps.foldl (registerStep nv base bd) m).map Prod.fst).Nodup ∧
      ∀ K r, mapFind (ps.foldl (registerStep nv base bd) m) K = some r →
        (mapFind m K = some r ∧
          ∀ p ∈ ps, p.1 ≠ bd → (unorientedTriangle base p.2 p.1).1 ≠ K) ∨
        (∃ p ∈ ps, p.1 ≠ bd ∧ (unorientedTriangle base p.2 p.1).1 = K ∧
          (testBit nv p.1 = true ∨ testBit nv p.2 = true)) := by
  intro ps
  induction ps with
  | nil =>
    intro m hnd
    exact ⟨hnd, fun K r h => Or.inl ⟨h, fun p hp => absurd hp (List.not_mem_nil p)⟩⟩
  | cons p ps ih =>
    intro m hnd
    rw [List.foldl_cons]
    obtain ⟨i1, i2⟩ := ih (registerStep nv base bd m p) (registerStep_nodup nv base bd m p hnd)
    refine ⟨i1, fun K r hK => ?_⟩
    rcases i2 K r hK with ⟨h1, h2⟩ | ⟨q, hq, h3⟩
    · unfold registerStep at h1
      by_cases hb : p.1 = bd
      · rw [if_pos hb] at h1
        refine Or.inl ⟨h1, fun q hq hqb => ?_⟩
        rcases List.mem_cons.1 hq with e | e
        · rw [e] at hqb; exact absurd hb hqb
        · exact h2 q e hqb
      · rw [if_neg hb] at h1
        by_cases hc : (!testBit nv p.1 && !testBit nv p.2) = true
        · rw [if_pos hc, mapFind_mapErase _ hnd] at h1
          by_cases e : K = (unorientedTriangle base p.2 p.1).1
          · rw [if_pos e] at h1; exact Option.noConfusion h1
          · rw [if_neg e] at h1
            refine Or.inl ⟨h1, fun q hq hqb => ?_⟩
            rcases List.mem_cons.1 hq with e1 | e1
            · rw [e1]; exact fun h => e h.symm
            · exact h2 q e1 hqb
        · rw [if_neg hc, mapFind_mapVote] at h1
          by_cases e : K = (unorientedTriangle base p.2 p.1).1
          · refine Or.inr ⟨p, List.mem_cons_self _ _, hb, e.symm, ?_⟩
            by_cases t1 : testBit nv p.1 = true
            · exact Or.inl t1
            · by_cases t2 : testBit nv p.2 = true
              · exact Or.inr t2
              · exfalso
                apply hc
                rw [Bool.not_eq_true] at t1 t2
                rw [t1, t2]
                rfl
          · rw [if_neg e] at h1
            refine Or.inl ⟨h1, fun q hq hqb => ?_⟩
            rcases List.mem_cons.1 hq with e1 | e1
            · rw [e1]; exact fun h => e h.symm
            · exact h2 q e1 hqb
    · exact Or.inr ⟨q, List.mem_cons_of_mem _ hq, h3⟩

theorem mem_fanTriplets_keys (t : AllLocalTriangulations) (hv : t.ValidCSR) (v : Nat)
    (hc : v + 1 < t.fanRecords.length) (K : UnorientedTriangle) :
    K ∈ (fanTriplets t v).map Prod.fst ↔
      ∃ p ∈ cyclicPairs (t.fan v), p.1 ≠ t.border v ∧ (unorientedTriangle v p.2 p.1).1 = K := by
  rw [fanTriplets_eq t hv v hc, List.mem_map]
  constructor
  · rintro ⟨e, he, rfl⟩
    rw [List.mem_filterMap] at he
    obtain ⟨p, hp, hpe⟩ := he
    by_cases hb : p.1 = t.border v
    · rw [if_pos hb] at hpe; exact Option.noConfusion hpe
    · rw [if_neg hb, Option.some.injEq] at hpe
      exact ⟨p, hp, hb, by rw [hpe]⟩
  · rintro ⟨p, hp, hb, rfl⟩
    exact ⟨unorientedTriangle v p.2 p.1, List.mem_filterMap.2 ⟨p, hp, by rw [if_neg hb]⟩, rfl⟩

theorem testBit_set_false (nv : List Bool) (b : Nat) (x : Int) :
    testBit (nv.set b false) x = true ↔ testBit nv x = true ∧ x ≠ (b : Int) := by
  unfold testBit
  rw [Bool.and_eq_true, Bool.and_eq_true, decide_eq_true_eq, getD_set_false]
  constructor
  · rintro ⟨h1, h2⟩
    by_cases e : b = x.toNat
    · rw [if_pos e] at h2; exact Bool.noConfusion h2
    · rw [if_neg e] at h2
      exact ⟨⟨h1, h2⟩, fun h => e (by rw [h]; rfl)⟩
  · rintro ⟨⟨h1, h2⟩, h3⟩
    refine ⟨h1, ?_⟩
    rw [if_neg (fun e => h3 (by rw [e]; exact (Int.toNat_of_nonneg h1).symm))]
    exact h2

/-- An expansion step keeps the pruning invariant of the map. -/
theorem loopStep_mapPruned {α : Type} [LinearOrderedField α] {valid : List Bool} {n : Nat}
    (t0 : AllLocalTriangulations) (hcsr : t0.ValidCSR) (hrec : t0.fanRecords.length = n + 1)
    (hsh : t0.TrianglesShared) (hvalid : ∀ v, valid.getD v false = true → v < n)
    (s : OrientState α) (hl : LoopInv valid n s) (hk : KeysKept t0 s.triangs)
    (hp : MapPruned t0 s.visitOrder s.notVisited s.map) (htop : (heapTop s.heap).2 ≠ none) :
    MapPruned t0 (loopStep s).visitOrder (loopStep s).notVisited (loopStep s).map := by
  obtain ⟨b1, b2⟩ := loopInv_top s hl htop
  have hv1 : s.triangs.ValidCSR := sameShape_validCSR hk.1 hcsr
  have hlen : s.triangs.fanRecords.length = n + 1 := by rw [sameShape_length hk.1, hrec]
  have hcl : (heapTop s.heap).1 + 1 < s.triangs.fanRecords.length := by rw [hlen]; omega
  have e := loopStep_eq s hv1 hcl
  have em : (loopStep s).map = (cyclicPairs (s.triangs.fan (heapTop s.heap).1)).foldl
      (registerStep (s.notVisited.set (heapTop s.heap).1 false) (heapTop s.heap).1
        (s.triangs.border (heapTop s.heap).1)) s.map := by rw [e]
  rw [em, (loopStep_fields s).1, (loopStep_fields s).2]
  obtain ⟨i1, i2⟩ := foldl_registerStep_pruned (s.notVisited.set (heapTop s.heap).1 false)
    (heapTop s.heap).1 (s.triangs.border (heapTop s.heap).1)
    (cyclicPairs (s.triangs.fan (heapTop s.heap).1)) s.map hp.keys_nodup
  have hVn : ∀ v ∈ s.visitOrder, v < n := fun v hv => hvalid v ((hl.valid_iff v).2 (Or.inl hv))
  -- a key of the current fan of the top vertex is a key of its fan in `t0`
  have hkeys : ∀ K, K ∈ (fanTriplets t0 (heapTop s.heap).1).map Prod.fst ↔
      ∃ p ∈ cyclicPairs (s.triangs.fan (heapTop s.heap).1),
        p.1 ≠ s.triangs.border (heapTop s.heap).1 ∧
        (unorientedTriangle (heapTop s.heap).1 p.2 p.1).1 = K := by
    intro K
    rw [← mem_fanTriplets_keys s.triangs hv1 _ hcl K]
    exact ((hk.2 _ (by rw [hrec]; omega)).2.mem_iff).symm
  refine ⟨i1, ?_, ?_⟩
  · intro K r hfind
    rcases i2 K r hfind with ⟨h1, -⟩ | ⟨p, hp1, hp2, hp3, -⟩
    · obtain ⟨v, hv, hK⟩ := hp.listed K r h1
      exact ⟨v, List.mem_append_left _ hv, hK⟩
    · exact ⟨_, List.mem_append_right _ (List.mem_singleton_self _),
        (hkeys K).2 ⟨p, hp1, hp2, hp3⟩⟩
  · intro K r hfind
    rcases i2 K r hfind with ⟨h1, h2⟩ | ⟨p, hp1, hp2, hp3, hp4⟩
    · obtain ⟨v, hv, hK⟩ := hp.listed K r h1
      have hshK := hsh v (by rw [hrec]; have := hVn v hv; omega) K hK
      have hno : ∀ x : Int, 0 ≤ x → x.toNat = (heapTop s.heap).1 →
          K ∉ (fanTriplets t0 x.toNat).map Prod.fst := by
        intro x _ hx hmem
        rw [hx, hkeys K] at hmem
        obtain ⟨p, hp1, hp2, hp3⟩ := hmem
        exact h2 p hp1 hp2 hp3
      have hcorner : ∀ x : Int, testBit s.notVisited x = true →
          K ∈ (fanTriplets t0 x.toNat).map Prod.fst →
          testBit (s.notVisited.set (heapTop s.heap).1 false) x = true := by
        intro x hx hmem
        rw [testBit_set_false]
        refine ⟨hx, fun e => ?_⟩
        have hx0 : 0 ≤ x := by rw [e]; omega
        exact hno x hx0 (by rw [e]; rfl) hmem
      rcases hp.pending K r h1 with c | c | c
      · exact Or.inl (hcorner _ c hshK.1)
      · exact Or.inr (Or.inl (hcorner _ c hshK.2.1))
      · exact Or.inr (Or.inr (hcorner _ c hshK.2.2))
    · have c1 := unorientedTriangle_corner ((heapTop s.heap).1 : Int) p.2 p.1 p.1
        (Or.inr (Or.inr rfl))
      have c2 := unorientedTriangle_corner ((heapTop s.heap).1 : Int) p.2 p.1 p.2
        (Or.inr (Or.inl rfl))
      rw [hp3] at c1 c2
      rcases hp4 with t | t
      · rcases c1 with e | e | e
        · exact Or.inl (by rw [← e]; exact t)
        · exact Or.inr (Or.inl (by rw [← e]; exact t))
        · exact Or.inr (Or.inr (by rw [← e]; exact t))
      · rcases c2 with e | e | e
        · exact Or.inl (by rw [← e]; exact t)
        · exact Or.inr (Or.inl (by rw [← e]; exact t))
        · exact Or.inr (Or.inr (by rw [← e]; exact t))

theorem keysKept_flipVertex (t0 : AllLocalTriangulations) (hcsr : t0.ValidCSR)
    (hnd : t0.FansNodup) (hval : t0.NeighborsValid) (t : AllLocalTriangulations) (u : Nat)
    (h : KeysKept t0 t) (hlt : (t.fanRecords.getD u default).firstNei
      < (t.fanRecords.getD (u + 1) default).firstNei) : KeysKept t0 (flipVertex t u) :=
  keysKept_flip t0 hcsr hnd hval t u h hlt

theorem keysKept_refl (t0 : AllLocalTriangulations) : KeysKept t0 t0 :=
  ⟨sameShape_refl t0, fun _ _ => ⟨Or.inl rfl, List.Perm.refl _⟩⟩

theorem mapPruned_iteration {α : Type} [LinearOrderedField α] (pc : PointCloud α)
    (triangs : AllLocalTriangulations)
    (hpts : ∀ v, pc.validPoints.getD v false = true → v < pc.points.length)
    (hrec : triangs.fanRecords.length = pc.points.length + 1)
    (hcsr : triangs.ValidCSR) (hnd : triangs.FansNodup) (hval : triangs.NeighborsValid)
    (hsh : triangs.TrianglesShared) (k : Nat) (s : OrientState α)
    (hs : iterationState k (loopEntryState pc triangs) = some s) :
    LoopInv pc.validPoints pc.points.length s ∧ KeysKept triangs s.triangs ∧
      MapPruned triangs s.visitOrder s.notVisited s.map := by
  refine iterationState_induction
    (fun s => LoopInv pc.validPoints pc.points.length s ∧ KeysKept triangs s.triangs ∧
      MapPruned triangs s.visitOrder s.notVisited s.map)
    (fun s hP htop => ⟨loopInv_step s hP.1 htop,
      loopStep_closed (KeysKept triangs) (keysKept_flipVertex triangs hcsr hnd hval) s hP.2.1,
      loopStep_mapPruned triangs hcsr hrec hsh hpts s hP.1 hP.2.1 hP.2.2 htop⟩)
    k _ s ⟨loopInv_initial pc _ hpts, ?_, ?_⟩ hs
  · exact orientLocalTriangulations_closed (KeysKept triangs)
      (keysKept_flipVertex triangs hcsr hnd hval) _ _ _ (keysKept_refl triangs)
  · exact ⟨List.nodup_nil, fun K r h => absurd h (by simp [loopEntryState, mapFind]),
      fun K r h => absurd h (by simp [loopEntryState, mapFind])⟩

/-- C23 as stated fails. `islandStore` lists the triangles of the vertex 0 in the fan of the
vertex 0 only: the function returns true after visiting the vertices 3, 4, 0, 1, 2, and the map
still holds the three triangles of the vertex 0, whose vertices have all been visited. In
`repeatStore` every fan triangle is listed by the fans of its three vertices, but the fan of the
vertex 0 lists the neighbour 2 twice: the seed pass reverses it to 1, 2, 2 with the border 1,
which adds the pair of the two equal neighbours to its triangles, and the function returns true
with an entry for it in the map. -/
theorem autoOrientLocalTriangulations_map_not_pruned :
    (autoOrientLocalTriangulations 6 islandCloud islandStore none []).map
      (fun r => (r.ok, r.state.visitOrder, r.state.map))
      = some (true, [3, 4, 0, 1, 2],
        [(⟨0, 1, 2⟩, ⟨0, 1⟩), (⟨0, 2, 3⟩, ⟨0, 1⟩), (⟨0, 1, 3⟩, ⟨1, 0⟩)]) ∧
    (repeatStore.ValidCSR ∧ repeatStore.NeighborsValid ∧ repeatStore.NoCenterInFan ∧
      repeatStore.TrianglesShared ∧ ¬ repeatStore.FansNodup) ∧
    (autoOrientLocalTriangulations 4 repeatCloud repeatStore none []).map
      (fun r => (r.ok, r.state.visitOrder, r.state.map))
      = some (true, [0, 1, 2], [(⟨0, 2, 2⟩, ⟨1, 0⟩)]) := by
  refine ⟨by decide!, by decide, by decide!⟩

theorem validPoints_lt (bs : List Bool) (n : Nat) (h : bs.length ≤ n) (v : Nat)
    (hv : bs.getD v false = true) : v < n := by
  by_contra hge
  rw [List.getD_eq_default _ _ (by omega)] at hv
  exact Bool.noConfusion hv

/-- C23 (amended): for every point cloud and every Fan Store with a record for each point plus
the sentinel, valid offsets, pairwise distinct valid neighbours in every fan, in which every fan
triangle is listed by the fans of all three of its vertices, after every expansion step of
`autoOrientLocalTriangulations` the map has pairwise distinct keys and every entry has a corner
that is a vertex not visited yet (its bit in `notVisited` is set and it is not among the visited
vertices): the map contains no entry whose three vertices have all been visited. Over exact
arithmetic the function returns when its loop is given more than `|validPoints|` iterations,
and the map is empty when it returns true. -/
theorem autoOrientLocalTriangulations_map_pruned {α : Type} [LinearOrderedField α]
    (pc : PointCloud α) (triangs : AllLocalTriangulations)
    (hpts : ∀ v, pc.validPoints.getD v false = true → v < pc.points.length)
    (hrec : triangs.fanRecords.length = pc.points.length + 1)
    (hcsr : triangs.ValidCSR) (hnd : triangs.FansNodup) (hval : triangs.NeighborsValid)
    (hsh : triangs.TrianglesShared) :
    (∀ k s, iterationState k (loopEntryState pc triangs) = some s →
      (s.map.map Prod.fst).Nodup ∧
      ∀ e ∈ s.map, ∃ x : Int, (x = e.1.a ∨ x = e.1.b ∨ x = e.1.c) ∧ 0 ≤ x ∧
        s.notVisited.getD x.toNat false = true ∧ x.toNat ∉ s.visitOrder) ∧
    (∀ fuel progress sched, countBits pc.validPoints < fuel →
      ∃ r, autoOrientLocalTriangulations fuel pc triangs progress sched = some r ∧
        (r.ok = true → r.state.map = [])) := by
  have hbit : ∀ (nv : List Bool) (x : Int), testBit nv x = true →
      0 ≤ x ∧ nv.getD x.toNat false = true := by
    intro nv x h
    unfold testBit at h
    rw [Bool.and_eq_true, decide_eq_true_eq] at h
    exact h
  constructor
  · intro k s hs
    obtain ⟨hl, -, hp⟩ := mapPruned_iteration pc triangs hpts hrec hcsr hnd hval hsh k s hs
    refine ⟨hp.keys_nodup, fun e he => ?_⟩
    have hfind := mapFind_of_mem s.map hp.keys_nodup e.1 e.2 he
    have hmk : ∀ x : Int, testBit s.notVisited x = true →
        0 ≤ x ∧ s.notVisited.getD x.toNat false = true ∧ x.toNat ∉ s.visitOrder := by
      intro x hx
      obtain ⟨h0, h1⟩ := hbit _ _ hx
      refine ⟨h0, h1, fun hmem => ?_⟩
      rw [hl.order_visited _ hmem] at h1
      exact Bool.noConfusion h1
    rcases hp.pending e.1 e.2 hfind with c | c | c
    · exact ⟨_, Or.inl rfl, hmk _ c⟩
    · exact ⟨_, Or.inr (Or.inl rfl), hmk _ c⟩
    · exact ⟨_, Or.inr (Or.inr rfl), hmk _ c⟩
  · intro fuel progress sched hfuel
    obtain ⟨r, hr, -⟩ := autoOrientLocalTriangulations_closed (fun _ => True)
      (fun _ _ _ _ => trivial) fuel pc triangs progress sched trivial hfuel
    refine ⟨r, hr, fun hok => ?_⟩
    rcases autoOrient_state_cases fuel pc triangs progress sched r hr with ⟨h1, -⟩ | ⟨k, hk, hn⟩
    · rw [hok] at h1; exact Bool.noConfusion h1
    · obtain ⟨hl, -, hp⟩ := mapPruned_iteration pc triangs hpts hrec hcsr hnd hval hsh k _ hk
      have hclear : ∀ x : Int, testBit r.state.notVisited x = true → False := by
        intro x hx
        obtain ⟨-, h1⟩ := hbit _ _ hx
        have hne := (hl.heap_iff x.toNat).2 h1
        have hpos : 0 < r.state.heap.length := by
          by_contra h0
          apply hne
          rw [List.getD_eq_default _ _ (by omega)]
        exact hne ((heapTop_spec r.state.heap hpos).2.2 (hn hok) x.toNat)
      cases hmap : r.state.map with
      | nil => rfl
      | cons e rest =>
        exfalso
        have hfind : mapFind r.state.map e.1 = some e.2 := by
          rw [hmap]; simp [mapFind]
        rcases hp.pending _ _ hfind with c | c | c
        · exact hclear _ c
        · exact hclear _ c
        · exact hclear _ c

/-- C23 (amended) at a concrete input: the flat grid, whose boundary fans are open. -/
theorem autoOrientLocalTriangulations_map_pruned_witness :
    (gridStore.ValidCSR ∧ gridStore.FansNodup ∧ gridStore.NeighborsValid ∧
      gridStore.TrianglesShared) ∧
    (autoOrientLocalTriangulations 10 gridCloud gridStore none []).map
      (fun r => (r.ok, r.state.map)) = some (true, []) ∧
    ((∀ k s, iterationState k (loopEntryState gridCloud gridStore) = some s →
      (s.map.map Prod.fst).Nodup ∧
      ∀ e ∈ s.map, ∃ x : Int, (x = e.1.a ∨ x = e.1.b ∨ x = e.1.c) ∧ 0 ≤ x ∧
        s.notVisited.getD x.toNat false = true ∧ x.toNat ∉ s.visitOrder) ∧
    (∀ fuel progress sched, countBits gridCloud.validPoints < fuel →
      ∃ r, autoOrientLocalTriangulations fuel gridCloud gridStore progress sched = some r ∧
        (r.ok = true → r.state.map = []))) :=
  ⟨by decide, by decide!,
    autoOrientLocalTriangulations_map_pruned gridCloud gridStore
      (validPoints_lt _ _ (by decide)) (by decide) (by decide) (by decide) (by decide)
      (by decide)⟩


/-- After a sequence of writes of the first pass, every index holds what it held before, or the
record and the source pointer that one of the writes wrote there. -/
theorem fill_pairs (es : List FanEntry) (hpos : ∀ e ∈ es, 0 ≤ e.center) :
    ∀ st : FillState, st.firstNeiSrc.length = st.fanRecords.length →
      (∀ e ∈ es, e.center.toNat < st.fanRecords.length) →
      (es.foldl applyEntry st).fanRecords.length = st.fanRecords.length ∧
      (es.foldl applyEntry st).firstNeiSrc.length = st.fanRecords.length ∧
      ∀ v, ((es.foldl applyEntry st).fanRecords.getD v default = st.fanRecords.getD v default ∧
          (es.foldl applyEntry st).firstNeiSrc.getD v default
            = st.firstNeiSrc.getD v default ∧
          (v : Int) ∉ es.map (·.center)) ∨
        ∃ e ∈ es, e.center.toNat = v ∧
          (es.foldl applyEntry st).fanRecords.getD v default = e.fan ∧
          (es.foldl applyEntry st).firstNeiSrc.getD v default = e.src := by
  induction es with
  | nil =>
    intro st hl _
    exact ⟨rfl, hl, fun v => Or.inl ⟨rfl, rfl, by simp⟩⟩
  | cons e es ih =>
    intro st hl hlt
    have hp := hpos e (List.mem_cons_self _ _)
    have hlte := hlt e (List.mem_cons_self _ _)
    have h1 : (applyEntry st e).fanRecords = st.fanRecords.set e.center.toNat e.fan := by
      simp [applyEntry, setAt, hp]
    have h2 : (applyEntry st e).firstNeiSrc = st.firstNeiSrc.set e.center.toNat e.src := by
      simp [applyEntry, setAt, hp]
    have hl1 : (applyEntry st e).fanRecords.length = st.fanRecords.length := by
      rw [h1, List.length_set]
    have hl2 : (applyEntry st e).firstNeiSrc.length = (applyEntry st e).fanRecords.length := by
      rw [h1, h2, List.length_set, List.length_set]; exact hl
    obtain ⟨i1, i2, i3⟩ := ih (fun e1 h => hpos e1 (List.mem_cons_of_mem _ h))
      (applyEntry st e) hl2
      (fun e1 h => by rw [hl1]; exact hlt e1 (List.mem_cons_of_mem _ h))
    rw [List.foldl_cons]
    refine ⟨i1.trans hl1, i2.trans hl1, fun v => ?_⟩
    rcases i3 v with ⟨a1, a2, a3⟩ | ⟨e1, he1, b⟩
    · by_cases hv : e.center.toNat = v
      · right
        refine ⟨e, List.mem_cons_self _ _, hv, ?_, ?_⟩
        · rw [a1, h1, ← hv, getD_set_eq _ _ _ _ hlte]
        · rw [a2, h2, ← hv, getD_set_eq _ _ _ _ (by rw [hl]; exact hlte)]
      · left
        refine ⟨?_, ?_, ?_⟩
        · rw [a1, h1, getD_set_ne _ _ _ _ _ hv]
        · rw [a2, h2, getD_set_ne _ _ _ _ _ hv]
        · intro hm
          rw [List.map_cons, List.mem_cons] at hm
          rcases hm with hm | hm
          · apply hv; rw [← hm]; simp
          · exact a3 hm
    · exact Or.inr ⟨e1, List.mem_cons_of_mem _ he1, b⟩

theorem applyWrites_sum_le (ws : List (Nat × Nat)) :
    ∀ arr : List Nat, (applyWrites arr ws).sum ≤ arr.sum + (ws.map Prod.snd).sum := by
  induction ws with
  | nil => intro arr; simp [applyWrites]
  | cons w ws ih =>
    intro arr
    have e : applyWrites arr (w :: ws) = applyWrites (arr.set w.1 w.2) ws := rfl
    rw [e, List.map_cons, List.sum_cons]
    have h1 := ih (arr.set w.1 w.2)
    have h2 : (arr.set w.1 w.2).sum ≤ arr.sum + w.2 := by
      rcases Nat.lt_or_ge w.1 arr.length with h | h
      · have := sum_set_add arr w.1 w.2 h
        omega
      · rw [List.set_eq_of_length_le h]
        omega
    omega

/-- The source pointer and the number of neighbours that a record of a collection writes stay
inside the neighbour array of the collection. -/
theorem fanEntries_inside (nbrs : List Int) :
    ∀ rs : List FanRecordWithCenter,
      (∀ r ∈ rs, r.firstNei < u32Size ∧ r.firstNei ≤ nbrs.length) →
      List.Chain' (fun a b : FanRecordWithCenter => a.firstNei ≤ b.firstNei) rs →
      ∀ e ∈ fanEntries nbrs rs, e.src.pos + e.fan.firstNei ≤ e.src.arr.length
  | [], _, _, e, he => by simp [fanEntries] at he
  | [_], _, _, e, he => by simp [fanEntries] at he
  | r :: r1 :: rest, h, hc, e, he => by
    rw [fanEntries, List.mem_cons] at he
    rcases he with he | he
    · subst he
      have hr1 := h r1 (List.mem_cons_of_mem _ (List.mem_cons_self _ _))
      have hle : r.firstNei ≤ r1.firstNei := (List.chain'_cons.1 hc).1
      simp only
      rw [sub32_eq _ _ hle hr1.1]
      omega
    · exact fanEntries_inside nbrs (r1 :: rest)
        (fun x hx => h x (List.mem_cons_of_mem _ hx)) (List.chain'_cons.1 hc).2 e he

theorem allEntries_inside (inp : List SomeLocalTriangulations)
    (h32 : ∀ lt ∈ inp, lt.WellTyped) (hmono : ∀ lt ∈ inp, lt.OffsetsMonotone)
    (hin : ∀ lt ∈ inp, lt.OffsetsInside) :
    ∀ e ∈ allEntries inp, e.src.pos + e.fan.firstNei ≤ e.src.arr.length := by
  intro e he
  simp only [allEntries, List.mem_flatMap] at he
  obtain ⟨lt, hlt, hel⟩ := he
  exact fanEntries_inside lt.neighbors lt.fanRecords
    (fun r hr => ⟨(h32 lt hlt).1 r hr, hin lt hlt r hr⟩)
    (offsets_chain_of_index _ (hmono lt hlt)) e hel


theorem getD_replicate_default {β : Type} (n v : Nat) (d : β) :
    (List.replicate n d).getD v d = d := by
  rcases Nat.lt_or_ge v n with h | h
  · rw [List.getD_eq_getElem _ _ (by rw [List.length_replicate]; exact h)]
    exact List.getElem_replicate _ _
  · exact List.getD_eq_default _ _ (by rw [List.length_replicate]; exact h)

/-- The arrays after the first pass of `uniteLocalTriangulations`, for centres that are valid
ids at most `maxCenterId`, whether or not a centre occurs twice. -/
theorem uniteFill_spec (a : SomeLocalTriangulations) (rest : List SomeLocalTriangulations)
    (hcb : ∀ lt ∈ a :: rest, lt.CentersBounded) :
    (uniteFill a rest).fanRecords.length = (maxElementCenterId a rest + 2).toNat ∧
    (∀ v, ((uniteFill a rest).fanRecords.getD v default = default ∧
        (uniteFill a rest).firstNeiSrc.getD v default = default) ∨
      ∃ e ∈ allEntries (a :: rest), e.center.toNat = v ∧
        (uniteFill a rest).fanRecords.getD v default = e.fan ∧
        (uniteFill a rest).firstNeiSrc.getD v default = e.src) ∧
    ((uniteFill a rest).fanRecords.map (·.firstNei)).sum
      ≤ ((allEntries (a :: rest)).map (·.fan.firstNei)).sum ∧
    ((uniteFill a rest).fanRecords.getD ((maxElementCenterId a rest + 2).toNat - 1)
      default).firstNei = 0 := by
  obtain ⟨hpos, hlt⟩ := allEntries_hyps a rest hcb
  have hfill : uniteFill a rest = (allEntries (a :: rest)).foldl applyEntry
      { fanRecords := List.replicate (maxElementCenterId a rest + 2).toNat default
        firstNeiSrc := List.replicate (maxElementCenterId a rest + 2).toNat default } :=
    fillAll_eq _ _
  obtain ⟨p1, -, p3⟩ := fill_pairs (allEntries (a :: rest)) hpos
    { fanRecords := List.replicate (maxElementCenterId a rest + 2).toNat default
      firstNeiSrc := List.replicate (maxElementCenterId a rest + 2).toNat default }
    (by simp only [List.length_replicate])
    (fun e he => by
      simp only [List.length_replicate]
      have := hlt e he
      omega)
  rw [← hfill] at p1 p3
  simp only [List.length_replicate] at p1
  have hpairs : ∀ v, ((uniteFill a rest).fanRecords.getD v default = default ∧
        (uniteFill a rest).firstNeiSrc.getD v default = default) ∨
      ∃ e ∈ allEntries (a :: rest), e.center.toNat = v ∧
        (uniteFill a rest).fanRecords.getD v default = e.fan ∧
        (uniteFill a rest).firstNeiSrc.getD v default = e.src := by
    intro v
    rcases p3 v with ⟨a1, a2, -⟩ | h
    · left
      simp only at a1 a2
      rw [getD_replicate_default] at a1 a2
      exact ⟨a1, a2⟩
    · exact Or.inr h
  refine ⟨p1, hpairs, ?_, ?_⟩
  · have hrec := foldl_applyEntry_fanRecords (allEntries (a :: rest)) hpos
      { fanRecords := List.replicate (maxElementCenterId a rest + 2).toNat default
        firstNeiSrc := List.replicate (maxElementCenterId a rest + 2).toNat default }
    rw [← hfill] at hrec
    rw [hrec, applyWrites_map]
    have := applyWrites_sum_le
      (List.map (fun w : Nat × FanRecord => (w.1, w.2.firstNei))
        (List.map (fun e : FanEntry => (e.center.toNat, e.fan)) (allEntries (a :: rest))))
      (List.map (fun x : FanRecord => x.firstNei)
        (List.replicate (maxElementCenterId a rest + 2).toNat default))
    have hz : (List.map (fun x : FanRecord => x.firstNei)
        (List.replicate (maxElementCenterId a rest + 2).toNat default)).sum = 0 := by
      rw [List.map_replicate, List.sum_replicate]
      simp [show (default : FanRecord).firstNei = 0 from rfl]
    rw [hz, Nat.zero_add] at this
    simpa [List.map_map, Function.comp_def] using this
  · rcases hpairs ((maxElementCenterId a rest + 2).toNat - 1) with ⟨a1, -⟩ | ⟨e, he, hv, -⟩
    · rw [a1]; rfl
    · have := hlt e he
      omega

/-- The assertion of `uniteLocalTriangulations` holds whenever the centres are valid ids at
most `maxCenterId`: the record of the sentinel has no neighbours. -/
theorem uniteAssertion_of_bounded (a : SomeLocalTriangulations)
    (rest : List SomeLocalTriangulations) (hcb : ∀ lt ∈ a :: rest, lt.CentersBounded) :
    uniteAssertion a rest := by
  obtain ⟨f1, -, -, f4⟩ := uniteFill_spec a rest hcb
  unfold uniteAssertion uniteOffsets
  rw [rewriteFirstNei_length, f1]
  generalize hn : (maxElementCenterId a rest + 2).toNat = n at f1 f4
  generalize (uniteFill a rest).fanRecords = recs at f1 f4
  rw [rewriteFirstNei_total _ _ (by simp [u32Size])]
  rcases Nat.eq_zero_or_pos n with h0 | hpos
  · subst h0
    rw [List.length_eq_zero] at f1
    subst f1
    rfl
  · rw [rewriteFirstNei_firstNei _ _ _ (by omega) (by simp [u32Size])]
    have h1 := sum_take_succ (recs.map (·.firstNei)) (n - 1) (by rw [List.length_map]; omega)
    have h2 : n - 1 + 1 = (recs.map (·.firstNei)).length := by rw [List.length_map]; omega
    rw [h2, sum_take_length, getD_map_firstNei, f4] at h1
    rw [h1]
    rfl

/-- With valid bounded centres, non-decreasing source offsets inside their arrays and fewer than
`2^32` neighbours in all, every array access of `uniteLocalTriangulations` is in bounds. -/
theorem uniteInBounds_of_total (a : SomeLocalTriangulations)
    (rest : List SomeLocalTriangulations)
    (h32 : ∀ lt ∈ a :: rest, lt.WellTyped)
    (hcb : ∀ lt ∈ a :: rest, lt.CentersBounded)
    (hmono : ∀ lt ∈ a :: rest, lt.OffsetsMonotone)
    (hin : ∀ lt ∈ a :: rest, lt.OffsetsInside)
    (htot : totalFanSize (a :: rest) < u32Size) :
    UniteInBounds a rest := by
  obtain ⟨hpos, hlt⟩ := allEntries_hyps a rest hcb
  obtain ⟨f1, f2, f3, -⟩ := uniteFill_spec a rest hcb
  have hsum := allEntries_sum_size (a :: rest) h32 hmono
  have hinside := allEntries_inside (a :: rest) h32 hmono hin
  obtain ⟨ltm, hltm, hmax⟩ := maxElementCenterId_mem rest a
  have hm1 : -1 ≤ maxElementCenterId a rest := by rw [hmax]; exact (h32 ltm hltm).2
  refine ⟨by omega, fun e he => ⟨hpos e he, by have := hlt e he; omega⟩, ?_⟩
  intro v hv j hj
  unfold uniteOffsets at hv hj ⊢
  rw [rewriteFirstNei_length, f1] at hv
  generalize hn : (maxElementCenterId a rest + 2).toNat = n at f1 hv
  have hcl : ((uniteFill a rest).fanRecords.map (·.firstNei)).length = n := by
    rw [List.length_map, f1]
  have hF : ∀ i, i < n →
      ((rewriteFirstNei (uniteFill a rest).fanRecords 0).1.getD i default).firstNei
        = (((uniteFill a rest).fanRecords.map (·.firstNei)).take i).sum := by
    intro i hi
    rw [rewriteFirstNei_firstNei _ _ _ (by omega) (by simp [u32Size])]
    have := sum_take_le ((uniteFill a rest).fanRecords.map (·.firstNei)) i
    rw [Nat.zero_add]
    apply Nat.mod_eq_of_lt
    omega
  have hT : (rewriteFirstNei (uniteFill a rest).fanRecords 0).2
      = ((uniteFill a rest).fanRecords.map (·.firstNei)).sum := by
    rw [rewriteFirstNei_total _ _ (by simp [u32Size]), Nat.zero_add]
    apply Nat.mod_eq_of_lt
    omega
  have hs := sum_take_succ ((uniteFill a rest).fanRecords.map (·.firstNei)) v (by omega)
  rw [getD_map_firstNei] at hs
  have hle := sum_take_le ((uniteFill a rest).fanRecords.map (·.firstNei)) (v + 1)
  rw [hF v (by omega), hF (v + 1) hv, hs] at hj
  rw [hF v (by omega), hT]
  refine ⟨by omega, ?_⟩
  rcases f2 v with ⟨a1, -⟩ | ⟨e, he, -, b1, b2⟩
  · rw [a1] at hj
    have : (default : FanRecord).firstNei = 0 := rfl
    omega
  · rw [b1] at hj
    rw [b2]
    have := hinside e he
    omega


/-- C25 as stated fails: the vertex 0 is a centre of both `duplicateFirst` and
`duplicateSecond`; the assertion on the computed offsets holds, and the function returns a
merged store, in which the vertex 0 has the fan 3, 4, 5 of the second collection. -/
theorem uniteLocalTriangulations_duplicate_undetected :
    ¬ (allCenters [duplicateFirst, duplicateSecond]).Nodup ∧
    (∀ lt ∈ [duplicateFirst, duplicateSecond],
      lt.WellTyped ∧ lt.CentersBounded ∧ lt.OffsetsMonotone ∧ lt.OffsetsInside) ∧
    uniteAssertion duplicateFirst [duplicateSecond] ∧
    (uniteLocalTriangulations [duplicateFirst, duplicateSecond] none []).1
      = some ⟨[3, 4, 5], [⟨-1, 0⟩, ⟨-1, 3⟩]⟩ := by
  decide

/-- C25 (amended): the invariant check of the Fan Merger does not catch a centre that occurs in
two input collections. For every non-empty list of partial collections whose values fit their
types, whose centres are valid ids at most `maxCenterId`, whose source offsets are
non-decreasing and within their neighbour array, and whose fan sizes sum to less than `2^32`,
whether or not a centre occurs twice: every array access of `uniteLocalTriangulations` is in
bounds, the assertion `res.fanRecords.back().firstNei == numNei` holds, and without
cancellation the function returns a merged store. -/
theorem uniteLocalTriangulations_assertion_holds (a : SomeLocalTriangulations)
    (rest : List SomeLocalTriangulations) (progress : ProgressCallback) (sched : List ℚ)
    (h32 : ∀ lt ∈ a :: rest, lt.WellTyped)
    (hcb : ∀ lt ∈ a :: rest, lt.CentersBounded)
    (hmono : ∀ lt ∈ a :: rest, lt.OffsetsMonotone)
    (hin : ∀ lt ∈ a :: rest, lt.OffsetsInside)
    (htot : totalFanSize (a :: rest) < u32Size)
    (hprog : ∀ f, progress = some f → ∀ k v, f k v = true) :
    UniteInBounds a rest ∧ uniteAssertion a rest ∧
    (uniteLocalTriangulations (a :: rest) progress sched).1 = some (uniteResult a rest) ∧
    (uniteResult a rest).fanRecords = (uniteOffsets a rest).1 :=
  ⟨uniteInBounds_of_total a rest h32 hcb hmono hin htot, uniteAssertion_of_bounded a rest hcb,
    uniteLocalTriangulations_eq_some a rest progress sched hprog, rfl⟩

/-- C25 (amended) at a concrete input: two collections with the centre 0. -/
theorem uniteLocalTriangulations_assertion_holds_witness :
    ¬ (allCenters [duplicateFirst, duplicateSecond]).Nodup ∧
    (UniteInBounds duplicateFirst [duplicateSecond] ∧
      uniteAssertion duplicateFirst [duplicateSecond] ∧
      (uniteLocalTriangulations [duplicateFirst, duplicateSecond] none []).1
        = some (uniteResult duplicateFirst [duplicateSecond]) ∧
      (uniteResult duplicateFirst [duplicateSecond]).fanRecords
        = (uniteOffsets duplicateFirst [duplicateSecond]).1) :=
  ⟨by decide, uniteLocalTriangulations_assertion_holds duplicateFirst [duplicateSecond] none []
    (by decide) (by decide) (by decide) (by decide) (by decide)
    (fun _ h => Option.noConfusion h)⟩

theorem overrun_hyps :
    ∀ lt ∈ [overrunFirst, overrunSecond],
      lt.WellTyped ∧ lt.CentersBounded ∧ lt.OffsetsMonotone ∧ lt.OffsetsInside := by
  intro lt hlt
  rw [List.mem_cons, List.mem_singleton] at hlt
  rcases hlt with h | h
  · subst h
    refine ⟨by decide, by decide, by decide, ?_⟩
    intro r hr
    have hl : overrunFirst.neighbors.length = 4294967295 := List.length_replicate _ _
    rw [hl]
    have hr2 : r ∈ [(⟨-1, 0, 0⟩ : FanRecordWithCenter), ⟨-1, 4294967295, -1⟩] := hr
    rw [List.mem_cons, List.mem_singleton] at hr2
    rcases hr2 with e | e <;> rw [e] <;> decide
  · subst h
    exact ⟨by decide, by decide, by decide, by decide⟩

/-- C30 as stated fails: `overrunFirst` and `overrunSecond` satisfy the hypotheses of the claim
and hold `2^32 + 1` neighbours in all. The 32-bit running sum wraps around: the merged offsets
are 0, `2^32 - 1`, 1 and `numNei` is 1, so the assertion holds, the merged neighbour array has
one element, and the copy of the fan of the vertex 0 writes `res.neighbors[1]` outside of it. -/
theorem uniteLocalTriangulations_out_of_bounds :
    (∀ lt ∈ [overrunFirst, overrunSecond],
      lt.WellTyped ∧ lt.CentersBounded ∧ lt.OffsetsMonotone ∧ lt.OffsetsInside) ∧
    (uniteOffsets overrunFirst [overrunSecond]).1.map (·.firstNei) = [0, 4294967295, 1] ∧
    (uniteOffsets overrunFirst [overrunSecond]).2 = 1 ∧
    uniteAssertion overrunFirst [overrunSecond] ∧
    ¬ UniteInBounds overrunFirst [overrunSecond] := by
  refine ⟨overrun_hyps, by decide, by decide, by decide, ?_⟩
  intro h
  have h1 := (h.2.2 0 (by decide) 1 (by decide)).1
  exact absurd h1 (by decide)

/-- C30 (amended): for every non-empty list of partial collections in which every centre is a
valid id at most its collection's `maxCenterId`, every source offset is a 32-bit value, the
source offsets are non-decreasing and within their neighbour array, and the fan sizes sum to
less than `2^32`, every array access of `uniteLocalTriangulations` is in bounds (the fan records
and source pointers indexed by centre, the reads of the source slices, the writes of the merged
neighbour array), and the assertion `res.fanRecords.back().firstNei == numNei` holds. -/
theorem uniteLocalTriangulations_in_bounds (a : SomeLocalTriangulations)
    (rest : List SomeLocalTriangulations)
    (h32 : ∀ lt ∈ a :: rest, lt.WellTyped)
    (hcb : ∀ lt ∈ a :: rest, lt.CentersBounded)
    (hmono : ∀ lt ∈ a :: rest, lt.OffsetsMonotone)
    (hin : ∀ lt ∈ a :: rest, lt.OffsetsInside)
    (htot : totalFanSize (a :: rest) < u32Size) :
    UniteInBounds a rest ∧ uniteAssertion a rest :=
  ⟨uniteInBounds_of_total a rest h32 hcb hmono hin htot, uniteAssertion_of_bounded a rest hcb⟩

/-- C30 (amended) at a concrete input: two collections with the fans of the vertices 0, 2 and
of the vertex 1. -/
theorem uniteLocalTriangulations_in_bounds_witness :
    ∃ a rest, exampleCollections = a :: rest ∧ totalFanSize (a :: rest) = 7 ∧
      (UniteInBounds a rest ∧ uniteAssertion a rest) :=
  ⟨_, _, rfl, by decide,
    uniteLocalTriangulations_in_bounds _ _ (by decide) (by decide) (by decide) (by decide)
      (by decide)⟩

/-- Along non-decreasing offsets an earlier offset is at most a later one. -/
theorem offsets_le_of_monotone (rs : List FanRecordWithCenter)
    (hm : ∀ i < rs.length - 1,
      (rs.getD i default).firstNei ≤ (rs.getD (i + 1) default).firstNei) :
    ∀ j, j < rs.length → ∀ i, i ≤ j →
      (rs.getD i default).firstNei ≤ (rs.getD j default).firstNei := by
  intro j
  induction j with
  | zero =>
    intro _ i hi
    have : i = 0 := by omega
    rw [this]
  | succ j ih =>
    intro hj i hi
    rcases Nat.lt_or_ge i (j + 1) with h | h
    · exact le_trans (ih (by omega) i (by omega)) (hm j (by omega))
    · have : i = j + 1 := by omega
      rw [this]

/-- The fan sizes of non-decreasing offsets add up to the last offset minus the first. -/
theorem fanSizes_sum_add : ∀ rs : List FanRecordWithCenter,
    (∀ i < rs.length - 1,
      (rs.getD i default).firstNei ≤ (rs.getD (i + 1) default).firstNei) →
    (fanSizes rs).sum + (rs.getD 0 default).firstNei
      = (rs.getD (rs.length - 1) default).firstNei
  | [], _ => by simp [fanSizes]
  | [r], _ => by simp [fanSizes]
  | r :: r1 :: rest, hm => by
    have h0 : r.firstNei ≤ r1.firstNei := by
      have := hm 0 (by simp)
      simpa using this
    have ih := fanSizes_sum_add (r1 :: rest) (fun i hi => by
      have := hm (i + 1) (by simp at hi ⊢; omega)
      simpa [List.getD_cons_succ] using this)
    simp only [fanSizes, List.sum_cons, List.getD_cons_zero, List.length_cons] at ih ⊢
    have e : (r :: r1 :: rest).getD (rest.length + 1 + 1 - 1) default
        = (r1 :: rest).getD (rest.length + 1 - 1) default := by
      rw [show rest.length + 1 + 1 - 1 = (rest.length + 1 - 1) + 1 by omega, List.getD_cons_succ]
    rw [e, ← ih]
    omega

/-- C4 (amended): merging a single partial collection whose records have centres `0, 1, ..., m`
in this order (followed by its sentinel record), whose `maxCenterId` is `m`, whose offsets are
non-decreasing, whose first offset is 0 and whose neighbour array has length equal to its
sentinel offset, accesses every array in bounds and yields a store whose neighbour array,
offsets and fan borders equal those of the collection. -/
theorem uniteLocalTriangulations_round_trip (lt : SomeLocalTriangulations) (m : Nat)
    (progress : ProgressCallback) (sched : List ℚ)
    (h32 : lt.WellTyped)
    (hlen : lt.fanRecords.length = m + 2)
    (hc : ∀ i ≤ m, (lt.fanRecords.getD i default).center = (i : Int))
    (hmax : lt.maxCenterId = (m : Int))
    (hmono : lt.OffsetsMonotone)
    (h0 : (lt.fanRecords.getD 0 default).firstNei = 0)
    (hL : lt.neighbors.length = (lt.fanRecords.getD (m + 1) default).firstNei)
    (hprog : ∀ f, progress = some f → ∀ k v, f k v = true) :
    UniteInBounds lt [] ∧
    ∃ res, (uniteLocalTriangulations [lt] progress sched).1 = some res ∧
      res.neighbors = lt.neighbors ∧
      res.fanRecords.map (·.firstNei) = lt.fanRecords.map (·.firstNei) ∧
      (∀ i ≤ m, (res.fanRecords.getD i default).border = (lt.fanRecords.getD i default).border) := by
  have hbounds : UniteInBounds lt [] := by
    have hlast : (lt.fanRecords.getD (lt.fanRecords.length - 1) default).firstNei
        = lt.neighbors.length := by
      rw [hL, hlen]; rfl
    apply uniteInBounds_of_total lt []
    · intro x hx; rw [List.mem_singleton] at hx; rw [hx]; exact h32
    · intro x hx; rw [List.mem_singleton] at hx; rw [hx]
      intro c hc1
      have hcen : lt.centers = (List.range (m + 1)).map (fun i : Nat => (i : Int)) :=
        centers_eq_range _ m hlen hc
      rw [hcen] at hc1
      obtain ⟨i, hi, hie⟩ := List.mem_map.1 hc1
      rw [List.mem_range] at hi
      rw [← hie, hmax]
      omega
    · intro x hx; rw [List.mem_singleton] at hx; rw [hx]; exact hmono
    · intro x hx; rw [List.mem_singleton] at hx; rw [hx]
      intro r hr
      obtain ⟨i, hi, rfl⟩ := List.getElem_of_mem hr
      have := offsets_le_of_monotone lt.fanRecords hmono (lt.fanRecords.length - 1) (by omega) i
        (by omega)
      rw [hlast, List.getD_eq_getElem _ _ hi] at this
      exact this
    · have hs := fanSizes_sum_add lt.fanRecords hmono
      rw [h0, hlast] at hs
      have hw : lt.neighbors.length < u32Size := by
        rw [← hlast]
        exact h32.1 _ (getD_mem _ _ _ (by omega))
      simp only [totalFanSize, List.map_cons, List.map_nil, List.sum_cons, List.sum_nil]
      omega
  refine ⟨hbounds, uniteResult lt [], uniteLocalTriangulations_eq_some lt [] progress sched hprog, ?_⟩
  have hn : (maxElementCenterId lt [] + 2).toNat = m + 2 := by
    simp only [maxElementCenterId, hmax]; omega
  have hes : allEntries [lt] = fanEntries lt.neighbors lt.fanRecords := by
    simp [allEntries]
  have hcen : (fanEntries lt.neighbors lt.fanRecords).map (·.center)
      = (List.range (m + 1)).map (fun i : Nat => (i : Int)) := by
    rw [fanEntries_map_center]; exact centers_eq_range _ m hlen hc
  have hrange : ∀ e ∈ fanEntries lt.neighbors lt.fanRecords,
      ∃ i : Nat, i ≤ m ∧ e.center = (i : Int) := by
    intro e he
    have : e.center ∈ (fanEntries lt.neighbors lt.fanRecords).map (·.center) :=
      List.mem_map.2 ⟨e, he, rfl⟩
    rw [hcen] at this
    obtain ⟨i, hi, hie⟩ := List.mem_map.1 this
    exact ⟨i, by simp at hi; omega, hie.symm⟩
  have hpos : ∀ e ∈ fanEntries lt.neighbors lt.fanRecords, 0 ≤ e.center := by
    intro e he
    obtain ⟨i, _, hie⟩ := hrange e he
    rw [hie]; omega
  have hlt : ∀ e ∈ fanEntries lt.neighbors lt.fanRecords, e.center.toNat + 1 < m + 2 := by
    intro e he
    obtain ⟨i, hi, hie⟩ := hrange e he
    rw [hie]; simp only [Int.toNat_ofNat]; omega
  have hnd : ((fanEntries lt.neighbors lt.fanRecords).map (·.center)).Nodup := by
    rw [hcen]
    exact List.Nodup.map (fun a b h => by exact_mod_cast h) (List.nodup_range _)
  obtain ⟨hflen, hfmem, hfnot⟩ := fill_spec _ (m + 2) hpos hlt hnd
  rw [uniteResult_eq_buildStore, hn, hes]
  simp only [buildStore]
  set st := (fanEntries lt.neighbors lt.fanRecords).foldl applyEntry
    { fanRecords := List.replicate (m + 2) default
      firstNeiSrc := List.replicate (m + 2) default } with hst
  -- what the record of vertex `i` holds after the first pass
  have hrec : ∀ i ≤ m,
      st.fanRecords.getD i default = ⟨(lt.fanRecords.getD i default).border,
        sub32 (lt.fanRecords.getD (i + 1) default).firstNei (lt.fanRecords.getD i default).firstNei⟩ ∧
      st.firstNeiSrc.getD i default = ⟨lt.neighbors, (lt.fanRecords.getD i default).firstNei⟩ := by
    intro i hi
    have := hfmem _ (mem_fanEntries lt.neighbors lt.fanRecords i (by omega))
    simp only [hc i hi, Int.toNat_ofNat] at this
    exact this
  have hsent : st.fanRecords.getD (m + 1) default = default := by
    apply hfnot
    rw [hcen]
    intro hmem
    obtain ⟨i, hi, hie⟩ := List.mem_map.1 hmem
    simp at hi
    have : (i : Int) = ((m + 1 : Nat) : Int) := hie
    omega
  obtain ⟨hF, hT⟩ := rewriteFirstNei_telescope st.fanRecords
    (fun i => (lt.fanRecords.getD i default).firstNei) (m + 1) hflen
    (fun i hi => h32.1 _ (getD_mem _ _ _ (by omega))) h0
    (fun i hi => by rw [(hrec i (by omega)).1]) (by rw [hsent]; rfl)
  have hrwlen : (rewriteFirstNei st.fanRecords 0).1.length = m + 2 := by
    rw [rewriteFirstNei_length, hflen]
  refine ⟨?_, ?_, ?_⟩
  · rw [hT, ← hL]
    apply copyNeighbors_identity lt.neighbors _ _ (m + 1) hrwlen
    · intro v hv
      rw [hrwlen] at hv
      rw [(hrec v (by omega)).2, hF v (by omega)]
    · rw [hF 0 (by omega), h0]
    · rw [hF (m + 1) (le_refl _), hL]
  · apply List.ext_getElem
    · simp [hrwlen, hlen]
    · intro i h1 h2
      have hi : i ≤ m + 1 := by simp [hlen] at h2; omega
      have e0 := hF i hi
      have e1 : (rewriteFirstNei st.fanRecords 0).1.getD i default
          = (rewriteFirstNei st.fanRecords 0).1[i] := List.getD_eq_getElem _ _ (by omega)
      have e2 : lt.fanRecords.getD i default = lt.fanRecords[i] :=
        List.getD_eq_getElem _ _ (by omega)
      rw [e1, e2] at e0
      simp only [List.getElem_map]
      exact e0
  · intro i hi
    rw [rewriteFirstNei_getD_border, (hrec i hi).1]

/-- C4 (amended) at a concrete input with three fans. -/
theorem uniteLocalTriangulations_round_trip_witness :
    UniteInBounds roundTripCollection [] ∧
    ∃ res, (uniteLocalTriangulations [roundTripCollection] none []).1 = some res ∧
      res.neighbors = [1, 2, 0, 2, 0, 1] ∧
      res.fanRecords.map (·.firstNei) = [0, 2, 4, 6] ∧
      (∀ i ≤ 2, (res.fanRecords.getD i default).border
        = (roundTripCollection.fanRecords.getD i default).border) :=
  uniteLocalTriangulations_round_trip roundTripCollection 2 none []
    (by decide) (by decide) (by decide) (by decide) (by decide) (by decide) (by decide)
    (fun f h => by cases h)

/-- C4 as stated fails. When `maxCenterId` exceeds the largest centre the merged store has more
records than the collection: `slackCollection` yields the offsets 0, 2, 2. When the offsets
decrease the copy leaves the arrays: `badOffsets` meets the hypotheses of the claim, the merged
fan of the vertex 0 has `5 - 0 = 5` neighbours, and the copy reads `lt.neighbors[3]` and writes
`res.neighbors[3]` in arrays of three elements. -/
theorem uniteLocalTriangulations_round_trip_fails :
    (slackCollection.fanRecords.length = 0 + 2 ∧
    (∀ i ≤ 0, (slackCollection.fanRecords.getD i default).center = (i : Int)) ∧
    (slackCollection.fanRecords.getD 0 default).firstNei = 0 ∧
    slackCollection.neighbors.length = (slackCollection.fanRecords.getD (0 + 1) default).firstNei ∧
    ∃ res, (uniteLocalTriangulations [slackCollection] none []).1 = some res ∧
      res.fanRecords.map (·.firstNei) = [0, 2, 2] ∧
      res.fanRecords.map (·.firstNei) ≠ slackCollection.fanRecords.map (·.firstNei)) ∧
    (badOffsets.WellTyped ∧ badOffsets.fanRecords.length = 1 + 2 ∧
    (∀ i ≤ 1, (badOffsets.fanRecords.getD i default).center = (i : Int)) ∧
    badOffsets.maxCenterId = 1 ∧
    (badOffsets.fanRecords.getD 0 default).firstNei = 0 ∧
    badOffsets.neighbors.length = (badOffsets.fanRecords.getD (1 + 1) default).firstNei ∧
    (uniteOffsets badOffsets []).1.map (·.firstNei) = [0, 5, 3] ∧
    (uniteOffsets badOffsets []).2 = 3 ∧
    ¬ UniteInBounds badOffsets []) := by
  refine ⟨⟨by decide, by decide, by decide, by decide, _,
    uniteLocalTriangulations_eq_some _ _ none [] (fun f h => by cases h), by decide, by decide⟩,
    by decide, by decide, by decide, by decide, by decide, by decide, by decide, by decide, ?_⟩
  intro h
  have h1 := (h.2.2 0 (by decide) 3 (by decide)).1
  exact absurd h1 (by decide)

theorem octaStore_connected : octaStore.Connected 6 := by
  intro v hv
  interval_cases v
  · exact Relation.ReflTransGen.refl
  · exact Relation.ReflTransGen.single (by decide)
  · exact Relation.ReflTransGen.single (by decide)
  · exact Relation.ReflTransGen.single (by decide)
  · exact Relation.ReflTransGen.single (by decide)
  · exact Relation.ReflTransGen.tail (Relation.ReflTransGen.single (b := 1) (by decide))
      (by decide)

/-- C5 as stated fails in binary32. The fan 1, 2 of the vertex 0 of `roundingStore` has the
border 2 and one triangle, whose value
`dot(dir, cross(coords[2]-coords[0], coords[1]-coords[0]))` is
`8192 * 8192 - 8065 * 8321 = -1` for the direction `(0, 0, 1)`: the sum `s` is `-1`, and in exact
arithmetic the slice is reversed. In binary32 the product `8065 * 8321 = 2^26 + 1` is rounded to
`2^26`, the value is 0, the triangle does not vote, and the slice is left as it is. -/
theorem orientLocalTriangulations_flip_rule_rounding :
    roundingStore.fan 0 = [1, 2] ∧ roundingStore.border 0 = 2 ∧
    fanTally (⟨0, 0, 1⟩ : Vector3 ℚ) ⟨0, 0, 0⟩ (coordsExact roundingCoords) 2 [1, 2] = -1 ∧
    orientLocalTriangulations roundingStore (coordsExact roundingCoords) (fun _ => ⟨0, 0, 1⟩)
      = { neighbors := [2, 1], fanRecords := [⟨1, 0⟩, ⟨-1, 2⟩, ⟨-1, 2⟩, ⟨-1, 2⟩] } ∧
    F32.finite 8065 * F32.finite 8321 = F32.finite 67108864 ∧
    orientLocalTriangulations roundingStore (coordsF32 roundingCoords) (fun _ => vecF32 0 0 1)
      = roundingStore := by
  decide!

/-- C10 as stated fails in binary32. `overflowCloud` has the valid points `(2^63, 0, 0)` and
`(-2^63, 0, 0)` and a third point that is not valid, `emptyStore3` has a record for each point
plus the sentinel, and there is no progress callback. The squared diagonal `2^128` of the
bounding box is beyond `FLT_MAX`, so `maxDistSqToCenter` and both weights are infinite: the
weights of the valid points are `-inf`, below the weight `InvalidWeight = -FLT_MAX` of the third
point. The top of the heap is the third point, the loop ends at once, and the function returns
true after 0 steps instead of 2, with no vertex visited. -/
theorem autoOrientLocalTriangulations_overflow :
    0 < overflowCloud.points.length ∧
    emptyStore3.fanRecords.length = overflowCloud.points.length + 1 ∧
    countBits overflowCloud.validPoints = 2 ∧
    initialHeapF32 overflowCloud = [F32.negInf, F32.negInf, invalidWeight] ∧
    heapTopF32 (initialHeapF32 overflowCloud) = (2, invalidWeight) ∧
    (autoOrientLocalTriangulationsF32 1 overflowCloud emptyStore3 none []).map
      (fun r => (r.ok, r.state.visitedCount, r.state.visitOrder, r.state.notVisited))
      = some (true, 0, [], [true, true, false]) := by
  decide!

/-- C11, the failing input in binary32. `octaStore` is a closed, connected, consistently wound
octahedron and the six points of `octaCloudF32` are valid. The centre of the bounding box has
the first coordinate `(1 + 2^24) / 2`, whose sum is rounded to `2^24`, and the points 2 and 4 get
the initial weight `+2^23`, against `assert( w <= 0 )`. They are visited first, the vertex 4
before any neighbour of it is visited, with the winding that the seed pass gave it, and the
function returns true with four triangles that hold votes of both kinds. In exact arithmetic the
function returns true with none. -/
theorem autoOrientLocalTriangulations_binary32_conflict :
    octaStore.Coherent 6 (fun _ => false) ∧ octaStore.Connected 6 ∧
    initialHeapF32 octaCloudF32 = [F32.finite (-8388608), F32.finite (-8388608),
      F32.finite 8388608, F32.finite (-8388608), F32.finite 8388608, F32.finite (-8388608)] ∧
    (autoOrientLocalTriangulationsF32 7 octaCloudF32 octaStore none []).map
      (fun r => (r.ok, r.state.visitOrder, computeTrianglesRepetitions oneShard r.state.triangs))
      = some (true, [2, 4, 0, 1, 3, 5], [4, 0, 0, 8]) ∧
    (autoOrientLocalTriangulations 7 octaCloud octaStore none []).map
      (fun r => (r.ok, computeTrianglesRepetitions oneShard r.state.triangs))
      = some (true, [0, 0, 0, 8]) :=
  ⟨by decide, octaStore_connected, by decide!, by decide!, by decide!⟩

/-- C24, the failing input in binary32. In `octaCloudF32` the initial priority of the vertex 4 is
`+2^23`, against `assert( w <= 0 )`. The first expansion step visits the vertex 2 and recomputes
the priorities of its neighbours 0, 1, 3 and 5: each of them is `|S - O| = 2`, below the initial
priority of the vertex 4, which is still in the heap. -/
theorem computeVertWeight_below_initial_binary32 :
    initialWeightF32 octaCloudF32 4 = F32.finite 8388608 ∧
    (0 : F32) < initialWeightF32 octaCloudF32 4 ∧
    heapTopF32 (loopEntryStateF32 octaCloudF32 octaStore).heap = (2, F32.finite 8388608) ∧
    (loopStepF32 (loopEntryStateF32 octaCloudF32 octaStore)).heap
      = [F32.finite 2, F32.finite 2, invalidWeight, F32.finite 2, F32.finite 8388608,
        F32.finite 2] ∧
    F32.finite 2 < F32.finite 8388608 := by
  decide!

theorem pow2_pos (k : Int) : 0 < pow2 k := by
  unfold pow2
  split_ifs
  · exact_mod_cast Nat.pow_pos (Nat.succ_pos 1)
  · apply div_pos one_pos
    exact_mod_cast Nat.pow_pos (Nat.succ_pos 1)

theorem roundHalfEven_nonneg (q : ℚ) (hq : 0 ≤ q) : 0 ≤ roundHalfEven q := by
  have hf : 0 ≤ ⌊q⌋ := Int.floor_nonneg.2 hq
  unfold roundHalfEven
  split_ifs <;> omega

theorem invalidWeight_not_lt_self : ¬ (invalidWeight < invalidWeight) := by
  show ¬ (F32.blt invalidWeight invalidWeight = true)
  simp [invalidWeight, F32.blt]

theorem invalidWeight_lt_finite (q : ℚ) (h : -fltMax < q) : invalidWeight < F32.finite q := by
  show F32.blt invalidWeight (F32.finite q) = true
  simp [invalidWeight, F32.blt, h]

theorem not_lt_invalidWeight (a : F32) (h : invalidWeight < a) : ¬ (a < invalidWeight) := by
  have h1 : F32.blt invalidWeight a = true := h
  show ¬ (F32.blt a invalidWeight = true)
  cases a with
  | finite q =>
    simp only [invalidWeight, F32.blt, decide_eq_true_eq] at h1 ⊢
    exact not_lt.2 (le_of_lt h1)
  | posInf => simp [invalidWeight, F32.blt]
  | negInf => simp [invalidWeight, F32.blt] at h1
  | nan => simp [invalidWeight, F32.blt] at h1

theorem ne_invalidWeight_of_lt (a : F32) (h : invalidWeight < a) : a ≠ invalidWeight := by
  intro e
  rw [e] at h
  exact invalidWeight_not_lt_self h

/-- The `float` value of a number that is not negative lies above `InvalidWeight`. -/
theorem invalidWeight_lt_round (q : ℚ) (hq : 0 ≤ q) : invalidWeight < F32.round q := by
  have hmax : (0 : ℚ) < fltMax := by unfold fltMax; norm_num
  unfold F32.round
  split_ifs with h0 h1 h2
  · exact invalidWeight_lt_finite 0 (by linarith)
  · show F32.blt invalidWeight F32.posInf = true
    rfl
  · exact absurd (lt_of_le_of_ne hq (Ne.symm h0)) h2
  · apply invalidWeight_lt_finite
    have hp := pow2_pos (max (floorLog2 q) (-126) - 23)
    have hr : 0 ≤ roundHalfEven (q / pow2 (max (floorLog2 q) (-126) - 23)) :=
      roundHalfEven_nonneg _ (div_nonneg hq (le_of_lt hp))
    have hr1 : (0 : ℚ) ≤ (roundHalfEven (q / pow2 (max (floorLog2 q) (-126) - 23)) : ℚ) := by
      exact_mod_cast hr
    have := mul_nonneg hr1 (le_of_lt hp)
    linarith

theorem heapTopFromF32_spec (xs : List F32) :
    ∀ (i : Nat) (best : Nat × F32),
      ((heapTopFromF32 xs i best) = best ∨
        ∃ j, j < xs.length ∧ heapTopFromF32 xs i best = (i + j, xs.getD j invalidWeight)) ∧
      ((heapTopFromF32 xs i best).2 = invalidWeight →
        (best.2 = invalidWeight ∨ invalidWeight < best.2) →
        (∀ x ∈ xs, x = invalidWeight ∨ invalidWeight < x) →
        best.2 = invalidWeight ∧ ∀ x ∈ xs, x = invalidWeight) := by
  induction xs with
  | nil =>
    intro i best
    exact ⟨Or.inl rfl, fun h _ _ => ⟨h, fun x hx => absurd hx (List.not_mem_nil _)⟩⟩
  | cons x xs ih =>
    intro i best
    simp only [heapTopFromF32]
    obtain ⟨h1, h2⟩ := ih (i + 1) (if best.2 < x then (i, x) else best)
    refine ⟨?_, ?_⟩
    · rcases h1 with h | ⟨j, hj, h⟩
      · rw [h]
        by_cases hl : best.2 < x
        · rw [if_pos hl]
          exact Or.inr ⟨0, by simp, by simp⟩
        · rw [if_neg hl]; exact Or.inl rfl
      · refine Or.inr ⟨j + 1, by simp; omega, ?_⟩
        rw [h, List.getD_cons_succ]
        congr 1
        omega
    · intro hn hb hxs
      have hx := hxs x (List.mem_cons_self _ _)
      have hrest : ∀ y ∈ xs, y = invalidWeight ∨ invalidWeight < y :=
        fun y hy => hxs y (List.mem_cons_of_mem _ hy)
      by_cases hl : best.2 < x
      · rw [if_pos hl] at h2 hn
        obtain ⟨g1, -⟩ := h2 hn hx hrest
        simp only at g1
        rw [g1] at hl
        rcases hb with e | e
        · rw [e] at hl; exact absurd hl invalidWeight_not_lt_self
        · exact absurd hl (not_lt_invalidWeight _ e)
      · rw [if_neg hl] at h2 hn
        obtain ⟨g1, g2⟩ := h2 hn hb hrest
        refine ⟨g1, fun y hy => ?_⟩
        rcases List.mem_cons.1 hy with e | e
        · rw [e]
          rcases hx with e1 | e1
          · exact e1
          · rw [g1] at hl; exact absurd e1 hl
        · exact g2 y e

/-- The top of a binary32 heap that is not empty is one of its elements, with its value; if the
value is `InvalidWeight` and no value of the heap lies below `InvalidWeight` or is a NaN, every
value of the heap is `InvalidWeight`. -/
theorem heapTopF32_spec (h : List F32) (hne : 0 < h.length) :
    (heapTopF32 h).1 < h.length ∧ h.getD (heapTopF32 h).1 invalidWeight = (heapTopF32 h).2 ∧
    ((heapTopF32 h).2 = invalidWeight →
      (∀ x ∈ h, x = invalidWeight ∨ invalidWeight < x) →
      ∀ j, h.getD j invalidWeight = invalidWeight) := by
  cases h with
  | nil => simp at hne
  | cons x xs =>
    simp only [heapTopF32, List.tail_cons, List.headD_cons]
    obtain ⟨h1, h2⟩ := heapTopFromF32_spec xs 1 (0, x)
    refine ⟨?_, ?_, ?_⟩
    · rcases h1 with e | ⟨j, hj, e⟩
      · rw [e]; simp
      · rw [e]; simp; omega
    · rcases h1 with e | ⟨j, hj, e⟩
      · rw [e]; simp
      · rw [e]
        have : 1 + j = j + 1 := by omega
        simp only [this, List.getD_cons_succ]
    · intro hn hall j
      obtain ⟨g1, g2⟩ := h2 hn (hall x (List.mem_cons_self _ _))
        (fun y hy => hall y (List.mem_cons_of_mem _ hy))
      simp only at g1
      cases j with
      | zero => simpa using g1
      | succ j =>
        rw [List.getD_cons_succ]
        by_cases hj : j < xs.length
        · rw [List.getD_eq_getElem _ _ hj]
          exact g2 _ (List.getElem_mem hj)
        · rw [List.getD_eq_default _ _ (by omega)]

/-- The second loop of `enqueueNeighbors` in binary32 keeps the length of the heap and changes
only values of vertices that are not visited, to a value above `InvalidWeight`. -/
theorem foldl_reweighStepF32_heap (nv : List Bool) (map : TriangleMap) (ns : List Nat) :
    ∀ s : AllLocalTriangulations × List F32,
      (ns.foldl (reweighStepF32 nv map) s).2.length = s.2.length ∧
      ∀ x, (ns.foldl (reweighStepF32 nv map) s).2.getD x invalidWeight
          = s.2.getD x invalidWeight ∨
        (nv.getD x false = true ∧
          invalidWeight < (ns.foldl (reweighStepF32 nv map) s).2.getD x invalidWeight) := by
  induction ns with
  | nil => intro s; exact ⟨rfl, fun x => Or.inl rfl⟩
  | cons n ns ih =>
    intro s
    simp only [List.foldl_cons]
    obtain ⟨i1, i2⟩ := ih (reweighStepF32 nv map s n)
    have hstep : (reweighStepF32 nv map s n).2.length = s.2.length ∧
        ∀ x, (reweighStepF32 nv map s n).2.getD x invalidWeight = s.2.getD x invalidWeight ∨
          (nv.getD x false = true ∧
            invalidWeight < (reweighStepF32 nv map s n).2.getD x invalidWeight) := by
      unfold reweighStepF32
      by_cases ht : testBit nv (s.1.neighbors.getD n (-1)) = true
      · rw [if_pos ht]
        refine ⟨by simp, ?_⟩
        intro x
        by_cases hx : (s.1.neighbors.getD n (-1)).toNat = x
        · by_cases hl : x < s.2.length
          · right
            simp only [testBit, Bool.and_eq_true, decide_eq_true_eq] at ht
            rw [hx] at ht
            refine ⟨ht.2, ?_⟩
            simp only [hx]
            rw [getD_set_eq _ _ _ _ hl]
            exact invalidWeight_lt_round _ (Nat.cast_nonneg _)
          · left
            simp only [hx]
            rw [List.set_eq_of_length_le (by omega)]
        · left
          simp only
          rw [getD_set_ne _ _ _ _ _ hx]
      · rw [if_neg ht]
        exact ⟨rfl, fun x => Or.inl rfl⟩
    refine ⟨by rw [i1, hstep.1], ?_⟩
    intro x
    rcases i2 x with e | e
    · rcases hstep.2 x with e1 | e1
      · left; rw [e, e1]
      · right; rw [e]; exact e1
    · right; exact e

/-- One iteration of the expansion loop in binary32 keeps the invariant and visits one more
vertex. -/
theorem enqueueNeighborsF32_inv (valid : List Bool) (n : Nat) (s : OrientStateF32) (base : Nat)
    (hinv : LoopInvF32 valid n s) (hbn : base < n)
    (hb : s.notVisited.getD base false = true) :
    LoopInvF32 valid n
      (enqueueNeighborsF32 { s with heap := s.heap.set base invalidWeight } base) ∧
    countBits (enqueueNeighborsF32
        { s with heap := s.heap.set base invalidWeight } base).notVisited + 1
      = countBits s.notVisited ∧
    (enqueueNeighborsF32 { s with heap := s.heap.set base invalidWeight } base).visitOrder
      = s.visitOrder ++ [base] := by
  have hnotin : base ∉ s.visitOrder := by
    intro hm
    have := hinv.order_visited base hm
    rw [hb] at this
    exact absurd this (by simp)
  obtain ⟨f1, f2⟩ := foldl_reweighStepF32_heap (s.notVisited.set base false)
    ((fanPairsAt s.triangs.neighbors (s.triangs.fanRecords.getD base default).firstNei
        (s.triangs.fanRecords.getD (base + 1) default).firstNei).foldl
      (registerStep (s.notVisited.set base false) base
        (s.triangs.fanRecords.getD base default).border) s.map)
    (List.range' (s.triangs.fanRecords.getD base default).firstNei
      ((s.triangs.fanRecords.getD (base + 1) default).firstNei
        - (s.triangs.fanRecords.getD base default).firstNei))
    (s.triangs, s.heap.set base invalidWeight)
  refine ⟨⟨?_, ?_, ?_, ?_, ?_, ?_, ?_, ?_⟩, ?_, rfl⟩
  · simp only [enqueueNeighborsF32]
    rw [f1]
    simp only [List.length_set]
    exact hinv.heap_length
  · intro v
    simp only [enqueueNeighborsF32]
    rw [getD_set_false]
    rcases f2 v with e | e
    · rw [e]
      by_cases hv : base = v
      · subst hv
        rw [if_pos rfl, getD_set_eq _ _ _ _ (by rw [hinv.heap_length]; exact hbn)]
        simp
      · rw [if_neg hv, getD_set_ne _ _ _ _ _ hv]
        exact hinv.heap_iff v
    · rw [getD_set_false] at e
      exact ⟨fun _ => e.1, fun _ => ne_invalidWeight_of_lt _ e.2⟩
  · intro v hv
    simp only [enqueueNeighborsF32] at hv ⊢
    rw [getD_set_false] at hv
    rcases f2 v with e | e
    · rw [e]
      by_cases hbv : base = v
      · rw [if_pos hbv] at hv; exact Bool.noConfusion hv
      · rw [if_neg hbv] at hv
        rw [getD_set_ne _ _ _ _ _ hbv]
        exact hinv.heap_above v hv
    · exact e.2
  · simp only [enqueueNeighborsF32]
    exact List.Nodup.append hinv.order_nodup (List.nodup_singleton _)
      (by simpa using hnotin)
  · intro v hv
    simp only [enqueueNeighborsF32] at hv ⊢
    rw [getD_set_false]
    by_cases hbv : base = v
    · rw [if_pos hbv]
    · rw [if_neg hbv]
      rcases List.mem_append.1 hv with h | h
      · exact hinv.order_visited v h
      · simp at h; exact absurd h.symm hbv
  · intro v
    simp only [enqueueNeighborsF32]
    rw [getD_set_false, hinv.valid_iff v]
    by_cases hbv : base = v
    · subst hbv
      rw [if_pos rfl]
      exact ⟨fun _ => Or.inl (List.mem_append_right _ (List.mem_singleton_self _)),
        fun _ => Or.inr hb⟩
    · have : ¬ v = base := fun e => hbv e.symm
      rw [if_neg hbv, List.mem_append, List.mem_singleton]
      constructor
      · rintro (h | h)
        · exact Or.inl (Or.inl h)
        · exact Or.inr h
      · rintro ((h | h) | h)
        · exact Or.inl h
        · exact absurd h this
        · exact Or.inr h
  · simp only [enqueueNeighborsF32, List.length_append, List.length_singleton]
    have := countBits_set_false s.notVisited base hb
    have := hinv.count_eq
    omega
  · simp only [enqueueNeighborsF32, List.length_append, List.length_singleton]
    rw [hinv.visitedCount_eq]
  · simp only [enqueueNeighborsF32]
    exact countBits_set_false s.notVisited base hb

/-- With a callback that never answers false, the expansion loop in binary32 ends after one
iteration for every vertex that is not visited yet, and the function returns true. -/
theorem expansionLoopF32_terminates (progress : ProgressCallback)
    (hprog : ∀ f, progress = some f → ∀ k v, f k v = true) (total : Nat) (valid : List Bool)
    (n : Nat) (hn : 0 < n) :
    ∀ (fuel : Nat) (s : OrientStateF32) (log : ProgressLog), LoopInvF32 valid n s →
      countBits s.notVisited < fuel →
      ∃ r, expansionLoopF32 progress total fuel s log = some r ∧ r.ok = true ∧
        LoopInvF32 valid n r.state ∧ countBits r.state.notVisited = 0 ∧
        ∃ rest, r.state.visitOrder = s.visitOrder ++ rest := by
  intro fuel
  induction fuel with
  | zero => intro s log _ h; omega
  | succ fuel ih =>
    intro s log hinv hfuel
    obtain ⟨t1, t2, t3⟩ := heapTopF32_spec s.heap (by rw [hinv.heap_length]; exact hn)
    have hall : ∀ x ∈ s.heap, x = invalidWeight ∨ invalidWeight < x := by
      intro x hx
      obtain ⟨j, hj, rfl⟩ := List.getElem_of_mem hx
      have e : s.heap.getD j invalidWeight = s.heap[j] := List.getD_eq_getElem _ _ hj
      by_cases hv : s.notVisited.getD j false = true
      · right; rw [← e]; exact hinv.heap_above j hv
      · left
        rw [← e]
        by_contra hne
        exact hv ((hinv.heap_iff j).1 hne)
    simp only [expansionLoopF32]
    by_cases htop : (heapTopF32 s.heap).2 = invalidWeight
    · rw [if_pos htop]
      refine ⟨_, rfl, rfl, hinv, ?_, [], by simp⟩
      apply countBits_eq_zero
      intro j
      have h1 := t3 htop hall j
      have h2 := hinv.heap_iff j
      rw [h1] at h2
      cases hj : s.notVisited.getD j false
      · rfl
      · exact absurd (h2.2 hj) (by simp)
    · rw [if_neg htop]
      have hb : s.notVisited.getD (heapTopF32 s.heap).1 false = true :=
        (hinv.heap_iff _).1 (by rw [t2]; exact htop)
      obtain ⟨e1, e2, e3⟩ := enqueueNeighborsF32_inv valid n s (heapTopF32 s.heap).1 hinv
        (by rw [← hinv.heap_length]; exact t1) hb
      rw [if_neg (by rw [reportProgressEvery_true _ _ _ _ _ hprog]; simp)]
      obtain ⟨r, r1, r2, r3, r4, rest, r5⟩ := ih _
        (reportProgressEvery progress log _ _ 65536).2 e1 (by omega)
      exact ⟨r, r1, r2, r3, r4, (heapTopF32 s.heap).1 :: rest, by rw [r5, e3]; simp⟩

theorem initialHeapF32_getD (pc : PointCloud F32) (v : Nat) :
    (initialHeapF32 pc).getD v invalidWeight
      = if v < pc.points.length ∧ pc.validPoints.getD v false = true then initialWeightF32 pc v
        else invalidWeight := by
  unfold initialHeapF32
  by_cases hv : v < pc.points.length
  · rw [List.getD_eq_getElem _ _ (by simp only [List.length_map, List.length_range]; exact hv)]
    simp only [List.getElem_map, List.getElem_range]
    cases pc.validPoints.getD v false <;> simp [hv]
  · rw [List.getD_eq_default _ _ (by simp only [List.length_map, List.length_range]; omega),
      if_neg (fun h => hv h.1)]

theorem loopInvF32_initial (pc : PointCloud F32) (t : AllLocalTriangulations)
    (hvalid : ∀ v, pc.validPoints.getD v false = true → v < pc.points.length)
    (hno : ∀ v, pc.validPoints.getD v false = true → invalidWeight < initialWeightF32 pc v) :
    LoopInvF32 pc.validPoints pc.points.length
      (⟨t, initialHeapF32 pc, [], pc.validPoints, 0, []⟩ : OrientStateF32) where
  heap_length := by simp [initialHeapF32]
  heap_iff := by
    intro v
    simp only
    rw [initialHeapF32_getD]
    constructor
    · intro h
      by_contra hv
      exact h (if_neg (fun c => hv c.2))
    · intro h
      rw [if_pos ⟨hvalid v h, h⟩]
      exact ne_invalidWeight_of_lt _ (hno v h)
  heap_above := by
    intro v h
    simp only at h ⊢
    rw [initialHeapF32_getD, if_pos ⟨hvalid v h, h⟩]
    exact hno v h
  order_nodup := List.nodup_nil
  order_visited := fun v hv => absurd hv (List.not_mem_nil v)
  valid_iff := fun v => ⟨fun h => Or.inr h, fun h => h.elim (fun h => absurd h (List.not_mem_nil v)) id⟩
  count_eq := by simp
  visitedCount_eq := rfl

/-- C10 (amended): in binary32, for every point cloud with at least one point whose valid points
are points of the cloud and whose initial weights all lie above `InvalidWeight = -FLT_MAX` (none
has overflowed to `-inf` or is a NaN), and every store with a record for each point plus the
sentinel, if the progress callback never answers false then `autoOrientLocalTriangulations`
returns true as soon as the expansion loop is given more than `|validPoints|` iterations: the
loop ends after exactly `|validPoints|` calls of `enqueueNeighbors`, the visited vertices are
pairwise distinct, and a vertex is visited if and only if it is valid (also when no fan connects
it to the vertex visited first). -/
theorem autoOrientLocalTriangulations_terminates_binary32
    (fuel : Nat) (pc : PointCloud F32) (triangs : AllLocalTriangulations)
    (progress : ProgressCallback) (sched : List ℚ)
    (hpts : 0 < pc.points.length)
    (hvalid : ∀ v, pc.validPoints.getD v false = true → v < pc.points.length)
    (_hrec : pc.points.length + 1 ≤ triangs.fanRecords.length)
    (hno : ∀ v, pc.validPoints.getD v false = true → invalidWeight < initialWeightF32 pc v)
    (hprog : ∀ f, progress = some f → ∀ k v, f k v = true)
    (hfuel : countBits pc.validPoints < fuel) :
    ∃ r, autoOrientLocalTriangulationsF32 fuel pc triangs progress sched = some r ∧
      r.ok = true ∧
      r.state.visitedCount = countBits pc.validPoints ∧
      r.state.visitOrder.length = countBits pc.validPoints ∧
      r.state.visitOrder.Nodup ∧
      (∀ v, v ∈ r.state.visitOrder ↔ pc.validPoints.getD v false = true) ∧
      countBits r.state.notVisited = 0 := by
  obtain ⟨r, r1, r2, r3, r4, _⟩ := expansionLoopF32_terminates
    (subprogress progress (1 / 10) 1) (subprogress_true progress _ _ hprog)
    (countBits pc.validPoints) pc.validPoints pc.points.length hpts fuel
    ⟨orientLocalTriangulations triangs pc.points
      (fun v => (getAt pc.points v default).sub (boxCenter pc.computeBoundingBox)),
      initialHeapF32 pc, [], pc.validPoints, 0, []⟩
    (reportProgress progress (parallelForProgress (subprogress progress (1 / 20) (3 / 40)) sched
      (reportProgress progress (reportProgress progress (reportProgress progress [] (1 / 40)).2
        (1 / 40)).2 (1 / 20)).2).2 (1 / 10)).2
    (loopInvF32_initial pc _ hvalid hno) hfuel
  refine ⟨r, ?_, r2, ?_, ?_, r3.order_nodup, ?_, r4⟩
  · simp only [autoOrientLocalTriangulationsF32]
    rw [if_neg (by rw [reportProgress_true _ _ _ hprog]; simp),
      if_neg (by rw [reportProgress_true _ _ _ hprog]; simp),
      if_neg (by rw [reportProgress_true _ _ _ hprog]; simp),
      if_neg (by rw [parallelForProgress_true _ _ (subprogress_true progress _ _ hprog)]; simp),
      if_neg (by rw [reportProgress_true _ _ _ hprog]; simp)]
    exact r1
  · have := r3.count_eq
    have := r3.visitedCount_eq
    omega
  · have := r3.count_eq
    omega
  · intro v
    have hnv : r.state.notVisited.getD v false = false := by
      cases h : r.state.notVisited.getD v false
      · rfl
      · have := countBits_pos _ _ h
        omega
    rw [r3.valid_iff v, hnv]
    simp

/-- C10 (amended) at a concrete input: the six points of `octaCloudF32`, whose initial weights
are `-2^23` and `+2^23`, are visited. -/
theorem autoOrientLocalTriangulations_terminates_binary32_witness :
    ∃ r, autoOrientLocalTriangulationsF32 7 octaCloudF32 octaStore none [] = some r ∧
      r.ok = true ∧
      r.state.visitedCount = countBits octaCloudF32.validPoints ∧
      r.state.visitOrder.length = countBits octaCloudF32.validPoints ∧
      r.state.visitOrder.Nodup ∧
      (∀ v, v ∈ r.state.visitOrder ↔ octaCloudF32.validPoints.getD v false = true) ∧
      countBits r.state.notVisited = 0 :=
  autoOrientLocalTriangulations_terminates_binary32 7 octaCloudF32 octaStore none []
    (by decide) (validPoints_lt _ _ (by decide)) (by decide)
    (fun v hv => by
      have hlt : v < 6 := validPoints_lt _ 6 (by decide) v hv
      interval_cases v <;> decide!)
    (fun _ h => Option.noConfusion h) (by decide)

theorem log2Fuel_le : ∀ (fuel n k : Nat), n < 2 ^ (k + 1) → log2Fuel fuel n ≤ k := by
  intro fuel
  induction fuel with
  | zero => intro n k _; simp [log2Fuel]
  | succ fuel ih =>
    intro n k h
    simp only [log2Fuel]
    split_ifs with h2
    · omega
    · cases k with
      | zero => simp at h; omega
      | succ k =>
        have : n / 2 < 2 ^ (k + 1) := by
          rw [Nat.div_lt_iff_lt_mul (by decide)]
          rw [pow_succ] at h
          exact h
        have := ih (n / 2) k this
        omega

theorem roundHalfEven_intCast (z : Int) : roundHalfEven (z : ℚ) = z := by
  unfold roundHalfEven
  simp

theorem pow2_nonpos (e : Int) (he : e ≤ 0) : pow2 e = 1 / ((2 ^ (-e).toNat : Nat) : ℚ) := by
  unfold pow2
  split_ifs with h
  · have : e = 0 := by omega
    subst this
    simp
  · rfl

theorem floorLog2_natCast_le (w : Nat) (hw : w < 2 ^ 24) : floorLog2 (w : ℚ) ≤ 23 := by
  have h1 : log2Fuel w w ≤ 23 := log2Fuel_le w w 23 hw
  unfold floorLog2
  simp only [Rat.num_natCast, Rat.den_natCast, Int.natAbs_ofNat]
  split_ifs <;> omega

/-- The conversion of an integer below `2^24` to `float` is exact. -/
theorem round_natCast (w : Nat) (hw : w < 2 ^ 24) : F32.round (w : ℚ) = F32.finite (w : ℚ) := by
  by_cases h0 : (w : ℚ) = 0
  · rw [h0]; rfl
  · have hE : max (floorLog2 (w : ℚ)) (-126) - 23 ≤ 0 := by
      have := floorLog2_natCast_le w hw
      omega
    have hval : ((roundHalfEven ((w : ℚ) / pow2 (max (floorLog2 (w : ℚ)) (-126) - 23)) : Int) : ℚ)
        * pow2 (max (floorLog2 (w : ℚ)) (-126) - 23) = (w : ℚ) := by
      rw [pow2_nonpos _ hE]
      have hp : ((2 ^ (-(max (floorLog2 (w : ℚ)) (-126) - 23)).toNat : Nat) : ℚ) ≠ 0 := by
        exact_mod_cast (Nat.pow_pos (Nat.succ_pos 1)).ne'
      have hz : (w : ℚ) / (1 / ((2 ^ (-(max (floorLog2 (w : ℚ)) (-126) - 23)).toNat : Nat) : ℚ))
          = (((w * 2 ^ (-(max (floorLog2 (w : ℚ)) (-126) - 23)).toNat : Nat) : Int) : ℚ) := by
        push_cast
        field_simp
      rw [hz, roundHalfEven_intCast]
      push_cast
      field_simp
    unfold F32.round
    rw [if_neg h0, hval]
    have hle : ¬ fltMax < |(w : ℚ)| := by
      rw [abs_of_nonneg (Nat.cast_nonneg w), not_lt]
      have : (w : ℚ) ≤ ((2 ^ 24 : Nat) : ℚ) := by exact_mod_cast hw.le
      refine le_trans this ?_
      unfold fltMax
      norm_num
    rw [if_neg hle]

theorem fltMax_pos : (0 : ℚ) < fltMax := by unfold fltMax; norm_num

theorem heapValue_invalidWeight : heapValue invalidWeight = none := by
  simp [heapValue, invalidWeight]

theorem heapValue_finite (q : ℚ) (h : -fltMax < q) : heapValue (F32.finite q) = some q := by
  simp [heapValue, ne_of_gt h]

theorem isWeight_invalidWeight : invalidWeight.IsWeight := Or.inl rfl

theorem isWeight_natCast (w : Nat) : (F32.finite (w : ℚ)).IsWeight :=
  Or.inr ⟨_, rfl, by have := fltMax_pos; have : (0 : ℚ) ≤ (w : ℚ) := Nat.cast_nonneg w; linarith⟩

theorem heapValue_eq_none (a : F32) (ha : a.IsWeight) :
    heapValue a = none ↔ a = invalidWeight := by
  rcases ha with rfl | ⟨q, rfl, hq⟩
  · simp [heapValue_invalidWeight]
  · rw [heapValue_finite q hq]
    constructor
    · intro h
      exact Option.noConfusion h
    · intro h
      simp only [invalidWeight, F32.finite.injEq] at h
      exact absurd h (ne_of_gt hq)

theorem heapLess_heapValue (a b : F32) (ha : a.IsWeight) (hb : b.IsWeight) :
    heapLess (heapValue a) (heapValue b) = F32.blt a b := by
  rcases ha with rfl | ⟨p, rfl, hp⟩ <;> rcases hb with rfl | ⟨q, rfl, hq⟩
  · rw [heapValue_invalidWeight]
    simp [heapLess, invalidWeight, F32.blt]
  · rw [heapValue_invalidWeight, heapValue_finite q hq]
    simp [heapLess, invalidWeight, F32.blt, hq]
  · rw [heapValue_invalidWeight, heapValue_finite p hp]
    simp [heapLess, invalidWeight, F32.blt, le_of_lt hp]
  · rw [heapValue_finite p hp, heapValue_finite q hq]
    simp [heapLess, F32.blt]

theorem heapTopFrom_map (xs : List F32) : ∀ (i : Nat) (best : Nat × F32),
    (∀ x ∈ xs, x.IsWeight) → best.2.IsWeight →
    heapTopFrom (xs.map heapValue) i (best.1, heapValue best.2)
      = ((heapTopFromF32 xs i best).1, heapValue (heapTopFromF32 xs i best).2) := by
  induction xs with
  | nil => intro i best _ _; rfl
  | cons x xs ih =>
    intro i best hall hb
    simp only [List.map_cons, heapTopFrom, heapTopFromF32]
    rw [heapLess_heapValue _ _ hb (hall x (List.mem_cons_self _ _))]
    by_cases hl : F32.blt best.2 x = true
    · have hl2 : best.2 < x := hl
      rw [if_pos hl, if_pos hl2]
      exact ih (i + 1) (i, x) (fun y hy => hall y (List.mem_cons_of_mem _ hy))
        (hall x (List.mem_cons_self _ _))
    · have hl2 : ¬ best.2 < x := hl
      rw [if_neg hl, if_neg hl2]
      exact ih (i + 1) best (fun y hy => hall y (List.mem_cons_of_mem _ hy)) hb

/-- The top of the heap over exact numbers that stands for a binary32 heap is the top of the
binary32 heap. -/
theorem heapTop_map (h : List F32) (hall : ∀ x ∈ h, x.IsWeight) :
    heapTop (h.map heapValue) = ((heapTopF32 h).1, heapValue (heapTopF32 h).2) := by
  cases h with
  | nil =>
    simp only [heapTop, heapTopF32, List.map_nil, List.tail_nil, List.headD_nil, heapTopFrom,
      heapTopFromF32, heapValue_invalidWeight]
  | cons x xs =>
    simp only [heapTop, heapTopF32, List.map_cons, List.tail_cons, List.headD_cons]
    exact heapTopFrom_map xs 1 (0, x) (fun y hy => hall y (List.mem_cons_of_mem _ hy))
      (hall x (List.mem_cons_self _ _))

theorem getD_map_heapValue (h : List F32) (v : Nat) :
    (h.map heapValue).getD v none = heapValue (h.getD v invalidWeight) := by
  rw [← heapValue_invalidWeight, List.getD_map]

theorem weightStep_sum_le (map : TriangleMap) (v border : Int) (acc : WeightAcc) (p : Int × Int) :
    (weightStep map v border acc p).sameOriented + (weightStep map v border acc p).oppositeOriented
      ≤ acc.sameOriented + acc.oppositeOriented + 1 := by
  unfold weightStep
  by_cases h : p.1 = border
  · rw [if_pos h]
    simp
  · rw [if_neg h]
    split
    · omega
    · split_ifs <;> dsimp only <;> omega

theorem foldl_weightStep_sum_le (map : TriangleMap) (v border : Int) (ps : List (Int × Int)) :
    ∀ acc : WeightAcc,
      (ps.foldl (weightStep map v border) acc).sameOriented
        + (ps.foldl (weightStep map v border) acc).oppositeOriented
        ≤ acc.sameOriented + acc.oppositeOriented + ps.length := by
  induction ps with
  | nil => intro acc; simp
  | cons p ps ih =>
    intro acc
    rw [List.foldl_cons, List.length_cons]
    have h1 := ih (weightStep map v border acc p)
    have h2 := weightStep_sum_le map v border acc p
    omega

/-- The weight that `computeVertWeight( v )` returns is at most the number of neighbours in the
fan of `v`. -/
theorem computeVertWeight_snd_le (t : AllLocalTriangulations) (map : TriangleMap) (v : Int) :
    (computeVertWeight t map v).2
      ≤ (t.fanRecords.getD (v.toNat + 1) default).firstNei
        - (t.fanRecords.getD v.toNat default).firstNei := by
  have h := foldl_weightStep_sum_le map v (t.fanRecords.getD v.toNat default).border
    (fanPairsAt t.neighbors (t.fanRecords.getD v.toNat default).firstNei
      (t.fanRecords.getD (v.toNat + 1) default).firstNei) ⟨0, 0, -1⟩
  have hl : (fanPairsAt t.neighbors (t.fanRecords.getD v.toNat default).firstNei
      (t.fanRecords.getD (v.toNat + 1) default).firstNei).length
      = (t.fanRecords.getD (v.toNat + 1) default).firstNei
        - (t.fanRecords.getD v.toNat default).firstNei := by
    simp [fanPairsAt]
  rw [hl] at h
  dsimp only at h
  unfold computeVertWeight
  simp only
  unfold weightAcc
  omega

theorem computeVertWeight_firstNei (t : AllLocalTriangulations) (map : TriangleMap) (v : Int)
    (i : Nat) :
    (((computeVertWeight t map v).1).fanRecords.getD i default).firstNei
      = (t.fanRecords.getD i default).firstNei := by
  unfold computeVertWeight
  simp only
  split_ifs
  · simp only
    by_cases hi : v.toNat = i
    · subst hi
      by_cases hl : v.toNat < t.fanRecords.length
      · rw [getD_set_eq _ _ _ _ hl]
      · rw [List.set_eq_of_length_le (by omega)]
    · rw [getD_set_ne _ _ _ _ _ hi]
  · rfl

/-- One iteration of the second loop of `enqueueNeighbors` in binary32 is the iteration over
exact numbers, when the fans have fewer than `2^24` neighbours. -/
theorem reweighStepF32_toExact (nv : List Bool) (map : TriangleMap)
    (s : AllLocalTriangulations × List F32) (n : Nat)
    (hs : s.1.FansBelow (2 ^ 24)) (hall : ∀ x ∈ s.2, x.IsWeight) :
    reweighStep nv map (s.1, s.2.map heapValue) n
      = ((reweighStepF32 nv map s n).1, (reweighStepF32 nv map s n).2.map heapValue) ∧
    (reweighStepF32 nv map s n).1.FansBelow (2 ^ 24) ∧
    ∀ x ∈ (reweighStepF32 nv map s n).2, x.IsWeight := by
  have hw : (computeVertWeight s.1 map (s.1.neighbors.getD n (-1))).2 < 2 ^ 24 :=
    lt_of_le_of_lt (computeVertWeight_snd_le _ _ _) (hs _)
  unfold reweighStep reweighStepF32
  by_cases ht : testBit nv (s.1.neighbors.getD n (-1)) = true
  · rw [if_pos ht, if_pos ht]
    refine ⟨?_, ?_, ?_⟩
    · simp only
      rw [List.map_set, round_natCast _ hw, heapValue_finite _ (by
        have := fltMax_pos
        have : (0 : ℚ) ≤ (((computeVertWeight s.1 map (s.1.neighbors.getD n (-1))).2 : Nat) : ℚ) :=
          Nat.cast_nonneg _
        linarith)]
    · intro v
      simp only
      rw [computeVertWeight_firstNei, computeVertWeight_firstNei]
      exact hs v
    · intro x hx
      simp only at hx
      rcases List.mem_or_eq_of_mem_set hx with h | h
      · exact hall x h
      · rw [h, round_natCast _ hw]
        exact isWeight_natCast _
  · rw [if_neg ht, if_neg ht]
    exact ⟨rfl, hs, hall⟩

theorem foldl_reweighStepF32_toExact (nv : List Bool) (map : TriangleMap) (ns : List Nat) :
    ∀ s : AllLocalTriangulations × List F32, s.1.FansBelow (2 ^ 24) →
      (∀ x ∈ s.2, x.IsWeight) →
      ns.foldl (reweighStep nv map) (s.1, s.2.map heapValue)
        = ((ns.foldl (reweighStepF32 nv map) s).1,
          (ns.foldl (reweighStepF32 nv map) s).2.map heapValue) ∧
      (ns.foldl (reweighStepF32 nv map) s).1.FansBelow (2 ^ 24) ∧
      ∀ x ∈ (ns.foldl (reweighStepF32 nv map) s).2, x.IsWeight := by
  induction ns with
  | nil => intro s hs hall; exact ⟨rfl, hs, hall⟩
  | cons n ns ih =>
    intro s hs hall
    obtain ⟨e1, e2, e3⟩ := reweighStepF32_toExact nv map s n hs hall
    obtain ⟨i1, i2, i3⟩ := ih (reweighStepF32 nv map s n) e2 e3
    simp only [List.foldl_cons]
    rw [e1]
    exact ⟨i1, i2, i3⟩

/-- An iteration of the expansion loop in binary32 is the iteration over exact numbers, when the
heap values are `InvalidWeight` or finite values above it and the fans have fewer than `2^24`
neighbours; both properties are kept. -/
theorem loopStepF32_toExact (s : OrientStateF32) (hs : s.triangs.FansBelow (2 ^ 24))
    (hall : ∀ x ∈ s.heap, x.IsWeight) :
    (loopStepF32 s).toExact = loopStep s.toExact ∧
    (loopStepF32 s).triangs.FansBelow (2 ^ 24) ∧
    ∀ x ∈ (loopStepF32 s).heap, x.IsWeight := by
  have htop := heapTop_map s.heap hall
  have hset : ∀ x ∈ s.heap.set (heapTopF32 s.heap).1 invalidWeight, x.IsWeight := by
    intro x hx
    rcases List.mem_or_eq_of_mem_set hx with h | h
    · exact hall x h
    · rw [h]; exact isWeight_invalidWeight
  obtain ⟨f1, f2, f3⟩ := foldl_reweighStepF32_toExact (s.notVisited.set (heapTopF32 s.heap).1 false)
    ((fanPairsAt s.triangs.neighbors
        (s.triangs.fanRecords.getD (heapTopF32 s.heap).1 default).firstNei
        (s.triangs.fanRecords.getD ((heapTopF32 s.heap).1 + 1) default).firstNei).foldl
      (registerStep (s.notVisited.set (heapTopF32 s.heap).1 false) (heapTopF32 s.heap).1
        (s.triangs.fanRecords.getD (heapTopF32 s.heap).1 default).border) s.map)
    (List.range' (s.triangs.fanRecords.getD (heapTopF32 s.heap).1 default).firstNei
      ((s.triangs.fanRecords.getD ((heapTopF32 s.heap).1 + 1) default).firstNei
        - (s.triangs.fanRecords.getD (heapTopF32 s.heap).1 default).firstNei))
    (s.triangs, s.heap.set (heapTopF32 s.heap).1 invalidWeight) hs hset
  refine ⟨?_, f2, f3⟩
  simp only [loopStep, loopStepF32, OrientStateF32.toExact, enqueueNeighbors, enqueueNeighborsF32]
  rw [htop]
  simp only
  rw [List.map_set, heapValue_invalidWeight] at f1
  rw [f1]

theorem expansionLoopF32_succ (progress : ProgressCallback) (total fuel : Nat)
    (s : OrientStateF32) (log : ProgressLog) :
    expansionLoopF32 progress total (fuel + 1) s log =
      if (heapTopF32 s.heap).2 = invalidWeight then some ⟨true, s, log⟩
      else if !(reportProgressEvery progress log
          (((loopStepF32 s).visitedCount : ℚ) / (total : ℚ)) (loopStepF32 s).visitedCount 65536).1
        then some ⟨false, loopStepF32 s, (reportProgressEvery progress log
          (((loopStepF32 s).visitedCount : ℚ) / (total : ℚ)) (loopStepF32 s).visitedCount
            65536).2⟩
        else expansionLoopF32 progress total fuel (loopStepF32 s) (reportProgressEvery progress log
          (((loopStepF32 s).visitedCount : ℚ) / (total : ℚ)) (loopStepF32 s).visitedCount
            65536).2 :=
  rfl

/-- Induction over the expansion loop in binary32. -/
theorem expansionLoopF32_induction (progress : ProgressCallback) (total : Nat)
    (P : OrientStateF32 → Prop)
    (hstep : ∀ s, P s → (heapTopF32 s.heap).2 ≠ invalidWeight →
      P (loopStepF32 s) ∧ countBits (loopStepF32 s).notVisited < countBits s.notVisited) :
    ∀ (fuel : Nat) (s : OrientStateF32) (log : ProgressLog), P s →
      countBits s.notVisited < fuel →
      ∃ r, expansionLoopF32 progress total fuel s log = some r ∧ P r.state ∧
        (r.ok = true → (heapTopF32 r.state.heap).2 = invalidWeight) := by
  intro fuel
  induction fuel with
  | zero => intro s log _ h; omega
  | succ fuel ih =>
    intro s log hP hfuel
    rw [expansionLoopF32_succ]
    by_cases htop : (heapTopF32 s.heap).2 = invalidWeight
    · rw [if_pos htop]
      exact ⟨_, rfl, hP, fun _ => htop⟩
    · rw [if_neg htop]
      obtain ⟨hP1, hlt⟩ := hstep s hP htop
      split_ifs with hp
      · exact ⟨_, rfl, hP1, fun h => absurd h (by simp)⟩
      · exact ih _ _ hP1 (by omega)

theorem heapTopF32_isWeight (h : List F32) (hall : ∀ x ∈ h, x.IsWeight) :
    (heapTopF32 h).2.IsWeight := by
  rcases Nat.eq_zero_or_pos h.length with e | e
  · rw [List.length_eq_zero] at e
    rw [e]
    exact isWeight_invalidWeight
  · obtain ⟨t1, t2, -⟩ := heapTopF32_spec h e
    rw [← t2, List.getD_eq_getElem _ _ t1]
    exact hall _ (List.getElem_mem t1)

theorem loopInv_of_F32 {valid : List Bool} {n : Nat} {s : OrientStateF32}
    (hinv : LoopInvF32 valid n s) (hall : ∀ x ∈ s.heap, x.IsWeight) :
    LoopInv valid n s.toExact where
  heap_length := by
    simp only [OrientStateF32.toExact, List.length_map]
    exact hinv.heap_length
  heap_iff := by
    intro v
    simp only [OrientStateF32.toExact]
    rw [getD_map_heapValue, ← hinv.heap_iff v]
    have hw : (s.heap.getD v invalidWeight).IsWeight := by
      by_cases hv : v < s.heap.length
      · rw [List.getD_eq_getElem _ _ hv]
        exact hall _ (List.getElem_mem hv)
      · rw [List.getD_eq_default _ _ (by omega)]
        exact isWeight_invalidWeight
    exact not_congr (heapValue_eq_none _ hw)
  order_nodup := hinv.order_nodup
  order_visited := hinv.order_visited
  valid_iff := hinv.valid_iff
  count_eq := hinv.count_eq
  visitedCount_eq := hinv.visitedCount_eq

theorem weight_cases (a : F32) (h1 : invalidWeight < a) (h2 : ¬ (0 : F32) < a) :
    ∃ q, a = F32.finite q ∧ -fltMax < q ∧ q ≤ 0 := by
  have g1 : F32.blt invalidWeight a = true := h1
  have g2 : ¬ (F32.blt (F32.finite 0) a = true) := h2
  cases a with
  | finite q =>
    simp only [invalidWeight, F32.blt, decide_eq_true_eq] at g1 g2
    exact ⟨q, rfl, g1, not_lt.1 g2⟩
  | posInf => simp [F32.blt] at g2
  | negInf => simp [invalidWeight, F32.blt] at g1
  | nan => simp [invalidWeight, F32.blt] at g1

theorem fansBelow_of_fan_length (t : AllLocalTriangulations) (n : Nat) (b : Nat) (hb : 0 < b)
    (hv : t.ValidCSR) (hlen : t.fanRecords.length = n + 1)
    (h : ∀ v < n, (t.fan v).length < b) : t.FansBelow b := by
  intro v
  by_cases hvn : v < n
  · rw [← fan_length t hv v (by omega)]
    exact h v hvn
  · have e : t.fanRecords.getD (v + 1) default = default :=
      List.getD_eq_default _ _ (by omega)
    rw [e]
    show 0 - _ < b
    omega

theorem fansBelow_flipVertex (t : AllLocalTriangulations) (b : Nat) (hv : t.ValidCSR) (u : Nat)
    (hu : u + 1 < t.fanRecords.length) (h : t.FansBelow b) : (flipVertex t u).FansBelow b := by
  intro v
  obtain ⟨f1, -⟩ := flipVertex_spec t hv u hu
  rw [sameShape_firstNei f1, sameShape_firstNei f1]
  exact h v

/-- The function `autoOrientLocalTriangulations` in binary32 on a closed, connected, orientable
surface with fans of fewer than `2^24` neighbours, when every initial weight is a value above
`InvalidWeight` and not above 0: it returns within `n + 1` iterations, and when it returns true
the fans of the resulting store are consistently wound, up to a flip of all of them. -/
theorem autoOrient_uniformF32 (fuel : Nat) (pc : PointCloud F32)
    (triangs : AllLocalTriangulations) (progress : ProgressCallback) (sched : List ℚ)
    (n : Nat) (σ : Nat → Bool) (hpts : pc.points.length = n)
    (hvalid : ∀ v, pc.validPoints.getD v false = true ↔ v < n)
    (hcoh : triangs.Coherent n σ) (hconn : triangs.Connected n)
    (hsmall : ∀ v < n, (triangs.fan v).length < 2 ^ 24)
    (hw : ∀ v < n, invalidWeight < initialWeightF32 pc v ∧ ¬ (0 : F32) < initialWeightF32 pc v)
    (hfuel : countBits pc.validPoints < fuel) :
    ∃ r, autoOrientLocalTriangulationsF32 fuel pc triangs progress sched = some r ∧
      (r.ok = true → ∃ σ1, r.state.triangs.Coherent n σ1 ∧
        ∀ u v, u < n → v < n → σ1 u = σ1 v) := by
  have hflip : ∀ t u, (((∃ σ, t.Coherent n σ) ∧ t.Connected n) ∧ t.FansBelow (2 ^ 24)) →
      (t.fanRecords.getD u default).firstNei < (t.fanRecords.getD (u + 1) default).firstNei →
      (((∃ σ, (flipVertex t u).Coherent n σ) ∧ (flipVertex t u).Connected n) ∧
        (flipVertex t u).FansBelow (2 ^ 24)) := by
    intro t u ⟨⟨⟨σ0, h0⟩, hc0⟩, hf0⟩ hlt
    refine ⟨⟨exists_coherent_flip n t u ⟨σ0, h0⟩ hlt, ?_⟩, ?_⟩
    · exact connected_congr
        (flipVertex_mem_iff t h0.1 u (lt_length_of_firstNei_lt t u hlt)) hc0
    · exact fansBelow_flipVertex t _ h0.1 u (lt_length_of_firstNei_lt t u hlt) hf0
  obtain ⟨⟨⟨σ1, hcoh1⟩, hconn1⟩, hfb1⟩ := orientLocalTriangulations_closed
    (fun t => ((∃ σ, t.Coherent n σ) ∧ t.Connected n) ∧ t.FansBelow (2 ^ 24)) hflip pc.points
    (fun v => (getAt pc.points v default).sub (boxCenter pc.computeBoundingBox)) triangs
    ⟨⟨⟨σ, hcoh⟩, hconn⟩,
      fansBelow_of_fan_length triangs n _ (by decide) hcoh.1 hcoh.2.1 hsmall⟩
  simp only [autoOrientLocalTriangulationsF32]
  split_ifs
  · exact ⟨_, rfl, fun h => absurd h (by simp)⟩
  · exact ⟨_, rfl, fun h => absurd h (by simp)⟩
  · exact ⟨_, rfl, fun h => absurd h (by simp)⟩
  · exact ⟨_, rfl, fun h => absurd h (by simp)⟩
  · exact ⟨_, rfl, fun h => absurd h (by simp)⟩
  · have hwq : ∀ v < n, ∃ q, initialWeightF32 pc v = F32.finite q ∧ -fltMax < q ∧ q ≤ 0 :=
      fun v hv => weight_cases _ (hw v hv).1 (hw v hv).2
    have hall0 : ∀ x ∈ initialHeapF32 pc, x.IsWeight := by
      intro x hx
      unfold initialHeapF32 at hx
      obtain ⟨v, -, rfl⟩ := List.mem_map.1 hx
      by_cases hv : pc.validPoints.getD v false = true
      · rw [if_pos hv]
        obtain ⟨q, e, h1, -⟩ := hwq v ((hvalid v).1 hv)
        rw [e]
        exact Or.inr ⟨q, rfl, h1⟩
      · rw [if_neg hv]
        exact isWeight_invalidWeight
    have hinitF : LoopInvF32 pc.validPoints n
        (⟨orientLocalTriangulations triangs pc.points
          (fun v => (getAt pc.points v default).sub (boxCenter pc.computeBoundingBox)),
          initialHeapF32 pc, [], pc.validPoints, 0, []⟩ : OrientStateF32) := by
      have := loopInvF32_initial pc (orientLocalTriangulations triangs pc.points
          (fun v => (getAt pc.points v default).sub (boxCenter pc.computeBoundingBox)))
        (fun v h => by rw [hpts]; exact (hvalid v).1 h)
        (fun v h => (hw v ((hvalid v).1 h)).1)
      rw [hpts] at this
      exact this
    have hoinit : OrientInv n
        (OrientStateF32.toExact ⟨orientLocalTriangulations triangs pc.points
          (fun v => (getAt pc.points v default).sub (boxCenter pc.computeBoundingBox)),
          initialHeapF32 pc, [], pc.validPoints, 0, []⟩) σ1 := by
      refine ⟨hcoh1, hconn1, ⟨List.nodup_nil, ?_, ?_⟩, ?_, ?_, ?_⟩
      · intro K r h
        exact absurd h (by simp [OrientStateF32.toExact, mapFind])
      · intro v hv
        exact absurd hv (List.not_mem_nil _)
      · intro u hu
        exact absurd hu (List.not_mem_nil _)
      · intro u _ _ ⟨x, hx, _⟩
        exact absurd hx (List.not_mem_nil _)
      · intro u hu _ _
        obtain ⟨q, e, h1, h2⟩ := hwq u hu
        refine ⟨q, h2, ?_⟩
        simp only [OrientStateF32.toExact]
        rw [getD_map_heapValue, initialHeapF32_getD,
          if_pos ⟨by rw [hpts]; exact hu, (hvalid u).2 hu⟩, e, heapValue_finite q h1]
    have htopne : ∀ s : OrientStateF32, (∀ x ∈ s.heap, x.IsWeight) →
        (heapTopF32 s.heap).2 ≠ invalidWeight → (heapTop s.toExact.heap).2 ≠ none := by
      intro s hall htop
      simp only [OrientStateF32.toExact]
      rw [heapTop_map s.heap hall]
      simp only
      intro e
      exact htop ((heapValue_eq_none _ (heapTopF32_isWeight s.heap hall)).1 e)
    have htopfacts : ∀ s : OrientState ℚ, LoopInv pc.validPoints n s →
        (heapTop s.heap).2 ≠ none →
        (heapTop s.heap).1 < n ∧ s.notVisited.getD (heapTop s.heap).1 false = true := by
      intro s hl htop
      have hpos : 0 < s.heap.length := by
        rcases Nat.eq_zero_or_pos s.heap.length with e | e
        · rw [List.length_eq_zero] at e
          rw [e] at htop
          exact absurd heapTop_nil htop
        · exact e
      obtain ⟨t1, t2, -⟩ := heapTop_spec s.heap hpos
      rw [hl.heap_length] at t1
      exact ⟨t1, (hl.heap_iff _).1 (by rw [t2]; exact htop)⟩
    obtain ⟨r, r1, ⟨hallr, -, hl, σ2, ho⟩, r3⟩ := expansionLoopF32_induction
      (subprogress progress (1 / 10) 1) (countBits pc.validPoints)
      (fun s => (∀ x ∈ s.heap, x.IsWeight) ∧ s.triangs.FansBelow (2 ^ 24) ∧
        LoopInv pc.validPoints n s.toExact ∧ ∃ σ, OrientInv n s.toExact σ)
      (fun s hs htop => by
        obtain ⟨hall, hfb, hl, σ0, ho⟩ := hs
        have htop1 := htopne s hall htop
        obtain ⟨b1, b2⟩ := htopfacts s.toExact hl htop1
        obtain ⟨e1, e2, -⟩ := enqueueNeighbors_inv pc.validPoints n s.toExact _ hl b1 b2
        obtain ⟨c1, c2, c3⟩ := loopStepF32_toExact s hfb hall
        have ho1 := loopStep_orientInv hvalid s.toExact hl σ0 ho htop1
        have hnv : (loopStepF32 s).notVisited = (loopStep s.toExact).notVisited := by
          rw [← c1]; rfl
        refine ⟨⟨c3, c2, ?_, ?_⟩, ?_⟩
        · rw [c1]; exact e1
        · rw [c1]; exact ho1
        · rw [hnv]
          have : countBits s.notVisited = countBits s.toExact.notVisited := rfl
          rw [this]
          unfold loopStep
          omega)
      fuel _ _ ⟨hall0, hfb1, loopInv_of_F32 hinitF hall0, σ1, hoinit⟩ hfuel
    refine ⟨r, r1, fun hok => ⟨σ2, ho.coherent, ?_⟩⟩
    have hnone : (heapTop r.state.toExact.heap).2 = none := by
      simp only [OrientStateF32.toExact]
      rw [heapTop_map r.state.heap hallr]
      simp only
      rw [r3 hok, heapValue_invalidWeight]
    obtain ⟨hVn, hnvV⟩ := loopInv_visited hvalid hl
    have hall : ∀ u < n, u ∈ r.state.toExact.visitOrder := by
      intro u hu
      by_contra hnot
      have hnv := (hnvV u hu).2 hnot
      have hne := (hl.heap_iff u).2 hnv
      have hpos : 0 < r.state.toExact.heap.length := by rw [hl.heap_length]; omega
      exact hne ((heapTop_spec r.state.toExact.heap hpos).2.2 hnone u)
    intro u v hu hv
    exact ho.kind_visited u (hall u hu) v (hall v hv)

/-- Global consistency in binary32 when the assertion `w <= 0` of the function holds: under the
hypotheses of `autoOrient_uniformF32`, when the function returns true entry 0 of
`computeTrianglesRepetitions` of the resulting store is 0. -/
theorem autoOrientLocalTriangulations_consistent_binary32
    (fuel : Nat) (pc : PointCloud F32) (triangs : AllLocalTriangulations)
    (progress : ProgressCallback) (sched : List ℚ) (sh : Sharding) (n : Nat) (σ : Nat → Bool)
    (hpts : pc.points.length = n)
    (hvalid : ∀ v, pc.validPoints.getD v false = true ↔ v < n)
    (hcoh : triangs.Coherent n σ) (hconn : triangs.Connected n)
    (hsmall : ∀ v < n, (triangs.fan v).length < 2 ^ 24)
    (hw : ∀ v < n, invalidWeight < initialWeightF32 pc v ∧ ¬ (0 : F32) < initialWeightF32 pc v)
    (hfuel : countBits pc.validPoints < fuel) :
    ∃ r, autoOrientLocalTriangulationsF32 fuel pc triangs progress sched = some r ∧
      (r.ok = true → (computeTrianglesRepetitions sh r.state.triangs).getD 0 0 = 0) := by
  obtain ⟨r, r1, r2⟩ := autoOrient_uniformF32 fuel pc triangs progress sched n σ hpts hvalid
    hcoh hconn hsmall hw hfuel
  refine ⟨r, r1, fun hok => ?_⟩
  obtain ⟨σ1, c1, c2⟩ := r2 hok
  exact (coherent_const_no_conflict sh c1 c2).1

/-- C12 (amended): in binary32, for every point cloud with `n` points, all of them valid, whose
initial weights `dcenter.lengthSq() - maxDistSqToCenter` are values above `InvalidWeight` and
not above 0 (the assertion `w <= 0` of the function holds), and every closed, connected,
orientable, topologically well-formed fan collection for its vertices whose fans have fewer
than `2^24` neighbours (so that the conversion of a weight to `float` is exact), the function
`autoOrientLocalTriangulations` returns as soon as its loop is given more than `n` iterations,
and when it returns true every triangle of the vote tally (`makeTriangleHashMap`) of the
resulting store has votes of one kind only: `sameOriented == 0` or `oppositeOriented == 0`. -/
theorem autoOrientLocalTriangulations_consensus_binary32
    (fuel : Nat) (pc : PointCloud F32) (triangs : AllLocalTriangulations)
    (progress : ProgressCallback) (sched : List ℚ) (sh : Sharding) (n : Nat) (σ : Nat → Bool)
    (hpts : pc.points.length = n)
    (hvalid : ∀ v, pc.validPoints.getD v false = true ↔ v < n)
    (hcoh : triangs.Coherent n σ) (hconn : triangs.Connected n)
    (hsmall : ∀ v < n, (triangs.fan v).length < 2 ^ 24)
    (hw : ∀ v < n, invalidWeight < initialWeightF32 pc v ∧ ¬ (0 : F32) < initialWeightF32 pc v)
    (hfuel : countBits pc.validPoints < fuel) :
    ∃ r, autoOrientLocalTriangulationsF32 fuel pc triangs progress sched = some r ∧
      (r.ok = true → ∀ e ∈ makeTriangleHashMap sh r.state.triangs,
        e.2.sameOriented = 0 ∨ e.2.oppositeOriented = 0) := by
  obtain ⟨r, r1, r2⟩ := autoOrient_uniformF32 fuel pc triangs progress sched n σ hpts hvalid
    hcoh hconn hsmall hw hfuel
  refine ⟨r, r1, fun hok => ?_⟩
  obtain ⟨σ1, c1, c2⟩ := r2 hok
  exact (coherent_const_no_conflict sh c1 c2).2

theorem octaUnitCloudF32_valid (v : Nat) :
    octaUnitCloudF32.validPoints.getD v false = true ↔ v < 6 := by
  rcases Nat.lt_or_ge v 6 with h | h
  · interval_cases v <;> simp [octaUnitCloudF32]
  · rw [List.getD_eq_default _ _ h]
    constructor
    · intro e; exact absurd e (by simp)
    · intro e; omega

/-- C12 (amended) at a concrete input: the consistently wound octahedron `octaStore` with the
corners of a regular octahedron, whose initial weights are all `-2`. -/
theorem autoOrientLocalTriangulations_consensus_binary32_witness :
    octaStore.Coherent 6 (fun _ => false) ∧ octaStore.Connected 6 ∧
    (∀ v < 6, initialWeightF32 octaUnitCloudF32 v = F32.finite (-2)) ∧
    ∃ r, autoOrientLocalTriangulationsF32 7 octaUnitCloudF32 octaStore none [] = some r ∧
      (r.ok = true → ∀ e ∈ makeTriangleHashMap oneShard r.state.triangs,
        e.2.sameOriented = 0 ∨ e.2.oppositeOriented = 0) :=
  ⟨by decide, octaStore_connected, by decide!,
    autoOrientLocalTriangulations_consensus_binary32 7 octaUnitCloudF32 octaStore none [] oneShard
      6 (fun _ => false) rfl octaUnitCloudF32_valid (by decide) octaStore_connected (by decide)
      (by decide!) (by decide)⟩

end MR
